import Mathlib

/-!
# dlib `xml_parser_kernel_1`: a shallow embedding

Source: `dlib/xml_parser/xml_parser_kernel_1.h`.

Modelling conventions.

* An input stream `std::istream& in` is the list of characters that are still
  unread.  `in.get()` and `in.peek()` return `none` for `EOF`; once the list is
  empty every further `get`/`peek` returns `none` again.
* A `std::string` is a `List Char`.  Appending the `int_type` value `EOF` to a
  string stores the character `char(-1)`, written `eofChar` here.
* `const std::string::operator[]` is defined for indices `i <= size()` (index
  `size()` yields the null character) and undefined above.  Reads of a token
  are modelled by a cursor over `token ++ [NUL]`; reading from an exhausted
  cursor is undefined behaviour.  The model stops there and reports
  `Res.undefined`; the calls it records are those made before that point.
* Loops whose termination is not structural carry a fuel argument; running
  out of fuel is reported as `Res.nofuel`.
* `unsigned long line_number` and the `int` counters are unbounded naturals:
  they count characters of the input, so they cannot wrap on inputs shorter
  than `2^31` characters.
-/

namespace XmlParser

/-- Characters of a `std::string`. -/
abbrev Str := List Char

/-- Result of a computation that may run into undefined behaviour
(`undefined`) or exhaust the fuel of the model (`nofuel`). -/
inductive Res (α : Type) where
  | ok (a : α)
  | undefined
  | nofuel
  deriving DecidableEq, Repr

/-- Enumeration `token_type` of the source. -/
inductive token_type where
  | element_start
  | element_end
  | empty_element
  | pi
  | chars
  | chars_cdata
  | eof
  | error
  | dtd
  | comment
  deriving DecidableEq, Repr

abbrev LF : Char := Char.ofNat 10
abbrev TAB : Char := Char.ofNat 9
abbrev CR : Char := Char.ofNat 13
abbrev NUL : Char := Char.ofNat 0
abbrev APOS : Char := Char.ofNat 39
abbrev QUOT : Char := Char.ofNat 34

/-- The character `char(-1)` that results from appending `EOF` to a string. -/
abbrev eofChar : Char := Char.ofNat 255

/-- The test `ch == ' ' || ch == '\t' || ch == '\n' || ch == '\r'`. -/
def isWs (c : Char) : Bool :=
  c == ' ' || c == TAB || c == LF || c == CR

/-- The call `in.get()`: the character read (`none` for `EOF`) and the rest of
the stream. -/
def get : List Char → Option Char × List Char
  | [] => (none, [])
  | c :: s => (some c, s)

/-- The call `in.peek()`. -/
def peek : List Char → Option Char
  | [] => none
  | c :: _ => some c

/-- Function `change_entity`: `none` stands for the return value `-1`. -/
def change_entity (s0 : List Char) : Option Char × List Char :=
  let (b1, s1) := get s0
  if b1 ≠ some 'a' ∧ b1 ≠ some 'l' ∧ b1 ≠ some 'g' ∧ b1 ≠ some 'q' then (none, s1) else
  let (b2, s2) := get s1
  if b2 ≠ some 'm' ∧ b2 ≠ some 't' ∧ b2 ≠ some 'p' ∧ b2 ≠ some 'u' then (none, s2) else
  let (b3, s3) := get s2
  if b3 ≠ some 'p' ∧ b3 ≠ some ';' ∧ b3 ≠ some 'o' then (none, s3) else
  if b3 = some ';' then
    if b2 ≠ some 't' then (none, s3)
    else if b1 = some 'l' then (some '<', s3)
    else if b1 = some 'g' then (some '>', s3)
    else (none, s3)
  else
  let (b4, s4) := get s3
  if b4 = some ';' then
    if b1 ≠ some 'a' ∨ b2 ≠ some 'm' ∨ b3 ≠ some 'p' then (none, s4)
    else (some '&', s4)
  else
  let (b5, s5) := get s4
  if b1 = some 'a' ∧ b2 = some 'p' ∧ b3 = some 'o' ∧ b4 = some 's' ∧ b5 = some ';' then
    (some APOS, s5)
  else if b1 = some 'q' ∧ b2 = some 'u' ∧ b3 = some 'o' ∧ b4 = some 't' ∧ b5 = some ';' then
    (some QUOT, s5)
  else (none, s5)

/-- What `get_next_token` leaves behind: the out-parameters `token_text`,
`token_kind`, `line_number` and the rest of the stream. -/
structure Token where
  text : Str
  kind : token_type
  line : Nat
  rest : List Char
  deriving DecidableEq, Repr

/-- The `do ... while ((!seen_closing) && (ch != EOF))` loop of the CDATA
branch together with the checks that follow it; `b` is `brackets_seen`. -/
def cdataLoop : List Char → Nat → Str → Nat → Token
  | [], _, text, line => ⟨text ++ [eofChar], .error, line, []⟩
  | c :: s, b, text, line =>
    let line1 := if c = LF then line + 1 else line
    let text1 := text ++ [c]
    if b = 2 ∧ c = '>' then ⟨text1.take (text1.length - 3), .chars_cdata, line1, s⟩
    else if c = ']' then cdataLoop s (b + 1) text1 line1
    else cdataLoop s 0 text1 line1

/-- The `do ... while` loop of the comment branch and the check after it; `h`
is `hyphens_seen`. -/
def commentLoop : List Char → Nat → Str → Nat → Token
  | [], _, text, line => ⟨text ++ [eofChar], .error, line, []⟩
  | c :: s, h, text, line =>
    let line1 := if c = LF then line + 1 else line
    let text1 := text ++ [c]
    if h = 2 then
      if c = '>' then ⟨text1, .comment, line1, s⟩ else ⟨text1, .error, line1, s⟩
    else if c = '-' then commentLoop s (h + 1) text1 line1
    else commentLoop s 0 text1 line1

/-- The `do ... while ((bracket_depth > 0) && (ch != EOF))` loop of the DTD
branch and the check after it; `d` is `bracket_depth`, which is positive at
every loop head. -/
def dtdLoop : List Char → Nat → Str → Nat → Token
  | [], d, text, line =>
    ⟨text ++ [eofChar], if d = 0 then .dtd else .error, line, []⟩
  | c :: s, d, text, line =>
    if c = '>' then
      if d - 1 > 0 then dtdLoop s (d - 1) (text ++ [c]) line
      else ⟨text ++ [c], .dtd, line, s⟩
    else if c = '<' then dtdLoop s (d + 1) (text ++ [c]) line
    else if c = LF then dtdLoop s d (text ++ [c]) (line + 1)
    else dtdLoop s d (text ++ [c]) line

/-- The `do ... while (ch != '>' && ch != EOF)` loop of the processing
instruction branch and the checks after it. -/
def piLoop : List Char → Str → Nat → Token
  | [], text, line => ⟨text ++ [eofChar], .error, line, []⟩
  | c :: s, text, line =>
    let text1 := text ++ [c]
    if c = LF then piLoop s text1 (line + 1)
    else if c = '<' then ⟨text1, .error, line, s⟩
    else if c = '>' then
      if text1.length > 3 ∧ text1.getD (text1.length - 2) NUL ≠ '?' then
        ⟨text1, .error, line, s⟩
      else ⟨text1, .pi, line, s⟩
    else piLoop s text1 line

/-- The `do ... while ((ch != '>') && (ch != EOF))` loop of the end tag
branch and the check after it. -/
def endLoop : List Char → Str → Nat → Token
  | [], text, line => ⟨text ++ [eofChar], .error, line, []⟩
  | c :: s, text, line =>
    if c = LF then endLoop s (text ++ [c]) (line + 1)
    else if c = '<' then ⟨text ++ [eofChar], .error, line, s⟩
    else if c = '>' then ⟨text ++ [c], .element_end, line, s⟩
    else endLoop s (text ++ [c]) line

/-- The `do ... while` loop of the start tag branch and the checks after it;
`last` is the value `ch` had before the current read. -/
def startLoop : List Char → Char → Str → Nat → Token
  | [], _, text, line => ⟨text ++ [eofChar], .error, line, []⟩
  | c :: s, last, text, line =>
    if c = LF then startLoop s c (text ++ [c]) (line + 1)
    else if c = '<' then ⟨text ++ [eofChar], .error, line, s⟩
    else if c = '>' then
      ⟨text ++ [c], if last = '/' then .empty_element else .element_start, line, s⟩
    else startLoop s c (text ++ [c]) line

/-- The `while (in.peek() != '<' && in.peek() != EOF)` loop of the character
data branch and the check after it.  The fuel bounds the number of
iterations. -/
def charsLoop : Nat → List Char → Str → Nat → Res Token
  | _, [], text, line => .ok ⟨text, .chars, line, []⟩
  | 0, _ :: _, _, _ => .nofuel
  | fuel + 1, c :: s, text, line =>
    if c = '<' then .ok ⟨text, .chars, line, c :: s⟩
    else
      let line1 := if c = LF then line + 1 else line
      if c = '&' then
        match change_entity s with
        | (none, s1) => .ok ⟨text, .error, line1, s1⟩
        | (some t, s1) => charsLoop fuel s1 (text ++ [t]) line1
      else charsLoop fuel s (text ++ [c]) line1

/-- The branch `case '!'` of `get_next_token`, entered after `<!` was read. -/
def bangBranch (s : List Char) (line : Nat) : Token :=
  if peek s = some '[' then
    let (_, s0) := get s
    let (c1, s1) := get s0
    let (c2, s2) := get s1
    let (c3, s3) := get s2
    let (c4, s4) := get s3
    let (c5, s5) := get s4
    let (c6, s6) := get s5
    if c1 ≠ some 'C' ∨ c2 ≠ some 'D' ∨ c3 ≠ some 'A' ∨ c4 ≠ some 'T' ∨ c5 ≠ some 'A'
        ∨ c6 ≠ some '[' then
      ⟨[], .error, line, s6⟩
    else cdataLoop s6 0 [] line
  else if peek s = some '-' then
    let (_, s0) := get s
    let (c, s1) := get s0
    if c ≠ some '-' then ⟨['<', '!', '-'], .error, line, s1⟩
    else commentLoop s1 0 ['<', '!', '-', '-'] line
  else dtdLoop s 1 ['<', '!'] line

/-- Function `get_next_token`, applied to the unread stream and the current
`line_number`. -/
def get_next_token (s : List Char) (line : Nat) : Res Token :=
  match s with
  | [] => .ok ⟨[], .eof, line, []⟩
  | '<' :: s1 =>
    match s1 with
    | [] => .ok ⟨[], .error, line, []⟩
    | '!' :: s2 => .ok (bangBranch s2 line)
    | '?' :: s2 => .ok (piLoop s2 ['<', '?'] line)
    | '/' :: s2 => .ok (endLoop s2 ['<', '/'] line)
    | c2 :: s2 => .ok (startLoop s2 NUL ['<', c2] line)
  | c1 :: s1 =>
    if c1 = LF then charsLoop s1.length s1 [c1] (line + 1)
    else if c1 = '&' then
      match change_entity s1 with
      | (none, s2) => .ok ⟨[], .error, line, s2⟩
      | (some t, s2) => charsLoop s2.length s2 [t] line
    else charsLoop s1.length s1 [c1] line

/-! ## Structural parsers -/

/-- Sequencing of computations that may fail. -/
def Res.bind {α β : Type} (r : Res α) (f : α → Res β) : Res β :=
  match r with
  | .ok a => f a
  | .undefined => .undefined
  | .nofuel => .nofuel

/-- The statement pair `ch = token[i]; ++i;` on a cursor over
`token ++ [NUL]`: reading beyond index `size()` is undefined. -/
def next : List Char → Res (Char × List Char)
  | [] => .undefined
  | c :: cur => .ok (c, cur)

/-- A loop `while (p ch) { acc += ch; ch = token[i]; ++i; }`; returns the final
`ch`, the cursor and the accumulated string. -/
def scanWhile (p : Char → Bool) : List Char → Char → Str → Res (Char × List Char × Str)
  | [], ch, acc => if p ch then .undefined else .ok (ch, [], acc)
  | c :: cur, ch, acc =>
    if p ch then scanWhile p cur c (acc ++ [ch]) else .ok (ch, c :: cur, acc)

/-- Loop condition of the element name loop of `parse_element`. -/
def isNameChar (ch : Char) : Bool :=
  ch != '>' && ch != ' ' && ch != '=' && ch != '/' && ch != TAB && ch != CR && ch != LF

/-- Loop condition of the attribute name loop of `parse_element`. -/
def isAttNameChar (ch : Char) : Bool :=
  ch != '=' && ch != ' ' && ch != TAB && ch != CR && ch != LF && ch != '>'

/-- Out-parameters and return value of `parse_element`; `atts` lists the pairs
added to `atts.list` in the order of the calls of `add`. -/
structure ElementResult where
  status : Int
  name : Str
  atts : List (Str × Str)
  deriving DecidableEq, Repr

/-- The call `atts.list.is_in_domain(key)`. -/
def is_in_domain (atts : List (Str × Str)) (key : Str) : Bool :=
  atts.any (fun kv => kv.1 == key)

/-- The loop `while (ch != '>' && ch != '/')` of `parse_element` that reads the
attributes; the result is the status of an early `return -1`, or `0` when the
loop is left through its condition. -/
def attLoop : Nat → List Char → Char → List (Str × Str) → Res (Int × List (Str × Str))
  | fuel, cur, ch, atts =>
    if ch = '>' ∨ ch = '/' then .ok (0, atts) else
    match fuel with
    | 0 => .nofuel
    | fuel + 1 =>
      (scanWhile isAttNameChar cur ch []).bind fun (ch1, cur1, attribute_name) =>
      if attribute_name.length = 0 then .ok (-1, atts) else
      if ch1 = '>' then .ok (-1, atts) else
      (scanWhile isWs cur1 ch1 []).bind fun (ch2, cur2, _) =>
      if ch2 ≠ '=' then .ok (-1, atts) else
      (next cur2).bind fun (ch3, cur3) =>
      (scanWhile isWs cur3 ch3 []).bind fun (delimiter, cur4, _) =>
      (next cur4).bind fun (ch5, cur5) =>
      if delimiter ≠ APOS ∧ delimiter ≠ QUOT then .ok (-1, atts) else
      (scanWhile (fun c => c != delimiter && c != '>') cur5 ch5 []).bind
        fun (ch6, cur6, attribute_value) =>
      if ch6 = '>' then .ok (-1, atts) else
      (next cur6).bind fun (ch7, cur7) =>
      if ch7 ≠ '>' ∧ ch7 ≠ ' ' ∧ ch7 ≠ '/' ∧ ch7 ≠ TAB ∧ ch7 ≠ LF ∧ ch7 ≠ CR then
        .ok (-1, atts)
      else
      (scanWhile isWs cur7 ch7 []).bind fun (ch8, cur8, _) =>
      if is_in_domain atts attribute_name then .ok (-1, atts)
      else attLoop fuel cur8 ch8 (atts ++ [(attribute_name, attribute_value)])

/-- Function `parse_element`. -/
def parse_element (token : Str) : Res ElementResult :=
  match token ++ [NUL] with
  | _ :: c1 :: cur =>
    if c1 = '>' then .ok ⟨-1, [], []⟩ else
    (scanWhile isNameChar cur c1 []).bind fun (ch1, cur1, name) =>
    (scanWhile isWs cur1 ch1 []).bind fun (ch2, cur2, _) =>
    (attLoop (token.length + 1) cur2 ch2 []).bind fun (status, atts) =>
    if status ≠ 0 then .ok ⟨-1, name, atts⟩
    else if name.length = 0 then .ok ⟨-1, name, atts⟩
    else .ok ⟨0, name, atts⟩
  | _ => .undefined

/-- Out-parameters and return value of `parse_pi`. -/
structure PiResult where
  status : Int
  target : Str
  data : Str
  deriving DecidableEq, Repr

/-- Function `parse_pi`. -/
def parse_pi (token : Str) : Res PiResult :=
  match token ++ [NUL] with
  | _ :: _ :: c2 :: cur =>
    (scanWhile (fun ch => ch != ' ' && ch != '?' && ch != TAB && ch != LF && ch != CR)
      cur c2 []).bind fun (ch1, cur1, target) =>
    if target.length = 0 then .ok ⟨-1, target, []⟩ else
    (if ch1 ≠ '?' then next cur1 else .ok (ch1, cur1)).bind fun (ch2, cur2) =>
    (scanWhile (fun ch => ch != '?') cur2 ch2 []).bind fun (_, _, data) =>
    .ok ⟨0, target, data⟩
  | _ => .undefined

/-- The `for` loop of `parse_element_end`, run over the characters
`token[2] .. token[end-1]`. -/
def endNameLoop : List Char → Str → Str
  | [], name => name
  | c :: r, name => if isWs c then name else endNameLoop r (name ++ [c])

/-- Function `parse_element_end`: status and `name`.  For the empty token
`token.size()-1` wraps around and `token[2]` is read out of bounds. -/
def parse_element_end (token : Str) : Res (Int × Str) :=
  if token.length = 0 then .undefined else
  let name := endNameLoop ((token.take (token.length - 1)).drop 2) []
  if name.length = 0 then .ok (-1, name) else .ok (0, name)

/-! ## Handler calls -/

/-- A call of a member function of `document_handler`, with its arguments. -/
inductive DocEvent where
  | start_document
  | end_document
  | start_element (line : Nat) (name : Str) (atts : List (Str × Str))
  | end_element (line : Nat) (name : Str)
  | characters (data : Str)
  | processing_instruction (line : Nat) (target : Str) (data : Str)
  deriving DecidableEq, Repr

/-- A call of a member function of `error_handler`, with its argument. -/
inductive ErrEvent where
  | error (line : Nat)
  | fatal_error (line : Nat)
  deriving DecidableEq, Repr

/-- One callback made by `parse`: `doc i e` is the call `e` on `dh_list[i]`,
`err i e` is the call `e` on `eh_list[i]`. -/
inductive Call where
  | doc (i : Nat) (e : DocEvent)
  | err (i : Nat) (e : ErrEvent)
  deriving DecidableEq, Repr

/-- A loop `for (unsigned long i = 0; i < size; ++i) { body }` whose body makes
the calls `body i`. -/
def forEach (size : Nat) (body : Nat → List Call) : List Call :=
  (List.range size).flatMap body

/-! ## The driver `parse` -/

/-- Local variables of `parse` that live across iterations of the token loop. -/
structure DState where
  input : List Char
  line_number : Nat
  tags : List Str
  seen_fatal_error : Bool
  seen_root_tag : Bool
  chars_buf : Str
  name : Str
  token_text : Str
  token_kind : token_type
  deriving DecidableEq, Repr

/-- The loops `while (in.peek() == ' ' || ... ) { if (in.peek() == '\n')
++line_number; in.get(); }` of `parse`. -/
def skipWs : List Char → Nat → List Char × Nat
  | [], line => ([], line)
  | c :: s, line =>
    if isWs c then skipWs s (if c = LF then line + 1 else line) else (c :: s, line)

/-- The `switch (token_kind)` statement of the token loop, for `n` document
handlers and `m` error handlers: the calls it makes and the state after it. -/
def step (n m : Nat) (st : DState) : List Call × Res DState :=
  match st.token_kind with
  | .empty_element | .element_start =>
    match parse_element st.token_text with
    | .undefined => ([], .undefined)
    | .nofuel => ([], .nofuel)
    | .ok r =>
      (if r.status = 0 then
          forEach n fun i =>
            Call.doc i (.start_element st.line_number r.name r.atts) ::
              (if st.token_kind = .empty_element then
                [Call.doc i (.end_element st.line_number r.name)] else [])
        else [],
       .ok { st with
          seen_root_tag := true
          seen_fatal_error := if r.status = 0 then st.seen_fatal_error else true
          name := r.name
          tags := if st.token_kind = .element_start then r.name :: st.tags else st.tags })
  | .element_end =>
    match parse_element_end st.token_text with
    | .undefined => ([], .undefined)
    | .nofuel => ([], .nofuel)
    | .ok (status, name) =>
      if status = 0 then
        match st.tags with
        | [] => ([], .ok { st with name := name, seen_fatal_error := true })
        | top :: below =>
          if name ≠ top then ([], .ok { st with name := name, seen_fatal_error := true })
          else
            (forEach n fun i => [Call.doc i (.end_element st.line_number name)],
             .ok { st with name := top, tags := below })
      else ([], .ok { st with name := name, seen_fatal_error := true })
  | .pi =>
    match parse_pi st.token_text with
    | .undefined => ([], .undefined)
    | .nofuel => ([], .nofuel)
    | .ok r =>
      let ws := skipWs st.input st.line_number
      (if r.status = 0 then
          forEach n fun i =>
            [Call.doc i (.processing_instruction st.line_number r.target r.data)]
        else forEach m fun i => [Call.err i (.error st.line_number)],
       .ok { st with input := ws.1, line_number := ws.2 })
  | .chars =>
    if st.tags.length ≠ 0 then
      ([], .ok { st with chars_buf := st.chars_buf ++ st.token_text })
    else if st.token_text.any (fun c => !isWs c) then
      ([], .ok { st with seen_fatal_error := true })
    else ([], .ok st)
  | .chars_cdata =>
    if st.tags.length ≠ 0 then
      ([], .ok { st with chars_buf := st.chars_buf ++ st.token_text })
    else ([], .ok { st with seen_fatal_error := true })
  | .eof => ([], .ok st)
  | .error => ([], .ok { st with seen_fatal_error := true })
  | .dtd | .comment => ([], .ok st)

/-- The call of `get_next_token` at the end of the loop body followed by the
flush of `chars_buf`. -/
def fetch (n : Nat) (st : DState) : List Call × Res DState :=
  match get_next_token st.input st.line_number with
  | .undefined => ([], .undefined)
  | .nofuel => ([], .nofuel)
  | .ok t =>
    let st1 := { st with
      input := t.rest, line_number := t.line, token_text := t.text, token_kind := t.kind }
    if t.kind ≠ .chars ∧ t.kind ≠ .chars_cdata ∧ t.kind ≠ .dtd ∧ t.kind ≠ .comment
        ∧ st.chars_buf.length ≠ 0 then
      (forEach n fun i => [Call.doc i (.characters st.chars_buf)],
       .ok { st1 with chars_buf := [] })
    else ([], .ok st1)

/-- The loop `while (token_kind != eof)` of `parse`: the calls made and the
state in which the loop is left. -/
def loop (n m : Nat) : Nat → DState → List Call × Res DState
  | fuel, st =>
    if st.token_kind = .eof then ([], .ok st) else
    match fuel with
    | 0 => ([], .nofuel)
    | fuel + 1 =>
      match step n m st with
      | (c1, .undefined) => (c1, .undefined)
      | (c1, .nofuel) => (c1, .nofuel)
      | (c1, .ok st1) =>
        if st1.seen_fatal_error then (c1, .ok st1)
        else if st1.tags.length = 0 ∧ st1.seen_root_tag then (c1, .ok st1)
        else
          match fetch n st1 with
          | (c2, .undefined) => (c1 ++ c2, .undefined)
          | (c2, .nofuel) => (c1 ++ c2, .nofuel)
          | (c2, .ok st2) =>
            let r := loop n m fuel st2
            (c1 ++ c2 ++ r.1, r.2)

/-- The statements of `parse` that follow the token loop inside the `try`
block. -/
def afterLoop (n m : Nat) (st : DState) : List Call :=
  (if st.tags.length ≠ 0 ∨ st.seen_fatal_error then
      forEach m fun i => [Call.err i (.fatal_error st.line_number)]
    else []) ++
  forEach n fun i => [Call.doc i .end_document]

/-- The statements of `parse` up to the first call of `get_next_token`: the
calls made and the state at the head of the token loop. -/
def beforeLoop (n : Nat) (input : List Char) : List Call × Res DState :=
  let ws := skipWs input 1
  (forEach n fun i => [Call.doc i .start_document],
   match get_next_token ws.1 ws.2 with
   | .undefined => .undefined
   | .nofuel => .nofuel
   | .ok t =>
     .ok { input := t.rest, line_number := t.line, tags := [], seen_fatal_error := false,
           seen_root_tag := false, chars_buf := [], name := [],
           token_text := t.text, token_kind := t.kind })

/-- The token loop of `parse` run from the start of the input: the calls made
up to the exit of the loop and the state at the exit. -/
def parseLoop (n m : Nat) (input : List Char) : List Call × Res DState :=
  match beforeLoop n input with
  | (c0, .undefined) => (c0, .undefined)
  | (c0, .nofuel) => (c0, .nofuel)
  | (c0, .ok st0) =>
    let r := loop n m (input.length + 1) st0
    (c0 ++ r.1, r.2)

/-- The body of the `try` block of `parse` when no callback throws: the calls
it makes, in order, and whether it runs to its end (`ok`). -/
def tryBlock (n m : Nat) (input : List Char) : List Call × Res Unit :=
  match parseLoop n m input with
  | (c, .undefined) => (c, .undefined)
  | (c, .nofuel) => (c, .nofuel)
  | (c, .ok st) => (c ++ afterLoop n m st, .ok ())

/-- Delivery of the calls `cs` to handlers that may throw: `throws hist c`
tells whether the call `c`, made after the calls `hist`, throws.  The result
is the list of calls made (the throwing one included) and whether an
exception was thrown. -/
def deliver (throws : List Call → Call → Bool) : List Call → List Call → List Call × Bool
  | hist, [] => (hist, false)
  | hist, c :: cs =>
    if throws hist c then (hist ++ [c], true) else deliver throws (hist ++ [c]) cs

/-- How a call of `parse` ends. -/
inductive Ending where
  | returned
  | threw
  | undefined
  | nofuel
  deriving DecidableEq, Repr

/-- Function `parse` for `n` document handlers and `m` error handlers whose
callbacks throw as `throws` says: all the calls made, in order, and how
`parse` ends.  The callbacks return nothing, so the calls of the `try` block
are those of `tryBlock` up to the first one that throws; control then passes
to the `catch (...)` block, which calls `end_document` on every document
handler and rethrows. -/
def parse (throws : List Call → Call → Bool) (n m : Nat) (input : List Char) :
    List Call × Ending :=
  let t := tryBlock n m input
  match deliver throws [] t.1 with
  | (hist, true) =>
    ((deliver throws hist (forEach n fun i => [Call.doc i .end_document])).1, .threw)
  | (hist, false) =>
    match t.2 with
    | .ok _ => (hist, .returned)
    | .undefined => (hist, .undefined)
    | .nofuel => (hist, .nofuel)

/-- Handlers none of whose callbacks throws. -/
def noThrow : List Call → Call → Bool := fun _ _ => false

/-- The calls that `dh_list[i]` receives among `calls`. -/
def docCalls (i : Nat) (calls : List Call) : List DocEvent :=
  calls.filterMap fun c =>
    match c with
    | .doc j e => if j = i then some e else none
    | .err _ _ => none

/-- The calls that `eh_list[i]` receives among `calls`. -/
def errCalls (i : Nat) (calls : List Call) : List ErrEvent :=
  calls.filterMap fun c =>
    match c with
    | .err j e => if j = i then some e else none
    | .doc _ _ => none


/-- The five translations listed in the contract of `change_entity`: the
characters that follow `&` and the character they stand for. -/
def entityTable : List (Str × Char) :=
  [(['a', 'm', 'p', ';'], '&'), (['l', 't', ';'], '<'), (['g', 't', ';'], '>'),
   (['a', 'p', 'o', 's', ';'], APOS), (['q', 'u', 'o', 't', ';'], QUOT)]

/-- The document handler calls that only the token loop makes:
`start_element`, `end_element`, `characters` and `processing_instruction`. -/
def isLoopEvent : DocEvent → Bool
  | .start_document => false
  | .end_document => false
  | _ => true

/-- Whether an error handler call is `fatal_error`. -/
def isFatalError : ErrEvent → Bool
  | .fatal_error _ => true
  | .error _ => false

/-- The calls made by a sequence of notification loops: for each block
`(des, ees)` first a loop over the `n` document handlers that makes the calls
`des` on each of them, then a loop over the `m` error handlers that makes the
calls `ees` on each of them. -/
def render (n m : Nat) (blocks : List (List DocEvent × List ErrEvent)) : List Call :=
  blocks.flatMap fun b =>
    (forEach n fun j => b.1.map (Call.doc j)) ++ (forEach m fun j => b.2.map (Call.err j))

/-- The blocks of calls that the token loop makes: no `start_document`, no
`end_document` and no `fatal_error`. -/
def LoopBlocks (bs : List (List DocEvent × List ErrEvent)) : Prop :=
  ∀ b ∈ bs, (∀ e ∈ b.1, isLoopEvent e = true) ∧ (∀ e ∈ b.2, isFatalError e = false)

/-- The handler of the failing input of C3: the first call of `end_document`
on document handler `0` throws, no other call does. -/
def throwsAtFirstEndDocument (hist : List Call) (c : Call) : Bool :=
  c == Call.doc 0 .end_document && !hist.contains (Call.doc 0 .end_document)


/-- The token kinds that do not make the token loop flush `chars_buf`:
`chars`, `chars_cdata`, `dtd` and `comment`. -/
def isRunKind (k : token_type) : Bool :=
  k == .chars || k == .chars_cdata || k == .dtd || k == .comment

/-- The text that a token of a run adds to `chars_buf`: its text for `chars`
and `chars_cdata`, nothing for `dtd` and `comment`. -/
def runText (t : Token) : Str :=
  if t.kind = .chars ∨ t.kind = .chars_cdata then t.text else []

/-- The tokens `toks` are those that `get_next_token` returns one after the
other from where the token `t` ended, all of them of a run kind, and `tEnd` is
the token returned after the last of them and is not of a run kind. -/
def runChain : Token → List Token → Token → Bool
  | t, [], tEnd =>
    decide (get_next_token t.rest t.line = .ok tEnd) && !isRunKind tEnd.kind
  | t, t1 :: ts, tEnd =>
    decide (get_next_token t.rest t.line = .ok t1) && isRunKind t1.kind && runChain t1 ts tEnd

/-- The state of the token loop when `get_next_token` has just returned `t`. -/
def atToken (st : DState) (t : Token) : DState :=
  { st with input := t.rest, line_number := t.line, token_text := t.text, token_kind := t.kind }

/-- Handlers whose `start_element` callback throws and no other callback
does. -/
def throwsAtStartElement (_ : List Call) (c : Call) : Bool :=
  match c with
  | .doc _ (.start_element _ _ _) => true
  | _ => false

/-- The characters between the opening part of a tag and its closing `>`
hold neither `<` nor `>`. -/
def cleanBody (body : Str) : Prop := ∀ c ∈ body, c ≠ '<' ∧ c ≠ '>'


/-- A piece of character data as written in the input: a character other
than `<` and `&`, or a reference to an entry of `entityTable`. -/
inductive Piece where
  | plain (c : Char)
  | entity (e : Str × Char)

/-- What a piece may be: a plain character is neither `<` nor `&`, an entity
is one of the five of `entityTable`. -/
def Piece.valid : Piece → Prop
  | .plain c => c ≠ '<' ∧ c ≠ '&'
  | .entity e => e ∈ entityTable

/-- The characters of a piece in the input: `&amp;` for the entity `amp;`. -/
def Piece.source : Piece → Str
  | .plain c => [c]
  | .entity e => '&' :: e.1

/-- The character a piece denotes. -/
def Piece.decoded : Piece → Char
  | .plain c => c
  | .entity e => e.2

/-- One attribute as it is written in a tag: whitespace `ws`, the name `k`,
whitespace `ws1`, `=`, whitespace `ws2`, the quote `q`, the value `v` and the
quote `q` again. -/
structure Att where
  ws : Str
  k : Str
  ws1 : Str
  ws2 : Str
  q : Char
  v : Str

/-- The characters of an attribute from its name on. -/
def Att.core (a : Att) : Str :=
  a.k ++ a.ws1 ++ '=' :: a.ws2 ++ a.q :: a.v ++ [a.q]

/-- The characters of an attribute, leading whitespace included. -/
def Att.source (a : Att) : Str :=
  a.ws ++ a.core

/-- Every character of the string is a space, tab, CR or LF. -/
def allWs (w : Str) : Prop := ∀ c ∈ w, isWs c = true

/-- The attributes that `parse_element` reads as one name and value pair:
the name is not empty, does not begin with `/` and holds no `=`, `>` or
whitespace; the quote is `'` or `"`; the value holds neither its quote nor
`>`; there is whitespace before the name. -/
def Att.wellFormed (a : Att) : Prop :=
  a.ws ≠ [] ∧ allWs a.ws ∧ a.k ≠ [] ∧ (∀ c ∈ a.k, isAttNameChar c = true) ∧
    a.k.head? ≠ some '/' ∧ allWs a.ws1 ∧ allWs a.ws2 ∧ (a.q = APOS ∨ a.q = QUOT) ∧
    ∀ c ∈ a.v, c ≠ a.q ∧ c ≠ '>'

/-- The entry of `atts.list` that an attribute gives rise to. -/
def Att.pair (a : Att) : Str × Str := (a.k, a.v)

/-- A malformed attribute as it stands in a tag, from the first character of
its name to the end of the tag.  The name is well-formed; then either
(`noEquals`) the character after the name and optional whitespace is not `=`,
or (`noQuote`) the first character after `=` and optional whitespace is
neither quote character, or (`noClose`) the value opened by a quote reaches a
`>` before that quote occurs again. -/
inductive Malformed : Str → Prop
  | noEquals (k w1 : Str) (x : Char) (rest : Str) :
      k ≠ [] → (∀ c ∈ k, isAttNameChar c = true) → k.head? ≠ some '/' → allWs w1 →
      x ≠ '=' → isWs x = false → (w1 = [] → isAttNameChar x = false) →
      Malformed (k ++ w1 ++ x :: rest)
  | noQuote (k w1 w2 : Str) (d : Char) (rest : Str) :
      k ≠ [] → (∀ c ∈ k, isAttNameChar c = true) → k.head? ≠ some '/' → allWs w1 →
      allWs w2 → isWs d = false → d ≠ APOS → d ≠ QUOT →
      Malformed (k ++ w1 ++ '=' :: w2 ++ d :: rest)
  | noClose (k w1 w2 : Str) (q : Char) (v rest : Str) :
      k ≠ [] → (∀ c ∈ k, isAttNameChar c = true) → k.head? ≠ some '/' → allWs w1 →
      allWs w2 → (q = APOS ∨ q = QUOT) → (∀ c ∈ v, c ≠ q ∧ c ≠ '>') →
      Malformed (k ++ w1 ++ '=' :: w2 ++ q :: v ++ '>' :: rest)

/-- The test that `change_entity` applies to the character it has read at
position `i` (counted from 0) before it reads a further character: the first
is one of `a`, `l`, `g`, `q`, the second one of `m`, `t`, `p`, `u`, the third
`p` or `o` (after `;` it returns), the fourth is not `;`; after the fifth
character it reads no more. -/
def entityPosOk : Nat → Char → Bool
  | 0, c => c == 'a' || c == 'l' || c == 'g' || c == 'q'
  | 1, c => c == 'm' || c == 't' || c == 'p' || c == 'u'
  | 2, c => c == 'p' || c == 'o'
  | 3, c => c != ';'
  | _, _ => false

/-! ## The parser object and its handler lists -/

/-- Modelled from the spec: the container types `seq_dh` and `seq_eh` are
template parameters (dlib `sequence` objects) whose code is not part of the
source.  A sequence is modelled as the list of its items in order, `size()`
as its length, `clear()` as the empty list and `operator[]` as indexing from
0; `add(pos, item)` inserts `item` so that it becomes the item at position
`pos`. -/
def seqAdd {α : Type} (s : List α) (pos : Nat) (item : α) : List α :=
  s.take pos ++ item :: s.drop pos

/-- The member data `dh_list` and `eh_list` of `xml_parser_kernel_1`; `H` and
`E` stand for the registered document handler and error handler objects. -/
structure Parser (H E : Type) where
  dh_list : List H
  eh_list : List E

/-- Function `add_document_handler`: `dh_list.add(dh_list.size(), temp)`. -/
def add_document_handler {H E : Type} (p : Parser H E) (item : H) : Parser H E :=
  { p with dh_list := seqAdd p.dh_list p.dh_list.length item }

/-- Function `add_error_handler`: `eh_list.add(eh_list.size(), temp)`. -/
def add_error_handler {H E : Type} (p : Parser H E) (item : E) : Parser H E :=
  { p with eh_list := seqAdd p.eh_list p.eh_list.length item }

/-- Function `clear`: `eh_list.clear(); dh_list.clear();`. -/
def clear {H E : Type} (_ : Parser H E) : Parser H E :=
  { dh_list := [], eh_list := [] }

/-- A callback as a handler object receives it: the object called and the
call. -/
inductive Received (H E : Type) where
  | doc (h : H) (e : DocEvent)
  | err (h : E) (e : ErrEvent)
  deriving DecidableEq, Repr

/-- The handler objects behind the calls `dh_list[i]->...` and
`eh_list[i]->...` that `parse` makes. -/
def Parser.received {H E : Type} (p : Parser H E) (calls : List Call) :
    List (Received H E) :=
  calls.filterMap fun c =>
    match c with
    | .doc i e => (p.dh_list.get? i).map fun h => Received.doc h e
    | .err i e => (p.eh_list.get? i).map fun h => Received.err h e

/-- Function `parse` of a parser object: every loop over a handler list runs
from index 0 to `size() - 1`; the result is the sequence of callbacks as the
handler objects receive them. -/
def Parser.parse {H E : Type} (p : Parser H E) (throws : List Call → Call → Bool)
    (input : List Char) : List (Received H E) :=
  p.received (XmlParser.parse throws p.dh_list.length p.eh_list.length input).1

/-- A sequence of notifications delivered in registration order: for each
block `(des, ees)` every document handler, in the order of `dh_list`,
receives the calls `des`, then every error handler, in the order of
`eh_list`, receives the calls `ees`. -/
def Parser.broadcast {H E : Type} (p : Parser H E)
    (blocks : List (List DocEvent × List ErrEvent)) : List (Received H E) :=
  blocks.flatMap fun b =>
    (p.dh_list.flatMap fun h => b.1.map (Received.doc h)) ++
      (p.eh_list.flatMap fun h => b.2.map (Received.err h))

/-- The state of the token loop when the unread input is followed by the
further characters `x`. -/
def withSuffix (st : DState) (x : List Char) : DState :=
  { st with input := st.input ++ x }

/-- The token `t` when the unread input is followed by the further characters
`x`. -/
def Token.withSuffix (t : Token) (x : List Char) : Token :=
  { t with rest := t.rest ++ x }

/-- The element names that are open, innermost first, after a document
handler that had the names `S` open has received the calls `es`: a
`start_element` opens its name, an `end_element` must carry the name opened
most recently and closes it, the other calls change nothing.  The result is
`none` when some `end_element` carries another name or finds no name open. -/
def openAfter : List Str → List DocEvent → Option (List Str)
  | S, [] => some S
  | S, .start_element _ nm _ :: es => openAfter (nm :: S) es
  | S, .end_element _ nm :: es =>
    match S with
    | top :: below => if nm = top then openAfter below es else none
    | [] => none
  | S, .start_document :: es => openAfter S es
  | S, .end_document :: es => openAfter S es
  | S, .characters _ :: es => openAfter S es
  | S, .processing_instruction _ _ _ :: es => openAfter S es

/-! ## The structural parsers over a given array of cells -/

/-- Function `parse_element` reading `token[i]` from the array `cells`: a read
beyond the array is undefined.  With `cells = token ++ [NUL]` this is
`parse_element`, where the read at index `size()` gives the null character;
with `cells = token` only reads at indices below `size()` are defined. -/
def parse_element_cells (fuel : Nat) (cells : List Char) : Res ElementResult :=
  match cells with
  | _ :: c1 :: cur =>
    if c1 = '>' then .ok ⟨-1, [], []⟩ else
    (scanWhile isNameChar cur c1 []).bind fun (ch1, cur1, name) =>
    (scanWhile isWs cur1 ch1 []).bind fun (ch2, cur2, _) =>
    (attLoop fuel cur2 ch2 []).bind fun (status, atts) =>
    if status ≠ 0 then .ok ⟨-1, name, atts⟩
    else if name.length = 0 then .ok ⟨-1, name, atts⟩
    else .ok ⟨0, name, atts⟩
  | _ => .undefined

/-- Function `parse_pi` reading `token[i]` from the array `cells`: a read
beyond the array is undefined.  With `cells = token ++ [NUL]` this is
`parse_pi`. -/
def parse_pi_cells (cells : List Char) : Res PiResult :=
  match cells with
  | _ :: _ :: c2 :: cur =>
    (scanWhile (fun ch => ch != ' ' && ch != '?' && ch != TAB && ch != LF && ch != CR)
      cur c2 []).bind fun (ch1, cur1, target) =>
    if target.length = 0 then .ok ⟨-1, target, []⟩ else
    (if ch1 ≠ '?' then next cur1 else .ok (ch1, cur1)).bind fun (ch2, cur2) =>
    (scanWhile (fun ch => ch != '?') cur2 ch2 []).bind fun (_, _, data) =>
    .ok ⟨0, target, data⟩
  | _ => .undefined

/-! ## Documents without a root element -/

/-- What may stand between `<!` and the closing `>` of a DTD block: it begins
neither with `[` nor with `-`, it holds as many `>` as `<`, and none of its
beginnings holds more `>` than `<`, so that the `>` after it is the first to
bring the bracket depth to zero. -/
def dtdBody (body : Str) : Prop :=
  body.head? ≠ some '[' ∧ body.head? ≠ some '-' ∧ body.count '>' = body.count '<' ∧
    ∀ p ∈ body.inits, p.count '>' ≤ p.count '<'

/-- The inputs made only of whitespace, comments, DTD blocks and processing
instructions that `parse_pi` accepts, with the targets and data of the
processing instructions in order.  Whitespace is taken in maximal runs; a
comment is `<!--`, a body without `--` that does not end in `-`, and `-->`; a
processing instruction is `<?`, a body without `<` and `>`, and `?>`. -/
inductive Prolog : List Char → List (Str × Str) → Prop
  | done : Prolog [] []
  | ws (w : Str) (rest : List Char) (pis : List (Str × Str)) :
      w ≠ [] → allWs w → (rest = [] ∨ rest.head? = some '<') → Prolog rest pis →
      Prolog (w ++ rest) pis
  | comment (b : Str) (rest : List Char) (pis : List (Str × Str)) :
      ¬ (['-', '-'] <:+: b) → b.getLast? ≠ some '-' → Prolog rest pis →
      Prolog ('<' :: '!' :: '-' :: '-' :: b ++ '-' :: '-' :: '>' :: rest) pis
  | dtd (body : Str) (rest : List Char) (pis : List (Str × Str)) :
      dtdBody body → Prolog rest pis → Prolog ('<' :: '!' :: body ++ '>' :: rest) pis
  | pi (body tg dt : Str) (rest : List Char) (pis : List (Str × Str)) :
      cleanBody body → parse_pi ('<' :: '?' :: body ++ ['?', '>']) = .ok ⟨0, tg, dt⟩ →
      Prolog rest pis → Prolog ('<' :: '?' :: body ++ '?' :: '>' :: rest) ((tg, dt) :: pis)

/-! ## The entity decoder -/

theorem get_some {s : List Char} {c : Char} {r : List Char} (h : get s = (some c, r)) :
    s = c :: r := by
  cases s <;> simp_all [get]

theorem ce_some_imp (s : List Char) (c : Char) (rest : List Char)
    (h : change_entity s = (some c, rest)) : ∃ e ∈ entityTable, e.2 = c ∧ s = e.1 ++ rest := by
  unfold change_entity at h
  rcases h1 : get s with ⟨b1, s1⟩
  rcases h2 : get s1 with ⟨b2, s2⟩
  rcases h3 : get s2 with ⟨b3, s3⟩
  rcases h4 : get s3 with ⟨b4, s4⟩
  rcases h5 : get s4 with ⟨b5, s5⟩
  simp only [h1, h2, h3, h4, h5] at h
  split_ifs at h with k1 k2 k3 k4 k5 k6 k7 k8 k9 k10 k11
  all_goals first
   | (simp at h; done)
   | skip
  all_goals simp only [Prod.mk.injEq, Option.some.injEq] at h
  all_goals obtain ⟨rfl, rfl⟩ := h
  · rw [not_not] at k5
    subst k4 k5 k6
    rw [get_some h1, get_some h2, get_some h3]
    exact ⟨(['l', 't', ';'], '<'), by simp [entityTable], rfl, rfl⟩
  · rw [not_not] at k5
    subst k4 k5 k7
    rw [get_some h1, get_some h2, get_some h3]
    exact ⟨(['g', 't', ';'], '>'), by simp [entityTable], rfl, rfl⟩
  · simp only [not_or, not_not] at k9
    obtain ⟨rfl, rfl, rfl⟩ := k9
    subst k8
    rw [get_some h1, get_some h2, get_some h3, get_some h4]
    exact ⟨(['a', 'm', 'p', ';'], '&'), by simp [entityTable], rfl, rfl⟩
  · obtain ⟨rfl, rfl, rfl, rfl, rfl⟩ := k10
    rw [get_some h1, get_some h2, get_some h3, get_some h4, get_some h5]
    exact ⟨(['a', 'p', 'o', 's', ';'], APOS), by simp [entityTable], rfl, rfl⟩
  · obtain ⟨rfl, rfl, rfl, rfl, rfl⟩ := k11
    rw [get_some h1, get_some h2, get_some h3, get_some h4, get_some h5]
    exact ⟨(['q', 'u', 'o', 't', ';'], QUOT), by simp [entityTable], rfl, rfl⟩

theorem ce_some_of (c : Char) (rest : List Char) (e : Str × Char) (he : e ∈ entityTable)
    (hc : e.2 = c) : change_entity (e.1 ++ rest) = (some c, rest) := by
  subst hc
  simp only [entityTable, List.mem_cons, List.mem_singleton, List.not_mem_nil, or_false] at he
  rcases he with rfl | rfl | rfl | rfl | rfl <;> simp [change_entity, get]

/-- C10: `change_entity` returns a character exactly when the stream begins
with one of `amp;`, `lt;`, `gt;`, `apos;`, `quot;`; it then returns the
character listed for it in the contract and leaves the stream just after the
`;`.  On every other stream (end of input included) it returns `-1`. -/
theorem change_entity_decodes_exactly_the_five (s : List Char) :
    (∀ c rest, change_entity s = (some c, rest) ↔
        ∃ e ∈ entityTable, e.2 = c ∧ s = e.1 ++ rest) ∧
    ((change_entity s).1 = none ↔ ∀ e ∈ entityTable, ¬ e.1 <+: s) := by
  have key : ∀ c rest, change_entity s = (some c, rest) ↔
      ∃ e ∈ entityTable, e.2 = c ∧ s = e.1 ++ rest := by
    intro c rest
    constructor
    · exact ce_some_imp s c rest
    · rintro ⟨e, he, hc, rfl⟩
      exact ce_some_of c rest e he hc
  refine ⟨key, ?_⟩
  constructor
  · rintro hn e he ⟨r, rfl⟩
    rw [ce_some_of e.2 r e he rfl] at hn
    exact absurd hn (by simp)
  · intro hall
    rcases hce : change_entity s with ⟨o, r⟩
    cases o with
    | none => rfl
    | some c =>
      obtain ⟨e, he, _, rfl⟩ := (key c r).1 hce
      exact absurd ⟨r, rfl⟩ (hall e he)

/-! ## Consumption of the stream by the tokenizer -/

theorem get_length_le (s : List Char) : (get s).2.length ≤ s.length := by
  cases s <;> simp [get]

theorem change_entity_length_le (s : List Char) :
    (change_entity s).2.length ≤ s.length := by
  unfold change_entity
  have l1 := get_length_le s
  rcases h1 : get s with ⟨b1, s1⟩
  have l2 := get_length_le s1
  rcases h2 : get s1 with ⟨b2, s2⟩
  have l3 := get_length_le s2
  rcases h3 : get s2 with ⟨b3, s3⟩
  have l4 := get_length_le s3
  rcases h4 : get s3 with ⟨b4, s4⟩
  have l5 := get_length_le s4
  rcases h5 : get s4 with ⟨b5, s5⟩
  simp only [h1, h2, h3, h4, h5] at l1 l2 l3 l4 l5 ⊢
  split_ifs <;> simp only <;> omega

theorem cdataLoop_rest_le (s : List Char) :
    ∀ b text line, (cdataLoop s b text line).rest.length ≤ s.length := by
  induction s with
  | nil => intro b text line; simp [cdataLoop]
  | cons c s ih =>
    intro b text line
    simp only [cdataLoop]
    split_ifs <;> first | exact Nat.le_succ_of_le (ih _ _ _) | simp

theorem commentLoop_rest_le (s : List Char) :
    ∀ h text line, (commentLoop s h text line).rest.length ≤ s.length := by
  induction s with
  | nil => intro h text line; simp [commentLoop]
  | cons c s ih =>
    intro h text line
    simp only [commentLoop]
    split_ifs <;> first | exact Nat.le_succ_of_le (ih _ _ _) | simp

theorem dtdLoop_rest_le (s : List Char) :
    ∀ d text line, (dtdLoop s d text line).rest.length ≤ s.length := by
  induction s with
  | nil => intro d text line; simp [dtdLoop]
  | cons c s ih =>
    intro d text line
    simp only [dtdLoop]
    split_ifs <;> first | exact Nat.le_succ_of_le (ih _ _ _) | simp

theorem piLoop_rest_le (s : List Char) :
    ∀ text line, (piLoop s text line).rest.length ≤ s.length := by
  induction s with
  | nil => intro text line; simp [piLoop]
  | cons c s ih =>
    intro text line
    simp only [piLoop]
    split_ifs <;> first | exact Nat.le_succ_of_le (ih _ _) | simp

theorem endLoop_rest_le (s : List Char) :
    ∀ text line, (endLoop s text line).rest.length ≤ s.length := by
  induction s with
  | nil => intro text line; simp [endLoop]
  | cons c s ih =>
    intro text line
    simp only [endLoop]
    split_ifs <;> first | exact Nat.le_succ_of_le (ih _ _) | simp

theorem startLoop_rest_le (s : List Char) :
    ∀ last text line, (startLoop s last text line).rest.length ≤ s.length := by
  induction s with
  | nil => intro last text line; simp [startLoop]
  | cons c s ih =>
    intro last text line
    simp only [startLoop]
    split_ifs <;> first | exact Nat.le_succ_of_le (ih _ _ _) | simp

theorem charsLoop_ok (fuel : Nat) :
    ∀ s text line, s.length ≤ fuel →
      ∃ t, charsLoop fuel s text line = .ok t ∧ t.rest.length ≤ s.length ∧
        t.kind ≠ .eof := by
  induction fuel with
  | zero =>
    intro s text line h
    cases s with
    | nil => exact ⟨⟨text, .chars, line, []⟩, by simp [charsLoop]⟩
    | cons c s => simp at h
  | succ fuel ih =>
    intro s text line h
    cases s with
    | nil => exact ⟨⟨text, .chars, line, []⟩, by simp [charsLoop]⟩
    | cons c s =>
      simp only [List.length_cons, Nat.add_le_add_iff_right] at h
      simp only [charsLoop]
      split_ifs with h1 h2
      · exact ⟨_, rfl, by simp, by simp⟩
      · have hl := change_entity_length_le s
        rcases hce : change_entity s with ⟨o, s1⟩
        rw [hce] at hl
        simp only at hl
        cases o with
        | none => exact ⟨_, rfl, by simp only [List.length_cons]; omega, by simp⟩
        | some t =>
          obtain ⟨t1, e1, e2, e3⟩ := ih s1 (text ++ [t]) (line + 1) (by omega)
          exact ⟨t1, e1, by simp only [List.length_cons]; omega, e3⟩
      · have hl := change_entity_length_le s
        rcases hce : change_entity s with ⟨o, s1⟩
        rw [hce] at hl
        simp only at hl
        cases o with
        | none => exact ⟨_, rfl, by simp only [List.length_cons]; omega, by simp⟩
        | some t =>
          obtain ⟨t1, e1, e2, e3⟩ := ih s1 (text ++ [t]) line (by omega)
          exact ⟨t1, e1, by simp only [List.length_cons]; omega, e3⟩
      · obtain ⟨t1, e1, e2, e3⟩ := ih s (text ++ [c]) (line + 1) h
        exact ⟨t1, e1, by simp only [List.length_cons]; omega, e3⟩
      · obtain ⟨t1, e1, e2, e3⟩ := ih s (text ++ [c]) line h
        exact ⟨t1, e1, by simp only [List.length_cons]; omega, e3⟩

theorem bangBranch_rest_le (s : List Char) (line : Nat) :
    (bangBranch s line).rest.length ≤ s.length := by
  unfold bangBranch
  split_ifs with h1 h2
  · have l0 := get_length_le s
    rcases g0 : get s with ⟨c0, s0⟩
    have l1 := get_length_le s0
    rcases g1 : get s0 with ⟨c1, s1⟩
    have l2 := get_length_le s1
    rcases g2 : get s1 with ⟨c2, s2⟩
    have l3 := get_length_le s2
    rcases g3 : get s2 with ⟨c3, s3⟩
    have l4 := get_length_le s3
    rcases g4 : get s3 with ⟨c4, s4⟩
    have l5 := get_length_le s4
    rcases g5 : get s4 with ⟨c5, s5⟩
    have l6 := get_length_le s5
    rcases g6 : get s5 with ⟨c6, s6⟩
    simp only [g0, g1, g2, g3, g4, g5, g6] at l0 l1 l2 l3 l4 l5 l6 ⊢
    split_ifs
    · simp only; omega
    · have := cdataLoop_rest_le s6 0 [] line
      omega
  · have l0 := get_length_le s
    rcases g0 : get s with ⟨c0, s0⟩
    have l1 := get_length_le s0
    rcases g1 : get s0 with ⟨c1, s1⟩
    simp only [g0, g1] at l0 l1 ⊢
    split_ifs
    · simp only; omega
    · have := commentLoop_rest_le s1 0 ['<', '!', '-', '-'] line
      omega
  · exact dtdLoop_rest_le s 1 _ line

theorem get_next_token_ok (s : List Char) (line : Nat) :
    ∃ t, get_next_token s line = .ok t ∧ t.rest.length ≤ s.length ∧
      (t.kind ≠ .eof → t.rest.length < s.length) := by
  unfold get_next_token
  split
  · exact ⟨_, rfl, by simp, by simp⟩
  · split
    · exact ⟨_, rfl, by simp, by simp⟩
    · rename_i s2
      have := bangBranch_rest_le s2 line
      exact ⟨_, rfl, by simp only [List.length_cons]; omega,
        fun _ => by simp only [List.length_cons]; omega⟩
    · rename_i s2
      have := piLoop_rest_le s2 ['<', '?'] line
      exact ⟨_, rfl, by simp only [List.length_cons]; omega,
        fun _ => by simp only [List.length_cons]; omega⟩
    · rename_i s2
      have := endLoop_rest_le s2 ['<', '/'] line
      exact ⟨_, rfl, by simp only [List.length_cons]; omega,
        fun _ => by simp only [List.length_cons]; omega⟩
    · rename_i c2 s2 _ _ _
      have := startLoop_rest_le s2 NUL ['<', c2] line
      exact ⟨_, rfl, by simp only [List.length_cons]; omega,
        fun _ => by simp only [List.length_cons]; omega⟩
  · rename_i c1 s1 _
    split_ifs with h1 h2
    · obtain ⟨t, e1, e2, _⟩ := charsLoop_ok s1.length s1 [c1] (line + 1) (Nat.le_refl _)
      exact ⟨t, e1, by simp only [List.length_cons]; omega,
        fun _ => by simp only [List.length_cons]; omega⟩
    · have hl := change_entity_length_le s1
      rcases hce : change_entity s1 with ⟨o, s2⟩
      rw [hce] at hl
      simp only at hl
      cases o with
      | none =>
        exact ⟨_, rfl, by simp only [List.length_cons]; omega,
          fun _ => by simp only [List.length_cons]; omega⟩
      | some t0 =>
        obtain ⟨t, e1, e2, _⟩ := charsLoop_ok s2.length s2 [t0] line (Nat.le_refl _)
        exact ⟨t, e1, by simp only [List.length_cons]; omega,
          fun _ => by simp only [List.length_cons]; omega⟩
    · obtain ⟨t, e1, e2, _⟩ := charsLoop_ok s1.length s1 [c1] line (Nat.le_refl _)
      exact ⟨t, e1, by simp only [List.length_cons]; omega,
        fun _ => by simp only [List.length_cons]; omega⟩

/-! ## Fuel of the structural parsers -/

theorem Res.bind_ne_nofuel {α β : Type} {r : Res α} {f : α → Res β}
    (h1 : r ≠ .nofuel) (h2 : ∀ a, r = .ok a → f a ≠ .nofuel) : r.bind f ≠ .nofuel := by
  cases r with
  | ok a => exact h2 a rfl
  | undefined => simp [Res.bind]
  | nofuel => exact absurd rfl h1

theorem next_ne_nofuel (cur : List Char) : next cur ≠ .nofuel := by
  cases cur <;> simp [next]

theorem next_length {cur : List Char} {ch : Char} {cur1 : List Char}
    (h : next cur = .ok (ch, cur1)) : cur1.length ≤ cur.length := by
  cases cur with
  | nil => simp [next] at h
  | cons c r =>
    simp only [next, Res.ok.injEq, Prod.mk.injEq] at h
    obtain ⟨_, rfl⟩ := h
    simp

theorem scanWhile_ne_nofuel (p : Char → Bool) (cur : List Char) :
    ∀ ch acc, scanWhile p cur ch acc ≠ .nofuel := by
  induction cur with
  | nil => intro ch acc; simp only [scanWhile]; split_ifs <;> simp
  | cons c cur ih =>
    intro ch acc
    simp only [scanWhile]
    split_ifs
    · exact ih _ _
    · simp

theorem scanWhile_length (p : Char → Bool) (cur : List Char) :
    ∀ ch acc ch1 cur1 acc1, scanWhile p cur ch acc = .ok (ch1, cur1, acc1) →
      cur1.length + acc1.length = cur.length + acc.length := by
  induction cur with
  | nil =>
    intro ch acc ch1 cur1 acc1 h
    simp only [scanWhile] at h
    split_ifs at h
    simp only [Res.ok.injEq, Prod.mk.injEq] at h
    obtain ⟨_, rfl, rfl⟩ := h
    rfl
  | cons c cur ih =>
    intro ch acc ch1 cur1 acc1 h
    simp only [scanWhile] at h
    split_ifs at h
    · have := ih _ _ _ _ _ h
      simp only [List.length_append, List.length_cons, List.length_nil] at this ⊢
      omega
    · simp only [Res.ok.injEq, Prod.mk.injEq] at h
      obtain ⟨_, rfl, rfl⟩ := h
      rfl

theorem attLoop_ne_nofuel (fuel : Nat) :
    ∀ cur ch atts, cur.length < fuel → attLoop fuel cur ch atts ≠ .nofuel := by
  induction fuel with
  | zero => intro cur ch atts h; simp at h
  | succ fuel ih =>
    intro cur ch atts h
    unfold attLoop
    split_ifs with h0
    · simp
    try simp only
    refine Res.bind_ne_nofuel (scanWhile_ne_nofuel _ _ _ _) ?_
    rintro ⟨ch1, cur1, an⟩ e1
    have l1 := scanWhile_length _ _ _ _ _ _ _ e1
    simp only [List.length_nil, Nat.add_zero] at l1
    try simp only
    split
    · simp
    rename_i k1
    split
    · simp
    refine Res.bind_ne_nofuel (scanWhile_ne_nofuel _ _ _ _) ?_
    rintro ⟨ch2, cur2, a2⟩ e2
    have l2 := scanWhile_length _ _ _ _ _ _ _ e2
    simp only [List.length_nil, Nat.add_zero] at l2
    try simp only
    split
    · simp
    refine Res.bind_ne_nofuel (next_ne_nofuel _) ?_
    rintro ⟨ch3, cur3⟩ e3
    have l3 := next_length e3
    try simp only
    refine Res.bind_ne_nofuel (scanWhile_ne_nofuel _ _ _ _) ?_
    rintro ⟨dl, cur4, a4⟩ e4
    have l4 := scanWhile_length _ _ _ _ _ _ _ e4
    simp only [List.length_nil, Nat.add_zero] at l4
    try simp only
    refine Res.bind_ne_nofuel (next_ne_nofuel _) ?_
    rintro ⟨ch5, cur5⟩ e5
    have l5 := next_length e5
    try simp only
    split
    · simp
    refine Res.bind_ne_nofuel (scanWhile_ne_nofuel _ _ _ _) ?_
    rintro ⟨ch6, cur6, av⟩ e6
    have l6 := scanWhile_length _ _ _ _ _ _ _ e6
    simp only [List.length_nil, Nat.add_zero] at l6
    try simp only
    split
    · simp
    refine Res.bind_ne_nofuel (next_ne_nofuel _) ?_
    rintro ⟨ch7, cur7⟩ e7
    have l7 := next_length e7
    try simp only
    split
    · simp
    refine Res.bind_ne_nofuel (scanWhile_ne_nofuel _ _ _ _) ?_
    rintro ⟨ch8, cur8, a8⟩ e8
    have l8 := scanWhile_length _ _ _ _ _ _ _ e8
    simp only [List.length_nil, Nat.add_zero] at l8
    try simp only
    split
    · simp
    apply ih
    have : an.length ≠ 0 := k1
    omega

theorem parse_element_ne_nofuel (token : Str) : parse_element token ≠ .nofuel := by
  unfold parse_element
  split
  · rename_i c1 cur hcur
    split_ifs
    · simp
    refine Res.bind_ne_nofuel (scanWhile_ne_nofuel _ _ _ _) ?_
    rintro ⟨ch1, cur1, name⟩ e1
    have l1 := scanWhile_length _ _ _ _ _ _ _ e1
    simp only [List.length_nil, Nat.add_zero] at l1
    try simp only
    refine Res.bind_ne_nofuel (scanWhile_ne_nofuel _ _ _ _) ?_
    rintro ⟨ch2, cur2, a2⟩ e2
    have l2 := scanWhile_length _ _ _ _ _ _ _ e2
    simp only [List.length_nil, Nat.add_zero] at l2
    try simp only
    have hlen : cur.length + 2 = token.length + 1 := by
      have := congrArg List.length hcur
      simp only [List.length_append, List.length_cons, List.length_nil] at this
      omega
    refine Res.bind_ne_nofuel (attLoop_ne_nofuel _ _ _ _ (by omega)) ?_
    rintro ⟨status, atts⟩ _
    try simp only
    split_ifs <;> simp
  · simp

theorem parse_pi_ne_nofuel (token : Str) : parse_pi token ≠ .nofuel := by
  unfold parse_pi
  split
  · refine Res.bind_ne_nofuel (scanWhile_ne_nofuel _ _ _ _) ?_
    rintro ⟨ch1, cur1, target⟩ _
    try simp only
    split_ifs
    · simp
    · refine Res.bind_ne_nofuel (next_ne_nofuel _) ?_
      rintro ⟨ch2, cur2⟩ _
      refine Res.bind_ne_nofuel (scanWhile_ne_nofuel _ _ _ _) ?_
      rintro ⟨_, _, data⟩ _
      simp
    · simp only [Res.bind]
      refine Res.bind_ne_nofuel (scanWhile_ne_nofuel _ _ _ _) ?_
      rintro ⟨_, _, data⟩ _
      simp
  · simp

theorem parse_element_end_ne_nofuel (token : Str) : parse_element_end token ≠ .nofuel := by
  unfold parse_element_end
  split_ifs
  · simp
  · simp only
    split_ifs <;> simp

/-! ## Fuel of the token loop -/

theorem skipWs_length_le (s : List Char) : ∀ line, (skipWs s line).1.length ≤ s.length := by
  induction s with
  | nil => intro line; simp [skipWs]
  | cons c s ih =>
    intro line
    simp only [skipWs]
    split_ifs <;> first | exact Nat.le_succ_of_le (ih _) | simp

theorem step_spec (n m : Nat) (st : DState) :
    (step n m st).2 ≠ .nofuel ∧
      ∀ st1, (step n m st).2 = .ok st1 → st1.input.length ≤ st.input.length := by
  unfold step
  split
  · have := parse_element_ne_nofuel st.token_text
    split
    · simp
    · rename_i h; exact absurd h this
    · refine ⟨by simp, ?_⟩
      intro st1 h
      simp only [Res.ok.injEq] at h
      subst h
      simp
  · have := parse_element_ne_nofuel st.token_text
    split
    · simp
    · rename_i h; exact absurd h this
    · refine ⟨by simp, ?_⟩
      intro st1 h
      simp only [Res.ok.injEq] at h
      subst h
      simp
  · have := parse_element_end_ne_nofuel st.token_text
    split
    · simp
    · rename_i h; exact absurd h this
    · split_ifs
      · split
        · refine ⟨by simp, ?_⟩
          intro st1 h
          simp only [Res.ok.injEq] at h
          subst h
          simp
        · split_ifs <;>
          · refine ⟨by simp, ?_⟩
            intro st1 h
            simp only [Res.ok.injEq] at h
            subst h
            simp
      · refine ⟨by simp, ?_⟩
        intro st1 h
        simp only [Res.ok.injEq] at h
        subst h
        simp
  · have := parse_pi_ne_nofuel st.token_text
    split
    · simp
    · rename_i h; exact absurd h this
    · refine ⟨by simp, ?_⟩
      intro st1 h
      simp only [Res.ok.injEq] at h
      subst h
      exact skipWs_length_le _ _
  · split_ifs <;>
    · refine ⟨by simp, ?_⟩
      intro st1 h
      simp only [Res.ok.injEq] at h
      subst h
      simp
  · split_ifs <;>
    · refine ⟨by simp, ?_⟩
      intro st1 h
      simp only [Res.ok.injEq] at h
      subst h
      simp
  all_goals
    refine ⟨by simp, ?_⟩
    intro st1 h
    simp only [Res.ok.injEq] at h
    subst h
    simp

theorem fetch_spec (n : Nat) (st : DState) :
    ∃ st2, (fetch n st).2 = .ok st2 ∧ st2.input.length ≤ st.input.length ∧
      (st2.token_kind ≠ .eof → st2.input.length < st.input.length) := by
  obtain ⟨t, e, l1, l2⟩ := get_next_token_ok st.input st.line_number
  unfold fetch
  rw [e]
  simp only
  split_ifs
  · exact ⟨_, rfl, l1, l2⟩
  · exact ⟨_, rfl, l1, l2⟩

theorem loop_ne_nofuel (n m : Nat) (fuel : Nat) :
    ∀ st, (st.token_kind ≠ .eof → st.input.length < fuel) →
      (loop n m fuel st).2 ≠ .nofuel := by
  induction fuel with
  | zero =>
    intro st h
    unfold loop
    split_ifs with hk
    · simp
    · exact absurd (h hk) (by simp)
  | succ fuel ih =>
    intro st h
    unfold loop
    split_ifs with hk
    · simp
    obtain ⟨s1, s2⟩ := step_spec n m st
    simp only
    split
    · simp
    · rename_i c1 e
      rw [e] at s1
      exact absurd rfl s1
    · rename_i c1 st1 e
      have l1 := s2 st1 (by rw [e])
      split_ifs
      · simp
      · simp
      · obtain ⟨st2, f1, f2, f3⟩ := fetch_spec n st1
        split
        · rename_i c2 e2
          rw [e2] at f1
          simp at f1
        · rename_i c2 e2
          rw [e2] at f1
          simp at f1
        · rename_i c2 st2a e2
          rw [e2] at f1
          simp only [Res.ok.injEq] at f1
          subst f1
          apply ih
          intro hk2
          have := f3 hk2
          have := h hk
          omega

theorem parseLoop_ne_nofuel (n m : Nat) (input : List Char) :
    (parseLoop n m input).2 ≠ .nofuel := by
  unfold parseLoop beforeLoop
  obtain ⟨t, e, l1, _⟩ :=
    get_next_token_ok (skipWs input 1).1 (skipWs input 1).2
  have l2 := skipWs_length_le input 1
  simp only [e]
  apply loop_ne_nofuel
  intro _
  simp only
  omega

theorem deliver_noThrow (cs : List Call) :
    ∀ hist, deliver noThrow hist cs = (hist ++ cs, false) := by
  induction cs with
  | nil => intro hist; simp [deliver]
  | cons c cs ih =>
    intro hist
    simp only [deliver, noThrow]
    simpa [noThrow] using ih (hist ++ [c])

theorem parse_noThrow_calls (n m : Nat) (input : List Char) :
    (parse noThrow n m input).1 = (tryBlock n m input).1 := by
  simp only [parse, deliver_noThrow, List.nil_append]
  cases (tryBlock n m input).2 <;> rfl

theorem parse_noThrow_ending (n m : Nat) (input : List Char) :
    (parse noThrow n m input).2 =
      match (parseLoop n m input).2 with
      | .ok _ => Ending.returned
      | .undefined => Ending.undefined
      | .nofuel => Ending.nofuel := by
  simp only [parse, deliver_noThrow, List.nil_append, tryBlock]
  rcases h : parseLoop n m input with ⟨c, r⟩
  cases r <;> rfl

/-! ## Calls made by the driver -/

theorem mem_forEach {size : Nat} {body : Nat → List Call} {c : Call} :
    c ∈ forEach size body ↔ ∃ i, i < size ∧ c ∈ body i := by
  simp [forEach, List.mem_flatMap]

theorem flatMap_range_single {α : Type} (f : Nat → List α) (i : Nat)
    (h : ∀ j, j ≠ i → f j = []) :
    ∀ n, (List.range n).flatMap f = if i < n then f i else [] := by
  intro n
  induction n with
  | zero => simp
  | succ n ih =>
    rw [List.range_succ, List.flatMap_append, ih]
    simp only [List.flatMap_cons, List.flatMap_nil, List.append_nil]
    by_cases h1 : i < n
    · have : n ≠ i := by omega
      simp [h1, h _ this, Nat.lt_succ_of_lt h1]
    · by_cases h2 : i = n
      · subst h2
        simp
      · have : ¬ i < n + 1 := by omega
        simp [h1, this, h n (Ne.symm h2)]

theorem docCalls_append (i : Nat) (a b : List Call) :
    docCalls i (a ++ b) = docCalls i a ++ docCalls i b := by
  simp [docCalls, List.filterMap_append]

theorem errCalls_append (i : Nat) (a b : List Call) :
    errCalls i (a ++ b) = errCalls i a ++ errCalls i b := by
  simp [errCalls, List.filterMap_append]

theorem docCalls_map_doc (i j : Nat) (es : List DocEvent) :
    docCalls i (es.map (Call.doc j)) = if j = i then es else [] := by
  induction es with
  | nil => simp [docCalls]
  | cons e es ih =>
    simp only [docCalls, List.map_cons, List.filterMap_cons] at ih ⊢
    split_ifs at ih ⊢ with h <;> simp_all

theorem docCalls_map_err (i j : Nat) (es : List ErrEvent) :
    docCalls i (es.map (Call.err j)) = [] := by
  induction es with
  | nil => simp [docCalls]
  | cons e es ih =>
    simp only [docCalls, List.map_cons, List.filterMap_cons] at ih ⊢
    simp

theorem errCalls_map_err (i j : Nat) (es : List ErrEvent) :
    errCalls i (es.map (Call.err j)) = if j = i then es else [] := by
  induction es with
  | nil => simp [errCalls]
  | cons e es ih =>
    simp only [errCalls, List.map_cons, List.filterMap_cons] at ih ⊢
    split_ifs at ih ⊢ with h <;> simp_all

theorem errCalls_map_doc (i j : Nat) (es : List DocEvent) :
    errCalls i (es.map (Call.doc j)) = [] := by
  induction es with
  | nil => simp [errCalls]
  | cons e es ih =>
    simp only [errCalls, List.map_cons, List.filterMap_cons] at ih ⊢
    simp

theorem docCalls_forEach (i n : Nat) (body : Nat → List Call) :
    docCalls i (forEach n body) = (List.range n).flatMap fun j => docCalls i (body j) := by
  unfold forEach
  induction List.range n with
  | nil => simp [docCalls]
  | cons a l ih => simp [List.flatMap_cons, docCalls_append, ih]

theorem errCalls_forEach (i n : Nat) (body : Nat → List Call) :
    errCalls i (forEach n body) = (List.range n).flatMap fun j => errCalls i (body j) := by
  unfold forEach
  induction List.range n with
  | nil => simp [errCalls]
  | cons a l ih => simp [List.flatMap_cons, errCalls_append, ih]

/-- A broadcast of the events `es j` to the document handlers is received by
handler `i` as `es i`. -/
theorem docCalls_forEach_doc (i n : Nat) (es : Nat → List DocEvent) :
    docCalls i (forEach n fun j => (es j).map (Call.doc j)) = if i < n then es i else [] := by
  rw [docCalls_forEach, flatMap_range_single _ i]
  · simp [docCalls_map_doc]
  · intro j hj
    simp [docCalls_map_doc, hj]

theorem docCalls_forEach_err (i n : Nat) (es : Nat → List ErrEvent) :
    docCalls i (forEach n fun j => (es j).map (Call.err j)) = [] := by
  rw [docCalls_forEach]
  simp [docCalls_map_err]

theorem errCalls_forEach_err (i n : Nat) (es : Nat → List ErrEvent) :
    errCalls i (forEach n fun j => (es j).map (Call.err j)) = if i < n then es i else [] := by
  rw [errCalls_forEach, flatMap_range_single _ i]
  · simp [errCalls_map_err]
  · intro j hj
    simp [errCalls_map_err, hj]

theorem errCalls_forEach_doc (i n : Nat) (es : Nat → List DocEvent) :
    errCalls i (forEach n fun j => (es j).map (Call.doc j)) = [] := by
  rw [errCalls_forEach]
  simp [errCalls_map_doc]

theorem forEach_nil (n : Nat) : forEach n (fun _ => ([] : List Call)) = [] := by
  simp [forEach]

theorem render_nil (n m : Nat) : render n m [] = [] := rfl

theorem render_append (n m : Nat) (a b : List (List DocEvent × List ErrEvent)) :
    render n m (a ++ b) = render n m a ++ render n m b := by
  simp [render, List.flatMap_append]

theorem render_doc (n m : Nat) (des : List DocEvent) :
    render n m [(des, [])] = forEach n fun j => des.map (Call.doc j) := by
  simp [render, forEach_nil]

theorem render_err (n m : Nat) (ees : List ErrEvent) :
    render n m [([], ees)] = forEach m fun j => ees.map (Call.err j) := by
  simp [render, forEach_nil]

theorem docCalls_render (i n m : Nat) (bs : List (List DocEvent × List ErrEvent)) :
    docCalls i (render n m bs) = if i < n then bs.flatMap (fun b => b.1) else [] := by
  induction bs with
  | nil => simp [render, docCalls]
  | cons b bs ih =>
    have h : render n m (b :: bs) = render n m [b] ++ render n m bs :=
      render_append n m [b] bs
    rw [h, docCalls_append, ih]
    simp only [render, List.flatMap_cons, List.flatMap_nil, List.append_nil, docCalls_append,
      docCalls_forEach_doc i n (fun _ => b.1), docCalls_forEach_err i m (fun _ => b.2)]
    split_ifs <;> simp

theorem errCalls_render (i n m : Nat) (bs : List (List DocEvent × List ErrEvent)) :
    errCalls i (render n m bs) = if i < m then bs.flatMap (fun b => b.2) else [] := by
  induction bs with
  | nil => simp [render, errCalls]
  | cons b bs ih =>
    have h : render n m (b :: bs) = render n m [b] ++ render n m bs :=
      render_append n m [b] bs
    rw [h, errCalls_append, ih]
    simp only [render, List.flatMap_cons, List.flatMap_nil, List.append_nil, errCalls_append,
      errCalls_forEach_err i m (fun _ => b.2), errCalls_forEach_doc i n (fun _ => b.1)]
    split_ifs <;> simp

theorem LoopBlocks.nil : LoopBlocks [] := by
  intro b hb
  simp at hb

theorem LoopBlocks.append {a b : List (List DocEvent × List ErrEvent)}
    (ha : LoopBlocks a) (hb : LoopBlocks b) : LoopBlocks (a ++ b) := by
  intro x hx
  rcases List.mem_append.1 hx with h | h
  · exact ha x h
  · exact hb x h

theorem step_render (n m : Nat) (st : DState) :
    ∃ bs, (step n m st).1 = render n m bs ∧ LoopBlocks bs := by
  have hnil : ∃ bs, ([] : List Call) = render n m bs ∧ LoopBlocks bs :=
    ⟨[], rfl, LoopBlocks.nil⟩
  have hdoc : ∀ des : List DocEvent, (∀ e ∈ des, isLoopEvent e = true) →
      ∃ bs, (forEach n fun j => des.map (Call.doc j)) = render n m bs ∧ LoopBlocks bs := by
    intro des hdes
    refine ⟨[(des, [])], (render_doc n m des).symm, ?_⟩
    intro b hb
    simp only [List.mem_singleton] at hb
    subst hb
    exact ⟨hdes, by simp⟩
  have herr : ∀ l : Nat,
      ∃ bs, (forEach m fun j => [Call.err j (.error l)]) = render n m bs ∧ LoopBlocks bs := by
    intro l
    refine ⟨[([], [.error l])], (render_err n m [.error l]).symm, ?_⟩
    intro b hb
    simp only [List.mem_singleton] at hb
    subst hb
    simp [isFatalError]
  unfold step
  split
  · split
    · exact hnil
    · exact hnil
    · rename_i r _
      simp only
      split_ifs
      all_goals first
        | exact hnil
        | exact hdoc [.start_element st.line_number r.name r.atts,
            .end_element st.line_number r.name] (by simp [isLoopEvent])
  · split
    · exact hnil
    · exact hnil
    · rename_i r _
      simp only
      split_ifs
      all_goals first
        | exact hnil
        | exact hdoc [.start_element st.line_number r.name r.atts] (by simp [isLoopEvent])
        | exact hdoc [.start_element st.line_number r.name r.atts,
            .end_element st.line_number r.name] (by simp [isLoopEvent])
  · split
    · exact hnil
    · exact hnil
    · rename_i status name _
      split_ifs
      · split
        · exact hnil
        · split_ifs
          · exact hnil
          · exact hdoc [.end_element st.line_number name] (by simp [isLoopEvent])
      · exact hnil
  · split
    · exact hnil
    · exact hnil
    · rename_i r _
      simp only
      split_ifs
      · exact hdoc [.processing_instruction st.line_number r.target r.data]
          (by simp [isLoopEvent])
      · exact herr st.line_number
  · split_ifs <;> exact hnil
  · split_ifs <;> exact hnil
  all_goals exact hnil

theorem fetch_render (n m : Nat) (st : DState) :
    ∃ bs, (fetch n st).1 = render n m bs ∧ LoopBlocks bs := by
  have hnil : ∃ bs, ([] : List Call) = render n m bs ∧ LoopBlocks bs :=
    ⟨[], rfl, LoopBlocks.nil⟩
  unfold fetch
  split
  · exact hnil
  · exact hnil
  · simp only
    split_ifs
    · refine ⟨[([.characters st.chars_buf], [])], by rw [render_doc]; rfl, ?_⟩
      intro b hb
      simp only [List.mem_singleton] at hb
      subst hb
      simp [isLoopEvent]
    · exact hnil

theorem loop_render (n m : Nat) (fuel : Nat) :
    ∀ st, ∃ bs, (loop n m fuel st).1 = render n m bs ∧ LoopBlocks bs := by
  induction fuel with
  | zero =>
    intro st
    unfold loop
    split_ifs <;> exact ⟨[], rfl, LoopBlocks.nil⟩
  | succ fuel ih =>
    intro st
    obtain ⟨b1, e1, l1⟩ := step_render n m st
    unfold loop
    split_ifs
    · exact ⟨[], rfl, LoopBlocks.nil⟩
    simp only
    split
    · rename_i c1 e; rw [e] at e1; exact ⟨b1, e1, l1⟩
    · rename_i c1 e; rw [e] at e1; exact ⟨b1, e1, l1⟩
    · rename_i c1 st1 e
      rw [e] at e1
      simp only at e1
      split_ifs
      · exact ⟨b1, e1, l1⟩
      · exact ⟨b1, e1, l1⟩
      · obtain ⟨b2, e2, l2⟩ := fetch_render n m st1
        split
        · rename_i c2 f
          simp only [f] at e2
          subst e1 e2
          exact ⟨b1 ++ b2, by rw [render_append], l1.append l2⟩
        · rename_i c2 f
          simp only [f] at e2
          subst e1 e2
          exact ⟨b1 ++ b2, by rw [render_append], l1.append l2⟩
        · rename_i c2 st2 f
          simp only [f] at e2
          subst e1 e2
          obtain ⟨b3, e3, l3⟩ := ih st2
          exact ⟨b1 ++ b2 ++ b3, by simp only [render_append, e3],
            (l1.append l2).append l3⟩

theorem parseLoop_render (n m : Nat) (input : List Char) :
    ∃ bs, (parseLoop n m input).1 = render n m (([.start_document], []) :: bs) ∧
      LoopBlocks bs := by
  have hs : ∀ bs, render n m (([.start_document], []) :: bs) =
      (forEach n fun i => [Call.doc i .start_document]) ++ render n m bs := by
    intro bs
    have := render_append n m [([.start_document], [])] bs
    rw [render_doc] at this
    exact this
  unfold parseLoop beforeLoop
  simp only
  split
  · rename_i c0 e
    simp only [Prod.mk.injEq] at e
    exact ⟨[], by rw [hs, ← e.1]; simp [render_nil], LoopBlocks.nil⟩
  · rename_i c0 e
    simp only [Prod.mk.injEq] at e
    exact ⟨[], by rw [hs, ← e.1]; simp [render_nil], LoopBlocks.nil⟩
  · rename_i c0 st0 e
    simp only [Prod.mk.injEq] at e
    obtain ⟨bs, e1, l1⟩ := loop_render n m (input.length + 1) st0
    exact ⟨bs, by rw [hs, ← e.1, e1], l1⟩

/-! ## Reports of `fatal_error`, `start_document` and `end_document` -/

theorem afterLoop_render (n m : Nat) (st : DState) :
    afterLoop n m st =
      render n m [([], if st.tags.length ≠ 0 ∨ st.seen_fatal_error = true then
        [.fatal_error st.line_number] else []), ([.end_document], [])] := by
  have h := render_append n m
    [([], if st.tags.length ≠ 0 ∨ st.seen_fatal_error = true then
        [ErrEvent.fatal_error st.line_number] else [])] [([DocEvent.end_document], [])]
  simp only [List.singleton_append] at h
  rw [h, render_err, render_doc]
  unfold afterLoop
  split_ifs
  · rfl
  · simp [forEach_nil]

theorem filter_fatal_loopBlocks (bs : List (List DocEvent × List ErrEvent))
    (h : LoopBlocks bs) : (bs.flatMap fun b => b.2).filter isFatalError = [] := by
  rw [List.filter_eq_nil_iff]
  intro e he
  obtain ⟨b, hb, heb⟩ := List.mem_flatMap.1 he
  simp [(h b hb).2 e heb]

/-- C1: with handlers that do not throw, the `fatal_error` calls that error
handler `i` receives during `parse` are: exactly one, carrying the current
line number, when the token loop is left with the fatal flag set or with a
non-empty tag stack (as it is when the input ends inside an open element),
and none otherwise.  The model never runs out of fuel. -/
theorem fatal_error_once_iff_loop_exit_bad (n m : Nat) (input : List Char) (i : Nat)
    (hi : i < m) :
    (parse noThrow n m input).2 ≠ .nofuel ∧
    (errCalls i (parse noThrow n m input).1).filter isFatalError =
      match (parseLoop n m input).2 with
      | .ok st =>
        if st.tags.length ≠ 0 ∨ st.seen_fatal_error = true then
          [.fatal_error st.line_number] else []
      | _ => [] := by
  constructor
  · rw [parse_noThrow_ending]
    have := parseLoop_ne_nofuel n m input
    cases h : (parseLoop n m input).2 <;> simp_all
  · rw [parse_noThrow_calls]
    obtain ⟨bs, e, l⟩ := parseLoop_render n m input
    unfold tryBlock
    rcases h : parseLoop n m input with ⟨c, r⟩
    rw [h] at e
    simp only at e
    subst e
    cases r with
    | ok st =>
      simp only [afterLoop_render, errCalls_append, errCalls_render, hi, if_true,
        List.filter_append, List.flatMap_cons, List.flatMap_nil, List.append_nil,
        List.nil_append, filter_fatal_loopBlocks bs l]
      split_ifs <;> simp [isFatalError]
    | undefined =>
      simp only [errCalls_render, hi, if_true, List.flatMap_cons, List.nil_append,
        filter_fatal_loopBlocks bs l]
    | nofuel =>
      simp only [errCalls_render, hi, if_true, List.flatMap_cons, List.nil_append,
        filter_fatal_loopBlocks bs l]

theorem fatal_error_once_iff_loop_exit_bad_witness :
    (parse noThrow 1 1 "<a>".toList).2 ≠ .nofuel ∧
    (errCalls 0 (parse noThrow 1 1 "<a>".toList).1).filter isFatalError =
      match (parseLoop 1 1 "<a>".toList).2 with
      | .ok st =>
        if st.tags.length ≠ 0 ∨ st.seen_fatal_error = true then
          [.fatal_error st.line_number] else []
      | _ => [] :=
  fatal_error_once_iff_loop_exit_bad 1 1 "<a>".toList 0 (by decide)

/-- C9 (amended): with handlers that do not throw, any two registered document
handlers receive the same calls with the same arguments in the same order, on
every input and for any number of handlers; the model never runs out of
fuel. -/
theorem document_handlers_receive_same_calls (n m : Nat) (input : List Char) (i j : Nat)
    (hi : i < n) (hj : j < n) :
    (parse noThrow n m input).2 ≠ .nofuel ∧
    docCalls i (parse noThrow n m input).1 = docCalls j (parse noThrow n m input).1 := by
  constructor
  · rw [parse_noThrow_ending]
    have := parseLoop_ne_nofuel n m input
    cases h : (parseLoop n m input).2 <;> simp_all
  · rw [parse_noThrow_calls]
    obtain ⟨bs, e, _⟩ := parseLoop_render n m input
    unfold tryBlock
    rcases h : parseLoop n m input with ⟨c, r⟩
    rw [h] at e
    simp only at e
    subst e
    cases r <;>
      simp only [afterLoop_render, docCalls_append, docCalls_render, hi, hj, if_true]

theorem document_handlers_receive_same_calls_witness :
    (parse noThrow 3 1 "<a>x<b/></a>".toList).2 ≠ .nofuel ∧
    docCalls 0 (parse noThrow 3 1 "<a>x<b/></a>".toList).1 =
      docCalls 2 (parse noThrow 3 1 "<a>x<b/></a>".toList).1 :=
  document_handlers_receive_same_calls 3 1 "<a>x<b/></a>".toList 0 2 (by decide) (by decide)

/-- Counterexample to C9: with two document handlers whose `start_element`
callback throws, on the input `<a/>` the first handler receives
`start_document`, `start_element` and `end_document`, the second only
`start_document` and `end_document`: the exception thrown by the first
handler ends the `try` block before the second handler is called. -/
theorem throwing_start_element_splits_handlers :
    parse throwsAtStartElement 2 0 "<a/>".toList =
      ([Call.doc 0 .start_document, Call.doc 1 .start_document,
        Call.doc 0 (.start_element 1 ['a'] []),
        Call.doc 0 .end_document, Call.doc 1 .end_document], .threw) ∧
    docCalls 0 (parse throwsAtStartElement 2 0 "<a/>".toList).1 =
      [.start_document, .start_element 1 ['a'] [], .end_document] ∧
    docCalls 1 (parse throwsAtStartElement 2 0 "<a/>".toList).1 =
      [.start_document, .end_document] ∧
    docCalls 0 (parse throwsAtStartElement 2 0 "<a/>".toList).1 ≠
      docCalls 1 (parse throwsAtStartElement 2 0 "<a/>".toList).1 := by
  refine ⟨by decide!, by decide!, by decide!, by decide!⟩

theorem loopBlocks_docs (bs : List (List DocEvent × List ErrEvent)) (h : LoopBlocks bs) :
    ∀ e ∈ bs.flatMap (fun b => b.1), isLoopEvent e = true := by
  intro e he
  obtain ⟨b, hb, heb⟩ := List.mem_flatMap.1 he
  exact (h b hb).1 e heb

/-- C2: on the input `<?>` the tokenizer returns a token of kind `pi` of three
characters, `parse_pi` reads `token[4]` beyond its end, and `end_document` is
not delivered.  On every input (handlers that do not throw) `parse` either
runs into that undefined read or returns, and when it returns every document
handler has received `start_document` as its first call, `end_document` as
its last call, and neither of them in between. -/
theorem start_end_document_unless_undefined :
    parse noThrow 1 0 "<?>".toList = ([Call.doc 0 .start_document], .undefined) ∧
    ∀ (n m : Nat) (input : List Char) (i : Nat), i < n →
      (parse noThrow n m input).2 = .undefined ∨
      ((parse noThrow n m input).2 = .returned ∧
        ∃ mid, docCalls i (parse noThrow n m input).1 =
            .start_document :: mid ++ [.end_document] ∧
          ∀ e ∈ mid, isLoopEvent e = true) := by
  refine ⟨by decide, ?_⟩
  intro n m input i hi
  rw [parse_noThrow_ending, parse_noThrow_calls]
  have hfuel := parseLoop_ne_nofuel n m input
  obtain ⟨bs, e, l⟩ := parseLoop_render n m input
  unfold tryBlock
  rcases h : parseLoop n m input with ⟨c, r⟩
  rw [h] at e hfuel
  simp only at e hfuel
  subst e
  cases r with
  | ok st =>
    refine Or.inr ⟨rfl, bs.flatMap (fun b => b.1), ?_, loopBlocks_docs bs l⟩
    simp only [afterLoop_render, docCalls_append, docCalls_render, hi, if_true,
      List.flatMap_cons, List.flatMap_nil, List.append_nil, List.nil_append,
      List.singleton_append, List.cons_append]
  | undefined => exact Or.inl rfl
  | nofuel => exact absurd rfl hfuel

theorem start_end_document_unless_undefined_witness :
    (parse noThrow 2 1 "<a><b></a></b>".toList).2 = .undefined ∨
    ((parse noThrow 2 1 "<a><b></a></b>".toList).2 = .returned ∧
      ∃ mid, docCalls 1 (parse noThrow 2 1 "<a><b></a></b>".toList).1 =
          .start_document :: mid ++ [.end_document] ∧
        ∀ e ∈ mid, isLoopEvent e = true) :=
  start_end_document_unless_undefined.2 2 1 "<a><b></a></b>".toList 1 (by decide)

/-- C4: the well-formed document `<a><![CDATA[x]]]></a>`, whose CDATA section
holds the text `x]`, is reported as a fatal error: after `]]` a third `]`
raises `brackets_seen` to 3, so the `>` that follows is not taken as the end
of the section and the token runs to the end of the input. -/
theorem cdata_ending_in_bracket_is_fatal :
    get_next_token "<![CDATA[x]]]></a>".toList 1 =
      .ok ⟨"x]]]></a>".toList ++ [eofChar], .error, 1, []⟩ ∧
    parse noThrow 1 1 "<a><![CDATA[x]]]></a>".toList =
      ([Call.doc 0 .start_document, Call.doc 0 (.start_element 1 ['a'] []),
        Call.err 0 (.fatal_error 1), Call.doc 0 .end_document], .returned) := by
  decide

/-! ## End tags, text outside the root, processing instructions -/

/-- C5: when the token loop meets an end tag whose name is not the name on
top of the tag stack (or the stack is empty), it makes no call for it and is
left at once with the fatal flag set, the stream untouched; the statements
after the loop then call `fatal_error` exactly once on each error handler and
`end_document` on each document handler. -/
theorem mismatched_end_tag_is_fatal (n m fuel : Nat) (st : DState) (name : Str)
    (hk : st.token_kind = .element_end)
    (hp : parse_element_end st.token_text = .ok (0, name))
    (hm : st.tags.head? ≠ some name) :
    loop n m (fuel + 1) st =
      ([], .ok { st with name := name, seen_fatal_error := true }) ∧
    afterLoop n m { st with name := name, seen_fatal_error := true } =
      (forEach m fun i => [Call.err i (.fatal_error st.line_number)]) ++
        (forEach n fun i => [Call.doc i .end_document]) ∧
    ∀ i, i < m →
      errCalls i (afterLoop n m { st with name := name, seen_fatal_error := true }) =
        [.fatal_error st.line_number] := by
  have hstep : step n m st = ([], .ok { st with name := name, seen_fatal_error := true }) := by
    unfold step
    simp only [hk, hp, if_true]
    cases ht : st.tags with
    | nil => rfl
    | cons top below =>
      have : name ≠ top := by
        intro h
        apply hm
        rw [ht, h]
        rfl
      simp [this]
  refine ⟨?_, ?_, ?_⟩
  · unfold loop
    simp [hk, hstep]
  · simp [afterLoop]
  · intro i hi
    rw [afterLoop_render, errCalls_render]
    simp [hi]

theorem mismatched_end_tag_is_fatal_witness :
    parse noThrow 1 1 "<a><b></a></b>".toList =
      ([Call.doc 0 .start_document, Call.doc 0 (.start_element 1 ['a'] []),
        Call.doc 0 (.start_element 1 ['b'] []), Call.err 0 (.fatal_error 1),
        Call.doc 0 .end_document], .returned) ∧
    loop 1 1 (0 + 1) ⟨"</b>".toList, 1, [['b'], ['a']], false, true, [], ['b'],
        "</a>".toList, .element_end⟩ =
      ([], .ok ⟨"</b>".toList, 1, [['b'], ['a']], true, true, [], ['a'],
        "</a>".toList, .element_end⟩) :=
  ⟨by decide,
   (mismatched_end_tag_is_fatal 1 1 0 ⟨"</b>".toList, 1, [['b'], ['a']], false, true, [],
      ['b'], "</a>".toList, .element_end⟩ ['a'] rfl (by decide) (by decide)).1⟩

/-- C7 fails for CDATA sections: a `chars_cdata` token whose text is a single
space, met while the tag stack is empty, sets the fatal flag, and `parse`
reports a fatal error for `<![CDATA[ ]]><a/>`. -/
theorem whitespace_cdata_outside_root_is_fatal :
    get_next_token "<![CDATA[ ]]><a/>".toList 1 =
      .ok ⟨[' '], .chars_cdata, 1, "<a/>".toList⟩ ∧
    step 1 1 ⟨"<a/>".toList, 1, [], false, false, [], [], [' '], .chars_cdata⟩ =
      ([], .ok ⟨"<a/>".toList, 1, [], true, false, [], [], [' '], .chars_cdata⟩) ∧
    parse noThrow 1 1 "<![CDATA[ ]]><a/>".toList =
      ([Call.doc 0 .start_document, Call.err 0 (.fatal_error 1),
        Call.doc 0 .end_document], .returned) := by
  decide

/-- C7 as amended: while the tag stack is empty and the fatal flag is not yet
set, a `chars` token sets the fatal flag if and only if its text contains a
character other than space, tab, CR or LF, and a `chars_cdata` token always
sets it; neither makes a call. -/
theorem text_outside_root_sets_fatal (n m : Nat) (st : DState)
    (ht : st.tags = []) (hf : st.seen_fatal_error = false) :
    (st.token_kind = .chars →
      ∃ st1, step n m st = ([], .ok st1) ∧
        (st1.seen_fatal_error = true ↔
          ∃ c ∈ st.token_text, c ≠ ' ' ∧ c ≠ TAB ∧ c ≠ CR ∧ c ≠ LF)) ∧
    (st.token_kind = .chars_cdata →
      ∃ st1, step n m st = ([], .ok st1) ∧ st1.seen_fatal_error = true) := by
  constructor
  · intro hk
    unfold step
    simp only [hk, ht, List.length_nil, ne_eq, not_true_eq_false, if_false]
    by_cases hany : st.token_text.any (fun c => !isWs c) = true
    · refine ⟨_, by rw [if_pos hany], ?_⟩
      simp only [true_iff]
      obtain ⟨c, hc, hw⟩ := List.any_eq_true.1 hany
      refine ⟨c, hc, ?_⟩
      simp only [isWs, Bool.not_eq_true', Bool.or_eq_false_iff, beq_eq_false_iff_ne] at hw
      tauto
    · refine ⟨_, by rw [if_neg hany], ?_⟩
      simp only [hf, Bool.false_eq_true, false_iff]
      rintro ⟨c, hc, h1, h2, h3, h4⟩
      apply hany
      refine List.any_eq_true.2 ⟨c, hc, ?_⟩
      simp [isWs, h1, h2, h3, h4]
  · intro hk
    unfold step
    simp only [hk, ht, List.length_nil, ne_eq, not_true_eq_false, if_false]
    exact ⟨_, rfl, rfl⟩

theorem text_outside_root_sets_fatal_witness :
    (∃ st1, step 1 1 ⟨[], 1, [], false, false, [], [], [' ', 'x'], .chars⟩ = ([], .ok st1) ∧
        (st1.seen_fatal_error = true ↔
          ∃ c ∈ [' ', 'x'], c ≠ ' ' ∧ c ≠ TAB ∧ c ≠ CR ∧ c ≠ LF)) :=
  (text_outside_root_sets_fatal 1 1 ⟨[], 1, [], false, false, [], [], [' ', 'x'], .chars⟩
    rfl rfl).1 rfl

/-- C8: a processing instruction that `parse_pi` rejects, met while the loop
is running, makes the driver call `error` with the current line number once
on each error handler and nothing on the document handlers; the fatal flag
stays clear, the whitespace after the instruction is skipped and the loop
goes on with the next token. -/
theorem rejected_pi_reports_error_and_continues (n m fuel : Nat) (st : DState)
    (r : PiResult) (hk : st.token_kind = .pi) (hp : parse_pi st.token_text = .ok r)
    (hr : r.status ≠ 0) (hf : st.seen_fatal_error = false)
    (hopen : ¬ (st.tags.length = 0 ∧ st.seen_root_tag = true)) :
    step n m st =
      (forEach m fun i => [Call.err i (.error st.line_number)],
       .ok { st with input := (skipWs st.input st.line_number).1,
                     line_number := (skipWs st.input st.line_number).2 }) ∧
    (∀ i, i < m → errCalls i (step n m st).1 = [.error st.line_number]) ∧
    (∀ i, docCalls i (step n m st).1 = []) ∧
    ∃ st2,
      (fetch n { st with input := (skipWs st.input st.line_number).1,
                         line_number := (skipWs st.input st.line_number).2 }).2 = .ok st2 ∧
      loop n m (fuel + 1) st =
        ((forEach m fun i => [Call.err i (.error st.line_number)]) ++
          (fetch n { st with input := (skipWs st.input st.line_number).1,
                             line_number := (skipWs st.input st.line_number).2 }).1 ++
          (loop n m fuel st2).1, (loop n m fuel st2).2) := by
  have hstep : step n m st =
      (forEach m fun i => [Call.err i (.error st.line_number)],
       .ok { st with input := (skipWs st.input st.line_number).1,
                     line_number := (skipWs st.input st.line_number).2 }) := by
    unfold step
    simp only [hk, hp, hr, if_false]
  have herr : (forEach m fun i => [Call.err i (ErrEvent.error st.line_number)]) =
      render n m [([], [.error st.line_number])] := by
    rw [render_err]; rfl
  refine ⟨hstep, ?_, ?_, ?_⟩
  · intro i hi
    rw [hstep]
    simp only [herr, errCalls_render, hi, if_true, List.flatMap_cons, List.flatMap_nil,
      List.append_nil]
  · intro i
    rw [hstep]
    simp only [herr, docCalls_render, List.flatMap_cons, List.flatMap_nil, List.append_nil,
      ite_self]
  · obtain ⟨st2, f1, _, _⟩ := fetch_spec n
      { st with input := (skipWs st.input st.line_number).1,
                line_number := (skipWs st.input st.line_number).2 }
    refine ⟨st2, f1, ?_⟩
    rcases hfe : fetch n
      { st with input := (skipWs st.input st.line_number).1,
                line_number := (skipWs st.input st.line_number).2 } with ⟨c2, r2⟩
    rw [hfe] at f1
    simp only at f1
    subst f1
    conv_lhs => unfold loop
    simp only [hk, hf] at hfe
    simp only [hk, hstep, hf, hopen, hfe]
    simp

theorem rejected_pi_reports_error_and_continues_witness :
    parse_pi "<? ?>".toList = .ok ⟨-1, [], []⟩ ∧
    parse noThrow 1 1 "<a><? ?></a>".toList =
      ([Call.doc 0 .start_document, Call.doc 0 (.start_element 1 ['a'] []),
        Call.err 0 (.error 1), Call.doc 0 (.end_element 1 ['a']),
        Call.doc 0 .end_document], .returned) ∧
    step 1 1 ⟨"</a>".toList, 1, [['a']], false, true, [], ['a'], "<? ?>".toList, .pi⟩ =
      ([Call.err 0 (.error 1)],
       .ok ⟨"</a>".toList, 1, [['a']], false, true, [], ['a'], "<? ?>".toList, .pi⟩) :=
  ⟨by decide, by decide,
   (rejected_pi_reports_error_and_continues 1 1 0
      ⟨"</a>".toList, 1, [['a']], false, true, [], ['a'], "<? ?>".toList, .pi⟩
      ⟨-1, [], []⟩ rfl (by decide) (by decide) rfl (by decide)).1⟩

/-! ## Runs of character data -/

/-- C6 fails for a run whose texts are all empty: the only token between
`<a>` and `</a>` in `<a><![CDATA[]]></a>` is a `chars_cdata` token with empty
text, and no `characters` call is made for it. -/
theorem empty_cdata_run_makes_no_characters_call :
    get_next_token "<![CDATA[]]></a>".toList 1 =
      .ok ⟨[], .chars_cdata, 1, "</a>".toList⟩ ∧
    parse noThrow 1 0 "<a><![CDATA[]]></a>".toList =
      ([Call.doc 0 .start_document, Call.doc 0 (.start_element 1 ['a'] []),
        Call.doc 0 (.end_element 1 ['a']), Call.doc 0 .end_document], .returned) := by
  decide

theorem step_run_token (n m : Nat) (st : DState) (t : Token)
    (hrun : isRunKind t.kind = true) (hopen : st.tags ≠ []) :
    step n m (atToken st t) =
      ([], .ok (atToken { st with chars_buf := st.chars_buf ++ runText t } t)) := by
  have hlen : st.tags.length ≠ 0 := by
    intro h
    exact hopen (List.length_eq_zero.1 h)
  rcases t with ⟨text, kind, line, rest⟩
  cases kind <;> simp [isRunKind] at hrun <;>
    simp [step, atToken, runText, hlen]

/-- C6 as amended: take a token `t` of kind `chars`, `chars_cdata`, `comment`
or `dtd` met inside an open element, followed by the further such tokens
`toks` and then by a token `tEnd` of another kind (a structural token, an
error or the end of the input).  While the loop works through `t` and `toks`
it makes no call; when `tEnd` arrives it makes exactly one `characters` call
on each document handler, carrying the buffer followed by the texts of the
`chars` and `chars_cdata` tokens in order, provided that string is not empty,
and no call at all if it is empty; the buffer is then empty and the loop goes
on with `tEnd`. -/
theorem chars_run_delivered_as_one_call (n m fuel : Nat) (toks : List Token) :
    ∀ (t tEnd : Token) (st : DState),
      isRunKind t.kind = true → st.tags ≠ [] → st.seen_fatal_error = false →
      runChain t toks tEnd = true →
      loop n m (fuel + toks.length + 1) (atToken st t) =
        ((if (st.chars_buf ++ (t :: toks).flatMap runText).length ≠ 0 then
            forEach n fun i =>
              [Call.doc i (.characters (st.chars_buf ++ (t :: toks).flatMap runText))]
          else []) ++
          (loop n m fuel (atToken { st with chars_buf := [] } tEnd)).1,
         (loop n m fuel (atToken { st with chars_buf := [] } tEnd)).2) := by
  induction toks with
  | nil =>
    intro t tEnd st hrun hopen hf hchain
    have hlen : st.tags.length ≠ 0 := by
      intro h
      exact hopen (List.length_eq_zero.1 h)
    have hne : t.kind ≠ .eof := by
      intro h
      rw [h] at hrun
      simp [isRunKind] at hrun
    simp only [runChain, Bool.and_eq_true, decide_eq_true_eq, Bool.not_eq_true'] at hchain
    obtain ⟨hget, hend⟩ := hchain
    have hk : tEnd.kind ≠ .chars ∧ tEnd.kind ≠ .chars_cdata ∧ tEnd.kind ≠ .dtd ∧
        tEnd.kind ≠ .comment := by
      simp only [isRunKind, Bool.or_eq_false_iff, beq_eq_false_iff_ne] at hend
      tauto
    conv_lhs => unfold loop
    simp only [List.length_nil, Nat.add_zero, step_run_token n m st t hrun hopen]
    simp only [atToken, hne, hf, hlen, if_false, false_and, Bool.false_eq_true]
    unfold fetch
    by_cases h1 : (st.chars_buf ++ runText t).length = 0
    · have hb : st.chars_buf ++ runText t = [] := List.length_eq_zero.1 h1
      simp only [hget, hk, h1, hb, ne_eq, not_true_eq_false, not_false_eq_true, and_false,
        if_false, List.flatMap_cons, List.flatMap_nil, List.append_nil, List.nil_append]
      simp
    · simp only [hget, hk, h1, ne_eq, not_false_eq_true, and_self, if_true,
        List.flatMap_cons, List.flatMap_nil, List.append_nil]
      simp
  | cons t1 ts ih =>
    intro t tEnd st hrun hopen hf hchain
    have hlen : st.tags.length ≠ 0 := by
      intro h
      exact hopen (List.length_eq_zero.1 h)
    have hne : t.kind ≠ .eof := by
      intro h
      rw [h] at hrun
      simp [isRunKind] at hrun
    simp only [runChain, Bool.and_eq_true, decide_eq_true_eq] at hchain
    obtain ⟨⟨hget, hrun1⟩, hrest⟩ := hchain
    have hk : ¬ (t1.kind ≠ .chars ∧ t1.kind ≠ .chars_cdata ∧ t1.kind ≠ .dtd ∧
        t1.kind ≠ .comment ∧ (st.chars_buf ++ runText t).length ≠ 0) := by
      simp only [isRunKind, Bool.or_eq_true, beq_iff_eq] at hrun1
      tauto
    have hfuel : fuel + (t1 :: ts).length + 1 = (fuel + ts.length + 1) + 1 := by
      simp only [List.length_cons]
      omega
    rw [hfuel]
    conv_lhs => unfold loop
    simp only [step_run_token n m st t hrun hopen]
    simp only [atToken, hne, hf, hlen, if_false, false_and, Bool.false_eq_true]
    unfold fetch
    simp only [hget, hk, if_false]
    have := ih t1 tEnd { st with chars_buf := st.chars_buf ++ runText t } hrun1 hopen hf hrest
    simp only [atToken, hf] at this
    simp only [this, List.flatMap_cons, List.append_assoc, List.nil_append]


theorem chars_run_delivered_as_one_call_witness :
    parse noThrow 1 0 "<a>hello<![CDATA[ world]]>!</a>".toList =
      ([Call.doc 0 .start_document, Call.doc 0 (.start_element 1 ['a'] []),
        Call.doc 0 (.characters "hello world!".toList),
        Call.doc 0 (.end_element 1 ['a']), Call.doc 0 .end_document], .returned) ∧
    loop 1 0 (1 + 2 + 1)
        (atToken ⟨[], 1, [['a']], false, true, [], ['a'], [], .eof⟩
          ⟨"hello".toList, .chars, 1, "<![CDATA[ world]]>!</a>".toList⟩) =
      ([Call.doc 0 (.characters "hello world!".toList), Call.doc 0 (.end_element 1 ['a'])],
       .ok ⟨[], 1, [], false, true, [], ['a'], "</a>".toList, .element_end⟩) :=
  ⟨by decide!,
   (chars_run_delivered_as_one_call 1 0 1
      [⟨" world".toList, .chars_cdata, 1, "!</a>".toList⟩,
       ⟨"!".toList, .chars, 1, "</a>".toList⟩]
      ⟨"hello".toList, .chars, 1, "<![CDATA[ world]]>!</a>".toList⟩
      ⟨"</a>".toList, .element_end, 1, []⟩
      ⟨[], 1, [['a']], false, true, [], ['a'], [], .eof⟩
      (by decide!) (by decide!) rfl (by decide!)).trans (by decide!)⟩

/-! ## Callbacks that throw -/

theorem deliver_append (throws : List Call → Call → Bool) (a b : List Call) :
    ∀ hist, deliver throws hist (a ++ b) =
      if (deliver throws hist a).2 = true then deliver throws hist a
      else deliver throws (deliver throws hist a).1 b := by
  induction a with
  | nil => intro hist; simp [deliver]
  | cons c a ih =>
    intro hist
    simp only [List.cons_append, deliver, List.append_eq]
    split_ifs with h1 h2 h3
    · rfl
    · simp at h2
    · rw [ih, if_pos h3]
    · rw [ih, if_neg h3]

theorem deliver_of_no_throw (throws : List Call → Call → Bool) (b : List Call)
    (h : ∀ c ∈ b, ∀ hist, throws hist c = false) :
    ∀ hist, deliver throws hist b = (hist ++ b, false) := by
  induction b with
  | nil => intro hist; simp [deliver]
  | cons c b ih =>
    intro hist
    simp only [deliver, h c (List.mem_cons_self c b) hist, Bool.false_eq_true, if_false]
    rw [ih (fun c1 hc1 => h c1 (List.mem_cons_of_mem c hc1))]
    simp

theorem deliver_subset (throws : List Call → Call → Bool) (a : List Call) :
    ∀ hist, ∀ c ∈ (deliver throws hist a).1, c ∈ hist ∨ c ∈ a := by
  induction a with
  | nil => intro hist c hc; left; simpa [deliver] using hc
  | cons c0 a ih =>
    intro hist c hc
    simp only [deliver] at hc
    split_ifs at hc
    · rcases List.mem_append.1 hc with h | h
      · exact Or.inl h
      · right
        simp only [List.mem_singleton] at h
        rw [h]
        exact List.mem_cons_self c0 a
    · rcases ih _ c hc with h | h
      · rcases List.mem_append.1 h with h | h
        · exact Or.inl h
        · right
          simp only [List.mem_singleton] at h
          rw [h]
          exact List.mem_cons_self c0 a
      · exact Or.inr (List.mem_cons_of_mem c0 h)

theorem mem_docCalls {i : Nat} {e : DocEvent} {cs : List Call} (h : e ∈ docCalls i cs) :
    Call.doc i e ∈ cs := by
  simp only [docCalls, List.mem_filterMap] at h
  obtain ⟨c, hc, he⟩ := h
  cases c with
  | doc j e1 =>
    simp only at he
    split_ifs at he with hj
    simp only [Option.some.injEq] at he
    subst hj he
    exact hc
  | err j e1 => simp at he

theorem mem_render {n m : Nat} {bs : List (List DocEvent × List ErrEvent)} {i : Nat}
    {e : DocEvent} (h : Call.doc i e ∈ render n m bs) : ∃ b ∈ bs, e ∈ b.1 := by
  simp only [render, List.mem_flatMap, List.mem_append, mem_forEach, List.mem_map] at h
  obtain ⟨b, hb, h1 | h1⟩ := h
  · obtain ⟨j, _, e1, he1, heq⟩ := h1
    simp only [Call.doc.injEq] at heq
    exact ⟨b, hb, heq.2 ▸ he1⟩
  · obtain ⟨j, _, e1, _, heq⟩ := h1
    exact absurd heq (by simp)

/-- The calls of the `try` block split into those made before the final
`end_document` loop, none of which is `end_document`, and that loop. -/
theorem tryBlock_split (n m : Nat) (input : List Char) :
    ∃ pre, (∀ i, Call.doc i .end_document ∉ pre) ∧
      ((tryBlock n m input).1 = pre ++ (forEach n fun i => [Call.doc i .end_document]) ∨
        ((tryBlock n m input).1 = pre ∧ (tryBlock n m input).2 ≠ .ok ())) := by
  obtain ⟨bs, e, l⟩ := parseLoop_render n m input
  have hpre : ∀ i, Call.doc i .end_document ∉
      render n m (([DocEvent.start_document], []) :: bs) := by
    intro i hmem
    obtain ⟨b, hb, he⟩ := mem_render hmem
    rcases List.mem_cons.1 hb with h | h
    · subst h
      simp at he
    · have := (l b h).1 _ he
      simp [isLoopEvent] at this
  unfold tryBlock
  rcases h : parseLoop n m input with ⟨c, r⟩
  rw [h] at e
  simp only at e
  subst e
  cases r with
  | ok st =>
    refine ⟨render n m (([DocEvent.start_document], []) :: bs) ++
      render n m [([], if st.tags.length ≠ 0 ∨ st.seen_fatal_error = true then
        [ErrEvent.fatal_error st.line_number] else [])], ?_, Or.inl ?_⟩
    · intro i hmem
      rcases List.mem_append.1 hmem with h1 | h1
      · exact hpre i h1
      · obtain ⟨b, hb, he⟩ := mem_render h1
        simp only [List.mem_singleton] at hb
        subst hb
        simp at he
    · simp only [afterLoop_render]
      have := render_append n m
        [([], if st.tags.length ≠ 0 ∨ st.seen_fatal_error = true then
          [ErrEvent.fatal_error st.line_number] else [])] [([DocEvent.end_document], [])]
      simp only [List.singleton_append] at this
      rw [this, render_doc, List.append_assoc]
      rfl
  | undefined => exact ⟨_, hpre, Or.inr ⟨rfl, by simp⟩⟩
  | nofuel => exact ⟨_, hpre, Or.inr ⟨rfl, by simp⟩⟩

/-- C3: when the call of `end_document` made at the end of the `try` block
throws, the `catch` block calls `end_document` again: on the empty input the
only document handler receives `end_document` twice before the exception
leaves `parse`.  When no `end_document` call throws and another callback
does, every document handler receives `end_document` exactly once before the
exception leaves `parse`. -/
theorem end_document_twice_when_end_document_throws :
    parse throwsAtFirstEndDocument 1 0 [] =
      ([Call.doc 0 .start_document, Call.doc 0 .end_document, Call.doc 0 .end_document],
        .threw) ∧
    ∀ (throws : List Call → Call → Bool) (n m : Nat) (input : List Char),
      (∀ hist i, throws hist (Call.doc i .end_document) = false) →
      (parse throws n m input).2 = .threw →
      ∀ i, i < n →
        (docCalls i (parse throws n m input).1).filter (fun e => e == .end_document) =
          [.end_document] := by
  refine ⟨by decide, ?_⟩
  intro throws n m input hend hthrew i hi
  have htail : ∀ c ∈ (forEach n fun i => [Call.doc i DocEvent.end_document]),
      ∀ hist, throws hist c = false := by
    intro c hc hist
    obtain ⟨j, _, hj⟩ := mem_forEach.1 hc
    simp only [List.mem_singleton] at hj
    subst hj
    exact hend hist j
  obtain ⟨pre, hpre, hsplit⟩ := tryBlock_split n m input
  have hcall : ∃ hist, (∀ j, Call.doc j .end_document ∉ hist) ∧
      (parse throws n m input).1 =
        hist ++ (forEach n fun i => [Call.doc i DocEvent.end_document]) := by
    unfold parse at hthrew ⊢
    simp only at hthrew ⊢
    rcases hd : deliver throws [] (tryBlock n m input).1 with ⟨hist, thrown⟩
    rw [hd] at hthrew
    cases thrown with
    | false =>
      simp only at hthrew
      cases h2 : (tryBlock n m input).2 <;> rw [h2] at hthrew <;> simp at hthrew
    | true =>
      simp only
      refine ⟨hist, ?_, by rw [deliver_of_no_throw throws _ htail]⟩
      have hsub : ∀ c ∈ hist, c ∈ pre := by
        intro c hc
        rcases hsplit with h1 | ⟨h1, _⟩
        · rw [h1, deliver_append] at hd
          split_ifs at hd with h3
          · have := deliver_subset throws pre [] c (by rw [hd]; exact hc)
            simpa using this
          · rw [deliver_of_no_throw throws _ htail] at hd
            simp at hd
        · rw [h1] at hd
          have := deliver_subset throws pre [] c (by rw [hd]; exact hc)
          simpa using this
      intro j hj
      exact hpre j (hsub _ hj)
  obtain ⟨hist, hh, heq⟩ := hcall
  rw [heq, docCalls_append, List.filter_append]
  have h1 : (docCalls i hist).filter (fun e => e == .end_document) = [] := by
    rw [List.filter_eq_nil_iff]
    intro e he
    simp only [beq_iff_eq]
    intro h
    subst h
    exact hh i (mem_docCalls he)
  have h2 : docCalls i (forEach n fun i => [Call.doc i DocEvent.end_document]) =
      [.end_document] := by
    have := docCalls_forEach_doc i n (fun _ => [DocEvent.end_document])
    simpa [hi] using this
  rw [h1, h2]
  rfl

theorem end_document_twice_when_end_document_throws_witness :
    (docCalls 1 (parse throwsAtStartElement 2 1 "<a>".toList).1).filter
        (fun e => e == .end_document) = [.end_document] :=
  end_document_twice_when_end_document_throws.2 throwsAtStartElement 2 1 "<a>".toList
    (by intro hist i; rfl) (by decide!) 1 (by decide)

/-! ## Shape of the markup tokens -/

theorem cdataLoop_kind (s : List Char) :
    ∀ b text line, (cdataLoop s b text line).kind = .error ∨
      (cdataLoop s b text line).kind = .chars_cdata := by
  induction s with
  | nil => intro b text line; simp [cdataLoop]
  | cons c s ih =>
    intro b text line
    simp only [cdataLoop]
    split_ifs <;> first | exact ih _ _ _ | simp

theorem commentLoop_kind (s : List Char) :
    ∀ h text line, (commentLoop s h text line).kind = .error ∨
      (commentLoop s h text line).kind = .comment := by
  induction s with
  | nil => intro h text line; simp [commentLoop]
  | cons c s ih =>
    intro h text line
    simp only [commentLoop]
    split_ifs <;> first | exact ih _ _ _ | simp

theorem dtdLoop_kind (s : List Char) :
    ∀ d text line, (dtdLoop s d text line).kind = .error ∨
      (dtdLoop s d text line).kind = .dtd := by
  induction s with
  | nil => intro d text line; simp only [dtdLoop]; split_ifs <;> simp
  | cons c s ih =>
    intro d text line
    simp only [dtdLoop]
    split_ifs <;> first | exact ih _ _ _ | simp

theorem peek_some {s : List Char} {c : Char} (h : peek s = some c) :
    ∃ r, s = c :: r := by
  cases s with
  | nil => simp [peek] at h
  | cons a r =>
    simp only [peek, Option.some.injEq] at h
    exact ⟨r, by rw [h]⟩

/-- The ways through the branch `case '!'`: a CDATA header that does not
match, a CDATA section, `<!-` not followed by `-`, a comment, a DTD block. -/
theorem bangBranch_cases (s : List Char) (line : Nat) :
    (∃ r, bangBranch s line = ⟨[], .error, line, r⟩) ∨
    (∃ s6, s = '[' :: 'C' :: 'D' :: 'A' :: 'T' :: 'A' :: '[' :: s6 ∧
      bangBranch s line = cdataLoop s6 0 [] line) ∨
    (∃ r, bangBranch s line = ⟨['<', '!', '-'], .error, line, r⟩) ∨
    (∃ s1, s = '-' :: '-' :: s1 ∧
      bangBranch s line = commentLoop s1 0 ['<', '!', '-', '-'] line) ∨
    (peek s ≠ some '[' ∧ peek s ≠ some '-' ∧ bangBranch s line = dtdLoop s 1 ['<', '!'] line) := by
  unfold bangBranch
  by_cases h1 : peek s = some '['
  · rw [if_pos h1]
    obtain ⟨r0, rfl⟩ := peek_some h1
    rcases g0 : get ('[' :: r0) with ⟨c0, s0⟩
    rcases g1 : get s0 with ⟨c1, s1⟩
    rcases g2 : get s1 with ⟨c2, s2⟩
    rcases g3 : get s2 with ⟨c3, s3⟩
    rcases g4 : get s3 with ⟨c4, s4⟩
    rcases g5 : get s4 with ⟨c5, s5⟩
    rcases g6 : get s5 with ⟨c6, s6⟩
    simp only [g1, g2, g3, g4, g5, g6]
    simp only [get, Prod.mk.injEq] at g0
    obtain ⟨_, rfl⟩ := g0
    by_cases hc : c1 ≠ some 'C' ∨ c2 ≠ some 'D' ∨ c3 ≠ some 'A' ∨ c4 ≠ some 'T' ∨
        c5 ≠ some 'A' ∨ c6 ≠ some '['
    · rw [if_pos hc]
      exact Or.inl ⟨s6, rfl⟩
    · rw [if_neg hc]
      simp only [not_or, not_not] at hc
      obtain ⟨rfl, rfl, rfl, rfl, rfl, rfl⟩ := hc
      refine Or.inr (Or.inl ⟨s6, ?_, rfl⟩)
      rw [get_some g1, get_some g2, get_some g3, get_some g4, get_some g5, get_some g6]
  · rw [if_neg h1]
    by_cases h2 : peek s = some '-'
    · rw [if_pos h2]
      obtain ⟨r0, rfl⟩ := peek_some h2
      rcases g0 : get ('-' :: r0) with ⟨c0, s0⟩
      rcases g1 : get s0 with ⟨c1, s1⟩
      simp only [g1]
      simp only [get, Prod.mk.injEq] at g0
      obtain ⟨_, rfl⟩ := g0
      by_cases hc : c1 ≠ some '-'
      · rw [if_pos hc]
        exact Or.inr (Or.inr (Or.inl ⟨s1, rfl⟩))
      · rw [if_neg hc]
        simp only [not_not] at hc
        subst hc
        refine Or.inr (Or.inr (Or.inr (Or.inl ⟨s1, ?_, rfl⟩)))
        rw [get_some g1]
    · rw [if_neg h2]
      exact Or.inr (Or.inr (Or.inr (Or.inr ⟨h1, h2, rfl⟩)))

theorem bangBranch_kind (s : List Char) (line : Nat) :
    (bangBranch s line).kind = .error ∨ (bangBranch s line).kind = .chars_cdata ∨
      (bangBranch s line).kind = .comment ∨ (bangBranch s line).kind = .dtd := by
  rcases bangBranch_cases s line with ⟨r, e⟩ | ⟨s6, _, e⟩ | ⟨r, e⟩ | ⟨s1, _, e⟩ | ⟨_, _, e⟩ <;>
    rw [e]
  · simp
  · rcases cdataLoop_kind s6 0 [] line with h | h <;> simp [h]
  · simp
  · rcases commentLoop_kind s1 0 ['<', '!', '-', '-'] line with h | h <;> simp [h]
  · rcases dtdLoop_kind s 1 ['<', '!'] line with h | h <;> simp [h]

theorem charsLoop_kind (fuel : Nat) :
    ∀ s text line t, charsLoop fuel s text line = .ok t →
      t.kind = .chars ∨ t.kind = .error := by
  induction fuel with
  | zero =>
    intro s text line t h
    cases s with
    | nil =>
      simp only [charsLoop, Res.ok.injEq] at h
      subst h
      simp
    | cons c s => simp [charsLoop] at h
  | succ fuel ih =>
    intro s text line t h
    cases s with
    | nil =>
      simp only [charsLoop, Res.ok.injEq] at h
      subst h
      simp
    | cons c s =>
      simp only [charsLoop] at h
      split at h
      · simp only [Res.ok.injEq] at h
        subst h
        simp
      · split at h
        · split at h
          · simp only [Res.ok.injEq] at h
            subst h
            simp
          · exact ih _ _ _ _ h
        · exact ih _ _ _ _ h

theorem cleanBody_cons {c : Char} {body : Str} (h1 : c ≠ '<') (h2 : c ≠ '>')
    (h : cleanBody body) : cleanBody (c :: body) := by
  intro x hx
  rcases List.mem_cons.1 hx with rfl | hx
  · exact ⟨h1, h2⟩
  · exact h x hx

theorem piLoop_pi (s : List Char) :
    ∀ text line, (piLoop s text line).kind = .pi →
      ∃ body, (piLoop s text line).text = text ++ body ++ ['>'] ∧ cleanBody body ∧
        ((text ++ body ++ ['>']).length > 3 →
          (text ++ body ++ ['>']).getD ((text ++ body ++ ['>']).length - 2) NUL = '?') := by
  induction s with
  | nil => intro text line h; simp [piLoop] at h
  | cons c s ih =>
    intro text line h
    simp only [piLoop] at h ⊢
    by_cases h1 : c = LF
    · rw [if_pos h1] at h ⊢
      obtain ⟨body, e1, e2, e3⟩ := ih _ _ h
      refine ⟨c :: body, ?_, cleanBody_cons (by rw [h1]; decide) (by rw [h1]; decide) e2, ?_⟩
      · simpa using e1
      · simpa using e3
    rw [if_neg h1] at h ⊢
    by_cases h2 : c = '<'
    · rw [if_pos h2] at h
      simp at h
    rw [if_neg h2] at h ⊢
    by_cases h3 : c = '>'
    · rw [if_pos h3] at h ⊢
      by_cases h4 : (text ++ [c]).length > 3 ∧
          (text ++ [c]).getD ((text ++ [c]).length - 2) NUL ≠ '?'
      · rw [if_pos h4] at h
        simp at h
      · rw [if_neg h4]
        subst h3
        refine ⟨[], by simp, by intro x hx; simp at hx, ?_⟩
        intro hlen
        simp only [List.append_nil] at hlen ⊢
        by_contra hne
        exact h4 ⟨hlen, hne⟩
    · rw [if_neg h3] at h ⊢
      obtain ⟨body, e1, e2, e3⟩ := ih _ _ h
      refine ⟨c :: body, ?_, cleanBody_cons h2 h3 e2, ?_⟩
      · simpa using e1
      · simpa using e3

theorem endLoop_end (s : List Char) :
    ∀ text line, (endLoop s text line).kind = .element_end →
      ∃ body, (endLoop s text line).text = text ++ body ++ ['>'] ∧ cleanBody body := by
  induction s with
  | nil => intro text line h; simp [endLoop] at h
  | cons c s ih =>
    intro text line h
    simp only [endLoop] at h ⊢
    by_cases h1 : c = LF
    · rw [if_pos h1] at h ⊢
      obtain ⟨body, e1, e2⟩ := ih _ _ h
      exact ⟨c :: body, by simpa using e1,
        cleanBody_cons (by rw [h1]; decide) (by rw [h1]; decide) e2⟩
    rw [if_neg h1] at h ⊢
    by_cases h2 : c = '<'
    · rw [if_pos h2] at h
      simp at h
    rw [if_neg h2] at h ⊢
    by_cases h3 : c = '>'
    · rw [if_pos h3]
      subst h3
      exact ⟨[], by simp, by intro x hx; simp at hx⟩
    · rw [if_neg h3] at h ⊢
      obtain ⟨body, e1, e2⟩ := ih _ _ h
      exact ⟨c :: body, by simpa using e1, cleanBody_cons h2 h3 e2⟩

theorem startLoop_start (s : List Char) :
    ∀ last text line, (startLoop s last text line).kind = .element_start ∨
        (startLoop s last text line).kind = .empty_element →
      ∃ body, (startLoop s last text line).text = text ++ body ++ ['>'] ∧ cleanBody body := by
  induction s with
  | nil => intro last text line h; simp [startLoop] at h
  | cons c s ih =>
    intro last text line h
    simp only [startLoop] at h ⊢
    by_cases h1 : c = LF
    · rw [if_pos h1] at h ⊢
      obtain ⟨body, e1, e2⟩ := ih _ _ _ h
      exact ⟨c :: body, by simpa using e1,
        cleanBody_cons (by rw [h1]; decide) (by rw [h1]; decide) e2⟩
    rw [if_neg h1] at h ⊢
    by_cases h2 : c = '<'
    · rw [if_pos h2] at h
      simp at h
    rw [if_neg h2] at h ⊢
    by_cases h3 : c = '>'
    · rw [if_pos h3]
      subst h3
      exact ⟨[], by simp, by intro x hx; simp at hx⟩
    · rw [if_neg h3] at h ⊢
      obtain ⟨body, e1, e2⟩ := ih _ _ _ h
      exact ⟨c :: body, by simpa using e1, cleanBody_cons h2 h3 e2⟩

theorem piLoop_kind (s : List Char) :
    ∀ text line, (piLoop s text line).kind = .error ∨ (piLoop s text line).kind = .pi := by
  induction s with
  | nil => intro text line; simp [piLoop]
  | cons c s ih =>
    intro text line
    simp only [piLoop]
    split_ifs <;> first | exact ih _ _ | simp

theorem endLoop_kind (s : List Char) :
    ∀ text line, (endLoop s text line).kind = .error ∨
      (endLoop s text line).kind = .element_end := by
  induction s with
  | nil => intro text line; simp [endLoop]
  | cons c s ih =>
    intro text line
    simp only [endLoop]
    split_ifs <;> first | exact ih _ _ | simp

theorem startLoop_kind (s : List Char) :
    ∀ last text line, (startLoop s last text line).kind = .error ∨
      (startLoop s last text line).kind = .element_start ∨
      (startLoop s last text line).kind = .empty_element := by
  induction s with
  | nil => intro last text line; simp [startLoop]
  | cons c s ih =>
    intro last text line
    simp only [startLoop]
    split_ifs <;> first | exact ih _ _ _ | simp

/-- The ways through `get_next_token`, by the first two characters of the
stream. -/
theorem get_next_token_cases (s : List Char) (line : Nat) :
    (s = [] ∧ get_next_token s line = .ok ⟨[], .eof, line, []⟩) ∨
    (s = ['<'] ∧ get_next_token s line = .ok ⟨[], .error, line, []⟩) ∨
    (∃ s2, s = '<' :: '!' :: s2 ∧ get_next_token s line = .ok (bangBranch s2 line)) ∨
    (∃ s2, s = '<' :: '?' :: s2 ∧
      get_next_token s line = .ok (piLoop s2 ['<', '?'] line)) ∨
    (∃ s2, s = '<' :: '/' :: s2 ∧
      get_next_token s line = .ok (endLoop s2 ['<', '/'] line)) ∨
    (∃ c2 s2, s = '<' :: c2 :: s2 ∧ c2 ≠ '!' ∧ c2 ≠ '?' ∧ c2 ≠ '/' ∧
      get_next_token s line = .ok (startLoop s2 NUL ['<', c2] line)) ∨
    (∃ c1 s1, s = c1 :: s1 ∧ c1 ≠ '<' ∧
      get_next_token s line =
        if c1 = LF then charsLoop s1.length s1 [c1] (line + 1)
        else if c1 = '&' then
          match change_entity s1 with
          | (none, s2) => .ok ⟨[], .error, line, s2⟩
          | (some t, s2) => charsLoop s2.length s2 [t] line
        else charsLoop s1.length s1 [c1] line) := by
  unfold get_next_token
  split
  · exact Or.inl ⟨rfl, rfl⟩
  · split
    · exact Or.inr (Or.inl ⟨rfl, rfl⟩)
    · exact Or.inr (Or.inr (Or.inl ⟨_, rfl, rfl⟩))
    · exact Or.inr (Or.inr (Or.inr (Or.inl ⟨_, rfl, rfl⟩)))
    · exact Or.inr (Or.inr (Or.inr (Or.inr (Or.inl ⟨_, rfl, rfl⟩))))
    · rename_i c2 s2 h1 h2 h3
      refine Or.inr (Or.inr (Or.inr (Or.inr (Or.inr (Or.inl ⟨c2, s2, rfl, ?_, ?_, ?_, rfl⟩)))))
      · exact h1
      · exact h2
      · exact h3
  · rename_i c1 s1 h1
    refine Or.inr (Or.inr (Or.inr (Or.inr (Or.inr (Or.inr ⟨c1, s1, rfl, ?_, rfl⟩)))))
    exact h1

theorem charsBranch_kind (c1 : Char) (s1 : List Char) (line : Nat) (t : Token)
    (h : (if c1 = LF then charsLoop s1.length s1 [c1] (line + 1)
        else if c1 = '&' then
          match change_entity s1 with
          | (none, s2) => .ok ⟨[], .error, line, s2⟩
          | (some t, s2) => charsLoop s2.length s2 [t] line
        else charsLoop s1.length s1 [c1] line) = .ok t) :
    t.kind = .chars ∨ t.kind = .error := by
  split_ifs at h
  · exact charsLoop_kind _ _ _ _ _ h
  · split at h
    · simp only [Res.ok.injEq] at h
      subst h
      simp
    · exact charsLoop_kind _ _ _ _ _ h
  · exact charsLoop_kind _ _ _ _ _ h

/-- C13: `get_next_token` classifies `<<a>` as `element_start` with the text
`<<a>`, which holds a second `<`: the character after the opening `<` is
stored without being looked at.  In every token of kind `element_start`,
`empty_element`, `element_end` or `pi` the text is `<`, one character, a body
without `<` and `>`, and `>`; that character is `/` in an end tag and `?` in a
processing instruction, so only a start or empty tag can break the claim, and
only in its second character. -/
theorem markup_token_shape_except_second_char :
    get_next_token "<<a>".toList 1 = .ok ⟨"<<a>".toList, .element_start, 1, []⟩ ∧
    ∀ (s : List Char) (line : Nat) (t : Token), get_next_token s line = .ok t →
      (t.kind = .element_start ∨ t.kind = .empty_element ∨ t.kind = .element_end ∨
        t.kind = .pi) →
      ∃ c2 body, t.text = '<' :: c2 :: body ++ ['>'] ∧ cleanBody body ∧
        (t.kind = .element_end → c2 = '/') ∧ (t.kind = .pi → c2 = '?') ∧
        (t.kind = .element_start ∨ t.kind = .empty_element →
          c2 ≠ '!' ∧ c2 ≠ '?' ∧ c2 ≠ '/') := by
  refine ⟨by decide, ?_⟩
  intro s line t h hk
  rcases get_next_token_cases s line with ⟨_, e⟩ | ⟨_, e⟩ | ⟨s2, _, e⟩ | ⟨s2, _, e⟩ |
    ⟨s2, _, e⟩ | ⟨c2, s2, _, n1, n2, n3, e⟩ | ⟨c1, s1, _, _, e⟩
  · rw [e] at h
    simp only [Res.ok.injEq] at h
    subst h
    simp at hk
  · rw [e] at h
    simp only [Res.ok.injEq] at h
    subst h
    simp at hk
  · rw [e] at h
    simp only [Res.ok.injEq] at h
    subst h
    rcases bangBranch_kind s2 line with k | k | k | k <;> rw [k] at hk <;> simp at hk
  · rw [e] at h
    simp only [Res.ok.injEq] at h
    subst h
    rcases piLoop_kind s2 ['<', '?'] line with k | k
    · rw [k] at hk
      simp at hk
    · obtain ⟨body, e1, e2, _⟩ := piLoop_pi s2 _ _ k
      exact ⟨'?', body, by simpa using e1, e2, by rw [k]; simp, fun _ => rfl,
        by rw [k]; simp⟩
  · rw [e] at h
    simp only [Res.ok.injEq] at h
    subst h
    rcases endLoop_kind s2 ['<', '/'] line with k | k
    · rw [k] at hk
      simp at hk
    · obtain ⟨body, e1, e2⟩ := endLoop_end s2 _ _ k
      exact ⟨'/', body, by simpa using e1, e2, fun _ => rfl, by rw [k]; simp,
        by rw [k]; simp⟩
  · rw [e] at h
    simp only [Res.ok.injEq] at h
    subst h
    rcases startLoop_kind s2 NUL ['<', c2] line with k | k | k
    · rw [k] at hk
      simp at hk
    · obtain ⟨body, e1, e2⟩ := startLoop_start s2 _ _ _ (Or.inl k)
      exact ⟨c2, body, by simpa using e1, e2, by rw [k]; simp, by rw [k]; simp,
        fun _ => ⟨n1, n2, n3⟩⟩
    · obtain ⟨body, e1, e2⟩ := startLoop_start s2 _ _ _ (Or.inr k)
      exact ⟨c2, body, by simpa using e1, e2, by rw [k]; simp, by rw [k]; simp,
        fun _ => ⟨n1, n2, n3⟩⟩
  · rw [e] at h
    rcases charsBranch_kind c1 s1 line t h with k | k <;> rw [k] at hk <;> simp at hk

theorem markup_token_shape_except_second_char_witness :
    ∃ c2 body, "<a b='c'/>".toList = '<' :: c2 :: body ++ ['>'] ∧ cleanBody body ∧
      (token_type.empty_element = .element_end → c2 = '/') ∧
      (token_type.empty_element = .pi → c2 = '?') ∧
      (token_type.empty_element = .element_start ∨
          token_type.empty_element = .empty_element →
        c2 ≠ '!' ∧ c2 ≠ '?' ∧ c2 ≠ '/') :=
  markup_token_shape_except_second_char.2 "<a b='c'/>x".toList 1
    ⟨"<a b='c'/>".toList, .empty_element, 1, ['x']⟩ (by decide) (by decide)

theorem getD_before_last (pre : List Char) (x y : Char) :
    (pre ++ [x] ++ [y]).getD ((pre ++ [x] ++ [y]).length - 2) NUL = x := by
  have h : (pre ++ [x] ++ [y]).length - 2 = pre.length := by simp
  rw [h, List.append_assoc, List.getD_append_right _ _ _ _ (Nat.le_refl _)]
  simp

/-- C14: `get_next_token` classifies `<?>` as `pi` although its text has only
three characters (the test for the trailing `?` is skipped unless the text is
longer than 3), and `parse_pi` then reads beyond the token.  Every other token
of kind `pi` is `<?`, a body without `<` and `>`, and `?>`. -/
theorem pi_token_is_bare_or_ends_in_question_mark :
    get_next_token "<?>".toList 1 = .ok ⟨"<?>".toList, .pi, 1, []⟩ ∧
    parse_pi "<?>".toList = .undefined ∧
    ∀ (s : List Char) (line : Nat) (t : Token), get_next_token s line = .ok t →
      t.kind = .pi →
      t.text = ['<', '?', '>'] ∨
        ∃ body, t.text = '<' :: '?' :: body ++ ['?', '>'] ∧ cleanBody body := by
  refine ⟨by decide, by decide, ?_⟩
  intro s line t h hk
  rcases get_next_token_cases s line with ⟨_, e⟩ | ⟨_, e⟩ | ⟨s2, _, e⟩ | ⟨s2, _, e⟩ |
    ⟨s2, _, e⟩ | ⟨c2, s2, _, n1, n2, n3, e⟩ | ⟨c1, s1, _, _, e⟩
  · rw [e] at h
    simp only [Res.ok.injEq] at h
    subst h
    simp at hk
  · rw [e] at h
    simp only [Res.ok.injEq] at h
    subst h
    simp at hk
  · rw [e] at h
    simp only [Res.ok.injEq] at h
    subst h
    rcases bangBranch_kind s2 line with k | k | k | k <;> rw [k] at hk <;> simp at hk
  · rw [e] at h
    simp only [Res.ok.injEq] at h
    subst h
    obtain ⟨body, e1, e2, e3⟩ := piLoop_pi s2 _ _ hk
    rcases List.eq_nil_or_concat body with rfl | ⟨b, x, rfl⟩
    · left
      simpa using e1
    · right
      rw [List.concat_eq_append] at e1 e2 e3
      have hx : x = '?' := by
        have := e3 (by simp)
        rw [← List.append_assoc, getD_before_last] at this
        exact this
      subst hx
      refine ⟨b, by simpa using e1, ?_⟩
      intro c hc
      exact e2 c (List.mem_append_left _ hc)
  · rw [e] at h
    simp only [Res.ok.injEq] at h
    subst h
    rcases endLoop_kind s2 ['<', '/'] line with k | k <;> rw [k] at hk <;> simp at hk
  · rw [e] at h
    simp only [Res.ok.injEq] at h
    subst h
    rcases startLoop_kind s2 NUL ['<', c2] line with k | k | k <;> rw [k] at hk <;>
      simp at hk
  · rw [e] at h
    rcases charsBranch_kind c1 s1 line t h with k | k <;> rw [k] at hk <;> simp at hk

theorem pi_token_is_bare_or_ends_in_question_mark_witness :
    "<?xml?>".toList = ['<', '?', '>'] ∨
      ∃ body, "<?xml?>".toList = '<' :: '?' :: body ++ ['?', '>'] ∧ cleanBody body :=
  pi_token_is_bare_or_ends_in_question_mark.2.2 "<?xml?><a/>".toList 1
    ⟨"<?xml?>".toList, .pi, 1, "<a/>".toList⟩ (by decide) rfl

/-! ## Markup that is never closed -/

theorem cdataLoop_no_gt (s : List Char) :
    ∀ b text line, '>' ∉ s → (cdataLoop s b text line).kind = .error := by
  induction s with
  | nil => intro b text line _; simp [cdataLoop]
  | cons c s ih =>
    intro b text line h
    simp only [List.mem_cons, not_or] at h
    have hc : c ≠ '>' := fun e => h.1 e.symm
    simp only [cdataLoop, hc, and_false, if_false]
    split_ifs <;> exact ih _ _ _ h.2

theorem commentLoop_no_gt (s : List Char) :
    ∀ k text line, '>' ∉ s → (commentLoop s k text line).kind = .error := by
  induction s with
  | nil => intro k text line _; simp [commentLoop]
  | cons c s ih =>
    intro k text line h
    simp only [List.mem_cons, not_or] at h
    have hc : c ≠ '>' := fun e => h.1 e.symm
    simp only [commentLoop, hc, if_false]
    split_ifs <;> first | rfl | exact ih _ _ _ h.2

theorem dtdLoop_no_gt (s : List Char) :
    ∀ d text line, d ≠ 0 → '>' ∉ s → (dtdLoop s d text line).kind = .error := by
  induction s with
  | nil => intro d text line hd _; simp [dtdLoop, hd]
  | cons c s ih =>
    intro d text line hd h
    simp only [List.mem_cons, not_or] at h
    have hc : c ≠ '>' := fun e => h.1 e.symm
    simp only [dtdLoop, hc, if_false]
    split_ifs <;> first | exact ih _ _ _ hd h.2 | exact ih _ _ _ (Nat.succ_ne_zero d) h.2

theorem piLoop_no_gt (s : List Char) :
    ∀ text line, '>' ∉ s → (piLoop s text line).kind = .error := by
  induction s with
  | nil => intro text line _; simp [piLoop]
  | cons c s ih =>
    intro text line h
    simp only [List.mem_cons, not_or] at h
    have hc : c ≠ '>' := fun e => h.1 e.symm
    simp only [piLoop, hc, if_false]
    split_ifs <;> first | rfl | exact ih _ _ h.2

theorem endLoop_no_gt (s : List Char) :
    ∀ text line, '>' ∉ s → (endLoop s text line).kind = .error := by
  induction s with
  | nil => intro text line _; simp [endLoop]
  | cons c s ih =>
    intro text line h
    simp only [List.mem_cons, not_or] at h
    have hc : c ≠ '>' := fun e => h.1 e.symm
    simp only [endLoop, hc, if_false]
    split_ifs <;> first | rfl | exact ih _ _ h.2

theorem startLoop_no_gt (s : List Char) :
    ∀ last text line, '>' ∉ s → (startLoop s last text line).kind = .error := by
  induction s with
  | nil => intro last text line _; simp [startLoop]
  | cons c s ih =>
    intro last text line h
    simp only [List.mem_cons, not_or] at h
    have hc : c ≠ '>' := fun e => h.1 e.symm
    simp only [startLoop, hc, if_false]
    split_ifs <;> first | rfl | exact ih _ _ _ h.2

theorem bangBranch_no_gt (s : List Char) (line : Nat) (h : '>' ∉ s) :
    (bangBranch s line).kind = .error := by
  rcases bangBranch_cases s line with ⟨r, e⟩ | ⟨s6, hs, e⟩ | ⟨r, e⟩ | ⟨s1, hs, e⟩ | ⟨_, _, e⟩ <;>
    rw [e]
  · subst hs
    exact cdataLoop_no_gt s6 _ _ _ (fun hm => h (by simp [hm]))
  · subst hs
    exact commentLoop_no_gt s1 _ _ _ (fun hm => h (by simp [hm]))
  · exact dtdLoop_no_gt s 1 _ _ (by decide) h

theorem get_next_token_no_gt (s : List Char) (line : Nat) (hs : s.head? = some '<')
    (hgt : '>' ∉ s) : ∃ t, get_next_token s line = .ok t ∧ t.kind = .error := by
  rcases get_next_token_cases s line with ⟨e0, e⟩ | ⟨_, e⟩ | ⟨s2, e0, e⟩ | ⟨s2, e0, e⟩ |
    ⟨s2, e0, e⟩ | ⟨c2, s2, e0, n1, n2, n3, e⟩ | ⟨c1, s1, e0, n1, e⟩
  · subst e0
    simp at hs
  · exact ⟨_, e, rfl⟩
  · subst e0
    exact ⟨_, e, bangBranch_no_gt s2 line (fun hm => hgt (by simp [hm]))⟩
  · subst e0
    exact ⟨_, e, piLoop_no_gt s2 _ line (fun hm => hgt (by simp [hm]))⟩
  · subst e0
    exact ⟨_, e, endLoop_no_gt s2 _ line (fun hm => hgt (by simp [hm]))⟩
  · subst e0
    exact ⟨_, e, startLoop_no_gt s2 _ _ line (fun hm => hgt (by simp [hm]))⟩
  · subst e0
    simp only [List.head?_cons, Option.some.injEq] at hs
    exact absurd hs n1

theorem loop_error_token (n m fuel : Nat) (st : DState) (hk : st.token_kind = .error) :
    loop n m (fuel + 1) st = ([], .ok { st with seen_fatal_error := true }) := by
  unfold loop
  simp [hk, step]

theorem skipWs_of_not_ws (c : Char) (s : List Char) (line : Nat) (h : isWs c = false) :
    skipWs (c :: s) line = (c :: s, line) := by
  simp [skipWs, h]

/-- C16: on a stream that begins with `<` and holds no `>`, `get_next_token`
returns a token of kind `error`.  Consequently `parse` on such an input calls
`start_document`, then `fatal_error` once on each error handler, then
`end_document`; and when the token loop fetches its next token from such a
stream, that token is an error, the loop is left with the fatal flag set and
without a call, and the statements after the loop call `fatal_error` on each
error handler and `end_document` on each document handler. -/
theorem unterminated_markup_is_error (s : List Char) (hs : s.head? = some '<')
    (hgt : '>' ∉ s) :
    (∀ line, ∃ t, get_next_token s line = .ok t ∧ t.kind = .error) ∧
    (∀ n m, ∃ l, parse noThrow n m s =
      ((forEach n fun i => [Call.doc i .start_document]) ++
        ((forEach m fun i => [Call.err i (.fatal_error l)]) ++
          (forEach n fun i => [Call.doc i .end_document])), .returned)) ∧
    (∀ (n m fuel : Nat) (st : DState), st.input = s →
      ∃ st2, (fetch n st).2 = .ok st2 ∧ st2.token_kind = .error ∧
        loop n m (fuel + 1) st2 = ([], .ok { st2 with seen_fatal_error := true }) ∧
        afterLoop n m { st2 with seen_fatal_error := true } =
          (forEach m fun i => [Call.err i (.fatal_error st2.line_number)]) ++
            (forEach n fun i => [Call.doc i .end_document])) := by
  refine ⟨fun line => get_next_token_no_gt s line hs hgt, ?_, ?_⟩
  · intro n m
    obtain ⟨t, e, k⟩ := get_next_token_no_gt s 1 hs hgt
    refine ⟨t.line, ?_⟩
    obtain ⟨r, rfl⟩ : ∃ r, s = '<' :: r := by
      cases s with
      | nil => simp at hs
      | cons c r =>
        simp only [List.head?_cons, Option.some.injEq] at hs
        exact ⟨r, by rw [hs]⟩
    have hskip : skipWs ('<' :: r) 1 = ('<' :: r, 1) := skipWs_of_not_ws _ _ _ (by decide)
    have hloop : parseLoop n m ('<' :: r) =
        ((forEach n fun i => [Call.doc i .start_document]),
          .ok { input := t.rest, line_number := t.line, tags := [],
                seen_fatal_error := true, seen_root_tag := false, chars_buf := [],
                name := [], token_text := t.text, token_kind := t.kind }) := by
      unfold parseLoop beforeLoop
      simp only [hskip, e]
      rw [loop_error_token n m _ _ k]
      simp
    unfold parse
    simp only [deliver_noThrow, List.nil_append, tryBlock, hloop, afterLoop]
    simp
  · intro n m fuel st hst
    obtain ⟨t, e, k⟩ := get_next_token_no_gt s st.line_number hs hgt
    have hf : ∃ st2, (fetch n st).2 = .ok st2 ∧ st2.token_kind = .error := by
      unfold fetch
      rw [hst, e]
      simp only
      split_ifs
      · exact ⟨_, rfl, k⟩
      · exact ⟨_, rfl, k⟩
    obtain ⟨st2, f1, f2⟩ := hf
    exact ⟨st2, f1, f2, loop_error_token n m fuel st2 f2, by simp [afterLoop]⟩

theorem unterminated_markup_is_error_witness :
    parse noThrow 1 1 "<a><!-- unterminated".toList =
      ([Call.doc 0 .start_document, Call.doc 0 (.start_element 1 ['a'] []),
        Call.err 0 (.fatal_error 1), Call.doc 0 .end_document], .returned) ∧
    ∀ line, ∃ t, get_next_token "<!-- unterminated".toList line = .ok t ∧ t.kind = .error :=
  ⟨by decide!,
   (unterminated_markup_is_error "<!-- unterminated".toList (by decide) (by decide)).1⟩

/-! ## Character data -/

theorem get_next_token_chars (c1 : Char) (s1 : List Char) (line : Nat) (h : c1 ≠ '<') :
    get_next_token (c1 :: s1) line =
      if c1 = LF then charsLoop s1.length s1 [c1] (line + 1)
      else if c1 = '&' then
        match change_entity s1 with
        | (none, s2) => .ok ⟨[], .error, line, s2⟩
        | (some t, s2) => charsLoop s2.length s2 [t] line
      else charsLoop s1.length s1 [c1] line := by
  rcases get_next_token_cases (c1 :: s1) line with ⟨e0, _⟩ | ⟨e0, _⟩ | ⟨s2, e0, _⟩ |
    ⟨s2, e0, _⟩ | ⟨s2, e0, _⟩ | ⟨c2, s2, e0, _⟩ | ⟨c, s, e0, _, e⟩
  · simp at e0
  · simp only [List.cons.injEq] at e0
    exact absurd e0.1 h
  · simp only [List.cons.injEq] at e0
    exact absurd e0.1 h
  · simp only [List.cons.injEq] at e0
    exact absurd e0.1 h
  · simp only [List.cons.injEq] at e0
    exact absurd e0.1 h
  · simp only [List.cons.injEq] at e0
    exact absurd e0.1 h
  · simp only [List.cons.injEq] at e0
    obtain ⟨rfl, rfl⟩ := e0
    exact e

theorem entity_count_LF (e : Str × Char) (he : e ∈ entityTable) : e.1.count LF = 0 := by
  simp only [entityTable, List.mem_cons, List.mem_singleton, List.not_mem_nil, or_false] at he
  rcases he with rfl | rfl | rfl | rfl | rfl <;> decide

theorem entity_decoded_ne_LF (e : Str × Char) (he : e ∈ entityTable) : e.2 ≠ LF := by
  simp only [entityTable, List.mem_cons, List.mem_singleton, List.not_mem_nil, or_false] at he
  rcases he with rfl | rfl | rfl | rfl | rfl <;> decide

theorem source_count_LF (p : Piece) (hp : p.valid) :
    p.source.count LF = if p.decoded = LF then 1 else 0 := by
  cases p with
  | plain c =>
    simp only [Piece.source, Piece.decoded]
    split_ifs with h
    · subst h; rfl
    · simp [List.count_cons, h]
  | entity e =>
    simp only [Piece.source, Piece.decoded, Piece.valid] at hp ⊢
    have h1 := entity_count_LF e hp
    have h2 : e.2 ≠ LF := by
      simp only [entityTable, List.mem_cons, List.mem_singleton, List.not_mem_nil,
        or_false] at hp
      rcases hp with rfl | rfl | rfl | rfl | rfl <;> decide
    rw [List.count_cons, h1, if_neg h2]
    decide

theorem flatMap_source_cons (p : Piece) (ps : List Piece) (tail : List Char) :
    (p :: ps).flatMap Piece.source ++ tail = p.source ++ (ps.flatMap Piece.source ++ tail) := by
  simp

theorem count_source_cons (p : Piece) (ps : List Piece) :
    ((p :: ps).flatMap Piece.source).count LF =
      p.source.count LF + (ps.flatMap Piece.source).count LF := by
  simp [List.count_append]

theorem charsLoop_pieces (tail : List Char) (htail : tail = [] ∨ tail.head? = some '<')
    (ps : List Piece) :
    ∀ fuel text line, (∀ p ∈ ps, p.valid) →
      (ps.flatMap Piece.source ++ tail).length ≤ fuel →
      charsLoop fuel (ps.flatMap Piece.source ++ tail) text line =
        .ok ⟨text ++ ps.map Piece.decoded, .chars,
          line + (ps.flatMap Piece.source).count LF, tail⟩ := by
  induction ps with
  | nil =>
    intro fuel text line _ hfuel
    simp only [List.flatMap_nil, List.nil_append, List.map_nil, List.append_nil,
      List.count_nil, Nat.add_zero] at hfuel ⊢
    rcases htail with rfl | h
    · cases fuel <;> rfl
    · cases tail with
      | nil => simp at h
      | cons c r =>
        simp only [List.head?_cons, Option.some.injEq] at h
        subst h
        cases fuel with
        | zero => simp at hfuel
        | succ f => simp [charsLoop]
  | cons p ps ih =>
    intro fuel text line hv hfuel
    have hvp := hv p (List.mem_cons_self p ps)
    have hvs : ∀ q ∈ ps, q.valid := fun q hq => hv q (List.mem_cons_of_mem p hq)
    rw [flatMap_source_cons] at hfuel ⊢
    rw [count_source_cons, source_count_LF p hvp]
    cases p with
    | plain c =>
      simp only [Piece.valid] at hvp
      simp only [Piece.source, List.singleton_append, List.length_cons, List.map_cons,
        Piece.decoded] at hfuel ⊢
      cases fuel with
      | zero => simp at hfuel
      | succ f =>
        simp only [charsLoop, hvp.1, hvp.2, if_false]
        rw [ih f _ _ hvs (by omega)]
        simp only [Res.ok.injEq, Token.mk.injEq, List.append_assoc, List.singleton_append,
          true_and, and_true]
        split_ifs <;> omega
    | entity e =>
      simp only [Piece.valid] at hvp
      simp only [Piece.source, List.cons_append, List.length_cons, List.length_append,
        List.map_cons, Piece.decoded] at hfuel ⊢
      cases fuel with
      | zero => simp at hfuel
      | succ f =>
        have h1 : ('&' : Char) ≠ '<' := by decide
        have h2 : ('&' : Char) ≠ LF := by decide
        simp only [charsLoop, h1, h2, if_false, if_true,
          ce_some_of e.2 (ps.flatMap Piece.source ++ tail) e hvp rfl]
        rw [ih f _ _ hvs (by simp only [List.length_append]; omega)]
        simp only [Res.ok.injEq, Token.mk.injEq, List.append_assoc, List.singleton_append,
          true_and, and_true, entity_decoded_ne_LF e hvp, if_false]
        omega

/-- C11: on character data made of one or more pieces (characters other than
`<` and `&`, and references to the five predefined entities) followed by `<`
or by the end of the input, `get_next_token` returns a token of kind `chars`
whose text is the pieces with every reference replaced by its character; the
stream is left at the `<` or at its end, and the line counter has advanced by
the number of newlines read. -/
theorem chars_token_decodes_entities (ps : List Piece) (tail : List Char) (line : Nat)
    (hne : ps ≠ []) (hv : ∀ p ∈ ps, p.valid)
    (htail : tail = [] ∨ tail.head? = some '<') :
    get_next_token (ps.flatMap Piece.source ++ tail) line =
      .ok ⟨ps.map Piece.decoded, .chars,
        line + (ps.flatMap Piece.source).count LF, tail⟩ := by
  cases ps with
  | nil => exact absurd rfl hne
  | cons p ps =>
    have hvp := hv p (List.mem_cons_self p ps)
    have hvs : ∀ q ∈ ps, q.valid := fun q hq => hv q (List.mem_cons_of_mem p hq)
    rw [flatMap_source_cons, count_source_cons, source_count_LF p hvp]
    cases p with
    | plain c =>
      simp only [Piece.valid] at hvp
      simp only [Piece.source, List.singleton_append, List.map_cons, Piece.decoded]
      rw [get_next_token_chars c _ line hvp.1]
      simp only [hvp.2, if_false]
      split_ifs with h
      · rw [charsLoop_pieces tail htail ps _ _ _ hvs (Nat.le_refl _)]
        simp only [Res.ok.injEq, Token.mk.injEq, List.singleton_append, true_and, and_true]
        omega
      · rw [charsLoop_pieces tail htail ps _ _ _ hvs (Nat.le_refl _)]
        simp only [Res.ok.injEq, Token.mk.injEq, List.singleton_append, true_and, and_true]
        omega
    | entity e =>
      simp only [Piece.valid] at hvp
      simp only [Piece.source, List.cons_append, List.map_cons, Piece.decoded]
      rw [get_next_token_chars '&' _ line (by decide)]
      have h2 : ('&' : Char) ≠ LF := by decide
      simp only [h2, if_false, if_true,
        ce_some_of e.2 (ps.flatMap Piece.source ++ tail) e hvp rfl]
      rw [charsLoop_pieces tail htail ps _ _ _ hvs (Nat.le_refl _)]
      simp only [Res.ok.injEq, Token.mk.injEq, List.singleton_append, true_and, and_true,
        entity_decoded_ne_LF e hvp, if_false]
      omega

theorem chars_token_decodes_entities_witness :
    get_next_token "&lt;&amp;&gt;</a>".toList 1 =
      .ok ⟨"<&>".toList, .chars, 1, "</a>".toList⟩ :=
  chars_token_decodes_entities
    [.entity (['l', 't', ';'], '<'), .entity (['a', 'm', 'p', ';'], '&'),
      .entity (['g', 't', ';'], '>')]
    "</a>".toList 1 (by simp)
    (by
      intro p hp
      simp only [List.mem_cons, List.mem_singleton, List.not_mem_nil, or_false] at hp
      rcases hp with rfl | rfl | rfl <;> simp [Piece.valid, entityTable])
    (Or.inr rfl)

/-! ## CDATA sections -/

theorem cdataLoop_close (tail : List Char) (text : Str) (line : Nat) :
    cdataLoop (']' :: ']' :: '>' :: tail) 0 text line = ⟨text, .chars_cdata, line, tail⟩ := by
  have h1 : (']' : Char) ≠ '>' := by decide
  have h2 : (']' : Char) ≠ LF := by decide
  have h3 : ('>' : Char) ≠ LF := by decide
  simp [cdataLoop, h1, h2, h3]

theorem cdataLoop_content (tail : List Char) (c : Str) :
    ∀ b text line, (c = [] → b = 0) → c.getLast? ≠ some ']' →
      ¬ ([']', ']', '>'] <:+: List.replicate b ']' ++ c) →
      cdataLoop (c ++ ']' :: ']' :: '>' :: tail) b text line =
        ⟨text ++ c, .chars_cdata, line + c.count LF, tail⟩ := by
  induction c with
  | nil =>
    intro b text line hb _ _
    rw [hb rfl]
    simpa using cdataLoop_close tail text line
  | cons x c ih =>
    intro b text line _ hlast hinf
    simp only [List.cons_append, cdataLoop, List.append_eq]
    have hclose : ¬ (b = 2 ∧ x = '>') := by
      rintro ⟨rfl, rfl⟩
      apply hinf
      exact ⟨[], c, by simp [List.replicate]⟩
    rw [if_neg hclose]
    by_cases hx : x = ']'
    · subst hx
      have hne : c ≠ [] := by
        rintro rfl
        exact hlast rfl
      have hl : c.getLast? ≠ some ']' := by
        cases c with
        | nil => exact absurd rfl hne
        | cons y c1 => simpa [List.getLast?_cons_cons] using hlast
      have hi : ¬ ([']', ']', '>'] <:+: List.replicate (b + 1) ']' ++ c) := by
        rw [List.replicate_succ', List.append_assoc]
        exact hinf
      have h2 : (']' : Char) ≠ LF := by decide
      rw [if_pos rfl, if_neg h2, ih (b + 1) _ _ (fun h => absurd h hne) hl hi]
      simp [List.count_cons, h2]
    · rw [if_neg hx]
      have hl : c.getLast? ≠ some ']' := by
        cases c with
        | nil => simp
        | cons y c1 => simpa [List.getLast?_cons_cons] using hlast
      have hi : ¬ ([']', ']', '>'] <:+: List.replicate 0 ']' ++ c) := by
        intro h
        apply hinf
        refine List.IsInfix.trans h ?_
        simp only [List.replicate_zero, List.nil_append]
        exact (List.suffix_append (List.replicate b ']' ++ [x]) c).isInfix.trans
          (by simp)
      rw [ih 0 _ _ (fun _ => rfl) hl hi]
      simp only [Token.mk.injEq, List.append_assoc, List.singleton_append, List.count_cons,
        beq_iff_eq, true_and, and_true]
      split_ifs <;> omega

/-- C12: `get_next_token` does not close the CDATA section of `<![CDATA[x]]]>`,
whose content `x]` does not hold `]]>`: the third `]` raises `brackets_seen`
to 3 and the token becomes an error at the end of the input.  For every
content that does not hold `]]>` and does not end in `]`, the token has kind
`chars_cdata`, its text is the content verbatim and the stream is left just
after the closing `]]>`. -/
theorem cdata_token_verbatim_unless_ends_in_bracket :
    get_next_token "<![CDATA[x]]]>".toList 1 =
      .ok ⟨"x]]]>".toList ++ [eofChar], .error, 1, []⟩ ∧
    ∀ (c tail : List Char) (line : Nat), ¬ ([']', ']', '>'] <:+: c) →
      c.getLast? ≠ some ']' →
      get_next_token ("<![CDATA[".toList ++ c ++ [']', ']', '>'] ++ tail) line =
        .ok ⟨c, .chars_cdata, line + c.count LF, tail⟩ := by
  refine ⟨by decide, ?_⟩
  intro c tail line hinf hlast
  have e1 : "<![CDATA[".toList ++ c ++ [']', ']', '>'] ++ tail =
      '<' :: '!' :: '[' :: 'C' :: 'D' :: 'A' :: 'T' :: 'A' :: '[' ::
        (c ++ ']' :: ']' :: '>' :: tail) := by
    simp
  rw [e1]
  have e2 : get_next_token ('<' :: '!' :: '[' :: 'C' :: 'D' :: 'A' :: 'T' :: 'A' :: '[' ::
      (c ++ ']' :: ']' :: '>' :: tail)) line =
      .ok (cdataLoop (c ++ ']' :: ']' :: '>' :: tail) 0 [] line) := by
    simp [get_next_token, bangBranch, peek, get]
  rw [e2, cdataLoop_content tail c 0 [] line (fun _ => rfl) hlast (by simpa using hinf)]
  simp

theorem cdata_token_verbatim_unless_ends_in_bracket_witness :
    get_next_token ("<![CDATA[".toList ++ " world".toList ++ [']', ']', '>'] ++
        "!</a>".toList) 1 =
      .ok ⟨" world".toList, .chars_cdata, 1 + " world".toList.count LF, "!</a>".toList⟩ :=
  cdata_token_verbatim_unless_ends_in_bracket.2 " world".toList "!</a>".toList 1
    (by decide) (by decide)

/-! ## The line counter -/

theorem count_LF_cons (c : Char) (l : List Char) :
    (c :: l).count LF = (if c = LF then 1 else 0) + l.count LF := by
  rw [List.count_cons]
  by_cases h : c = LF
  · subst h
    simp
    omega
  · simp [h]

theorem cdataLoop_line (s : List Char) :
    ∀ b text line, ∃ pre, s = pre ++ (cdataLoop s b text line).rest ∧
      (cdataLoop s b text line).line = line + pre.count LF := by
  induction s with
  | nil => intro b text line; exact ⟨[], by simp [cdataLoop]⟩
  | cons c s ih =>
    intro b text line
    simp only [cdataLoop]
    by_cases h1 : b = 2 ∧ c = '>'
    · rw [if_pos h1]
      exact ⟨[c], by simp, by rw [count_LF_cons]; split_ifs <;> simp⟩
    · rw [if_neg h1]
      by_cases h2 : c = ']'
      · rw [if_pos h2]
        obtain ⟨pre, e1, e2⟩ := ih (b + 1) (text ++ [c]) (if c = LF then line + 1 else line)
        exact ⟨c :: pre, by rw [List.cons_append, ← e1],
          by rw [e2, count_LF_cons]; split_ifs <;> omega⟩
      · rw [if_neg h2]
        obtain ⟨pre, e1, e2⟩ := ih 0 (text ++ [c]) (if c = LF then line + 1 else line)
        exact ⟨c :: pre, by rw [List.cons_append, ← e1],
          by rw [e2, count_LF_cons]; split_ifs <;> omega⟩

theorem commentLoop_line (s : List Char) :
    ∀ k text line, ∃ pre, s = pre ++ (commentLoop s k text line).rest ∧
      (commentLoop s k text line).line = line + pre.count LF := by
  induction s with
  | nil => intro k text line; exact ⟨[], by simp [commentLoop]⟩
  | cons c s ih =>
    intro k text line
    simp only [commentLoop]
    by_cases h1 : k = 2
    · rw [if_pos h1]
      by_cases h2 : c = '>'
      · rw [if_pos h2]
        exact ⟨[c], by simp, by rw [count_LF_cons]; split_ifs <;> simp⟩
      · rw [if_neg h2]
        exact ⟨[c], by simp, by rw [count_LF_cons]; split_ifs <;> simp⟩
    · rw [if_neg h1]
      by_cases h2 : c = '-'
      · rw [if_pos h2]
        obtain ⟨pre, e1, e2⟩ := ih (k + 1) (text ++ [c]) (if c = LF then line + 1 else line)
        exact ⟨c :: pre, by rw [List.cons_append, ← e1],
          by rw [e2, count_LF_cons]; split_ifs <;> omega⟩
      · rw [if_neg h2]
        obtain ⟨pre, e1, e2⟩ := ih 0 (text ++ [c]) (if c = LF then line + 1 else line)
        exact ⟨c :: pre, by rw [List.cons_append, ← e1],
          by rw [e2, count_LF_cons]; split_ifs <;> omega⟩

theorem dtdLoop_line (s : List Char) :
    ∀ d text line, ∃ pre, s = pre ++ (dtdLoop s d text line).rest ∧
      (dtdLoop s d text line).line = line + pre.count LF := by
  induction s with
  | nil => intro d text line; exact ⟨[], by simp [dtdLoop]⟩
  | cons c s ih =>
    intro d text line
    simp only [dtdLoop]
    by_cases h1 : c = '>'
    · have hl : c ≠ LF := by rw [h1]; decide
      rw [if_pos h1]
      by_cases h2 : d - 1 > 0
      · rw [if_pos h2]
        obtain ⟨pre, e1, e2⟩ := ih (d - 1) (text ++ [c]) line
        exact ⟨c :: pre, by rw [List.cons_append, ← e1],
          by rw [e2, count_LF_cons, if_neg hl]; omega⟩
      · rw [if_neg h2]
        exact ⟨[c], by simp, by rw [count_LF_cons, if_neg hl]; simp⟩
    · rw [if_neg h1]
      by_cases h2 : c = '<'
      · have hl : c ≠ LF := by rw [h2]; decide
        rw [if_pos h2]
        obtain ⟨pre, e1, e2⟩ := ih (d + 1) (text ++ [c]) line
        exact ⟨c :: pre, by rw [List.cons_append, ← e1],
          by rw [e2, count_LF_cons, if_neg hl]; omega⟩
      · rw [if_neg h2]
        by_cases h3 : c = LF
        · rw [if_pos h3]
          obtain ⟨pre, e1, e2⟩ := ih d (text ++ [c]) (line + 1)
          exact ⟨c :: pre, by rw [List.cons_append, ← e1],
            by rw [e2, count_LF_cons, if_pos h3]; omega⟩
        · rw [if_neg h3]
          obtain ⟨pre, e1, e2⟩ := ih d (text ++ [c]) line
          exact ⟨c :: pre, by rw [List.cons_append, ← e1],
            by rw [e2, count_LF_cons, if_neg h3]; omega⟩

theorem piLoop_line (s : List Char) :
    ∀ text line, ∃ pre, s = pre ++ (piLoop s text line).rest ∧
      (piLoop s text line).line = line + pre.count LF := by
  induction s with
  | nil => intro text line; exact ⟨[], by simp [piLoop]⟩
  | cons c s ih =>
    intro text line
    simp only [piLoop]
    by_cases h1 : c = LF
    · rw [if_pos h1]
      obtain ⟨pre, e1, e2⟩ := ih (text ++ [c]) (line + 1)
      exact ⟨c :: pre, by rw [List.cons_append, ← e1],
        by rw [e2, count_LF_cons, if_pos h1]; omega⟩
    · rw [if_neg h1]
      by_cases h2 : c = '<'
      · rw [if_pos h2]
        exact ⟨[c], by simp, by rw [count_LF_cons, if_neg h1]; simp⟩
      · rw [if_neg h2]
        by_cases h3 : c = '>'
        · rw [if_pos h3]
          split_ifs <;> exact ⟨[c], by simp, by rw [count_LF_cons, if_neg h1]; simp⟩
        · rw [if_neg h3]
          obtain ⟨pre, e1, e2⟩ := ih (text ++ [c]) line
          exact ⟨c :: pre, by rw [List.cons_append, ← e1],
            by rw [e2, count_LF_cons, if_neg h1]; omega⟩

theorem endLoop_line (s : List Char) :
    ∀ text line, ∃ pre, s = pre ++ (endLoop s text line).rest ∧
      (endLoop s text line).line = line + pre.count LF := by
  induction s with
  | nil => intro text line; exact ⟨[], by simp [endLoop]⟩
  | cons c s ih =>
    intro text line
    simp only [endLoop]
    by_cases h1 : c = LF
    · rw [if_pos h1]
      obtain ⟨pre, e1, e2⟩ := ih (text ++ [c]) (line + 1)
      exact ⟨c :: pre, by rw [List.cons_append, ← e1],
        by rw [e2, count_LF_cons, if_pos h1]; omega⟩
    · rw [if_neg h1]
      by_cases h2 : c = '<'
      · rw [if_pos h2]
        exact ⟨[c], by simp, by rw [count_LF_cons, if_neg h1]; simp⟩
      · rw [if_neg h2]
        by_cases h3 : c = '>'
        · rw [if_pos h3]
          exact ⟨[c], by simp, by rw [count_LF_cons, if_neg h1]; simp⟩
        · rw [if_neg h3]
          obtain ⟨pre, e1, e2⟩ := ih (text ++ [c]) line
          exact ⟨c :: pre, by rw [List.cons_append, ← e1],
            by rw [e2, count_LF_cons, if_neg h1]; omega⟩

theorem startLoop_line (s : List Char) :
    ∀ last text line, ∃ pre, s = pre ++ (startLoop s last text line).rest ∧
      (startLoop s last text line).line = line + pre.count LF := by
  induction s with
  | nil => intro last text line; exact ⟨[], by simp [startLoop]⟩
  | cons c s ih =>
    intro last text line
    simp only [startLoop]
    by_cases h1 : c = LF
    · rw [if_pos h1]
      obtain ⟨pre, e1, e2⟩ := ih c (text ++ [c]) (line + 1)
      exact ⟨c :: pre, by rw [List.cons_append, ← e1],
        by rw [e2, count_LF_cons, if_pos h1]; omega⟩
    · rw [if_neg h1]
      by_cases h2 : c = '<'
      · rw [if_pos h2]
        exact ⟨[c], by simp, by rw [count_LF_cons, if_neg h1]; simp⟩
      · rw [if_neg h2]
        by_cases h3 : c = '>'
        · rw [if_pos h3]
          exact ⟨[c], by simp, by rw [count_LF_cons, if_neg h1]; simp⟩
        · rw [if_neg h3]
          obtain ⟨pre, e1, e2⟩ := ih c (text ++ [c]) line
          exact ⟨c :: pre, by rw [List.cons_append, ← e1],
            by rw [e2, count_LF_cons, if_neg h1]; omega⟩

theorem charsLoop_line (fuel : Nat) :
    ∀ s text line t, charsLoop fuel s text line = .ok t → t.kind ≠ .error →
      ∃ pre, s = pre ++ t.rest ∧ t.line = line + pre.count LF := by
  induction fuel with
  | zero =>
    intro s text line t h _
    cases s with
    | nil =>
      simp only [charsLoop, Res.ok.injEq] at h
      subst h
      exact ⟨[], by simp⟩
    | cons c s => simp [charsLoop] at h
  | succ fuel ih =>
    intro s text line t h hk
    cases s with
    | nil =>
      simp only [charsLoop, Res.ok.injEq] at h
      subst h
      exact ⟨[], by simp⟩
    | cons c s =>
      simp only [charsLoop] at h
      by_cases h1 : c = '<'
      · rw [if_pos h1] at h
        simp only [Res.ok.injEq] at h
        subst h
        exact ⟨[], by simp⟩
      · rw [if_neg h1] at h
        by_cases h2 : c = '&'
        · have hl : c ≠ LF := by rw [h2]; decide
          rw [if_pos h2, if_neg hl] at h
          rcases hce : change_entity s with ⟨o, s1⟩
          rw [hce] at h
          cases o with
          | none =>
            simp only [Res.ok.injEq] at h
            subst h
            exact absurd rfl hk
          | some x =>
            simp only at h
            obtain ⟨e, he, _, hs⟩ := ce_some_imp s x s1 hce
            obtain ⟨pre, e1, e2⟩ := ih _ _ _ _ h hk
            refine ⟨c :: (e.1 ++ pre), ?_, ?_⟩
            · rw [hs, e1]
              simp
            · rw [e2, count_LF_cons, if_neg hl, List.count_append, entity_count_LF e he]
              omega
        · rw [if_neg h2] at h
          obtain ⟨pre, e1, e2⟩ := ih _ _ _ _ h hk
          exact ⟨c :: pre, by rw [List.cons_append, ← e1],
            by rw [e2, count_LF_cons]; split_ifs <;> omega⟩

theorem markup_chars_ne_LF :
    ('<' : Char) ≠ LF ∧ ('!' : Char) ≠ LF ∧ ('?' : Char) ≠ LF ∧ ('/' : Char) ≠ LF ∧
      ('[' : Char) ≠ LF ∧ ('-' : Char) ≠ LF ∧ ('C' : Char) ≠ LF ∧ ('D' : Char) ≠ LF ∧
      ('A' : Char) ≠ LF ∧ ('T' : Char) ≠ LF := by
  decide

theorem bangBranch_line (s : List Char) (line : Nat) (hk : (bangBranch s line).kind ≠ .error) :
    ∃ pre, s = pre ++ (bangBranch s line).rest ∧
      (bangBranch s line).line = line + pre.count LF := by
  rcases bangBranch_cases s line with ⟨r, e⟩ | ⟨s6, hs, e⟩ | ⟨r, e⟩ | ⟨s1, hs, e⟩ | ⟨_, _, e⟩
  · rw [e] at hk
    exact absurd rfl hk
  · rw [e]
    obtain ⟨pre, e1, e2⟩ := cdataLoop_line s6 0 [] line
    refine ⟨'[' :: 'C' :: 'D' :: 'A' :: 'T' :: 'A' :: '[' :: pre, ?_, ?_⟩
    · rw [hs]
      simp only [List.cons_append, List.cons.injEq, true_and]
      exact e1
    · rw [e2]
      obtain ⟨f1, f2, f3, f4, f5, f6, f7, f8, f9, f10⟩ := markup_chars_ne_LF
      simp [count_LF_cons, f1, f2, f3, f4, f5, f6, f7, f8, f9, f10]
  · rw [e] at hk
    exact absurd rfl hk
  · rw [e]
    obtain ⟨pre, e1, e2⟩ := commentLoop_line s1 0 ['<', '!', '-', '-'] line
    refine ⟨'-' :: '-' :: pre, ?_, ?_⟩
    · rw [hs]
      simp only [List.cons_append, List.cons.injEq, true_and]
      exact e1
    · rw [e2]
      obtain ⟨f1, f2, f3, f4, f5, f6, f7, f8, f9, f10⟩ := markup_chars_ne_LF
      simp [count_LF_cons, f1, f2, f3, f4, f5, f6, f7, f8, f9, f10]
  · rw [e]
    exact dtdLoop_line s 1 ['<', '!'] line

/-- C15: `get_next_token` does not count a newline that directly follows `<`:
on the stream `<`, newline, `>` it returns an `element_start` token and
leaves the line counter at 1 although it has read one newline.  For every
token other than an error token, the stream splits into the characters read
and the rest, and the line counter has advanced by the number of newlines
read, less one when the stream begins with `<` followed by a newline. -/
theorem line_counter_misses_newline_after_lt :
    get_next_token ['<', LF, '>'] 1 = .ok ⟨['<', LF, '>'], .element_start, 1, []⟩ ∧
    ∀ (s : List Char) (line : Nat) (t : Token), get_next_token s line = .ok t →
      t.kind ≠ .error →
      ∃ pre, s = pre ++ t.rest ∧
        t.line + (if s.take 2 = ['<', LF] then 1 else 0) = line + pre.count LF := by
  refine ⟨by decide, ?_⟩
  intro s line t h hk
  rcases get_next_token_cases s line with ⟨e0, e⟩ | ⟨_, e⟩ | ⟨s2, e0, e⟩ | ⟨s2, e0, e⟩ |
    ⟨s2, e0, e⟩ | ⟨c2, s2, e0, n1, n2, n3, e⟩ | ⟨c1, s1, e0, n1, e⟩
  · rw [e] at h
    simp only [Res.ok.injEq] at h
    subst h e0
    exact ⟨[], by simp⟩
  · rw [e] at h
    simp only [Res.ok.injEq] at h
    subst h
    exact absurd rfl hk
  · rw [e] at h
    simp only [Res.ok.injEq] at h
    subst h e0
    obtain ⟨pre, e1, e2⟩ := bangBranch_line s2 line hk
    refine ⟨'<' :: '!' :: pre, ?_, ?_⟩
    · simp only [List.cons_append, List.cons.injEq, true_and]
      exact e1
    · rw [e2]
      obtain ⟨f1, f2, f3, f4, f5, f6, f7, f8, f9, f10⟩ := markup_chars_ne_LF
      simp [count_LF_cons, f1, f2, f3, f4, f5, f6, f7, f8, f9, f10]
  · rw [e] at h
    simp only [Res.ok.injEq] at h
    subst h e0
    obtain ⟨pre, e1, e2⟩ := piLoop_line s2 ['<', '?'] line
    refine ⟨'<' :: '?' :: pre, ?_, ?_⟩
    · simp only [List.cons_append, List.cons.injEq, true_and]
      exact e1
    · rw [e2]
      obtain ⟨f1, f2, f3, f4, f5, f6, f7, f8, f9, f10⟩ := markup_chars_ne_LF
      simp [count_LF_cons, f1, f2, f3, f4, f5, f6, f7, f8, f9, f10]
  · rw [e] at h
    simp only [Res.ok.injEq] at h
    subst h e0
    obtain ⟨pre, e1, e2⟩ := endLoop_line s2 ['<', '/'] line
    refine ⟨'<' :: '/' :: pre, ?_, ?_⟩
    · simp only [List.cons_append, List.cons.injEq, true_and]
      exact e1
    · rw [e2]
      obtain ⟨f1, f2, f3, f4, f5, f6, f7, f8, f9, f10⟩ := markup_chars_ne_LF
      simp [count_LF_cons, f1, f2, f3, f4, f5, f6, f7, f8, f9, f10]
  · rw [e] at h
    simp only [Res.ok.injEq] at h
    subst h e0
    obtain ⟨pre, e1, e2⟩ := startLoop_line s2 NUL ['<', c2] line
    refine ⟨'<' :: c2 :: pre, ?_, ?_⟩
    · simp only [List.cons_append, List.cons.injEq, true_and]
      exact e1
    · rw [e2]
      simp only [count_LF_cons, List.take_succ_cons, List.take_zero, List.cons.injEq,
        and_true, true_and]
      have h0 : ('<' : Char) ≠ LF := by decide
      simp only [h0, if_false]
      split_ifs <;> omega
  · rw [e] at h
    subst e0
    have htake : ¬ ((c1 :: s1).take 2 = ['<', LF]) := by
      intro ht
      cases s1 with
      | nil => simp at ht
      | cons a r =>
        simp only [List.take_succ_cons, List.take_zero, List.cons.injEq, and_true] at ht
        exact n1 ht.1
    rw [if_neg htake]
    by_cases h1 : c1 = LF
    · rw [if_pos h1] at h
      obtain ⟨pre, e1, e2⟩ := charsLoop_line _ _ _ _ _ h hk
      exact ⟨c1 :: pre, by rw [List.cons_append, ← e1],
        by rw [e2, count_LF_cons, if_pos h1]; omega⟩
    · rw [if_neg h1] at h
      by_cases h2 : c1 = '&'
      · rw [if_pos h2] at h
        rcases hce : change_entity s1 with ⟨o, s2⟩
        rw [hce] at h
        cases o with
        | none =>
          simp only [Res.ok.injEq] at h
          subst h
          exact absurd rfl hk
        | some x =>
          simp only at h
          obtain ⟨en, he, _, hs⟩ := ce_some_imp s1 x s2 hce
          obtain ⟨pre, e1, e2⟩ := charsLoop_line _ _ _ _ _ h hk
          refine ⟨c1 :: (en.1 ++ pre), ?_, ?_⟩
          · rw [hs, e1]
            simp
          · rw [e2, count_LF_cons, if_neg h1, List.count_append, entity_count_LF en he]
            omega
      · rw [if_neg h2] at h
        obtain ⟨pre, e1, e2⟩ := charsLoop_line _ _ _ _ _ h hk
        exact ⟨c1 :: pre, by rw [List.cons_append, ← e1],
          by rw [e2, count_LF_cons, if_neg h1]; omega⟩

theorem line_counter_misses_newline_after_lt_witness :
    ∃ pre, "<!--\n-->x".toList = pre ++ ['x'] ∧
      2 + (if "<!--\n-->x".toList.take 2 = ['<', LF] then 1 else 0) = 1 + pre.count LF :=
  line_counter_misses_newline_after_lt.2 "<!--\n-->x".toList 1
    ⟨"<!--\n-->".toList, .comment, 2, ['x']⟩ (by decide) (by decide)

/-! ## Scanning loops of the structural parsers -/

theorem scanWhile_stop (p : Char → Bool) (cur : List Char) (ch : Char) (acc : Str)
    (h : p ch = false) : scanWhile p cur ch acc = .ok (ch, cur, acc) := by
  cases cur <;> simp [scanWhile, h]

/-- A scanning loop positioned on the run `r`, all of whose characters satisfy
the loop condition, followed by a character `y` that does not, reads `r` and
stops at `y`. -/
theorem scanWhile_list (p : Char → Bool) (y : Char) (rest : List Char)
    (hy : p y = false) (r : Str) :
    ∀ (ch : Char) (cur : List Char) (acc : Str), (∀ c ∈ r, p c = true) →
      ch :: cur = r ++ y :: rest →
      scanWhile p cur ch acc = .ok (y, rest, acc ++ r) := by
  induction r with
  | nil =>
    intro ch cur acc _ h
    simp only [List.nil_append, List.cons.injEq] at h
    obtain ⟨rfl, rfl⟩ := h
    simpa using scanWhile_stop p cur ch acc hy
  | cons x r ih =>
    intro ch cur acc hr h
    simp only [List.cons_append, List.cons.injEq] at h
    obtain ⟨rfl, rfl⟩ := h
    have hx : p ch = true := hr ch (List.mem_cons_self ch r)
    obtain ⟨c, cur1, hc⟩ : ∃ c cur1, c :: cur1 = r ++ y :: rest := by
      cases r with
      | nil => exact ⟨y, rest, rfl⟩
      | cons a r1 => exact ⟨a, r1 ++ y :: rest, rfl⟩
    rw [← hc]
    simp only [scanWhile, hx, if_true]
    rw [ih c cur1 (acc ++ [ch]) (fun c1 h1 => hr c1 (List.mem_cons_of_mem ch h1)) hc]
    simp

theorem next_cons (c : Char) (cur : List Char) : next (c :: cur) = .ok (c, cur) := rfl

/-- The first character of whitespace followed by `y` is a whitespace
character, or `y` itself when there is no whitespace. -/
theorem ws_head (w : Str) (hw : allWs w) (y : Char) (rest : List Char) :
    ∃ c cur, c :: cur = w ++ y :: rest ∧ ((isWs c = true ∧ w ≠ []) ∨ (c = y ∧ w = [])) := by
  cases w with
  | nil => exact ⟨y, rest, rfl, Or.inr ⟨rfl, rfl⟩⟩
  | cons a w1 =>
    exact ⟨a, w1 ++ y :: rest, rfl, Or.inl ⟨hw a (List.mem_cons_self a w1), by simp⟩⟩

theorem isWs_not_attName {c : Char} (h : isWs c = true) : isAttNameChar c = false := by
  simp only [isWs, Bool.or_eq_true, beq_iff_eq] at h
  rcases h with ((rfl | rfl) | rfl) | rfl <;> decide

theorem isWs_not_name {c : Char} (h : isWs c = true) : isNameChar c = false := by
  simp only [isWs, Bool.or_eq_true, beq_iff_eq] at h
  rcases h with ((rfl | rfl) | rfl) | rfl <;> decide

theorem attName_not_ws {c : Char} (h : isAttNameChar c = true) : isWs c = false := by
  cases hw : isWs c with
  | false => rfl
  | true => rw [isWs_not_attName hw] at h; exact absurd h (by simp)

theorem is_in_domain_iff (atts : List (Str × Str)) (key : Str) :
    is_in_domain atts key = true ↔ key ∈ atts.map Prod.fst := by
  simp only [is_in_domain, List.any_eq_true, beq_iff_eq, List.mem_map]

/-- One round of the attribute loop of `parse_element`: positioned on the name
of a well-formed attribute that is followed by whitespace `w` and a character
`y` that is not whitespace (with `w` not empty unless `y` is `>` or `/`), the
loop returns `-1` if the name is already in the list, and otherwise goes on at
`y` with the pair added to the list. -/
theorem attLoop_step (fuel : Nat) (a : Att) (ha : a.wellFormed) (w : Str) (hw : allWs w)
    (y : Char) (rest : List Char) (hy : isWs y = false)
    (hwy : w ≠ [] ∨ y = '>' ∨ y = '/') (ch : Char) (cur : List Char)
    (acc : List (Str × Str)) (hcur : ch :: cur = a.core ++ w ++ y :: rest) :
    attLoop (fuel + 1) cur ch acc =
      if is_in_domain acc a.k = true then .ok (-1, acc)
      else attLoop fuel rest y (acc ++ [a.pair]) := by
  obtain ⟨_, _, hk, hkc, hkh, hw1, hw2, hq, hv⟩ := ha
  -- the stream, piece by piece
  have e0 : a.core ++ w ++ y :: rest =
      a.k ++ (a.ws1 ++ '=' :: (a.ws2 ++ a.q :: (a.v ++ a.q :: (w ++ y :: rest)))) := by
    simp [Att.core]
  rw [e0] at hcur
  obtain ⟨k0, ks, hks⟩ : ∃ k0 ks, a.k = k0 :: ks := by
    cases hak : a.k with
    | nil => exact absurd hak hk
    | cons k0 ks => exact ⟨k0, ks, rfl⟩
  have hch : ch = k0 := by
    rw [hks] at hcur
    simp only [List.cons_append, List.cons.injEq] at hcur
    exact hcur.1
  have hk0 : isAttNameChar k0 = true := hkc k0 (by rw [hks]; exact List.mem_cons_self _ _)
  have hne : ¬ (ch = '>' ∨ ch = '/') := by
    rw [hch]
    rintro (h | h)
    · rw [h] at hk0
      exact absurd hk0 (by decide)
    · apply hkh
      rw [hks, h]
      rfl
  obtain ⟨y1, r1, h1, h1c⟩ := ws_head a.ws1 hw1 '='
    (a.ws2 ++ a.q :: (a.v ++ a.q :: (w ++ y :: rest)))
  have hy1 : isAttNameChar y1 = false := by
    rcases h1c with ⟨h, _⟩ | ⟨h, _⟩
    · exact isWs_not_attName h
    · rw [h]; decide
  have hy1gt : y1 ≠ '>' := by
    rcases h1c with ⟨h, _⟩ | ⟨h, _⟩
    · intro e; rw [e] at h; exact absurd h (by decide)
    · rw [h]; decide
  have s1 : scanWhile isAttNameChar cur ch [] = .ok (y1, r1, a.k) := by
    have := scanWhile_list isAttNameChar y1 r1 hy1 a.k ch cur [] hkc (by rw [hcur, h1])
    simpa using this
  have s2 : scanWhile isWs r1 y1 [] =
      .ok ('=', a.ws2 ++ a.q :: (a.v ++ a.q :: (w ++ y :: rest)), a.ws1) := by
    have := scanWhile_list isWs '=' (a.ws2 ++ a.q :: (a.v ++ a.q :: (w ++ y :: rest)))
      (by decide) a.ws1 y1 r1 [] hw1 h1
    simpa using this
  obtain ⟨y3, r3, h3, _⟩ := ws_head a.ws2 hw2 a.q (a.v ++ a.q :: (w ++ y :: rest))
  have hqws : isWs a.q = false := by
    rcases hq with h | h <;> rw [h] <;> decide
  have s4 : scanWhile isWs r3 y3 [] = .ok (a.q, a.v ++ a.q :: (w ++ y :: rest), a.ws2) := by
    have := scanWhile_list isWs a.q (a.v ++ a.q :: (w ++ y :: rest)) hqws a.ws2 y3 r3 []
      hw2 h3
    simpa using this
  obtain ⟨y5, r5, h5⟩ : ∃ y5 r5, y5 :: r5 = a.v ++ a.q :: (w ++ y :: rest) := by
    cases a.v with
    | nil => exact ⟨_, _, rfl⟩
    | cons x xs => exact ⟨_, _, rfl⟩
  have s6 : scanWhile (fun c => c != a.q && c != '>') r5 y5 [] =
      .ok (a.q, w ++ y :: rest, a.v) := by
    have := scanWhile_list (fun c => c != a.q && c != '>') a.q (w ++ y :: rest) (by simp)
      a.v y5 r5 [] (by
        intro c hc
        have := hv c hc
        simp [this.1, this.2]) h5
    simpa using this
  obtain ⟨y7, r7, h7, h7c⟩ := ws_head w hw y rest
  have hy7 : ¬ (y7 ≠ '>' ∧ y7 ≠ ' ' ∧ y7 ≠ '/' ∧ y7 ≠ TAB ∧ y7 ≠ LF ∧ y7 ≠ CR) := by
    rintro ⟨g1, g2, g3, g4, g5, g6⟩
    rcases h7c with ⟨h, _⟩ | ⟨h, hwn⟩
    · simp only [isWs, Bool.or_eq_true, beq_iff_eq] at h
      tauto
    · rcases hwy with h' | h' | h'
      · exact h' hwn
      · exact g1 (h.trans h')
      · exact g3 (h.trans h')
  have s8 : scanWhile isWs r7 y7 [] = .ok (y, rest, w) := by
    have := scanWhile_list isWs y rest hy w y7 r7 [] hw h7
    simpa using this
  have hqgt : a.q ≠ '>' := by
    rcases hq with h | h <;> rw [h] <;> decide
  have hlen : a.k.length ≠ 0 := by
    rw [hks]
    simp
  have hdel : ¬ (a.q ≠ APOS ∧ a.q ≠ QUOT) := by
    rintro ⟨g1, g2⟩
    rcases hq with h | h
    · exact g1 h
    · exact g2 h
  conv_lhs => unfold attLoop
  rw [if_neg hne]
  simp only [s1, Res.bind, hlen, if_false, hy1gt, s2, ne_eq, not_true_eq_false]
  rw [← h3]
  simp only [next_cons, s4]
  rw [← h5]
  simp only [next_cons, hdel, if_false, s6, hqgt]
  rw [← h7]
  simp only [next_cons, hy7, if_false, s8, Att.pair]

theorem attLoop_done (fuel : Nat) (cur : List Char) (c0 : Char) (acc : List (Str × Str))
    (h : c0 = '>' ∨ c0 = '/') : attLoop fuel cur c0 acc = .ok (0, acc) := by
  unfold attLoop
  rw [if_pos h]

theorem core_head (a : Att) (ha : a.wellFormed) (x : List Char) :
    ∃ y rest, y :: rest = a.core ++ x ∧ isWs y = false := by
  obtain ⟨_, _, hk, hkc, _⟩ := ha
  cases hak : a.k with
  | nil => exact absurd hak hk
  | cons k0 ks =>
    refine ⟨k0, ks ++ (a.ws1 ++ '=' :: a.ws2 ++ a.q :: a.v ++ [a.q]) ++ x, ?_, ?_⟩
    · simp [Att.core, hak]
    · exact attName_not_ws (hkc k0 (by rw [hak]; exact List.mem_cons_self _ _))

/-- The attribute loop of `parse_element` on a sequence of well-formed
attributes followed by whitespace and `>` or `/`: it ends with status `0`
exactly when no name occurs twice (nor is in the list already), and then the
list has grown by the pairs in order; otherwise it ends with `-1`. -/
theorem attLoop_atts (wsEnd : Str) (hws : allWs wsEnd) (c0 : Char) (rest0 : List Char)
    (hc0 : c0 = '>' ∨ c0 = '/') (as : List Att) :
    ∀ (a : Att) (acc : List (Str × Str)) (fuel : Nat) (ch : Char) (cur : List Char),
      as.length + 1 ≤ fuel → a.wellFormed → (∀ b ∈ as, b.wellFormed) →
      ch :: cur = a.core ++ (as.flatMap Att.source ++ (wsEnd ++ c0 :: rest0)) →
      (acc.map Prod.fst).Nodup →
      ∃ st atts1, attLoop fuel cur ch acc = .ok (st, atts1) ∧ (st = 0 ∨ st = -1) ∧
        (st = 0 ↔ (acc.map Prod.fst ++ (a :: as).map Att.k).Nodup) ∧
        (st = 0 → atts1 = acc ++ (a :: as).map Att.pair) := by
  have hc0ws : isWs c0 = false := by
    rcases hc0 with h | h <;> rw [h] <;> decide
  induction as with
  | nil =>
    intro a acc fuel ch cur hfuel ha _ hcur hacc
    obtain ⟨f, rfl⟩ : ∃ f, fuel = f + 1 := ⟨fuel - 1, by omega⟩
    have hstep := attLoop_step f a ha wsEnd hws c0 rest0 hc0ws (Or.inr hc0) ch cur acc
      (by rw [hcur]; simp)
    rw [hstep]
    by_cases hd : is_in_domain acc a.k = true
    · rw [if_pos hd]
      refine ⟨-1, acc, rfl, Or.inr rfl, ?_, by intro h; exact absurd h (by decide)⟩
      constructor
      · intro h; exact absurd h (by decide)
      · intro h
        exfalso
        rw [List.nodup_append] at h
        exact h.2.2 ((is_in_domain_iff acc a.k).1 hd) (by simp)
    · rw [if_neg hd, attLoop_done f rest0 c0 _ hc0]
      refine ⟨0, _, rfl, Or.inl rfl, ?_, by intro _; simp⟩
      simp only [true_iff]
      rw [List.nodup_append]
      refine ⟨hacc, by simp, ?_⟩
      intro x hx hx2
      simp only [List.map_cons, List.map_nil, List.mem_singleton] at hx2
      subst hx2
      exact hd ((is_in_domain_iff acc _).2 hx)
  | cons b bs ih =>
    intro a acc fuel ch cur hfuel ha has hcur hacc
    obtain ⟨f, rfl⟩ : ∃ f, fuel = f + 1 := ⟨fuel - 1, by omega⟩
    have hb := has b (List.mem_cons_self b bs)
    have hbs : ∀ x ∈ bs, x.wellFormed := fun x hx => has x (List.mem_cons_of_mem b hx)
    obtain ⟨y, rest, hy, hyws⟩ := core_head b hb (bs.flatMap Att.source ++ (wsEnd ++ c0 :: rest0))
    have hstep := attLoop_step f a ha b.ws hb.2.1 y rest hyws (Or.inl hb.1) ch cur acc
      (by rw [hcur, hy]; simp [Att.source])
    rw [hstep]
    by_cases hd : is_in_domain acc a.k = true
    · rw [if_pos hd]
      refine ⟨-1, acc, rfl, Or.inr rfl, ?_, by intro h; exact absurd h (by decide)⟩
      constructor
      · intro h; exact absurd h (by decide)
      · intro h
        exfalso
        rw [List.nodup_append] at h
        exact h.2.2 ((is_in_domain_iff acc a.k).1 hd) (by simp)
    · rw [if_neg hd]
      have hacc1 : ((acc ++ [a.pair]).map Prod.fst).Nodup := by
        rw [List.map_append, List.nodup_append]
        refine ⟨hacc, by simp, ?_⟩
        intro x hx hx2
        simp only [List.map_cons, List.map_nil, List.mem_singleton, Att.pair] at hx2
        subst hx2
        exact hd ((is_in_domain_iff acc _).2 hx)
      obtain ⟨st, atts1, e1, e2, e3, e4⟩ :=
        ih b (acc ++ [a.pair]) f y rest (by simp only [List.length_cons] at hfuel; omega)
          hb hbs hy hacc1
      refine ⟨st, atts1, e1, e2, ?_, ?_⟩
      · rw [e3]
        simp [Att.pair]
      · intro h
        rw [e4 h]
        simp

theorem atts_length_le (as : List Att) (h : ∀ a ∈ as, a.wellFormed) :
    as.length ≤ (as.flatMap Att.source).length := by
  induction as with
  | nil => simp
  | cons a as ih =>
    have ha := h a (List.mem_cons_self a as)
    have hlen : 1 ≤ a.source.length := by
      have : a.ws ≠ [] := ha.1
      cases hw : a.ws with
      | nil => exact absurd hw this
      | cons x xs => simp [Att.source, hw]
    have := ih (fun b hb => h b (List.mem_cons_of_mem a hb))
    simp only [List.length_cons, List.flatMap_cons, List.length_append]
    omega

/-- Function `parse_element` on a tag made of `<`, a name, well-formed
attributes, whitespace and `>` or `/` (whatever follows): the name is
returned, the status is `0` exactly when no attribute name occurs twice, and
then the list holds the pairs in order; otherwise the status is `-1`. -/
theorem parse_element_tag (n : Str) (atts : List Att) (wsEnd : Str) (c0 : Char)
    (rest0 : List Char) (hn : n ≠ []) (hnc : ∀ c ∈ n, isNameChar c = true)
    (hatts : ∀ a ∈ atts, a.wellFormed) (hws : allWs wsEnd) (hc0 : c0 = '>' ∨ c0 = '/') :
    ∃ r, parse_element ('<' :: n ++ atts.flatMap Att.source ++ wsEnd ++ c0 :: rest0) = .ok r ∧
      r.name = n ∧ (r.status = 0 ∨ r.status = -1) ∧
      (r.status = 0 ↔ (atts.map Att.k).Nodup) ∧
      (r.status = 0 → r.atts = atts.map Att.pair) := by
  obtain ⟨n0, ns, rfl⟩ : ∃ n0 ns, n = n0 :: ns := by
    cases n with
    | nil => exact absurd rfl hn
    | cons n0 ns => exact ⟨n0, ns, rfl⟩
  have hn0 : isNameChar n0 = true := hnc n0 (List.mem_cons_self _ _)
  have hn0gt : n0 ≠ '>' := by
    intro h
    rw [h] at hn0
    exact absurd hn0 (by decide)
  have hc0ws : isWs c0 = false := by
    rcases hc0 with h | h <;> rw [h] <;> decide
  have hc0n : isNameChar c0 = false := by
    rcases hc0 with h | h <;> rw [h] <;> decide
  unfold parse_element
  cases atts with
  | nil =>
    have etok : '<' :: (n0 :: ns) ++ ([] : List Att).flatMap Att.source ++ wsEnd ++ c0 :: rest0 ++ [NUL] =
        '<' :: n0 :: (ns ++ (wsEnd ++ c0 :: (rest0 ++ [NUL]))) := by
      simp
    rw [etok]
    simp only [hn0gt, if_false]
    obtain ⟨y1, r1, h1, h1c⟩ := ws_head wsEnd hws c0 (rest0 ++ [NUL])
    have hy1 : isNameChar y1 = false := by
      rcases h1c with ⟨h, _⟩ | ⟨h, _⟩
      · exact isWs_not_name h
      · rw [h]; exact hc0n
    have s1 : scanWhile isNameChar (ns ++ (wsEnd ++ c0 :: (rest0 ++ [NUL]))) n0 [] =
        .ok (y1, r1, n0 :: ns) := by
      have := scanWhile_list isNameChar y1 r1 hy1 (n0 :: ns) n0
        (ns ++ (wsEnd ++ c0 :: (rest0 ++ [NUL]))) [] hnc (by rw [h1]; simp)
      simpa using this
    have s2 : scanWhile isWs r1 y1 [] = .ok (c0, rest0 ++ [NUL], wsEnd) := by
      have := scanWhile_list isWs c0 (rest0 ++ [NUL]) hc0ws wsEnd y1 r1 [] hws h1
      simpa using this
    simp only [s1, Res.bind, s2, attLoop_done _ _ c0 _ hc0]
    refine ⟨⟨0, n0 :: ns, []⟩, by simp, rfl, Or.inl rfl, by simp, by simp⟩
  | cons a as =>
    have ha := hatts a (List.mem_cons_self a as)
    have has : ∀ b ∈ as, b.wellFormed := fun b hb => hatts b (List.mem_cons_of_mem a hb)
    obtain ⟨y, rest, hy, hyws⟩ :=
      core_head a ha (as.flatMap Att.source ++ (wsEnd ++ c0 :: (rest0 ++ [NUL])))
    have etok : '<' :: (n0 :: ns) ++ (a :: as).flatMap Att.source ++ wsEnd ++
        c0 :: rest0 ++ [NUL] = '<' :: n0 :: (ns ++ (a.ws ++ y :: rest)) := by
      rw [hy]
      simp [Att.source]
    rw [etok]
    simp only [hn0gt, if_false]
    obtain ⟨y1, r1, h1, h1c⟩ := ws_head a.ws ha.2.1 y rest
    have hy1 : isNameChar y1 = false := by
      rcases h1c with ⟨h, _⟩ | ⟨_, h⟩
      · exact isWs_not_name h
      · exact absurd h ha.1
    have s1 : scanWhile isNameChar (ns ++ (a.ws ++ y :: rest)) n0 [] =
        .ok (y1, r1, n0 :: ns) := by
      have := scanWhile_list isNameChar y1 r1 hy1 (n0 :: ns) n0
        (ns ++ (a.ws ++ y :: rest)) [] hnc (by rw [h1]; simp)
      simpa using this
    have s2 : scanWhile isWs r1 y1 [] = .ok (y, rest, a.ws) := by
      have := scanWhile_list isWs y rest hyws a.ws y1 r1 [] ha.2.1 h1
      simpa using this
    have hfuel : as.length + 1 ≤
        ('<' :: (n0 :: ns) ++ (a :: as).flatMap Att.source ++ wsEnd ++ c0 :: rest0).length + 1 := by
      have := atts_length_le as has
      simp only [List.length_cons, List.length_append, List.flatMap_cons]
      omega
    obtain ⟨st, atts1, e1, e2, e3, e4⟩ :=
      attLoop_atts wsEnd hws c0 (rest0 ++ [NUL]) hc0 as a [] _ y rest hfuel ha has hy
        (by simp)
    simp only [s1, Res.bind, s2, e1]
    rcases e2 with rfl | rfl
    · refine ⟨⟨0, n0 :: ns, atts1⟩, by simp, rfl, Or.inl rfl, ?_, ?_⟩
      · simpa using e3
      · intro _
        simpa using e4 rfl
    · refine ⟨⟨-1, n0 :: ns, atts1⟩, by simp, rfl, Or.inr rfl, ?_, ?_⟩
      · simpa using e3
      · intro h
        simp at h

/-! ## Claims about `parse_element` -/

/-- C17: for a tag made of `<`, a non-empty name `n` without whitespace, `>`,
`/` and `=`, attributes each written as whitespace, a non-empty name (without
whitespace, `=` and `>`, not beginning with `/`), `=`, a quote, a value
holding neither that quote nor `>`, and the quote again, with pairwise
distinct names, and closed by `>` or `/>`, `parse_element` returns `0`, the
name `n` and the list of exactly the pairs of name and value.  (Whitespace
around `=` and before the closing is allowed as well; the tags of the claim
have none.) -/
theorem parse_element_accepts_well_formed_tag (n : Str) (atts : List Att) (wsEnd : Str)
    (closer : Str) (hn : n ≠ []) (hnc : ∀ c ∈ n, isNameChar c = true)
    (hatts : ∀ a ∈ atts, a.wellFormed) (hnodup : (atts.map Att.k).Nodup)
    (hws : allWs wsEnd) (hcl : closer = ['>'] ∨ closer = ['/', '>']) :
    parse_element ('<' :: n ++ atts.flatMap Att.source ++ wsEnd ++ closer) =
      .ok ⟨0, n, atts.map Att.pair⟩ := by
  obtain ⟨c0, rest0, rfl, hc0⟩ : ∃ c0 rest0, closer = c0 :: rest0 ∧ (c0 = '>' ∨ c0 = '/') := by
    rcases hcl with rfl | rfl
    · exact ⟨'>', [], rfl, Or.inl rfl⟩
    · exact ⟨'/', ['>'], rfl, Or.inr rfl⟩
  obtain ⟨r, e, h1, _, h3, h4⟩ := parse_element_tag n atts wsEnd c0 rest0 hn hnc hatts hws hc0
  rw [e]
  have hs : r.status = 0 := h3.2 hnodup
  have ha := h4 hs
  cases r
  simp only at h1 hs ha
  subst h1 hs ha
  rfl

theorem parse_element_accepts_well_formed_tag_witness :
    parse_element "<a b='c' d=\"e\"/>".toList =
      .ok ⟨0, ['a'], [(['b'], ['c']), (['d'], ['e'])]⟩ :=
  parse_element_accepts_well_formed_tag ['a']
    [⟨[' '], ['b'], [], [], APOS, ['c']⟩, ⟨[' '], ['d'], [], [], QUOT, ['e']⟩] [] ['/', '>']
    (by decide) (by decide)
    (by
      intro a ha
      simp only [List.mem_cons, List.mem_singleton, List.not_mem_nil, or_false] at ha
      rcases ha with rfl | rfl <;> (unfold Att.wellFormed allWs; decide))
    (by decide) (by intro c hc; simp at hc) (Or.inr rfl)

theorem afterLoop_fatal (n m : Nat) (st : DState) (hf : st.seen_fatal_error = true) :
    (∀ i, i < m → errCalls i (afterLoop n m st) = [.fatal_error st.line_number]) ∧
    (∀ i, i < n → docCalls i (afterLoop n m st) = [.end_document]) := by
  constructor
  · intro i hi
    rw [afterLoop_render, errCalls_render]
    simp [hi, hf]
  · intro i hi
    rw [afterLoop_render, docCalls_render]
    simp [hi]

/-- The driver on a start or empty tag that `parse_element` rejects: no call
is made, the fatal flag is set and the token loop is left. -/
theorem loop_rejected_element (n m fuel : Nat) (st : DState) (r : ElementResult)
    (hk : st.token_kind = .element_start ∨ st.token_kind = .empty_element)
    (hp : parse_element st.token_text = .ok r) (hr : r.status ≠ 0) :
    ∃ st1, step n m st = ([], .ok st1) ∧ loop n m (fuel + 1) st = ([], .ok st1) ∧
      st1.seen_fatal_error = true ∧ st1.line_number = st.line_number := by
  have hstep : ∃ st1, step n m st = ([], .ok st1) ∧ st1.seen_fatal_error = true ∧
      st1.line_number = st.line_number := by
    unfold step
    rcases hk with hk | hk <;> simp only [hk, hp, hr, if_false] <;> exact ⟨_, rfl, rfl, rfl⟩
  obtain ⟨st1, e1, e2, e3⟩ := hstep
  refine ⟨st1, e1, ?_, e2, e3⟩
  have hne : st.token_kind ≠ .eof := by
    rcases hk with hk | hk <;> rw [hk] <;> decide
  unfold loop
  simp [hne, e1, e2]

/-- C18 (amended): for a tag made of `<`, a name, well-formed attributes,
optional whitespace and `>` or `/` (whatever follows) in which an attribute
name occurs twice among these attributes, `parse_element` returns `-1`; the driver then
makes no call for the token (no `start_element`), sets the fatal flag and
leaves the loop, and the statements after the loop call `fatal_error` on each
error handler. -/
theorem duplicate_attribute_is_rejected (n : Str) (atts : List Att) (wsEnd : Str) (c0 : Char)
    (rest0 : List Char) (hn : n ≠ []) (hnc : ∀ c ∈ n, isNameChar c = true)
    (hatts : ∀ a ∈ atts, a.wellFormed) (hdup : ¬ (atts.map Att.k).Nodup)
    (hws : allWs wsEnd) (hc0 : c0 = '>' ∨ c0 = '/') :
    (∃ r, parse_element ('<' :: n ++ atts.flatMap Att.source ++ wsEnd ++ c0 :: rest0) = .ok r ∧
      r.status = -1) ∧
    ∀ (nd m fuel : Nat) (st : DState),
      st.token_text = '<' :: n ++ atts.flatMap Att.source ++ wsEnd ++ c0 :: rest0 →
      (st.token_kind = .element_start ∨ st.token_kind = .empty_element) →
      ∃ st1, loop nd m (fuel + 1) st = ([], .ok st1) ∧ st1.seen_fatal_error = true ∧
        ∀ i, i < m → errCalls i (afterLoop nd m st1) = [.fatal_error st.line_number] := by
  obtain ⟨r, e, _, h2, h3, _⟩ := parse_element_tag n atts wsEnd c0 rest0 hn hnc hatts hws hc0
  have hs : r.status = -1 := by
    rcases h2 with h | h
    · exact absurd (h3.1 h) hdup
    · exact h
  refine ⟨⟨r, e, hs⟩, ?_⟩
  intro nd m fuel st htok hk
  obtain ⟨st1, _, e2, e3, e4⟩ := loop_rejected_element nd m fuel st r hk (by rw [htok, e])
    (by rw [hs]; decide)
  refine ⟨st1, e2, e3, ?_⟩
  intro i hi
  rw [← e4]
  exact (afterLoop_fatal nd m st1 e3).1 i hi

theorem duplicate_attribute_is_rejected_witness :
    (∃ r, parse_element "<a b='c' b='d'>".toList = .ok r ∧ r.status = -1) ∧
    parse noThrow 1 1 "<a b='c' b='d'>".toList =
      ([Call.doc 0 .start_document, Call.err 0 (.fatal_error 1), Call.doc 0 .end_document],
        .returned) :=
  ⟨(duplicate_attribute_is_rejected ['a']
      [⟨[' '], ['b'], [], [], APOS, ['c']⟩, ⟨[' '], ['b'], [], [], APOS, ['d']⟩] [] '>' []
      (by decide) (by decide)
      (by
        intro a ha
        simp only [List.mem_cons, List.mem_singleton, List.not_mem_nil, or_false] at ha
        rcases ha with rfl | rfl <;> (unfold Att.wellFormed allWs; decide))
      (by decide) (by intro c hc; simp at hc) (Or.inl rfl)).1,
   by decide!⟩

/-- Counterexample to C18: the tokenizer makes `<a b='1' / b='2'>` an
element_start token in which the name `b` occurs in two well-formed pairs, and
`parse_element` returns `0` on it with the one attribute `b='1'`: the
attribute loop ends at the `/` and the second pair is not read.  On
`<a b='1' / b='2'></a>` the driver dispatches `start_element` and reports no
fatal error. -/
theorem duplicate_after_slash_is_accepted :
    get_next_token "<a b='1' / b='2'>".toList 1 =
      .ok ⟨"<a b='1' / b='2'>".toList, .element_start, 1, []⟩ ∧
    parse_element "<a b='1' / b='2'>".toList = .ok ⟨0, ['a'], [(['b'], ['1'])]⟩ ∧
    parse noThrow 1 1 "<a b='1' / b='2'></a>".toList =
      ([Call.doc 0 .start_document, Call.doc 0 (.start_element 1 ['a'] [(['b'], ['1'])]),
        Call.doc 0 (.end_element 1 ['a']), Call.doc 0 .end_document], .returned) := by
  refine ⟨by decide!, by decide!, by decide!⟩

/-! ## Malformed attributes -/

/-- The attribute name loop on a well-formed name `k` followed by a character
`y1` at which it stops. -/
theorem att_name_scan (k : Str) (hk : k ≠ []) (hkc : ∀ c ∈ k, isAttNameChar c = true)
    (hkh : k.head? ≠ some '/') (y1 : Char) (r1 : List Char) (hy1 : isAttNameChar y1 = false)
    (ch : Char) (cur : List Char) (h : ch :: cur = k ++ y1 :: r1) :
    ¬ (ch = '>' ∨ ch = '/') ∧ scanWhile isAttNameChar cur ch [] = .ok (y1, r1, k) ∧
      k.length ≠ 0 ∧ isWs ch = false := by
  obtain ⟨k0, ks, rfl⟩ : ∃ k0 ks, k = k0 :: ks := by
    cases k with
    | nil => exact absurd rfl hk
    | cons k0 ks => exact ⟨k0, ks, rfl⟩
  have hch : ch = k0 := by
    simp only [List.cons_append, List.cons.injEq] at h
    exact h.1
  have hk0 : isAttNameChar k0 = true := hkc k0 (List.mem_cons_self _ _)
  refine ⟨?_, ?_, by simp, ?_⟩
  · rw [hch]
    rintro (e | e)
    · rw [e] at hk0
      exact absurd hk0 (by decide)
    · apply hkh
      rw [e]
      rfl
  · have := scanWhile_list isAttNameChar y1 r1 hy1 (k0 :: ks) ch cur [] hkc h
    simpa using this
  · rw [hch]
    exact attName_not_ws hk0

theorem cons_of_append_NUL (rest : Str) : ∃ y r, y :: r = rest ++ [NUL] := by
  cases rest with
  | nil => exact ⟨_, _, rfl⟩
  | cons x xs => exact ⟨_, _, rfl⟩

/-- One round of the attribute loop on a malformed attribute returns `-1`. -/
theorem attLoop_malformed (B : Str) (hB : Malformed B) (fuel : Nat) (acc : List (Str × Str))
    (ch : Char) (cur : List Char) (hcur : ch :: cur = B ++ [NUL]) :
    isWs ch = false ∧ ∃ atts1, attLoop (fuel + 1) cur ch acc = .ok (-1, atts1) := by
  cases hB with
  | noEquals k w1 x rest hk hkc hkh hw1 hx hxws hxn =>
    have e0 : k ++ w1 ++ x :: rest ++ [NUL] = k ++ (w1 ++ x :: (rest ++ [NUL])) := by simp
    rw [e0] at hcur
    obtain ⟨y1, r1, h1, h1c⟩ := ws_head w1 hw1 x (rest ++ [NUL])
    have hy1 : isAttNameChar y1 = false := by
      rcases h1c with ⟨h, _⟩ | ⟨h, hw⟩
      · exact isWs_not_attName h
      · rw [h]; exact hxn hw
    obtain ⟨hne, s1, hlen, hws⟩ := att_name_scan k hk hkc hkh y1 r1 hy1 ch cur
      (by rw [hcur, h1])
    refine ⟨hws, ?_⟩
    have s2 : scanWhile isWs r1 y1 [] = .ok (x, rest ++ [NUL], w1) := by
      have := scanWhile_list isWs x (rest ++ [NUL]) hxws w1 y1 r1 [] hw1 h1
      simpa using this
    unfold attLoop
    rw [if_neg hne]
    simp only [s1, Res.bind, hlen, if_false]
    by_cases hgt : y1 = '>'
    · rw [if_pos hgt]
      exact ⟨_, rfl⟩
    · rw [if_neg hgt]
      simp only [s2, ne_eq, hx, not_false_eq_true, if_true]
      exact ⟨_, rfl⟩
  | noQuote k w1 w2 d rest hk hkc hkh hw1 hw2 hdws hd1 hd2 =>
    have e0 : k ++ w1 ++ '=' :: w2 ++ d :: rest ++ [NUL] =
        k ++ (w1 ++ '=' :: (w2 ++ d :: (rest ++ [NUL]))) := by simp
    rw [e0] at hcur
    obtain ⟨y1, r1, h1, h1c⟩ := ws_head w1 hw1 '=' (w2 ++ d :: (rest ++ [NUL]))
    have hy1 : isAttNameChar y1 = false := by
      rcases h1c with ⟨h, _⟩ | ⟨h, _⟩
      · exact isWs_not_attName h
      · rw [h]; decide
    have hy1gt : y1 ≠ '>' := by
      rcases h1c with ⟨h, _⟩ | ⟨h, _⟩
      · intro e; rw [e] at h; exact absurd h (by decide)
      · rw [h]; decide
    obtain ⟨hne, s1, hlen, hws⟩ := att_name_scan k hk hkc hkh y1 r1 hy1 ch cur
      (by rw [hcur, h1])
    refine ⟨hws, ?_⟩
    have s2 : scanWhile isWs r1 y1 [] = .ok ('=', w2 ++ d :: (rest ++ [NUL]), w1) := by
      have := scanWhile_list isWs '=' (w2 ++ d :: (rest ++ [NUL])) (by decide) w1 y1 r1 []
        hw1 h1
      simpa using this
    obtain ⟨y3, r3, h3, _⟩ := ws_head w2 hw2 d (rest ++ [NUL])
    have s4 : scanWhile isWs r3 y3 [] = .ok (d, rest ++ [NUL], w2) := by
      have := scanWhile_list isWs d (rest ++ [NUL]) hdws w2 y3 r3 [] hw2 h3
      simpa using this
    obtain ⟨y5, r5, h5⟩ := cons_of_append_NUL rest
    unfold attLoop
    rw [if_neg hne]
    simp only [s1, Res.bind, hlen, if_false, hy1gt, s2, ne_eq, not_true_eq_false]
    rw [← h3]
    simp only [next_cons, s4]
    rw [← h5]
    simp only [next_cons, hd1, hd2, not_false_eq_true, and_self, if_true]
    exact ⟨_, rfl⟩
  | noClose k w1 w2 q v rest hk hkc hkh hw1 hw2 hq hv =>
    have e0 : k ++ w1 ++ '=' :: w2 ++ q :: v ++ '>' :: rest ++ [NUL] =
        k ++ (w1 ++ '=' :: (w2 ++ q :: (v ++ '>' :: (rest ++ [NUL])))) := by simp
    rw [e0] at hcur
    obtain ⟨y1, r1, h1, h1c⟩ := ws_head w1 hw1 '=' (w2 ++ q :: (v ++ '>' :: (rest ++ [NUL])))
    have hy1 : isAttNameChar y1 = false := by
      rcases h1c with ⟨h, _⟩ | ⟨h, _⟩
      · exact isWs_not_attName h
      · rw [h]; decide
    have hy1gt : y1 ≠ '>' := by
      rcases h1c with ⟨h, _⟩ | ⟨h, _⟩
      · intro e; rw [e] at h; exact absurd h (by decide)
      · rw [h]; decide
    obtain ⟨hne, s1, hlen, hws⟩ := att_name_scan k hk hkc hkh y1 r1 hy1 ch cur
      (by rw [hcur, h1])
    refine ⟨hws, ?_⟩
    have s2 : scanWhile isWs r1 y1 [] =
        .ok ('=', w2 ++ q :: (v ++ '>' :: (rest ++ [NUL])), w1) := by
      have := scanWhile_list isWs '=' (w2 ++ q :: (v ++ '>' :: (rest ++ [NUL]))) (by decide)
        w1 y1 r1 [] hw1 h1
      simpa using this
    obtain ⟨y3, r3, h3, _⟩ := ws_head w2 hw2 q (v ++ '>' :: (rest ++ [NUL]))
    have hqws : isWs q = false := by
      rcases hq with h | h <;> rw [h] <;> decide
    have s4 : scanWhile isWs r3 y3 [] = .ok (q, v ++ '>' :: (rest ++ [NUL]), w2) := by
      have := scanWhile_list isWs q (v ++ '>' :: (rest ++ [NUL])) hqws w2 y3 r3 [] hw2 h3
      simpa using this
    obtain ⟨y5, r5, h5⟩ : ∃ y5 r5, y5 :: r5 = v ++ '>' :: (rest ++ [NUL]) := by
      cases v with
      | nil => exact ⟨_, _, rfl⟩
      | cons x xs => exact ⟨_, _, rfl⟩
    have s6 : scanWhile (fun c => c != q && c != '>') r5 y5 [] =
        .ok ('>', rest ++ [NUL], v) := by
      have := scanWhile_list (fun c => c != q && c != '>') '>' (rest ++ [NUL]) (by simp)
        v y5 r5 [] (by
          intro c hc
          have := hv c hc
          simp [this.1, this.2]) h5
      simpa using this
    have hdel : ¬ (q ≠ APOS ∧ q ≠ QUOT) := by
      rintro ⟨g1, g2⟩
      rcases hq with h | h
      · exact g1 h
      · exact g2 h
    unfold attLoop
    rw [if_neg hne]
    simp only [s1, Res.bind, hlen, if_false, hy1gt, s2, ne_eq, not_true_eq_false]
    rw [← h3]
    simp only [next_cons, s4]
    rw [← h5]
    simp only [next_cons, hdel, if_false, s6, if_true]
    exact ⟨_, rfl⟩

/-- The attribute loop of `parse_element` on a sequence of well-formed
attributes followed by whitespace and something else: it ends with `-1`, or
it arrives at what follows with fuel left for what follows. -/
theorem attLoop_prefix (w : Str) (hw : allWs w) (hwne : w ≠ []) (y : Char) (rest : List Char)
    (hy : isWs y = false) (as : List Att) :
    ∀ (a : Att) (acc : List (Str × Str)) (fuel : Nat) (ch : Char) (cur : List Char),
      as.length + 1 ≤ fuel → a.wellFormed → (∀ b ∈ as, b.wellFormed) →
      ch :: cur = a.core ++ (as.flatMap Att.source ++ (w ++ y :: rest)) →
      (∃ atts1, attLoop fuel cur ch acc = .ok (-1, atts1)) ∨
        ∃ acc1, attLoop fuel cur ch acc = attLoop (fuel - (as.length + 1)) rest y acc1 := by
  induction as with
  | nil =>
    intro a acc fuel ch cur hfuel ha _ hcur
    obtain ⟨f, rfl⟩ : ∃ f, fuel = f + 1 := ⟨fuel - 1, by omega⟩
    have hstep := attLoop_step f a ha w hw y rest hy (Or.inl hwne) ch cur acc
      (by rw [hcur]; simp)
    rw [hstep]
    by_cases hd : is_in_domain acc a.k = true
    · rw [if_pos hd]
      exact Or.inl ⟨_, rfl⟩
    · rw [if_neg hd]
      exact Or.inr ⟨acc ++ [a.pair], by simp⟩
  | cons b bs ih =>
    intro a acc fuel ch cur hfuel ha has hcur
    obtain ⟨f, rfl⟩ : ∃ f, fuel = f + 1 := ⟨fuel - 1, by omega⟩
    have hb := has b (List.mem_cons_self b bs)
    have hbs : ∀ x ∈ bs, x.wellFormed := fun x hx => has x (List.mem_cons_of_mem b hx)
    obtain ⟨y1, rest1, hy1, hyws⟩ := core_head b hb (bs.flatMap Att.source ++ (w ++ y :: rest))
    have hstep := attLoop_step f a ha b.ws hb.2.1 y1 rest1 hyws (Or.inl hb.1) ch cur acc
      (by rw [hcur, hy1]; simp [Att.source])
    rw [hstep]
    by_cases hd : is_in_domain acc a.k = true
    · rw [if_pos hd]
      exact Or.inl ⟨_, rfl⟩
    · rw [if_neg hd]
      have := ih b (acc ++ [a.pair]) f y1 rest1
        (by simp only [List.length_cons] at hfuel; omega) hb hbs hy1
      have e : f + 1 - ((b :: bs).length + 1) = f - (bs.length + 1) := by
        simp only [List.length_cons]
        omega
      rw [e]
      exact this

/-- C19 (amended): in a tag made of `<`, a name and well-formed attributes,
followed after whitespace by a malformed attribute whose name does not begin
with `/` (its name is followed, after
optional whitespace, by a character other than `=`; or the first character
after `=` that is not whitespace is neither quote character; or the value
opened by a quote reaches a `>` before the same quote occurs again),
`parse_element` returns `-1`, whatever the rest of the token is. -/
theorem malformed_attribute_is_rejected (n : Str) (atts : List Att) (wB B : Str)
    (hn : n ≠ []) (hnc : ∀ c ∈ n, isNameChar c = true) (hatts : ∀ a ∈ atts, a.wellFormed)
    (hwB : allWs wB) (hwBne : wB ≠ []) (hB : Malformed B) :
    ∃ r, parse_element ('<' :: n ++ atts.flatMap Att.source ++ wB ++ B) = .ok r ∧
      r.status = -1 := by
  obtain ⟨n0, ns, rfl⟩ : ∃ n0 ns, n = n0 :: ns := by
    cases n with
    | nil => exact absurd rfl hn
    | cons n0 ns => exact ⟨n0, ns, rfl⟩
  have hn0 : isNameChar n0 = true := hnc n0 (List.mem_cons_self _ _)
  have hn0gt : n0 ≠ '>' := by
    intro h
    rw [h] at hn0
    exact absurd hn0 (by decide)
  obtain ⟨yB, rB, hyB⟩ := cons_of_append_NUL B
  have hmal := fun fuel acc => attLoop_malformed B hB fuel acc yB rB hyB
  have hyBws : isWs yB = false := (hmal 0 []).1
  unfold parse_element
  cases atts with
  | nil =>
    have etok : '<' :: (n0 :: ns) ++ ([] : List Att).flatMap Att.source ++ wB ++ B ++ [NUL] =
        '<' :: n0 :: (ns ++ (wB ++ yB :: rB)) := by
      rw [hyB]
      simp
    rw [etok]
    simp only [hn0gt, if_false]
    obtain ⟨y1, r1, h1, h1c⟩ := ws_head wB hwB yB rB
    have hy1 : isNameChar y1 = false := by
      rcases h1c with ⟨h, _⟩ | ⟨_, h⟩
      · exact isWs_not_name h
      · exact absurd h hwBne
    have s1 : scanWhile isNameChar (ns ++ (wB ++ yB :: rB)) n0 [] = .ok (y1, r1, n0 :: ns) := by
      have := scanWhile_list isNameChar y1 r1 hy1 (n0 :: ns) n0
        (ns ++ (wB ++ yB :: rB)) [] hnc (by rw [h1]; simp)
      simpa using this
    have s2 : scanWhile isWs r1 y1 [] = .ok (yB, rB, wB) := by
      have := scanWhile_list isWs yB rB hyBws wB y1 r1 [] hwB h1
      simpa using this
    obtain ⟨atts1, e⟩ := (hmal
      ('<' :: (n0 :: ns) ++ ([] : List Att).flatMap Att.source ++ wB ++ B).length []).2
    simp only [s1, Res.bind, s2, e]
    exact ⟨⟨-1, n0 :: ns, atts1⟩, by simp, rfl⟩
  | cons a as =>
    have ha := hatts a (List.mem_cons_self a as)
    have has : ∀ b ∈ as, b.wellFormed := fun b hb => hatts b (List.mem_cons_of_mem a hb)
    obtain ⟨y, rest, hy, hyws⟩ :=
      core_head a ha (as.flatMap Att.source ++ (wB ++ yB :: rB))
    have etok : '<' :: (n0 :: ns) ++ (a :: as).flatMap Att.source ++ wB ++ B ++ [NUL] =
        '<' :: n0 :: (ns ++ (a.ws ++ y :: rest)) := by
      rw [hy, hyB]
      simp [Att.source]
    rw [etok]
    simp only [hn0gt, if_false]
    obtain ⟨y1, r1, h1, h1c⟩ := ws_head a.ws ha.2.1 y rest
    have hy1 : isNameChar y1 = false := by
      rcases h1c with ⟨h, _⟩ | ⟨_, h⟩
      · exact isWs_not_name h
      · exact absurd h ha.1
    have s1 : scanWhile isNameChar (ns ++ (a.ws ++ y :: rest)) n0 [] =
        .ok (y1, r1, n0 :: ns) := by
      have := scanWhile_list isNameChar y1 r1 hy1 (n0 :: ns) n0
        (ns ++ (a.ws ++ y :: rest)) [] hnc (by rw [h1]; simp)
      simpa using this
    have s2 : scanWhile isWs r1 y1 [] = .ok (y, rest, a.ws) := by
      have := scanWhile_list isWs y rest hyws a.ws y1 r1 [] ha.2.1 h1
      simpa using this
    have hlen : as.length + 2 ≤
        ('<' :: (n0 :: ns) ++ (a :: as).flatMap Att.source ++ wB ++ B).length + 1 := by
      have := atts_length_le as has
      simp only [List.length_cons, List.length_append, List.flatMap_cons]
      omega
    have hm : ∃ atts1, attLoop
        (('<' :: (n0 :: ns) ++ (a :: as).flatMap Att.source ++ wB ++ B).length + 1) rest y [] =
          .ok (-1, atts1) := by
      rcases attLoop_prefix wB hwB hwBne yB rB hyBws as a []
          (('<' :: (n0 :: ns) ++ (a :: as).flatMap Att.source ++ wB ++ B).length + 1) y rest
          (by omega) ha has hy with
        h | ⟨acc1, h⟩
      · exact h
      · rw [h]
        obtain ⟨f, hf⟩ : ∃ f,
            ('<' :: (n0 :: ns) ++ (a :: as).flatMap Att.source ++ wB ++ B).length + 1 -
              (as.length + 1) = f + 1 :=
          ⟨('<' :: (n0 :: ns) ++ (a :: as).flatMap Att.source ++ wB ++ B).length + 1 -
            (as.length + 1) - 1, by omega⟩
        rw [hf]
        exact (hmal f acc1).2
    obtain ⟨atts1, e⟩ := hm
    simp only [s1, Res.bind, s2, e]
    exact ⟨⟨-1, n0 :: ns, atts1⟩, by simp, rfl⟩

theorem malformed_attribute_is_rejected_witness :
    (∃ r, parse_element "<a b='c' d=e>".toList = .ok r ∧ r.status = -1) ∧
    (∃ r, parse_element "<a b>".toList = .ok r ∧ r.status = -1) ∧
    (∃ r, parse_element "<a b='c>".toList = .ok r ∧ r.status = -1) :=
  ⟨malformed_attribute_is_rejected ['a'] [⟨[' '], ['b'], [], [], APOS, ['c']⟩] [' ']
      ['d', '=', 'e', '>'] (by decide) (by decide)
      (by
        intro a ha
        simp only [List.mem_singleton] at ha
        subst ha
        unfold Att.wellFormed allWs
        decide)
      (by unfold allWs; decide) (by decide)
      (Malformed.noQuote ['d'] [] [] 'e' ['>'] (by decide) (by decide) (by decide)
        (by unfold allWs; decide) (by unfold allWs; decide) (by decide) (by decide) (by decide)),
   malformed_attribute_is_rejected ['a'] [] [' '] ['b', '>'] (by decide) (by decide)
      (by intro a ha; simp at ha) (by unfold allWs; decide) (by decide)
      (Malformed.noEquals ['b'] [] '>' [] (by decide) (by decide) (by decide)
        (by unfold allWs; decide) (by decide) (by decide) (by intro _; decide)),
   malformed_attribute_is_rejected ['a'] [] [' '] ['b', '=', APOS, 'c', '>'] (by decide)
      (by decide) (by intro a ha; simp at ha) (by unfold allWs; decide) (by decide)
      (Malformed.noClose ['b'] [] [] APOS ['c'] [] (by decide) (by decide) (by decide)
        (by unfold allWs; decide) (by unfold allWs; decide) (Or.inl rfl) (by decide))⟩

/-- Counterexample to C19: the tokenizer makes `<a / b>`, `<a b='1' / d=e>`
and `<a /b='c>` element_start tokens, and `parse_element` returns `0` on each
of them, although in the first the attribute name `b` is followed by `>`
instead of `=`, in the second the `=` after `d` is followed by `e` instead of
a quote, and in the third the quote that opens the value `c` is not matched
before the closing `>`: the attribute loop ends at the `/` and what follows
it is not read. -/
theorem malformed_after_slash_is_accepted :
    get_next_token "<a / b>".toList 1 = .ok ⟨"<a / b>".toList, .element_start, 1, []⟩ ∧
    parse_element "<a / b>".toList = .ok ⟨0, ['a'], []⟩ ∧
    get_next_token "<a b='1' / d=e>".toList 1 =
      .ok ⟨"<a b='1' / d=e>".toList, .element_start, 1, []⟩ ∧
    parse_element "<a b='1' / d=e>".toList = .ok ⟨0, ['a'], [(['b'], ['1'])]⟩ ∧
    get_next_token "<a /b='c>".toList 1 = .ok ⟨"<a /b='c>".toList, .element_start, 1, []⟩ ∧
    parse_element "<a /b='c>".toList = .ok ⟨0, ['a'], []⟩ ∧
    parse noThrow 1 1 "<a / b></a>".toList =
      ([Call.doc 0 .start_document, Call.doc 0 (.start_element 1 ['a'] []),
        Call.doc 0 (.end_element 1 ['a']), Call.doc 0 .end_document], .returned) := by
  refine ⟨by decide!, by decide!, by decide!, by decide!, by decide!, by decide!, by decide!⟩

/-! ## What `parse_element` has read when it returns `0` -/

theorem Res.bind_ok {α β : Type} {r : Res α} {f : α → Res β} {x : β}
    (h : r.bind f = .ok x) : ∃ a, r = .ok a ∧ f a = .ok x := by
  cases r with
  | ok a => exact ⟨a, rfl, h⟩
  | undefined => simp [Res.bind] at h
  | nofuel => simp [Res.bind] at h

theorem next_inv {cur : List Char} {c : Char} {cur1 : List Char}
    (h : next cur = .ok (c, cur1)) : cur = c :: cur1 := by
  cases cur with
  | nil => simp [next] at h
  | cons a as =>
    simp only [next, Res.ok.injEq, Prod.mk.injEq] at h
    rw [h.1, h.2]

/-- A scanning loop that returns has read a run of characters satisfying the
loop condition and stopped at a character that does not. -/
theorem scanWhile_inv (p : Char → Bool) (cur : List Char) :
    ∀ (ch : Char) (acc : Str) (y : Char) (rest : List Char) (acc1 : Str),
      scanWhile p cur ch acc = .ok (y, rest, acc1) →
      ∃ r, ch :: cur = r ++ y :: rest ∧ acc1 = acc ++ r ∧ (∀ c ∈ r, p c = true) ∧
        p y = false := by
  induction cur with
  | nil =>
    intro ch acc y rest acc1 h
    unfold scanWhile at h
    by_cases hp : p ch = true
    · rw [if_pos hp] at h
      simp at h
    · rw [if_neg hp] at h
      simp only [Res.ok.injEq, Prod.mk.injEq] at h
      obtain ⟨rfl, rfl, rfl⟩ := h
      exact ⟨[], by simp, by simp, by simp, by simpa using hp⟩
  | cons c cur ih =>
    intro ch acc y rest acc1 h
    unfold scanWhile at h
    by_cases hp : p ch = true
    · rw [if_pos hp] at h
      obtain ⟨r, e1, e2, e3, e4⟩ := ih c (acc ++ [ch]) y rest acc1 h
      refine ⟨ch :: r, by rw [e1]; simp, by rw [e2]; simp, ?_, e4⟩
      intro x hx
      rcases List.mem_cons.1 hx with rfl | hx
      · exact hp
      · exact e3 x hx
    · rw [if_neg hp] at h
      simp only [Res.ok.injEq, Prod.mk.injEq] at h
      obtain ⟨rfl, rfl, rfl⟩ := h
      exact ⟨[], by simp, by simp, by simp, by simpa using hp⟩

/-- The attribute loop of `parse_element`, entered at `ch` after the
whitespace `w0`, when it ends with status `0`: what it has read is a sequence
of well-formed attributes, each with its whitespace before it, then
whitespace and `>` or `/`; the list has grown by their pairs. -/
theorem attLoop_inv (fuel : Nat) :
    ∀ (cur : List Char) (ch : Char) (acc atts1 : List (Str × Str)) (w0 : Str),
      allWs w0 → (w0 = [] → ch = '>' ∨ ch = '/' ∨ ch = '=') →
      attLoop fuel cur ch acc = .ok (0, atts1) →
      ∃ (as : List Att) (wsEnd : Str) (c0 : Char) (rest0 : List Char),
        w0 ++ ch :: cur = as.flatMap Att.source ++ (wsEnd ++ c0 :: rest0) ∧
        (∀ a ∈ as, a.wellFormed) ∧ allWs wsEnd ∧ (c0 = '>' ∨ c0 = '/') ∧
        atts1 = acc ++ as.map Att.pair := by
  induction fuel with
  | zero =>
    intro cur ch acc atts1 w0 hw0 _ h
    unfold attLoop at h
    by_cases hc : ch = '>' ∨ ch = '/'
    · rw [if_pos hc] at h
      simp only [Res.ok.injEq, Prod.mk.injEq, true_and] at h
      exact ⟨[], w0, ch, cur, by simp, by simp, hw0, hc, by simp [h]⟩
    · rw [if_neg hc] at h
      simp at h
  | succ f ih =>
    intro cur ch acc atts1 w0 hw0 hw0e h
    unfold attLoop at h
    by_cases hc : ch = '>' ∨ ch = '/'
    · rw [if_pos hc] at h
      simp only [Res.ok.injEq, Prod.mk.injEq, true_and] at h
      exact ⟨[], w0, ch, cur, by simp, by simp, hw0, hc, by simp [h]⟩
    rw [if_neg hc] at h
    obtain ⟨⟨ch1, cur1, an⟩, s1, h1⟩ := Res.bind_ok h
    clear h
    dsimp only at h1
    by_cases g1 : an.length = 0
    · rw [if_pos g1] at h1
      simp at h1
    rw [if_neg g1] at h1
    by_cases g2 : ch1 = '>'
    · rw [if_pos g2] at h1
      simp at h1
    rw [if_neg g2] at h1
    obtain ⟨⟨ch2, cur2, w1⟩, s2, h2⟩ := Res.bind_ok h1
    clear h1
    dsimp only at h2
    by_cases g3 : ch2 ≠ '='
    · rw [if_pos g3] at h2
      simp at h2
    rw [if_neg g3] at h2
    have g3e : ch2 = '=' := not_not.1 g3
    obtain ⟨⟨ch3, cur3⟩, s3, h3⟩ := Res.bind_ok h2
    clear h2
    dsimp only at h3
    obtain ⟨⟨dl, cur4, w2⟩, s4, h4⟩ := Res.bind_ok h3
    clear h3
    dsimp only at h4
    obtain ⟨⟨ch5, cur5⟩, s5, h5⟩ := Res.bind_ok h4
    clear h4
    dsimp only at h5
    by_cases g4 : dl ≠ APOS ∧ dl ≠ QUOT
    · rw [if_pos g4] at h5
      simp at h5
    rw [if_neg g4] at h5
    obtain ⟨⟨ch6, cur6, av⟩, s6, h6⟩ := Res.bind_ok h5
    clear h5
    dsimp only at h6
    by_cases g5 : ch6 = '>'
    · rw [if_pos g5] at h6
      simp at h6
    rw [if_neg g5] at h6
    obtain ⟨⟨ch7, cur7⟩, s7, h7⟩ := Res.bind_ok h6
    clear h6
    dsimp only at h7
    by_cases g6 : ch7 ≠ '>' ∧ ch7 ≠ ' ' ∧ ch7 ≠ '/' ∧ ch7 ≠ TAB ∧ ch7 ≠ LF ∧ ch7 ≠ CR
    · rw [if_pos g6] at h7
      simp at h7
    rw [if_neg g6] at h7
    obtain ⟨⟨ch8, cur8, w⟩, s8, h8⟩ := Res.bind_ok h7
    clear h7
    dsimp only at h8
    by_cases g7 : is_in_domain acc an = true
    · rw [if_pos g7] at h8
      simp at h8
    rw [if_neg g7] at h8
    -- what the scanning loops have read
    obtain ⟨r1, e1, a1, p1, q1⟩ := scanWhile_inv _ _ _ _ _ _ _ s1
    obtain ⟨r2, e2, a2, p2, _⟩ := scanWhile_inv _ _ _ _ _ _ _ s2
    have e3 := next_inv s3
    obtain ⟨r4, e4, a4, p4, _⟩ := scanWhile_inv _ _ _ _ _ _ _ s4
    have e5 := next_inv s5
    obtain ⟨r6, e6, a6, p6, q6⟩ := scanWhile_inv _ _ _ _ _ _ _ s6
    have e7 := next_inv s7
    obtain ⟨r8, e8, a8, p8, q8⟩ := scanWhile_inv _ _ _ _ _ _ _ s8
    simp only [List.nil_append] at a1 a2 a4 a6 a8
    subst a1 a2 a4 a6 a8 g3e
    -- the closing quote
    have hch6 : ch6 = dl := by
      simp only [Bool.and_eq_false_imp, bne_iff_ne, ne_eq, Bool.not_eq_true,
        bne_eq_false_iff_eq] at q6
      by_contra hne
      exact g5 (q6 hne)
    subst hch6
    -- the recursive call
    have hw : w = [] → ch8 = '>' ∨ ch8 = '/' ∨ ch8 = '=' := by
      intro hwn
      subst hwn
      simp only [List.nil_append, List.cons.injEq] at e8
      obtain ⟨rfl, _⟩ := e8
      simp only [isWs, Bool.or_eq_false_iff, beq_eq_false_iff_ne, ne_eq] at q8
      by_contra hcon
      simp only [not_or] at hcon
      exact g6 ⟨hcon.1, q8.1.1.1, hcon.2.1, q8.1.1.2, q8.1.2, q8.2⟩
    obtain ⟨as, wsEnd, c0, rest0, e9, hwf, hwe, hc0, hat⟩ := ih cur8 ch8 _ atts1 w p8 hw h8
    -- the name
    obtain ⟨k0, ks, hks⟩ : ∃ k0 ks, an = k0 :: ks := by
      cases an with
      | nil => exact absurd rfl g1
      | cons k0 ks => exact ⟨k0, ks, rfl⟩
    have hk0 : ch = k0 := by
      rw [hks] at e1
      simp only [List.cons_append, List.cons.injEq] at e1
      exact e1.1
    have hchn : isAttNameChar ch = true := by
      rw [hk0]
      exact p1 k0 (by rw [hks]; exact List.mem_cons_self _ _)
    have hw0ne : w0 ≠ [] := by
      intro hw0n
      rcases hw0e hw0n with e | e | e
      · exact hc (Or.inl e)
      · exact hc (Or.inr e)
      · rw [e] at hchn
        exact absurd hchn (by decide)
    refine ⟨⟨w0, an, w1, w2, ch6, av⟩ :: as, wsEnd, c0, rest0, ?_, ?_, hwe, hc0, ?_⟩
    · rw [List.flatMap_cons, List.append_assoc, ← e9, e1, e2, e3, e4, e5, e6, e7, e8]
      simp [Att.source, Att.core]
    · intro a ha
      rcases List.mem_cons.1 ha with rfl | ha
      · refine ⟨hw0ne, hw0, (fun e => g1 (by have e2 : an = [] := e; rw [e2]; rfl)), p1, ?_, p2, p4, ?_, ?_⟩
        · rw [hks]
          intro e
          simp only [List.head?_cons, Option.some.injEq] at e
          exact hc (Or.inr (hk0.trans e))
        · by_contra hcon
          simp only [not_or] at hcon
          exact g4 hcon
        · intro c hcv
          have := p6 c hcv
          simpa using this
      · exact hwf a ha
    · rw [hat]
      simp [Att.pair]

theorem strip_NUL (t X : Str) (c0 : Char) (rest0 : List Char)
    (h : t ++ [NUL] = X ++ c0 :: rest0) (hc : c0 ≠ NUL) : ∃ rest1, t = X ++ c0 :: rest1 := by
  rcases List.eq_nil_or_concat rest0 with rfl | ⟨r1, z, rfl⟩
  · have := (List.append_inj' h rfl).2
    simp only [List.cons.injEq, and_true] at this
    exact absurd this.symm hc
  · have e : X ++ c0 :: r1.concat z = (X ++ c0 :: r1) ++ [z] := by simp
    rw [e] at h
    exact ⟨r1, (List.append_inj' h rfl).1⟩

theorem stop_char (c : Char) (h1 : isNameChar c = false) (h2 : isWs c = false) :
    c = '>' ∨ c = '/' ∨ c = '=' := by
  simp only [isWs, Bool.or_eq_false_iff, beq_eq_false_iff_ne, ne_eq] at h2
  obtain ⟨⟨⟨a1, a2⟩, a3⟩, a4⟩ := h2
  by_contra hcon
  simp only [not_or] at hcon
  have : isNameChar c = true := by
    simp [isNameChar, hcon.1, hcon.2.1, hcon.2.2, a1, a2, a3, a4]
  rw [this] at h1
  exact absurd h1 (by simp)

/-- Counterexample to C20: the tokenizer makes `<a/b c>` an element_start
token, and `parse_element` returns `0` on it with name `a` and no attribute,
although what follows the name is `/b c>`, neither `>` nor `/>`. -/
theorem parse_element_accepts_text_after_slash :
    get_next_token "<a/b c>".toList 1 = .ok ⟨"<a/b c>".toList, .element_start, 1, []⟩ ∧
    parse_element "<a/b c>".toList = .ok ⟨0, ['a'], []⟩ := by
  constructor <;> decide

/-- C20 (amended): whenever `parse_element` returns `0` on a token beginning
with `<`, the token is `<`, the returned name (not empty, without whitespace,
`>`, `/` and `=`), a sequence of well-formed attributes whose pairs are the
returned list, optional whitespace, and then `>` or `/`; what follows that
character is not examined. -/
theorem parse_element_zero_shape (token : Str) (r : ElementResult)
    (hlt : token.head? = some '<') (h : parse_element token = .ok r) (h0 : r.status = 0) :
    ∃ (atts : List Att) (wsEnd : Str) (c0 : Char) (rest0 : Str),
      token = '<' :: r.name ++ atts.flatMap Att.source ++ wsEnd ++ c0 :: rest0 ∧
      r.name ≠ [] ∧ (∀ c ∈ r.name, isNameChar c = true) ∧ (∀ a ∈ atts, a.wellFormed) ∧
      allWs wsEnd ∧ (c0 = '>' ∨ c0 = '/') ∧ r.atts = atts.map Att.pair := by
  obtain ⟨t, rfl⟩ : ∃ t, token = '<' :: t := by
    cases token with
    | nil => simp at hlt
    | cons x t =>
      simp only [List.head?_cons, Option.some.injEq] at hlt
      exact ⟨t, by rw [hlt]⟩
  obtain ⟨c1, cur, hcur⟩ := cons_of_append_NUL t
  unfold parse_element at h
  rw [List.cons_append, ← hcur] at h
  dsimp only at h
  by_cases g0 : c1 = '>'
  · rw [if_pos g0] at h
    simp only [Res.ok.injEq] at h
    rw [← h] at h0
    exact absurd h0 (by decide)
  rw [if_neg g0] at h
  obtain ⟨⟨ch1, cur1, name⟩, s1, h1⟩ := Res.bind_ok h
  clear h
  dsimp only at h1
  obtain ⟨⟨ch2, cur2, w0⟩, s2, h2⟩ := Res.bind_ok h1
  clear h1
  dsimp only at h2
  obtain ⟨⟨status, atts1⟩, s3, h3⟩ := Res.bind_ok h2
  clear h2
  dsimp only at h3
  by_cases g1 : status ≠ 0
  · rw [if_pos g1] at h3
    simp only [Res.ok.injEq] at h3
    rw [← h3] at h0
    simp at h0
  rw [if_neg g1] at h3
  by_cases g2 : name.length = 0
  · rw [if_pos g2] at h3
    simp only [Res.ok.injEq] at h3
    rw [← h3] at h0
    simp at h0
  rw [if_neg g2] at h3
  simp only [Res.ok.injEq] at h3
  subst h3
  have g1e : status = 0 := not_not.1 g1
  subst g1e
  obtain ⟨r1, e1, a1, p1, q1⟩ := scanWhile_inv _ _ _ _ _ _ _ s1
  obtain ⟨r2, e2, a2, p2, q2⟩ := scanWhile_inv _ _ _ _ _ _ _ s2
  simp only [List.nil_append] at a1 a2
  subst a1 a2
  have hw0 : w0 = [] → ch2 = '>' ∨ ch2 = '/' ∨ ch2 = '=' := by
    intro hwn
    subst hwn
    simp only [List.nil_append, List.cons.injEq] at e2
    obtain ⟨rfl, _⟩ := e2
    exact stop_char ch1 q1 q2
  obtain ⟨as, wsEnd, c0, rest0, e3, hwf, hwe, hc0, hat⟩ :=
    attLoop_inv _ cur2 ch2 [] atts1 w0 p2 hw0 s3
  have hc0n : c0 ≠ NUL := by
    rcases hc0 with e | e <;> rw [e] <;> decide
  have hall : t ++ [NUL] = (name ++ as.flatMap Att.source ++ wsEnd) ++ c0 :: rest0 := by
    rw [← hcur, e1, e2, e3]
    simp
  obtain ⟨rest1, ht⟩ := strip_NUL t _ c0 rest0 hall hc0n
  refine ⟨as, wsEnd, c0, rest1, ?_, ?_, p1, hwf, hwe, hc0, ?_⟩
  · rw [ht]
    simp
  · intro e
    apply g2
    have e2 : name = [] := e
    rw [e2]
    rfl
  · simpa using hat

theorem parse_element_zero_shape_witness :
    parse_element "<a b='c'/>".toList = .ok ⟨0, ['a'], [(['b'], ['c'])]⟩ ∧
    ∃ (atts : List Att) (wsEnd : Str) (c0 : Char) (rest0 : Str),
      "<a b='c'/>".toList = '<' :: ['a'] ++ atts.flatMap Att.source ++ wsEnd ++ c0 :: rest0 ∧
      ['a'] ≠ [] ∧ (∀ c ∈ ['a'], isNameChar c = true) ∧ (∀ a ∈ atts, a.wellFormed) ∧
      allWs wsEnd ∧ (c0 = '>' ∨ c0 = '/') ∧ [(['b'], ['c'])] = atts.map Att.pair :=
  ⟨by decide, parse_element_zero_shape "<a b='c'/>".toList ⟨0, ['a'], [(['b'], ['c'])]⟩
    (by decide) (by decide) rfl⟩

/-! ## `parse_element_end` and `parse_pi` -/

theorem endNameLoop_eq (r : List Char) :
    ∀ name, endNameLoop r name = name ++ r.takeWhile (fun c => !isWs c) := by
  induction r with
  | nil => intro name; simp [endNameLoop]
  | cons c r ih =>
    intro name
    unfold endNameLoop
    by_cases h : isWs c = true
    · simp [h]
    · simp only [h, Bool.false_eq_true, if_false]
      rw [ih]
      simp [h]

/-- C21: on an end tag `</` body `>`, `parse_element_end` sets `name` to the
characters of the body that come before its first space, tab, CR or LF (the
whole body when it holds none of them), and returns `-1` exactly when that
name is empty and `0` otherwise. -/
theorem parse_element_end_name (body : Str) :
    parse_element_end ('<' :: '/' :: body ++ ['>']) =
      .ok (if body.takeWhile (fun c => !isWs c) = [] then -1 else 0,
        body.takeWhile (fun c => !isWs c)) := by
  have e : (('<' :: '/' :: body ++ ['>']).take
      (('<' :: '/' :: body ++ ['>']).length - 1)).drop 2 = body := by
    have : ('<' :: '/' :: body ++ ['>']).length - 1 = ('<' :: '/' :: body).length := by simp
    rw [this, List.take_left']
    · rfl
    · rfl
  unfold parse_element_end
  rw [if_neg (by simp)]
  simp only [e, endNameLoop_eq, List.nil_append, List.length_eq_zero]
  split_ifs <;> rfl

theorem takeWhile_all (p : Char → Bool) (d : List Char) :
    ∀ c ∈ d.takeWhile p, p c = true := by
  induction d with
  | nil => intro c hc; simp at hc
  | cons x d ih =>
    intro c hc
    by_cases hx : p x = true
    · simp only [List.takeWhile_cons, hx, if_true, List.mem_cons] at hc
      rcases hc with rfl | hc
      · exact hx
      · exact ih c hc
    · simp [List.takeWhile_cons, hx] at hc

theorem takeWhile_question (d x : List Char) :
    ∃ rest2, d ++ '?' :: x = d.takeWhile (fun c => c != '?') ++ '?' :: rest2 := by
  induction d with
  | nil => exact ⟨x, rfl⟩
  | cons c d ih =>
    by_cases h : c = '?'
    · subst h
      exact ⟨d ++ '?' :: x, by simp⟩
    · obtain ⟨r, e⟩ := ih
      refine ⟨r, ?_⟩
      simp only [List.takeWhile_cons, bne_iff_ne, ne_eq, h, not_false_eq_true, decide_True,
        if_true, List.cons_append, e]

/-- Function `parse_pi` on `<?`, a target, one whitespace character, data and
`?>`: the target is returned, and the data up to its first `?`. -/
theorem parse_pi_data (t : Str) (w : Char) (d : Str) (ht : t ≠ [])
    (htc : ∀ c ∈ t, isWs c = false ∧ c ≠ '?') (hw : isWs w = true) :
    parse_pi ('<' :: '?' :: t ++ w :: d ++ ['?', '>']) =
      .ok ⟨0, t, d.takeWhile (fun c => c != '?')⟩ := by
  obtain ⟨t0, ts, rfl⟩ : ∃ t0 ts, t = t0 :: ts := by
    cases t with
    | nil => exact absurd rfl ht
    | cons t0 ts => exact ⟨t0, ts, rfl⟩
  have hp : ∀ c ∈ t0 :: ts,
      (fun ch => ch != ' ' && ch != '?' && ch != TAB && ch != LF && ch != CR) c = true := by
    intro c hc
    obtain ⟨h1, h2⟩ := htc c hc
    simp only [isWs, Bool.or_eq_false_iff, beq_eq_false_iff_ne, ne_eq] at h1
    simp [h1.1.1.1, h1.1.1.2, h1.1.2, h1.2, h2]
  have hwp : (fun ch => ch != ' ' && ch != '?' && ch != TAB && ch != LF && ch != CR) w
      = false := by
    simp only [isWs, Bool.or_eq_true, beq_iff_eq] at hw
    rcases hw with ((rfl | rfl) | rfl) | rfl <;> decide
  have hwq : w ≠ '?' := by
    intro e
    rw [e] at hw
    exact absurd hw (by decide)
  have etok : '<' :: '?' :: (t0 :: ts) ++ w :: d ++ ['?', '>'] ++ [NUL] =
      '<' :: '?' :: t0 :: (ts ++ w :: (d ++ '?' :: ['>', NUL])) := by simp
  obtain ⟨rest2, e2⟩ := takeWhile_question d ['>', NUL]
  obtain ⟨y5, r5, h5⟩ : ∃ y5 r5, y5 :: r5 = d ++ '?' :: ['>', NUL] := by
    cases d with
    | nil => exact ⟨_, _, rfl⟩
    | cons x xs => exact ⟨_, _, rfl⟩
  have s1 := scanWhile_list _ w (d ++ '?' :: ['>', NUL]) hwp (t0 :: ts) t0
    (ts ++ w :: (d ++ '?' :: ['>', NUL])) [] hp (by simp)
  have s2 := scanWhile_list (fun ch => ch != '?') '?' rest2 (by decide)
    (d.takeWhile (fun c => c != '?')) y5 r5 []
    (takeWhile_all _ d)
    (by rw [h5, e2])
  simp only [List.nil_append] at s1 s2
  unfold parse_pi
  rw [etok]
  simp only [s1, Res.bind, List.length_cons, Nat.add_one_ne_zero, if_false, ne_eq, hwq,
    not_false_eq_true, if_true]
  rw [← h5]
  simp only [next, s2]

theorem parse_pi_status (token : Str) (r : PiResult) (h : parse_pi token = .ok r) :
    r.status = -1 ↔ r.target = [] := by
  unfold parse_pi at h
  split at h
  · rename_i c2 cur _
    obtain ⟨⟨ch1, cur1, target⟩, s1, h1⟩ := Res.bind_ok h
    clear h
    dsimp only at h1
    by_cases g1 : target.length = 0
    · rw [if_pos g1] at h1
      simp only [Res.ok.injEq] at h1
      subst h1
      simpa using g1
    · rw [if_neg g1] at h1
      obtain ⟨⟨ch2, cur2⟩, s2, h2⟩ := Res.bind_ok h1
      clear h1
      dsimp only at h2
      obtain ⟨⟨ch3, cur3, data⟩, s3, h3⟩ := Res.bind_ok h2
      clear h2
      simp only [Res.ok.injEq] at h3
      subst h3
      simpa using g1
  · simp at h

/-- C22: `get_next_token` makes `<?x a?b?>` a token of kind `pi`, and
`parse_pi` on it returns the data `a`, not `a?b`: the data loop stops at the
first `?`, not at the `?` of the closing `?>`.  For every
non-empty target without whitespace and `?`, one whitespace character and data
that holds no `?`, `parse_pi` on `<?` target whitespace data `?>` returns `0`,
the target and the data; and whenever `parse_pi` returns, the status is `-1`
exactly when the target is empty. -/
theorem parse_pi_data_stops_at_first_question_mark :
    get_next_token "<?x a?b?>".toList 1 = .ok ⟨"<?x a?b?>".toList, .pi, 1, []⟩ ∧
    parse_pi "<?x a?b?>".toList = .ok ⟨0, ['x'], ['a']⟩ ∧
    (∀ (t : Str) (w : Char) (d : Str), t ≠ [] → (∀ c ∈ t, isWs c = false ∧ c ≠ '?') →
      isWs w = true → '?' ∉ d →
      parse_pi ('<' :: '?' :: t ++ w :: d ++ ['?', '>']) = .ok ⟨0, t, d⟩) ∧
    (∀ (token : Str) (r : PiResult), parse_pi token = .ok r →
      (r.status = -1 ↔ r.target = [])) := by
  refine ⟨by decide, by decide, ?_, parse_pi_status⟩
  intro t w d ht htc hw hd
  rw [parse_pi_data t w d ht htc hw]
  have : d.takeWhile (fun c => c != '?') = d := by
    rw [List.takeWhile_eq_self_iff]
    intro c hc
    simp only [bne_iff_ne, ne_eq]
    intro e
    exact hd (e ▸ hc)
  rw [this]

theorem parse_pi_data_stops_at_first_question_mark_witness :
    parse_pi "<?xml version='1.0'?>".toList =
      .ok ⟨0, "xml".toList, "version='1.0'".toList⟩ :=
  parse_pi_data_stops_at_first_question_mark.2.2.1 "xml".toList ' ' "version='1.0'".toList
    (by decide) (by decide) (by decide) (by decide)

/-! ## Comments -/

theorem infix_of_cons {l b : List Char} {x : Char} (h : l <:+: b) : l <:+: x :: b := by
  obtain ⟨s, t, e⟩ := h
  exact ⟨x :: s, t, by simp [← e]⟩

/-- The comment loop on a body `b` that holds no `--` and does not end in
`-`, followed by `--` and a character `c`: it reads all of this and makes the
token a comment when `c` is `>` and an error otherwise. -/
theorem commentLoop_body (b : List Char) :
    ∀ (h : Nat) (text : Str) (line : Nat) (c : Char) (rest : List Char),
      ¬ (['-', '-'] <:+: b) → b.getLast? ≠ some '-' →
      (h = 0 ∨ (h = 1 ∧ b.head? ≠ some '-' ∧ b ≠ [])) →
      commentLoop (b ++ '-' :: '-' :: c :: rest) h text line =
        ⟨text ++ b ++ ['-', '-', c], if c = '>' then .comment else .error,
          line + (b ++ [c]).count LF, rest⟩ := by
  induction b with
  | nil =>
    intro h text line c rest _ _ hh
    have h0 : h = 0 := by
      rcases hh with e | ⟨_, _, e⟩
      · exact e
      · exact absurd rfl e
    subst h0
    have e1 : ('-' : Char) ≠ LF := by decide
    simp only [List.nil_append, commentLoop, e1, if_false, OfNat.zero_ne_ofNat,
      if_true, Nat.reduceAdd, OfNat.one_ne_ofNat, List.append_nil, List.append_assoc,
      List.cons_append, Token.mk.injEq]
    by_cases hc : c = '>'
    · subst hc
      have e2 : ('>' : Char) ≠ LF := by decide
      simp [List.count_cons, e2]
    · by_cases hl : c = LF
      · subst hl
        simp [hc]
      · simp [hc, hl, List.count_cons]
  | cons x b ih =>
    intro h text line c rest hinf hlast hh
    have hinf1 : ¬ (['-', '-'] <:+: b) := fun hc => hinf (infix_of_cons hc)
    have hlast1 : b.getLast? ≠ some '-' := by
      cases b with
      | nil => simp
      | cons y b1 =>
        intro e
        apply hlast
        rw [List.getLast?_cons_cons]
        exact e
    have hh1 : (if x = '-' then h + 1 else 0) = 0 ∨
        ((if x = '-' then h + 1 else 0) = 1 ∧ b.head? ≠ some '-' ∧ b ≠ []) := by
      by_cases hx : x = '-'
      · subst hx
        rcases hh with e | ⟨_, e, _⟩
        · subst e
          right
          refine ⟨by simp, ?_, ?_⟩
          · intro e2
            apply hinf
            cases b with
            | nil => simp at e2
            | cons y b1 =>
              simp only [List.head?_cons, Option.some.injEq] at e2
              subst e2
              exact ⟨[], b1, by simp⟩
          · intro e2
            subst e2
            exact hlast (by simp)
        · exact absurd (by simp) e
      · left
        simp [hx]
    have hne2 : h ≠ 2 := by
      rcases hh with e | ⟨e, _⟩ <;> omega
    have := ih (if x = '-' then h + 1 else 0) (text ++ [x]) (if x = LF then line + 1 else line)
      c rest hinf1 hlast1 hh1
    rw [List.cons_append]
    unfold commentLoop
    simp only [hne2, if_false]
    by_cases hx : x = '-'
    · subst hx
      simp only [if_true] at this ⊢
      rw [this]
      have e1 : ('-' : Char) ≠ LF := by decide
      simp [e1, List.count_cons]
    · simp only [hx, if_false] at this ⊢
      rw [this]
      by_cases hl : x = LF
      · subst hl
        simp [List.count_cons]
        omega
      · have hl2 : ¬ (x == LF) = true := by simpa using hl
        simp [hl, hl2, List.count_cons]

theorem get_next_token_comment (b : Str) (c : Char) (rest : List Char) (line : Nat)
    (h1 : ¬ (['-', '-'] <:+: b)) (h2 : b.getLast? ≠ some '-') :
    get_next_token ('<' :: '!' :: '-' :: '-' :: b ++ '-' :: '-' :: c :: rest) line =
      .ok ⟨'<' :: '!' :: '-' :: '-' :: b ++ ['-', '-', c],
        if c = '>' then .comment else .error, line + (b ++ [c]).count LF, rest⟩ := by
  have := commentLoop_body b 0 ['<', '!', '-', '-'] line c rest h1 h2 (Or.inl rfl)
  simp only [List.cons_append, get_next_token, bangBranch, peek, get]
  rw [if_pos trivial, if_neg (by simp), this]
  simp

/-- C25: for a body `b` that holds no `--` and does not end in `-`,
`get_next_token` on `<!--` `b` `-->` returns a token of kind `comment` whose
text is the whole input, with nothing left of the stream.  The driver makes no
call for a comment token, neither when it fetches it nor when it handles it,
and `parse` on this input calls only `start_document` and `end_document`. -/
theorem comment_token_is_whole_input (b : Str) (line n m : Nat)
    (h1 : ¬ (['-', '-'] <:+: b)) (h2 : b.getLast? ≠ some '-') :
    get_next_token ('<' :: '!' :: '-' :: '-' :: b ++ ['-', '-', '>']) line =
        .ok ⟨'<' :: '!' :: '-' :: '-' :: b ++ ['-', '-', '>'], .comment,
          line + b.count LF, []⟩ ∧
    (∀ st : DState, st.token_kind = .comment → step n m st = ([], .ok st)) ∧
    (∀ (st : DState) (t : Token), get_next_token st.input st.line_number = .ok t →
      t.kind = .comment → (fetch n st).1 = []) ∧
    parse noThrow n m ('<' :: '!' :: '-' :: '-' :: b ++ ['-', '-', '>']) =
      ((forEach n fun i => [Call.doc i .start_document]) ++
        (forEach n fun i => [Call.doc i .end_document]), .returned) := by
  have htok : ∀ line, get_next_token ('<' :: '!' :: '-' :: '-' :: b ++ ['-', '-', '>']) line =
      .ok ⟨'<' :: '!' :: '-' :: '-' :: b ++ ['-', '-', '>'], .comment,
        line + b.count LF, []⟩ := by
    intro line
    have := get_next_token_comment b '>' [] line h1 h2
    rw [this]
    have e2 : List.count LF ['>'] = 0 := by decide
    simp [List.count_append, e2]
  have hstep : ∀ st : DState, st.token_kind = .comment → step n m st = ([], .ok st) := by
    intro st hk
    unfold step
    rw [hk]
  refine ⟨htok line, hstep, ?_, ?_⟩
  · intro st t ht hk
    unfold fetch
    rw [ht]
    simp [hk]
  · have hws : skipWs ('<' :: '!' :: '-' :: '-' :: b ++ ['-', '-', '>']) 1 =
        ('<' :: '!' :: '-' :: '-' :: b ++ ['-', '-', '>'], 1) :=
      skipWs_of_not_ws '<' _ 1 (by decide)
    have hloop : ∀ fuel (st : DState), st.token_kind = .comment → st.input = [] →
        st.tags = [] → st.seen_fatal_error = false → st.seen_root_tag = false →
        st.chars_buf = [] →
        ∃ st2, loop n m (fuel + 2) st = ([], .ok st2) ∧ st2.tags = [] ∧
          st2.seen_fatal_error = false := by
      intro fuel st hk hi htags hf hr hb
      have hne : st.token_kind ≠ .eof := by rw [hk]; decide
      unfold loop
      rw [if_neg hne]
      simp only [hstep st hk, hf, Bool.false_eq_true, if_false, hr, and_false]
      have hfetch : fetch n st = ([], .ok { st with token_text := [], token_kind := .eof }) := by
        unfold fetch
        rw [hi]
        simp [get_next_token, hb, hi]
      simp only [hfetch]
      unfold loop
      simp [htags, hf]
    have hpl : ∃ st2, parseLoop n m ('<' :: '!' :: '-' :: '-' :: b ++ ['-', '-', '>']) =
        ((forEach n fun i => [Call.doc i .start_document]), .ok st2) ∧ st2.tags = [] ∧
          st2.seen_fatal_error = false := by
      unfold parseLoop beforeLoop
      simp only [hws, htok]
      obtain ⟨st2, e, e1, e2⟩ := hloop (b.length + 6)
        { input := [], line_number := 1 + b.count LF, tags := [], seen_fatal_error := false,
          seen_root_tag := false, chars_buf := [], name := [],
          token_text := '<' :: '!' :: '-' :: '-' :: b ++ ['-', '-', '>'],
          token_kind := .comment } rfl rfl rfl rfl rfl rfl
      have hlen : ('<' :: '!' :: '-' :: '-' :: b ++ ['-', '-', '>']).length + 1 =
          b.length + 6 + 2 := by simp
      rw [hlen, e]
      exact ⟨st2, by simp, e1, e2⟩
    obtain ⟨st2, e, e1, e2⟩ := hpl
    have htry : tryBlock n m ('<' :: '!' :: '-' :: '-' :: b ++ ['-', '-', '>']) =
        ((forEach n fun i => [Call.doc i .start_document]) ++
          (forEach n fun i => [Call.doc i .end_document]), .ok ()) := by
      unfold tryBlock
      rw [e]
      simp [afterLoop, e1, e2]
    simp only [parse, htry, deliver_noThrow, List.nil_append]

theorem comment_token_is_whole_input_witness :
    get_next_token "<!-- a - b -->".toList 1 =
      .ok ⟨"<!-- a - b -->".toList, .comment, 1, []⟩ ∧
    parse noThrow 1 1 "<!-- a - b -->".toList =
      ([Call.doc 0 .start_document, Call.doc 0 .end_document], .returned) :=
  ⟨(comment_token_is_whole_input " a - b ".toList 1 1 1 (by decide) (by decide)).1,
   (comment_token_is_whole_input " a - b ".toList 1 1 1 (by decide) (by decide)).2.2.2⟩

/-- C26: when, after the opening `<!--`, the first `--` (the body `b` before
it holds no `--` and does not end in `-`) is followed by a character `c`
other than `>`, `get_next_token` returns a token of kind `error`; the token
ends at `c`. -/
theorem comment_double_hyphen_is_error (b : Str) (c : Char) (rest : List Char) (line : Nat)
    (h1 : ¬ (['-', '-'] <:+: b)) (h2 : b.getLast? ≠ some '-') (hc : c ≠ '>') :
    get_next_token ('<' :: '!' :: '-' :: '-' :: b ++ '-' :: '-' :: c :: rest) line =
      .ok ⟨'<' :: '!' :: '-' :: '-' :: b ++ ['-', '-', c], .error,
        line + (b ++ [c]).count LF, rest⟩ := by
  rw [get_next_token_comment b c rest line h1 h2, if_neg hc]

theorem comment_double_hyphen_is_error_witness :
    get_next_token "<!-- a -- b -->".toList 1 =
      .ok ⟨"<!-- a -- ".toList, .error, 1, "b -->".toList⟩ ∧
    get_next_token "<!-- a --->".toList 1 =
      .ok ⟨"<!-- a ---".toList, .error, 1, ['>']⟩ :=
  ⟨comment_double_hyphen_is_error " a ".toList ' ' "b -->".toList 1 (by decide) (by decide)
      (by decide),
   comment_double_hyphen_is_error " a ".toList '-' ['>'] 1 (by decide) (by decide)
      (by decide)⟩

/-! ## DTD blocks -/

/-- The prefixes of a string with one more character are the prefixes of the
string and the longer string itself. -/
theorem prefix_snoc {p text : List Char} {c : Char} (h : p <+: text ++ [c]) :
    p = text ++ [c] ∨ p <+: text := by
  have := List.prefix_concat_iff.1 (by simpa using h)
  simpa using this

/-- The DTD loop at a loop head: `d` is the number of `<` minus the number of
`>` in the text so far and is positive, as it is for every non-empty prefix
of the text.  When the token comes out as `dtd`, its text is the text so far
followed by more characters the last of which is `>`; it holds as many `<` as
`>`, and every proper non-empty prefix holds more `<` than `>`. -/
theorem dtdLoop_dtd (s : List Char) :
    ∀ (d : Nat) (text : Str) (line : Nat), 1 ≤ d →
      text.count '<' = text.count '>' + d →
      (∀ p, p <+: text → p ≠ [] → p.count '>' < p.count '<') →
      (dtdLoop s d text line).kind = .dtd →
      (∃ body, (dtdLoop s d text line).text = text ++ body ++ ['>']) ∧
      (dtdLoop s d text line).text.count '<' = (dtdLoop s d text line).text.count '>' ∧
      ∀ p, p <+: (dtdLoop s d text line).text → p ≠ [] →
        p ≠ (dtdLoop s d text line).text → p.count '>' < p.count '<' := by
  induction s with
  | nil =>
    intro d text line hd _ _ hk
    simp only [dtdLoop] at hk
    rw [if_neg (by omega)] at hk
    simp at hk
  | cons c s ih =>
    intro d text line hd hcount hpre hk
    have hlt : ('<' : Char) ≠ '>' := by decide
    simp only [dtdLoop] at hk ⊢
    by_cases h1 : c = '>'
    · subst h1
      rw [if_pos rfl] at hk ⊢
      by_cases h2 : d - 1 > 0
      · rw [if_pos h2] at hk ⊢
        obtain ⟨⟨body, e⟩, r2, r3⟩ := ih (d - 1) (text ++ ['>']) line (by omega)
          (by simp only [List.count_append, List.count_cons, List.count_nil]
              simp
              omega)
          (by
            intro p hp hne
            rcases prefix_snoc hp with rfl | hp
            · simp only [List.count_append, List.count_cons, List.count_nil]
              simp
              omega
            · exact hpre p hp hne) hk
        exact ⟨⟨'>' :: body, by rw [e]; simp⟩, r2, r3⟩
      · rw [if_neg h2]
        refine ⟨⟨[], by simp⟩, ?_, ?_⟩
        · simp only [List.count_append, List.count_cons, List.count_nil]
          simp
          omega
        · intro p hp hne hne2
          rcases prefix_snoc hp with rfl | hp
          · exact absurd rfl hne2
          · exact hpre p hp hne
    · rw [if_neg h1] at hk ⊢
      have hc1 : ¬ (c == '>') = true := by simpa using h1
      by_cases h3 : c = '<'
      · subst h3
        rw [if_pos rfl] at hk ⊢
        obtain ⟨⟨body, e⟩, r2, r3⟩ := ih (d + 1) (text ++ ['<']) line (by omega)
          (by simp only [List.count_append, List.count_cons, List.count_nil]
              simp
              omega)
          (by
            intro p hp hne
            rcases prefix_snoc hp with rfl | hp
            · simp only [List.count_append, List.count_cons, List.count_nil]
              simp
              omega
            · exact hpre p hp hne) hk
        exact ⟨⟨'<' :: body, by rw [e]; simp⟩, r2, r3⟩
      · rw [if_neg h3] at hk ⊢
        have hc3 : ¬ (c == '<') = true := by simpa using h3
        have hcnt : (text ++ [c]).count '<' = (text ++ [c]).count '>' + d := by
          simp only [List.count_append, List.count_cons, List.count_nil, hc1, hc3]
          simpa using hcount
        have hp2 : ∀ p, p <+: text ++ [c] → p ≠ [] → p.count '>' < p.count '<' := by
          intro p hp hne
          rcases prefix_snoc hp with rfl | hp
          · omega
          · exact hpre p hp hne
        by_cases h4 : c = LF
        · rw [if_pos h4] at hk ⊢
          obtain ⟨⟨body, e⟩, r2, r3⟩ := ih d (text ++ [c]) (line + 1) hd hcnt hp2 hk
          exact ⟨⟨c :: body, by rw [e]; simp⟩, r2, r3⟩
        · rw [if_neg h4] at hk ⊢
          obtain ⟨⟨body, e⟩, r2, r3⟩ := ih d (text ++ [c]) line hd hcnt hp2 hk
          exact ⟨⟨c :: body, by rw [e]; simp⟩, r2, r3⟩

theorem get_next_token_dtd (s : List Char) (line : Nat) (t : Token)
    (h : get_next_token s line = .ok t) (hk : t.kind = .dtd) :
    ∃ s2, s = '<' :: '!' :: s2 ∧ t = dtdLoop s2 1 ['<', '!'] line := by
  rcases get_next_token_cases s line with ⟨_, e⟩ | ⟨_, e⟩ | ⟨s2, hs, e⟩ | ⟨s2, _, e⟩ |
    ⟨s2, _, e⟩ | ⟨c2, s2, _, _, _, _, e⟩ | ⟨c1, s1, _, _, e⟩
  · rw [e] at h
    simp only [Res.ok.injEq] at h
    subst h
    simp at hk
  · rw [e] at h
    simp only [Res.ok.injEq] at h
    subst h
    simp at hk
  · rw [e] at h
    simp only [Res.ok.injEq] at h
    subst h
    rcases bangBranch_cases s2 line with ⟨r, e1⟩ | ⟨s6, _, e1⟩ | ⟨r, e1⟩ | ⟨s1, _, e1⟩ |
      ⟨_, _, e1⟩
    · rw [e1] at hk
      simp at hk
    · rw [e1] at hk
      rcases cdataLoop_kind s6 0 [] line with k | k <;> rw [k] at hk <;> simp at hk
    · rw [e1] at hk
      simp at hk
    · rw [e1] at hk
      rcases commentLoop_kind s1 0 ['<', '!', '-', '-'] line with k | k <;> rw [k] at hk <;>
        simp at hk
    · exact ⟨s2, hs, e1⟩
  · rw [e] at h
    simp only [Res.ok.injEq] at h
    subst h
    rcases piLoop_kind s2 ['<', '?'] line with k | k <;> rw [k] at hk <;> simp at hk
  · rw [e] at h
    simp only [Res.ok.injEq] at h
    subst h
    rcases endLoop_kind s2 ['<', '/'] line with k | k <;> rw [k] at hk <;> simp at hk
  · rw [e] at h
    simp only [Res.ok.injEq] at h
    subst h
    rcases startLoop_kind s2 NUL ['<', c2] line with k | k | k <;> rw [k] at hk <;>
      simp at hk
  · rw [e] at h
    rcases charsBranch_kind c1 s1 line t h with k | k <;> rw [k] at hk <;> simp at hk

/-- C27: the text of every token that `get_next_token` classifies as `dtd`
begins with `<!` and ends with `>`, holds as many `<` as `>`, and every proper
non-empty prefix of it holds more `<` than `>`. -/
theorem dtd_token_is_balanced (s : List Char) (line : Nat) (t : Token)
    (h : get_next_token s line = .ok t) (hk : t.kind = .dtd) :
    (∃ body, t.text = '<' :: '!' :: body ++ ['>']) ∧
    t.text.count '<' = t.text.count '>' ∧
    ∀ p, p <+: t.text → p ≠ [] → p ≠ t.text → p.count '>' < p.count '<' := by
  obtain ⟨s2, _, rfl⟩ := get_next_token_dtd s line t h hk
  obtain ⟨⟨body, e⟩, r2, r3⟩ := dtdLoop_dtd s2 1 ['<', '!'] line (by omega) (by decide)
    (by
      intro p hp hne
      rcases List.prefix_cons_iff.1 hp with rfl | ⟨t1, rfl, ht1⟩
      · exact absurd rfl hne
      · rcases List.prefix_cons_iff.1 ht1 with rfl | ⟨t2, rfl, ht2⟩
        · decide
        · have : t2 = [] := by simpa using ht2
          subst this
          decide) hk
  exact ⟨⟨body, by rw [e]; simp⟩, r2, r3⟩

theorem dtd_token_is_balanced_witness :
    (∃ body, "<!DOCTYPE a [<!ELEMENT a (b)>]>".toList = '<' :: '!' :: body ++ ['>']) ∧
    "<!DOCTYPE a [<!ELEMENT a (b)>]>".toList.count '<' =
      "<!DOCTYPE a [<!ELEMENT a (b)>]>".toList.count '>' ∧
    ∀ p, p <+: "<!DOCTYPE a [<!ELEMENT a (b)>]>".toList → p ≠ [] →
      p ≠ "<!DOCTYPE a [<!ELEMENT a (b)>]>".toList → p.count '>' < p.count '<' :=
  dtd_token_is_balanced "<!DOCTYPE a [<!ELEMENT a (b)>]><a/>".toList 1
    ⟨"<!DOCTYPE a [<!ELEMENT a (b)>]>".toList, .dtd, 1, "<a/>".toList⟩ (by decide) (by decide)

/-! ## Start tags and empty elements -/

/-- The start tag loop decides between `empty_element` and `element_start`
by the character before the closing `>`: `last` holds `/` exactly when the
text so far ends in `/`. -/
theorem startLoop_last (s : List Char) :
    ∀ (last : Char) (text : Str) (line : Nat), text ≠ [] →
      (last = '/' ↔ text.getLast? = some '/') →
      (startLoop s last text line).kind ≠ .error →
      ∃ pre x, (startLoop s last text line).text = pre ++ [x, '>'] ∧
        (startLoop s last text line).kind =
          if x = '/' then .empty_element else .element_start := by
  induction s with
  | nil => intro last text line _ _ h; simp [startLoop] at h
  | cons c s ih =>
    intro last text line hne hl h
    have hinv : c = '/' ↔ (text ++ [c]).getLast? = some '/' := by simp
    simp only [startLoop] at h ⊢
    by_cases h1 : c = LF
    · rw [if_pos h1] at h ⊢
      exact ih c (text ++ [c]) (line + 1) (by simp) hinv h
    · rw [if_neg h1] at h ⊢
      by_cases h2 : c = '<'
      · rw [if_pos h2] at h
        simp at h
      · rw [if_neg h2] at h ⊢
        by_cases h3 : c = '>'
        · rw [if_pos h3]
          obtain ⟨pre, x, rfl⟩ : ∃ pre x, text = pre ++ [x] := by
            rcases List.eq_nil_or_concat text with e | ⟨pre, x, e⟩
            · exact absurd e hne
            · exact ⟨pre, x, by rw [e, List.concat_eq_append]⟩
          refine ⟨pre, x, by simp [h3], ?_⟩
          have hx : last = '/' ↔ x = '/' := by simpa using hl
          by_cases hx2 : x = '/'
          · simp [hx2, hx.2 hx2]
          · have : last ≠ '/' := fun e => hx2 (hx.1 e)
            simp [hx2, this]
        · rw [if_neg h3] at h ⊢
          exact ih c (text ++ [c]) line (by simp) hinv h

/-- C28: on a stream that begins with `<` and a character other than `!`, `?`
and `/`, `get_next_token` returns a token; unless its kind is `error`, its
text ends in a character `x` followed by `>`, and its kind is `empty_element`
when `x` is `/` and `element_start` otherwise. -/
theorem start_tag_kind_by_char_before_gt (c2 : Char) (s2 : List Char) (line : Nat)
    (h1 : c2 ≠ '!') (h2 : c2 ≠ '?') (h3 : c2 ≠ '/') :
    ∃ t, get_next_token ('<' :: c2 :: s2) line = .ok t ∧
      (t.kind ≠ .error → ∃ pre x, t.text = pre ++ [x, '>'] ∧
        t.kind = if x = '/' then .empty_element else .element_start) := by
  have e : get_next_token ('<' :: c2 :: s2) line = .ok (startLoop s2 NUL ['<', c2] line) := by
    rcases get_next_token_cases ('<' :: c2 :: s2) line with ⟨hs, _⟩ | ⟨hs, _⟩ | ⟨_, hs, _⟩ |
      ⟨_, hs, _⟩ | ⟨_, hs, _⟩ | ⟨c, r, hs, _, _, _, e⟩ | ⟨c1, s1, hs, hc, _⟩
    · simp at hs
    · simp at hs
    · simp only [List.cons.injEq, true_and] at hs
      exact absurd hs.1 h1
    · simp only [List.cons.injEq, true_and] at hs
      exact absurd hs.1 h2
    · simp only [List.cons.injEq, true_and] at hs
      exact absurd hs.1 h3
    · simp only [List.cons.injEq, true_and] at hs
      obtain ⟨rfl, rfl⟩ := hs
      exact e
    · simp only [List.cons.injEq] at hs
      exact absurd hs.1.symm hc
  refine ⟨_, e, ?_⟩
  intro hk
  exact startLoop_last s2 NUL ['<', c2] line (by simp) (by
    constructor
    · intro e1
      exact absurd e1 (by decide)
    · intro e1
      simp only [List.getLast?_cons_cons, List.getLast?_singleton, Option.some.injEq] at e1
      exact absurd e1 h3) hk

theorem start_tag_kind_by_char_before_gt_witness :
    ∃ t, get_next_token "<a b='c'/>x".toList 1 = .ok t ∧
      (t.kind ≠ .error → ∃ pre x, t.text = pre ++ [x, '>'] ∧
        t.kind = if x = '/' then .empty_element else .element_start) :=
  start_tag_kind_by_char_before_gt 'a' " b='c'/>x".toList 1 (by decide) (by decide)
    (by decide)

/-! ## How far `change_entity` reads -/

theorem posOk_of_pref (c : List Char) (y : Char)
    (h : ∀ i x, i < c.length → c.get? i = some x → entityPosOk i x = true) :
    ∀ i x, i + 1 < (c ++ [y]).length → (c ++ [y]).get? i = some x → entityPosOk i x = true := by
  intro i x hi hx
  have hi2 : i < c.length := by simpa using hi
  rw [List.get?_eq_getElem?, List.getElem?_append_left hi2] at hx
  exact h i x hi2 (by rw [List.get?_eq_getElem?]; exact hx)

theorem posOk_snoc (c : List Char) (y : Char)
    (h : ∀ i x, i < c.length → c.get? i = some x → entityPosOk i x = true)
    (hy : entityPosOk c.length y = true) :
    ∀ i x, i < (c ++ [y]).length → (c ++ [y]).get? i = some x → entityPosOk i x = true := by
  intro i x hi hx
  by_cases hi2 : i < c.length
  · rw [List.get?_eq_getElem?, List.getElem?_append_left hi2] at hx
    exact h i x hi2 (by rw [List.get?_eq_getElem?]; exact hx)
  · have : i = c.length := by
      simp only [List.length_append, List.length_singleton] at hi
      omega
    subst this
    simp at hx
    subst hx
    exact hy

/-- Counterexample to C29: on the stream `atxy` the call of `change_entity`
consumes `atx` and returns `-1`, although `at` is not a prefix of the name of
any of the five entities: the second character is tested against the set
`m`, `t`, `p`, `u` whatever the first one was. -/
theorem change_entity_reads_past_non_prefix :
    change_entity ['a', 't', 'x', 'y'] = (none, ['y']) ∧
    ∀ e ∈ entityTable, ¬ (['a', 't'] <+: e.1) := by
  constructor <;> decide

/-- C29 (amended): for every stream, `change_entity` consumes at most five
characters, and it reads a further character only after the ones read so far
have passed the test of their position (the first is one of `a`, `l`, `g`,
`q`, the second one of `m`, `t`, `p`, `u`, the third is `p` or `o`, the fourth
is not `;`): all consumed characters but the last pass these tests. -/
theorem change_entity_reads_while_tests_pass (s0 : List Char) :
    ∃ c, s0 = c ++ (change_entity s0).2 ∧ c.length ≤ 5 ∧
      ∀ i x, i + 1 < c.length → c.get? i = some x → entityPosOk i x = true := by
  have h0 : ∀ i x, i < ([] : List Char).length → ([] : List Char).get? i = some x →
      entityPosOk i x = true := by
    intro i x hi
    simp at hi
  cases s0 with
  | nil => exact ⟨[], by simp [change_entity, get], by simp, by simp⟩
  | cons x1 s1 =>
    by_cases t1 : some x1 ≠ some 'a' ∧ some x1 ≠ some 'l' ∧ some x1 ≠ some 'g' ∧
        some x1 ≠ some 'q'
    · refine ⟨[] ++ [x1], ?_, by simp, posOk_of_pref [] x1 h0⟩
      simp only [change_entity, get]
      rw [if_pos t1]
      rfl
    have p1 : entityPosOk 0 x1 = true := by
      simp only [ne_eq, Option.some.injEq, not_and, not_not] at t1
      simp only [entityPosOk, Bool.or_eq_true, beq_iff_eq]
      tauto
    have q1 := posOk_snoc [] x1 h0 p1
    cases s1 with
    | nil =>
      refine ⟨[] ++ [x1], ?_, by simp, posOk_of_pref [] x1 h0⟩
      simp only [change_entity, get]
      rw [if_neg t1, if_pos (by simp)]
      rfl
    | cons x2 s2 =>
      by_cases t2 : some x2 ≠ some 'm' ∧ some x2 ≠ some 't' ∧ some x2 ≠ some 'p' ∧
          some x2 ≠ some 'u'
      · refine ⟨[] ++ [x1] ++ [x2], ?_, by simp, posOk_of_pref _ x2 q1⟩
        simp only [change_entity, get]
        rw [if_neg t1, if_pos t2]
        rfl
      have p2 : entityPosOk 1 x2 = true := by
        simp only [ne_eq, Option.some.injEq, not_and, not_not] at t2
        simp only [entityPosOk, Bool.or_eq_true, beq_iff_eq]
        tauto
      have q2 := posOk_snoc ([] ++ [x1]) x2 q1 p2
      cases s2 with
      | nil =>
        refine ⟨[] ++ [x1] ++ [x2], ?_, by simp, posOk_of_pref _ x2 q1⟩
        simp only [change_entity, get]
        rw [if_neg t1, if_neg t2, if_pos (by simp)]
        rfl
      | cons x3 s3 =>
        by_cases t3 : some x3 ≠ some 'p' ∧ some x3 ≠ some ';' ∧ some x3 ≠ some 'o'
        · refine ⟨[] ++ [x1] ++ [x2] ++ [x3], ?_, by simp, posOk_of_pref _ x3 q2⟩
          simp only [change_entity, get]
          rw [if_neg t1, if_neg t2, if_pos t3]
          rfl
        by_cases t3s : some x3 = some ';'
        · refine ⟨[] ++ [x1] ++ [x2] ++ [x3], ?_, by simp, posOk_of_pref _ x3 q2⟩
          simp only [change_entity, get]
          rw [if_neg t1, if_neg t2, if_neg t3, if_pos t3s]
          split_ifs <;> rfl
        have p3 : entityPosOk 2 x3 = true := by
          simp only [ne_eq, Option.some.injEq, not_and, not_not] at t3
          simp only [Option.some.injEq] at t3s
          simp only [entityPosOk, Bool.or_eq_true, beq_iff_eq]
          tauto
        have q3 := posOk_snoc ([] ++ [x1] ++ [x2]) x3 q2 p3
        cases s3 with
        | nil =>
          refine ⟨[] ++ [x1] ++ [x2] ++ [x3], ?_, by simp, posOk_of_pref _ x3 q2⟩
          simp only [change_entity, get]
          rw [if_neg t1, if_neg t2, if_neg t3, if_neg t3s, if_neg (by simp)]
          split_ifs <;> rfl
        | cons x4 s4 =>
          by_cases t4 : some x4 = some ';'
          · refine ⟨[] ++ [x1] ++ [x2] ++ [x3] ++ [x4], ?_, by simp, posOk_of_pref _ x4 q3⟩
            simp only [change_entity, get]
            rw [if_neg t1, if_neg t2, if_neg t3, if_neg t3s, if_pos t4]
            split_ifs <;> rfl
          have p4 : entityPosOk 3 x4 = true := by
            simp only [Option.some.injEq] at t4
            simpa [entityPosOk] using t4
          have q4 := posOk_snoc ([] ++ [x1] ++ [x2] ++ [x3]) x4 q3 p4
          cases s4 with
          | nil =>
            refine ⟨[] ++ [x1] ++ [x2] ++ [x3] ++ [x4], ?_, by simp, posOk_of_pref _ x4 q3⟩
            simp only [change_entity, get]
            rw [if_neg t1, if_neg t2, if_neg t3, if_neg t3s, if_neg t4]
            split_ifs <;> rfl
          | cons x5 s5 =>
            refine ⟨[] ++ [x1] ++ [x2] ++ [x3] ++ [x4] ++ [x5], ?_, by simp,
              posOk_of_pref _ x5 q4⟩
            simp only [change_entity, get]
            rw [if_neg t1, if_neg t2, if_neg t3, if_neg t3s, if_neg t4]
            split_ifs <;> rfl

/-! ## Dispatch of start tags and empty elements -/

/-- C30: for a token of kind `empty_element` or `element_start` on which
`parse_element` returns `0`, the `switch` of the token loop calls, on each
document handler in turn, `start_element` with the current line, the name and
the attributes, followed for an `empty_element` token by `end_element` with
the same line and name; no error handler is called.  The tag stack is left
as it is for `empty_element`, and the name is pushed on it for
`element_start`. -/
theorem accepted_element_dispatch (n m : Nat) (st : DState) (r : ElementResult)
    (hp : parse_element st.token_text = .ok r) (h0 : r.status = 0) :
    (st.token_kind = .empty_element →
      ∃ st1, step n m st =
          (forEach n fun i => [Call.doc i (.start_element st.line_number r.name r.atts),
            Call.doc i (.end_element st.line_number r.name)], .ok st1) ∧
        st1.tags = st.tags ∧ st1.seen_fatal_error = st.seen_fatal_error ∧
        (∀ i, i < n → docCalls i (step n m st).1 =
          [.start_element st.line_number r.name r.atts,
            .end_element st.line_number r.name]) ∧
        ∀ i, errCalls i (step n m st).1 = []) ∧
    (st.token_kind = .element_start →
      ∃ st1, step n m st =
          (forEach n fun i => [Call.doc i (.start_element st.line_number r.name r.atts)],
            .ok st1) ∧
        st1.tags = r.name :: st.tags ∧ st1.seen_fatal_error = st.seen_fatal_error ∧
        (∀ i, i < n → docCalls i (step n m st).1 =
          [.start_element st.line_number r.name r.atts]) ∧
        ∀ i, errCalls i (step n m st).1 = []) := by
  constructor
  · intro hk
    have hs : step n m st =
        (forEach n fun i => [Call.doc i (.start_element st.line_number r.name r.atts),
          Call.doc i (.end_element st.line_number r.name)],
         .ok { st with
            seen_root_tag := true
            seen_fatal_error := st.seen_fatal_error
            name := r.name
            tags := st.tags }) := by
      unfold step
      simp [hk, hp, h0]
    refine ⟨_, hs, rfl, rfl, ?_, ?_⟩
    · intro i hi
      rw [hs]
      have := docCalls_forEach_doc i n (fun _ =>
        [DocEvent.start_element st.line_number r.name r.atts,
          DocEvent.end_element st.line_number r.name])
      simpa [hi] using this
    · intro i
      rw [hs]
      have := errCalls_forEach_doc i n (fun _ =>
        [DocEvent.start_element st.line_number r.name r.atts,
          DocEvent.end_element st.line_number r.name])
      simpa using this
  · intro hk
    have hs : step n m st =
        (forEach n fun i => [Call.doc i (.start_element st.line_number r.name r.atts)],
         .ok { st with
            seen_root_tag := true
            seen_fatal_error := st.seen_fatal_error
            name := r.name
            tags := r.name :: st.tags }) := by
      unfold step
      simp [hk, hp, h0]
    refine ⟨_, hs, rfl, rfl, ?_, ?_⟩
    · intro i hi
      rw [hs]
      have := docCalls_forEach_doc i n (fun _ =>
        [DocEvent.start_element st.line_number r.name r.atts])
      simpa [hi] using this
    · intro i
      rw [hs]
      have := errCalls_forEach_doc i n (fun _ =>
        [DocEvent.start_element st.line_number r.name r.atts])
      simpa using this

theorem accepted_element_dispatch_witness :
    parse noThrow 1 1 "<a><b c='d'/></a>".toList =
      ([Call.doc 0 .start_document, Call.doc 0 (.start_element 1 ['a'] []),
        Call.doc 0 (.start_element 1 ['b'] [(['c'], ['d'])]),
        Call.doc 0 (.end_element 1 ['b']), Call.doc 0 (.end_element 1 ['a']),
        Call.doc 0 .end_document], .returned) ∧
    ∃ st1, step 1 1 ⟨"</a>".toList, 1, [['a']], false, true, [], ['a'],
          "<b c='d'/>".toList, .empty_element⟩ =
        (forEach 1 fun i => [Call.doc i (.start_element 1 ['b'] [(['c'], ['d'])]),
          Call.doc i (.end_element 1 ['b'])], .ok st1) ∧
      st1.tags = [['a']] ∧ st1.seen_fatal_error = false ∧
      (∀ i, i < 1 → docCalls i (step 1 1 ⟨"</a>".toList, 1, [['a']], false, true, [], ['a'],
          "<b c='d'/>".toList, .empty_element⟩).1 =
        [.start_element 1 ['b'] [(['c'], ['d'])], .end_element 1 ['b']]) ∧
      ∀ i, errCalls i (step 1 1 ⟨"</a>".toList, 1, [['a']], false, true, [], ['a'],
          "<b c='d'/>".toList, .empty_element⟩).1 = [] :=
  ⟨by decide!,
   (accepted_element_dispatch 1 1 ⟨"</a>".toList, 1, [['a']], false, true, [], ['a'],
      "<b c='d'/>".toList, .empty_element⟩ ⟨0, ['b'], [(['c'], ['d'])]⟩ (by decide) rfl).1 rfl⟩

/-! ## Registration of handlers and the order of delivery -/

theorem seqAdd_size {α : Type} (s : List α) (item : α) :
    seqAdd s s.length item = s ++ [item] := by
  simp [seqAdd]

theorem deliver_prefix (throws : List Call → Call → Bool) (cs : List Call) :
    ∀ hist, ∃ pre, pre <+: cs ∧ (deliver throws hist cs).1 = hist ++ pre := by
  induction cs with
  | nil => intro hist; exact ⟨[], List.prefix_refl _, by simp [deliver]⟩
  | cons c cs ih =>
    intro hist
    simp only [deliver]
    by_cases h : throws hist c = true
    · rw [if_pos h]
      exact ⟨[c], by simp, rfl⟩
    · rw [if_neg h]
      obtain ⟨pre, hp, e⟩ := ih (hist ++ [c])
      refine ⟨c :: pre, ?_, by rw [e]; simp⟩
      obtain ⟨t, rfl⟩ := hp
      exact ⟨t, by simp⟩

theorem tryBlock_render (n m : Nat) (input : List Char) :
    ∃ bs, (tryBlock n m input).1 = render n m bs := by
  obtain ⟨bs, e, _⟩ := parseLoop_render n m input
  unfold tryBlock
  rcases h : parseLoop n m input with ⟨c, r⟩
  rw [h] at e
  simp only at e
  subst e
  cases r with
  | ok st =>
    refine ⟨(([.start_document], []) :: bs) ++
      [([], if st.tags.length ≠ 0 ∨ st.seen_fatal_error = true then
        [.fatal_error st.line_number] else []), ([.end_document], [])], ?_⟩
    simp only
    rw [afterLoop_render, ← render_append]
  | undefined => exact ⟨_, rfl⟩
  | nofuel => exact ⟨_, rfl⟩

/-- The calls of `parse`, in order: a beginning of the calls of the `try`
block followed, after an exception, by a beginning of the calls of
`end_document` of the `catch` block. -/
theorem parse_calls_prefix (throws : List Call → Call → Bool) (n m : Nat)
    (input : List Char) :
    ∃ pre1 pre2, (parse throws n m input).1 = pre1 ++ pre2 ∧
      pre1 <+: (tryBlock n m input).1 ∧
      pre2 <+: (forEach n fun i => [Call.doc i .end_document]) := by
  obtain ⟨pre1, hp1, e1⟩ := deliver_prefix throws (tryBlock n m input).1 []
  unfold parse
  simp only
  rcases hd : deliver throws [] (tryBlock n m input).1 with ⟨hist, b⟩
  rw [hd] at e1
  simp only [List.nil_append] at e1
  subst e1
  cases b with
  | true =>
    obtain ⟨pre2, hp2, e2⟩ :=
      deliver_prefix throws (forEach n fun i => [Call.doc i .end_document]) hist
    exact ⟨hist, pre2, by simp only [e2], hp1, hp2⟩
  | false =>
    refine ⟨hist, [], ?_, hp1, List.nil_prefix⟩
    cases (tryBlock n m input).2 <;> simp

theorem filterMap_some_fun {α β : Type} (f : α → β) (l : List α) :
    l.filterMap (fun e => some (f e)) = l.map f := by
  induction l with
  | nil => rfl
  | cons a l ih => simp [List.filterMap_cons, ih]

theorem received_append {H E : Type} (p : Parser H E) (a b : List Call) :
    p.received (a ++ b) = p.received a ++ p.received b := by
  simp [Parser.received, List.filterMap_append]

theorem flatMap_range_get {α β : Type} (f : Option α → List β) (l : List α) :
    (List.range l.length).flatMap (fun j => f (l.get? j)) = l.flatMap fun h => f (some h) := by
  induction l with
  | nil => simp
  | cons a l ih =>
    rw [List.length_cons, List.range_succ_eq_map, List.flatMap_cons, List.flatMap_cons]
    simp only [List.get?_cons_zero, List.flatMap_map]
    rw [← ih]
    rfl

theorem received_flatMap {H E : Type} (p : Parser H E) (l : List Nat)
    (body : Nat → List Call) :
    p.received (l.flatMap body) = l.flatMap fun j => p.received (body j) := by
  induction l with
  | nil => simp [Parser.received]
  | cons a l ih => simp [List.flatMap_cons, received_append, ih]

theorem received_map_doc {H E : Type} (p : Parser H E) (j : Nat) (des : List DocEvent) :
    p.received (des.map (Call.doc j)) =
      match p.dh_list.get? j with
      | some h => des.map (Received.doc h)
      | none => [] := by
  have h1 : p.received (des.map (Call.doc j)) =
      des.filterMap (fun e => (p.dh_list.get? j).map fun h => Received.doc h e) := by
    unfold Parser.received
    rw [List.filterMap_map]
    rfl
  rw [h1]
  cases p.dh_list.get? j with
  | none => simp
  | some h => simp [filterMap_some_fun]

theorem received_map_err {H E : Type} (p : Parser H E) (j : Nat) (ees : List ErrEvent) :
    p.received (ees.map (Call.err j)) =
      match p.eh_list.get? j with
      | some h => ees.map (Received.err h)
      | none => [] := by
  have h1 : p.received (ees.map (Call.err j)) =
      ees.filterMap (fun e => (p.eh_list.get? j).map fun h => Received.err h e) := by
    unfold Parser.received
    rw [List.filterMap_map]
    rfl
  rw [h1]
  cases p.eh_list.get? j with
  | none => simp
  | some h => simp [filterMap_some_fun]

/-- The loops of `parse` over the handler lists deliver each block of calls
to the handler objects in the order of the lists. -/
theorem received_render {H E : Type} (p : Parser H E)
    (bs : List (List DocEvent × List ErrEvent)) :
    p.received (render p.dh_list.length p.eh_list.length bs) = p.broadcast bs := by
  induction bs with
  | nil => simp [render, Parser.received, Parser.broadcast]
  | cons b bs ih =>
    have h : render p.dh_list.length p.eh_list.length (b :: bs) =
        render p.dh_list.length p.eh_list.length [b] ++
          render p.dh_list.length p.eh_list.length bs :=
      render_append _ _ [b] bs
    rw [h, received_append, ih]
    have hb : p.received (render p.dh_list.length p.eh_list.length [b]) = p.broadcast [b] := by
      simp only [render, Parser.broadcast, List.flatMap_cons, List.flatMap_nil,
        List.append_nil, received_append, forEach, received_flatMap, received_map_doc,
        received_map_err]
      rw [flatMap_range_get (fun o => match o with
          | some h => b.1.map (Received.doc h)
          | none => ([] : List (Received H E))) p.dh_list,
        flatMap_range_get (fun o => match o with
          | some h => b.2.map (Received.err h)
          | none => ([] : List (Received H E))) p.eh_list]
    rw [hb]
    simp [Parser.broadcast]

/-- C24: `add_document_handler` and `add_error_handler` put the handler at
the end of their list and leave the other list alone, whether or not the
handler is in the list already; `clear` empties both lists.  The callbacks of
`parse` reach the handler objects as a sequence of notifications in each of
which the handlers of one list are called in the order of the list, every
entry of the list once: all of it when no callback throws, and otherwise a
beginning of it followed by a beginning of the `end_document` notification of
the `catch` block. -/
theorem handlers_appended_and_called_in_order {H E : Type} (p : Parser H E) (h : H) (e : E)
    (throws : List Call → Call → Bool) (input : List Char) :
    (add_document_handler p h).dh_list = p.dh_list ++ [h] ∧
    (add_document_handler p h).eh_list = p.eh_list ∧
    (add_error_handler p e).eh_list = p.eh_list ++ [e] ∧
    (add_error_handler p e).dh_list = p.dh_list ∧
    (add_document_handler (add_document_handler p h) h).dh_list = p.dh_list ++ [h, h] ∧
    (clear p).dh_list = [] ∧ (clear p).eh_list = [] ∧
    (∃ blocks, p.parse noThrow input = p.broadcast blocks) ∧
    ∃ blocks r1 r2, p.parse throws input = r1 ++ r2 ∧ r1 <+: p.broadcast blocks ∧
      r2 <+: p.broadcast [([.end_document], [])] := by
  have h2 : (add_document_handler (add_document_handler p h) h).dh_list =
      p.dh_list ++ [h, h] := by
    show seqAdd (seqAdd p.dh_list p.dh_list.length h)
      (seqAdd p.dh_list p.dh_list.length h).length h = _
    rw [seqAdd_size, seqAdd_size]
    simp
  refine ⟨by simp [add_document_handler, seqAdd_size], rfl,
    by simp [add_error_handler, seqAdd_size], rfl, h2, rfl, rfl, ?_, ?_⟩
  · obtain ⟨bs, hb⟩ := tryBlock_render p.dh_list.length p.eh_list.length input
    refine ⟨bs, ?_⟩
    unfold Parser.parse
    rw [parse_noThrow_calls, hb, received_render]
  · obtain ⟨bs, hb⟩ := tryBlock_render p.dh_list.length p.eh_list.length input
    obtain ⟨pre1, pre2, e1, hp1, hp2⟩ :=
      parse_calls_prefix throws p.dh_list.length p.eh_list.length input
    refine ⟨bs, p.received pre1, p.received pre2, ?_, ?_, ?_⟩
    · unfold Parser.parse
      rw [e1, received_append]
    · rw [← received_render, ← hb]
      exact List.IsPrefix.filterMap _ hp1
    · rw [← received_render]
      have : render p.dh_list.length p.eh_list.length [([DocEvent.end_document], [])] =
          forEach p.dh_list.length fun i => [Call.doc i .end_document] := by
        rw [render_doc]
        rfl
      rw [this]
      exact List.IsPrefix.filterMap _ hp2

theorem handlers_appended_and_called_in_order_witness :
    (add_document_handler (add_document_handler (clear (⟨[7], [8]⟩ : Parser Nat Nat)) 1)
      1).parse noThrow "<a/>".toList =
      [.doc 1 .start_document, .doc 1 .start_document,
       .doc 1 (.start_element 1 ['a'] []), .doc 1 (.end_element 1 ['a']),
       .doc 1 (.start_element 1 ['a'] []), .doc 1 (.end_element 1 ['a']),
       .doc 1 .end_document, .doc 1 .end_document] ∧
    (add_document_handler (add_document_handler (⟨[], []⟩ : Parser Nat Nat) 1) 1).dh_list =
      [] ++ [1, 1] := by
  refine ⟨by decide,
    (handlers_appended_and_called_in_order (⟨[], []⟩ : Parser Nat Nat) 1 0 noThrow []).2.2.2.2.1⟩

/-! ## Tokens do not depend on what follows them -/

theorem cdataLoop_ext (x : List Char) (s : List Char) :
    ∀ b text line, (cdataLoop s b text line).kind = .chars_cdata →
      cdataLoop (s ++ x) b text line = (cdataLoop s b text line).withSuffix x := by
  induction s with
  | nil => intro b text line h; simp [cdataLoop] at h
  | cons c s ih =>
    intro b text line h
    simp only [cdataLoop, List.cons_append, List.append_eq] at h ⊢
    split_ifs at h ⊢ <;> first | rfl | exact ih _ _ _ h

theorem commentLoop_ext (x : List Char) (s : List Char) :
    ∀ k text line, (commentLoop s k text line).kind = .comment →
      commentLoop (s ++ x) k text line = (commentLoop s k text line).withSuffix x := by
  induction s with
  | nil => intro k text line h; simp [commentLoop] at h
  | cons c s ih =>
    intro k text line h
    simp only [commentLoop, List.cons_append, List.append_eq] at h ⊢
    split_ifs at h ⊢ <;> first | rfl | exact ih _ _ _ h

theorem dtdLoop_ext (x : List Char) (s : List Char) :
    ∀ d text line, 1 ≤ d → (dtdLoop s d text line).kind = .dtd →
      dtdLoop (s ++ x) d text line = (dtdLoop s d text line).withSuffix x := by
  induction s with
  | nil =>
    intro d text line hd h
    simp only [dtdLoop] at h
    rw [if_neg (by omega)] at h
    simp at h
  | cons c s ih =>
    intro d text line hd h
    have hd1 : 1 ≤ d + 1 := by omega
    simp only [dtdLoop, List.cons_append, List.append_eq] at h ⊢
    by_cases h1 : c = '>'
    · simp only [if_pos h1] at h ⊢
      by_cases h2 : d - 1 > 0
      · simp only [if_pos h2] at h ⊢
        exact ih _ _ _ (by omega) h
      · simp only [if_neg h2] at h ⊢
        rfl
    · simp only [if_neg h1] at h ⊢
      split_ifs at h ⊢ <;> first | exact ih _ _ _ hd1 h | exact ih _ _ _ hd h

theorem piLoop_ext (x : List Char) (s : List Char) :
    ∀ text line, (piLoop s text line).kind = .pi →
      piLoop (s ++ x) text line = (piLoop s text line).withSuffix x := by
  induction s with
  | nil => intro text line h; simp [piLoop] at h
  | cons c s ih =>
    intro text line h
    simp only [piLoop, List.cons_append, List.append_eq] at h ⊢
    split_ifs at h ⊢ <;> first | rfl | exact ih _ _ h

theorem endLoop_ext (x : List Char) (s : List Char) :
    ∀ text line, (endLoop s text line).kind = .element_end →
      endLoop (s ++ x) text line = (endLoop s text line).withSuffix x := by
  induction s with
  | nil => intro text line h; simp [endLoop] at h
  | cons c s ih =>
    intro text line h
    simp only [endLoop, List.cons_append, List.append_eq] at h ⊢
    split_ifs at h ⊢ <;> first | rfl | exact ih _ _ h

theorem startLoop_ext (x : List Char) (s : List Char) :
    ∀ last text line, (startLoop s last text line).kind ≠ .error →
      startLoop (s ++ x) last text line = (startLoop s last text line).withSuffix x := by
  induction s with
  | nil => intro last text line h; simp [startLoop] at h
  | cons c s ih =>
    intro last text line h
    simp only [startLoop, List.cons_append, List.append_eq] at h ⊢
    split_ifs at h ⊢ <;> first | rfl | exact ih _ _ _ h

theorem change_entity_ext (x s : List Char) (t : Char) (s1 : List Char)
    (h : change_entity s = (some t, s1)) : change_entity (s ++ x) = (some t, s1 ++ x) := by
  obtain ⟨e, he, hc, rfl⟩ := ce_some_imp s t s1 h
  rw [List.append_assoc]
  exact ce_some_of t (s1 ++ x) e he hc

theorem charsLoop_ext (x : List Char) (fuel : Nat) :
    ∀ (fuel2 : Nat) (s : List Char) (text : Str) (line : Nat) (t : Token), fuel ≤ fuel2 →
      charsLoop fuel s text line = .ok t → t.kind = .chars → t.rest ≠ [] →
      charsLoop fuel2 (s ++ x) text line = .ok (t.withSuffix x) := by
  induction fuel with
  | zero =>
    intro fuel2 s text line t _ h hk hr
    cases s with
    | nil =>
      simp only [charsLoop, Res.ok.injEq] at h
      subst h
      exact absurd rfl hr
    | cons c s => simp [charsLoop] at h
  | succ f ih =>
    intro fuel2 s text line t hf h hk hr
    cases s with
    | nil =>
      simp only [charsLoop, Res.ok.injEq] at h
      subst h
      exact absurd rfl hr
    | cons c s =>
      obtain ⟨f2, rfl⟩ : ∃ f2, fuel2 = f2 + 1 := ⟨fuel2 - 1, by omega⟩
      simp only [charsLoop, List.cons_append, List.append_eq] at h ⊢
      by_cases h1 : c = '<'
      · rw [if_pos h1] at h ⊢
        simp only [Res.ok.injEq] at h
        subst h
        rfl
      · rw [if_neg h1] at h ⊢
        by_cases h2 : c = '&'
        · rw [if_pos h2] at h ⊢
          rcases hce : change_entity s with ⟨o, s1⟩
          rw [hce] at h
          cases o with
          | none =>
            simp only [Res.ok.injEq] at h
            subst h
            simp at hk
          | some t0 =>
            rw [change_entity_ext x s t0 s1 hce]
            exact ih f2 s1 _ _ t (by omega) h hk hr
        · rw [if_neg h2] at h ⊢
          exact ih f2 s _ _ t (by omega) h hk hr

theorem get_next_token_start (c2 : Char) (s2 : List Char) (line : Nat)
    (h1 : c2 ≠ '!') (h2 : c2 ≠ '?') (h3 : c2 ≠ '/') :
    get_next_token ('<' :: c2 :: s2) line = .ok (startLoop s2 NUL ['<', c2] line) := by
  rcases get_next_token_cases ('<' :: c2 :: s2) line with ⟨hs, _⟩ | ⟨hs, _⟩ | ⟨_, hs, _⟩ |
    ⟨_, hs, _⟩ | ⟨_, hs, _⟩ | ⟨c, r, hs, _, _, _, e⟩ | ⟨c1, s1, hs, hc, _⟩
  · simp at hs
  · simp at hs
  · simp only [List.cons.injEq, true_and] at hs
    exact absurd hs.1 h1
  · simp only [List.cons.injEq, true_and] at hs
    exact absurd hs.1 h2
  · simp only [List.cons.injEq, true_and] at hs
    exact absurd hs.1 h3
  · simp only [List.cons.injEq, true_and] at hs
    obtain ⟨rfl, rfl⟩ := hs
    exact e
  · simp only [List.cons.injEq] at hs
    exact absurd hs.1.symm hc

theorem bangBranch_ext (x s : List Char) (line : Nat)
    (hk : (bangBranch s line).kind ≠ .error) :
    bangBranch (s ++ x) line = (bangBranch s line).withSuffix x := by
  rcases bangBranch_cases s line with ⟨r, e1⟩ | ⟨s6, hs, e1⟩ | ⟨r, e1⟩ | ⟨s1, hs, e1⟩ |
    ⟨p1, p2, e1⟩
  · rw [e1] at hk
    exact absurd rfl hk
  · rw [e1] at hk ⊢
    have hc : (cdataLoop s6 0 [] line).kind = .chars_cdata := by
      rcases cdataLoop_kind s6 0 [] line with k | k
      · exact absurd k hk
      · exact k
    rw [← cdataLoop_ext x s6 0 [] line hc, hs]
    simp [bangBranch, peek, get]
  · rw [e1] at hk
    exact absurd rfl hk
  · rw [e1] at hk ⊢
    have hc : (commentLoop s1 0 ['<', '!', '-', '-'] line).kind = .comment := by
      rcases commentLoop_kind s1 0 ['<', '!', '-', '-'] line with k | k
      · exact absurd k hk
      · exact k
    rw [← commentLoop_ext x s1 0 _ line hc, hs]
    simp [bangBranch, peek, get]
  · rw [e1] at hk ⊢
    have hc : (dtdLoop s 1 ['<', '!'] line).kind = .dtd := by
      rcases dtdLoop_kind s 1 ['<', '!'] line with k | k
      · exact absurd k hk
      · exact k
    rw [← dtdLoop_ext x s 1 _ line (by omega) hc]
    cases s with
    | nil => simp [dtdLoop] at hc
    | cons c s =>
      simp only [peek, ne_eq, Option.some.injEq] at p1 p2
      simp [bangBranch, peek, p1, p2]

/-- A token that did not end at the end of the input is the same whatever
follows the input: this holds for every token other than `eof` and `error`
tokens and `chars` tokens that reach the end of the input. -/
theorem get_next_token_ext (x s : List Char) (line : Nat) (t : Token)
    (h : get_next_token s line = .ok t) (he : t.kind ≠ .error) (hf : t.kind ≠ .eof)
    (hc : t.kind = .chars → t.rest ≠ []) :
    get_next_token (s ++ x) line = .ok (t.withSuffix x) := by
  rcases get_next_token_cases s line with ⟨_, e⟩ | ⟨_, e⟩ | ⟨s2, hs, e⟩ | ⟨s2, hs, e⟩ |
    ⟨s2, hs, e⟩ | ⟨c2, s2, hs, n1, n2, n3, e⟩ | ⟨c1, s1, hs, hlt, e⟩
  · rw [e] at h
    simp only [Res.ok.injEq] at h
    subst h
    exact absurd rfl hf
  · rw [e] at h
    simp only [Res.ok.injEq] at h
    subst h
    exact absurd rfl he
  · rw [e] at h
    simp only [Res.ok.injEq] at h
    subst h
    rw [← bangBranch_ext x s2 line he, hs]
    rfl
  · rw [e] at h
    simp only [Res.ok.injEq] at h
    subst h
    have hk : (piLoop s2 ['<', '?'] line).kind = .pi := by
      rcases piLoop_kind s2 ['<', '?'] line with k | k
      · exact absurd k he
      · exact k
    rw [← piLoop_ext x s2 _ line hk, hs]
    rfl
  · rw [e] at h
    simp only [Res.ok.injEq] at h
    subst h
    have hk : (endLoop s2 ['<', '/'] line).kind = .element_end := by
      rcases endLoop_kind s2 ['<', '/'] line with k | k
      · exact absurd k he
      · exact k
    rw [← endLoop_ext x s2 _ line hk, hs]
    rfl
  · rw [e] at h
    simp only [Res.ok.injEq] at h
    subst h
    rw [← startLoop_ext x s2 NUL _ line he, hs]
    exact get_next_token_start c2 (s2 ++ x) line n1 n2 n3
  · rw [e] at h
    have hk : t.kind = .chars := by
      rcases charsBranch_kind c1 s1 line t h with k | k
      · exact k
      · exact absurd k he
    rw [hs, List.cons_append, get_next_token_chars c1 (s1 ++ x) line hlt]
    by_cases g1 : c1 = LF
    · rw [if_pos g1] at h ⊢
      exact charsLoop_ext x s1.length _ s1 _ _ t (by simp) h hk (hc hk)
    · rw [if_neg g1] at h ⊢
      by_cases g2 : c1 = '&'
      · rw [if_pos g2] at h ⊢
        rcases hce : change_entity s1 with ⟨o, s3⟩
        rw [hce] at h
        cases o with
        | none =>
          simp only [Res.ok.injEq] at h
          subst h
          exact absurd rfl he
        | some t0 =>
          rw [change_entity_ext x s1 t0 s3 hce]
          exact charsLoop_ext x s3.length _ s3 _ _ t (by simp) h hk (hc hk)
      · rw [if_neg g2] at h ⊢
        exact charsLoop_ext x s1.length _ s1 _ _ t (by simp) h hk (hc hk)

theorem skipWs_ext (x : List Char) (s : List Char) :
    ∀ line, (skipWs s line).1 ≠ [] →
      skipWs (s ++ x) line = ((skipWs s line).1 ++ x, (skipWs s line).2) := by
  induction s with
  | nil => intro line h; simp [skipWs] at h
  | cons c s ih =>
    intro line h
    simp only [skipWs, List.cons_append] at h ⊢
    by_cases hw : isWs c = true
    · simp only [hw, if_true] at h ⊢
      exact ih _ h
    · simp only [hw, Bool.false_eq_true, if_false]
      rfl

/-! ## The token loop when more input follows -/

theorem step_ext (n m : Nat) (x : List Char) (st : DState)
    (hpi : st.token_kind = .pi → (skipWs st.input st.line_number).1 ≠ [])
    (c : List Call) (st1 : DState) (h : step n m st = (c, .ok st1)) :
    step n m (withSuffix st x) = (c, .ok (withSuffix st1 x)) := by
  unfold step at h ⊢
  simp only [withSuffix]
  cases hk : st.token_kind <;> simp only [hk] at h ⊢
  · cases hp : parse_element st.token_text <;> simp only [hp] at h ⊢
    · simp only [Prod.mk.injEq, Res.ok.injEq] at h
      obtain ⟨rfl, rfl⟩ := h
      rfl
    · simp at h
    · simp at h
  · cases hp : parse_element_end st.token_text <;> simp only [hp] at h ⊢
    · rename_i r
      obtain ⟨status, name⟩ := r
      simp only at h ⊢
      split_ifs at h ⊢
      · cases ht : st.tags <;> simp only [ht] at h ⊢
        · simp only [Prod.mk.injEq, Res.ok.injEq] at h
          obtain ⟨rfl, rfl⟩ := h
          rfl
        · split_ifs at h ⊢ <;>
          · simp only [Prod.mk.injEq, Res.ok.injEq] at h
            obtain ⟨rfl, rfl⟩ := h
            rfl
      · simp only [Prod.mk.injEq, Res.ok.injEq] at h
        obtain ⟨rfl, rfl⟩ := h
        rfl
    · simp at h
    · simp at h
  · cases hp : parse_element st.token_text <;> simp only [hp] at h ⊢
    · simp only [Prod.mk.injEq, Res.ok.injEq] at h
      obtain ⟨rfl, rfl⟩ := h
      rfl
    · simp at h
    · simp at h
  · cases hp : parse_pi st.token_text <;> simp only [hp] at h ⊢
    · simp only [Prod.mk.injEq, Res.ok.injEq] at h
      obtain ⟨rfl, rfl⟩ := h
      rw [skipWs_ext x st.input st.line_number (hpi hk)]
    · simp at h
    · simp at h
  · split_ifs at h ⊢ <;>
    · simp only [Prod.mk.injEq, Res.ok.injEq] at h
      obtain ⟨rfl, rfl⟩ := h
      first | rfl | simp only [hk]
  · split_ifs at h ⊢ <;>
    · simp only [Prod.mk.injEq, Res.ok.injEq] at h
      obtain ⟨rfl, rfl⟩ := h
      rfl
  all_goals
    simp only [Prod.mk.injEq, Res.ok.injEq] at h
    obtain ⟨rfl, rfl⟩ := h
    first | rfl | simp only [hk]

theorem fetch_ext (n : Nat) (x : List Char) (st : DState) (c : List Call) (st2 : DState)
    (h : fetch n st = (c, .ok st2)) (he : st2.token_kind ≠ .error)
    (hf : st2.token_kind ≠ .eof) (hc : st2.token_kind = .chars → st2.input ≠ []) :
    fetch n (withSuffix st x) = (c, .ok (withSuffix st2 x)) := by
  unfold fetch at h ⊢
  simp only [withSuffix]
  cases ht : get_next_token st.input st.line_number with
  | undefined => simp [ht] at h
  | nofuel => simp [ht] at h
  | ok t =>
    simp only [ht] at h
    have key : t.kind = st2.token_kind ∧ t.rest = st2.input := by
      split_ifs at h <;>
      · simp only [Prod.mk.injEq, Res.ok.injEq] at h
        obtain ⟨_, rfl⟩ := h
        exact ⟨rfl, rfl⟩
    have hx := get_next_token_ext x st.input st.line_number t ht (by rw [key.1]; exact he)
      (by rw [key.1]; exact hf) (by rw [key.1, key.2]; exact hc)
    simp only [hx, Token.withSuffix]
    split_ifs at h ⊢ <;>
    · simp only [Prod.mk.injEq, Res.ok.injEq] at h
      obtain ⟨rfl, rfl⟩ := h
      rfl

theorem fetch_keeps (n : Nat) (st : DState) (c : List Call) (st2 : DState)
    (h : fetch n st = (c, .ok st2)) :
    st2.tags = st.tags ∧ st2.seen_root_tag = st.seen_root_tag ∧
      st2.seen_fatal_error = st.seen_fatal_error ∧
      (st.input = [] → st2.token_kind = .eof) := by
  unfold fetch at h
  cases ht : get_next_token st.input st.line_number with
  | undefined => simp [ht] at h
  | nofuel => simp [ht] at h
  | ok t =>
    simp only [ht] at h
    have hnil : st.input = [] → t.kind = .eof := by
      intro e
      rw [e] at ht
      simp only [get_next_token, Res.ok.injEq] at ht
      rw [← ht]
    split_ifs at h <;>
    · simp only [Prod.mk.injEq, Res.ok.injEq] at h
      obtain ⟨_, rfl⟩ := h
      exact ⟨rfl, rfl, rfl, hnil⟩

theorem loop_eof (n m fuel : Nat) (st : DState) (hk : st.token_kind = .eof) :
    loop n m fuel st = ([], .ok st) := by
  unfold loop
  rw [if_pos hk]

theorem loop_step_ok (n m f : Nat) (st : DState) (c : List Call) (stf : DState)
    (h : loop n m (f + 1) st = (c, .ok stf)) (hk : st.token_kind ≠ .eof) :
    ∃ c1 st1, step n m st = (c1, .ok st1) := by
  rcases hs : step n m st with ⟨c1, r1⟩
  cases r1 with
  | ok st1 => exact ⟨c1, st1, rfl⟩
  | undefined =>
    unfold loop at h
    rw [if_neg hk] at h
    simp [hs] at h
  | nofuel =>
    unfold loop at h
    rw [if_neg hk] at h
    simp [hs] at h

theorem loop_unfold_exit (n m f : Nat) (st : DState) (c1 : List Call) (st1 : DState)
    (hk : st.token_kind ≠ .eof) (hs : step n m st = (c1, .ok st1))
    (hexit : st1.seen_fatal_error = true ∨ (st1.tags.length = 0 ∧ st1.seen_root_tag = true)) :
    loop n m (f + 1) st = (c1, .ok st1) := by
  unfold loop
  rw [if_neg hk]
  simp only [hs]
  rcases hexit with h | h
  · rw [if_pos h]
  · by_cases hfat : st1.seen_fatal_error = true
    · rw [if_pos hfat]
    · rw [if_neg hfat, if_pos h]

theorem fetch_ok (n : Nat) (st : DState) : ∃ c2 st2, fetch n st = (c2, .ok st2) := by
  obtain ⟨st2, e, _⟩ := fetch_spec n st
  rcases hf : fetch n st with ⟨c2, r2⟩
  rw [hf] at e
  simp only at e
  subst e
  exact ⟨c2, st2, rfl⟩

theorem loop_unfold_go (n m f : Nat) (st : DState) (c1 : List Call) (st1 : DState)
    (hk : st.token_kind ≠ .eof) (hs : step n m st = (c1, .ok st1))
    (hfat : ¬ st1.seen_fatal_error = true)
    (hroot : ¬ (st1.tags.length = 0 ∧ st1.seen_root_tag = true))
    (c2 : List Call) (st2 : DState) (hfe : fetch n st1 = (c2, .ok st2)) :
    loop n m (f + 1) st = (c1 ++ c2 ++ (loop n m f st2).1, (loop n m f st2).2) := by
  conv_lhs => unfold loop
  rw [if_neg hk]
  simp only [hs]
  rw [if_neg hfat, if_neg hroot]
  simp only [hfe]

/-- When the token loop has fetched its next token from an exhausted input,
it is left without the root element having been closed. -/
theorem fetch_at_end (n m f : Nat) (st1 : DState) (hi : st1.input = [])
    (hinv : ¬ (st1.tags.length = 0 ∧ st1.seen_root_tag = true))
    (c2 : List Call) (st2 : DState) (hfe : fetch n st1 = (c2, .ok st2))
    (c3 : List Call) (stf : DState) (hl : loop n m f st2 = (c3, .ok stf)) :
    ¬ (stf.tags.length = 0 ∧ stf.seen_root_tag = true) := by
  obtain ⟨k1, k2, _, k4⟩ := fetch_keeps n st1 c2 st2 hfe
  rw [loop_eof n m f st2 (k4 hi)] at hl
  simp only [Prod.mk.injEq, Res.ok.injEq] at hl
  obtain ⟨_, rfl⟩ := hl
  rw [k1, k2]
  exact hinv

theorem step_chars_keeps (n m : Nat) (st : DState) (hk : st.token_kind = .chars) :
    ∃ c1 st1, step n m st = (c1, .ok st1) ∧ st1.tags = st.tags ∧
      st1.seen_root_tag = st.seen_root_tag ∧ st1.input = st.input := by
  unfold step
  simp only [hk]
  split_ifs <;> exact ⟨_, _, rfl, rfl, rfl, rfl⟩

theorem step_pi_keeps (n m : Nat) (st : DState) (hk : st.token_kind = .pi)
    (c1 : List Call) (st1 : DState) (hs : step n m st = (c1, .ok st1)) :
    st1.tags = st.tags ∧ st1.seen_root_tag = st.seen_root_tag ∧
      st1.input = (skipWs st.input st.line_number).1 := by
  unfold step at hs
  simp only [hk] at hs
  cases hp : parse_pi st.token_text <;> simp only [hp] at hs
  · simp only [Prod.mk.injEq, Res.ok.injEq] at hs
    obtain ⟨_, rfl⟩ := hs
    exact ⟨rfl, rfl, rfl⟩
  · simp at hs
  · simp at hs

/-- A loop that stands at a `chars` token reaching the end of the input is
left without the root element having been closed, or with the fatal flag
set. -/
theorem loop_chars_at_end (n m fuel : Nat) (st : DState) (hk : st.token_kind = .chars)
    (hi : st.input = []) (hinv : ¬ (st.tags.length = 0 ∧ st.seen_root_tag = true))
    (c : List Call) (stf : DState) (h : loop n m fuel st = (c, .ok stf)) :
    ¬ (stf.tags.length = 0 ∧ stf.seen_root_tag = true ∧ stf.seen_fatal_error = false) := by
  have hne : st.token_kind ≠ .eof := by rw [hk]; decide
  cases fuel with
  | zero =>
    unfold loop at h
    rw [if_neg hne] at h
    simp at h
  | succ f =>
    obtain ⟨c1, st1, hs, k1, k2, k3⟩ := step_chars_keeps n m st hk
    have hinv1 : ¬ (st1.tags.length = 0 ∧ st1.seen_root_tag = true) := by
      rw [k1, k2]
      exact hinv
    by_cases hfat : st1.seen_fatal_error = true
    · rw [loop_unfold_exit n m f st c1 st1 hne hs (Or.inl hfat)] at h
      simp only [Prod.mk.injEq, Res.ok.injEq] at h
      obtain ⟨_, rfl⟩ := h
      intro hg
      rw [hg.2.2] at hfat
      exact absurd hfat (by decide)
    · obtain ⟨c2, st2, hfe⟩ := fetch_ok n st1
      rw [loop_unfold_go n m f st c1 st1 hne hs hfat hinv1 c2 st2 hfe] at h
      simp only [Prod.mk.injEq] at h
      rcases hl : loop n m f st2 with ⟨c3, r3⟩
      rw [hl] at h
      simp only at h
      obtain ⟨_, rfl⟩ := h
      intro hg
      exact fetch_at_end n m f st1 (by rw [k3, hi]) hinv1 c2 st2 hfe c3 stf hl ⟨hg.1, hg.2.1⟩

/-- The token loop on an input followed by further characters `x`: a run
that is left because the root element has been closed makes the same calls
and is left in the same state, with `x` still unread. -/
theorem loop_ext (n m : Nat) (x : List Char) (fuel : Nat) :
    ∀ (fuel2 : Nat) (st : DState) (c : List Call) (stf : DState), fuel ≤ fuel2 →
      ¬ (st.tags.length = 0 ∧ st.seen_root_tag = true) →
      loop n m fuel st = (c, .ok stf) →
      stf.tags.length = 0 → stf.seen_root_tag = true → stf.seen_fatal_error = false →
      loop n m fuel2 (withSuffix st x) = (c, .ok (withSuffix stf x)) := by
  induction fuel with
  | zero =>
    intro fuel2 st c stf _ hinv h g1 g2 _
    unfold loop at h
    by_cases hk : st.token_kind = .eof
    · rw [if_pos hk] at h
      simp only [Prod.mk.injEq, Res.ok.injEq] at h
      obtain ⟨_, rfl⟩ := h
      exact absurd ⟨g1, g2⟩ hinv
    · rw [if_neg hk] at h
      simp at h
  | succ f ih =>
    intro fuel2 st c stf hfuel hinv h g1 g2 g3
    by_cases hk : st.token_kind = .eof
    · rw [loop_eof n m _ st hk] at h
      simp only [Prod.mk.injEq, Res.ok.injEq] at h
      obtain ⟨_, rfl⟩ := h
      exact absurd ⟨g1, g2⟩ hinv
    obtain ⟨f2, rfl⟩ : ∃ f2, fuel2 = f2 + 1 := ⟨fuel2 - 1, by omega⟩
    have hkx : (withSuffix st x).token_kind ≠ .eof := hk
    obtain ⟨c1, st1, hs⟩ := loop_step_ok n m f st c stf h hk
    by_cases hfat : st1.seen_fatal_error = true
    · rw [loop_unfold_exit n m f st c1 st1 hk hs (Or.inl hfat)] at h
      simp only [Prod.mk.injEq, Res.ok.injEq] at h
      obtain ⟨_, rfl⟩ := h
      rw [g3] at hfat
      exact absurd hfat (by decide)
    by_cases hroot : st1.tags.length = 0 ∧ st1.seen_root_tag = true
    · rw [loop_unfold_exit n m f st c1 st1 hk hs (Or.inr hroot)] at h
      simp only [Prod.mk.injEq, Res.ok.injEq] at h
      obtain ⟨rfl, rfl⟩ := h
      have hpi : st.token_kind = .pi → (skipWs st.input st.line_number).1 ≠ [] := by
        intro hp
        obtain ⟨k1, k2, _⟩ := step_pi_keeps n m st hp c1 st1 hs
        rw [k1, k2] at hroot
        exact absurd hroot hinv
      exact loop_unfold_exit n m f2 (withSuffix st x) c1 (withSuffix st1 x) hkx
        (step_ext n m x st hpi c1 st1 hs) (Or.inr hroot)
    obtain ⟨c2, st2, hfe⟩ := fetch_ok n st1
    rw [loop_unfold_go n m f st c1 st1 hk hs hfat hroot c2 st2 hfe] at h
    rcases hl : loop n m f st2 with ⟨c3, r3⟩
    rw [hl] at h
    simp only [Prod.mk.injEq] at h
    obtain ⟨rfl, rfl⟩ := h
    obtain ⟨k1, k2, k3, _⟩ := fetch_keeps n st1 c2 st2 hfe
    have hinv2 : ¬ (st2.tags.length = 0 ∧ st2.seen_root_tag = true) := by
      rw [k1, k2]
      exact hroot
    have hpi : st.token_kind = .pi → (skipWs st.input st.line_number).1 ≠ [] := by
      intro hp hnil
      obtain ⟨_, _, k6⟩ := step_pi_keeps n m st hp c1 st1 hs
      exact fetch_at_end n m f st1 (by rw [k6, hnil]) hroot c2 st2 hfe c3 stf hl ⟨g1, g2⟩
    have he : st2.token_kind ≠ .error := by
      intro hke
      cases f with
      | zero =>
        unfold loop at hl
        rw [if_neg (by rw [hke]; decide)] at hl
        simp at hl
      | succ f1 =>
        rw [loop_error_token n m f1 st2 hke] at hl
        simp only [Prod.mk.injEq, Res.ok.injEq] at hl
        obtain ⟨_, rfl⟩ := hl
        simp at g3
    have hf : st2.token_kind ≠ .eof := by
      intro hke
      rw [loop_eof n m f st2 hke] at hl
      simp only [Prod.mk.injEq, Res.ok.injEq] at hl
      obtain ⟨_, rfl⟩ := hl
      exact hinv2 ⟨g1, g2⟩
    have hc : st2.token_kind = .chars → st2.input ≠ [] := by
      intro hkc hnil
      exact loop_chars_at_end n m f st2 hkc hnil hinv2 c3 stf hl ⟨g1, g2, g3⟩
    have hx := ih f2 st2 c3 stf (by omega) hinv2 hl g1 g2 g3
    rw [loop_unfold_go n m f2 (withSuffix st x) c1 (withSuffix st1 x) hkx
      (step_ext n m x st hpi c1 st1 hs) hfat hroot c2 (withSuffix st2 x)
      (fetch_ext n x st1 c2 st2 hfe he hf hc), hx]

theorem parseLoop_ext (n m : Nat) (d x : List Char) (c : List Call) (stf : DState)
    (h : parseLoop n m d = (c, .ok stf)) (g1 : stf.tags.length = 0)
    (g2 : stf.seen_root_tag = true) (g3 : stf.seen_fatal_error = false) :
    parseLoop n m (d ++ x) = (c, .ok (withSuffix stf x)) := by
  unfold parseLoop beforeLoop at h ⊢
  simp only at h ⊢
  cases ht : get_next_token (skipWs d 1).1 (skipWs d 1).2 with
  | undefined => simp [ht] at h
  | nofuel => simp [ht] at h
  | ok t =>
    simp only [ht] at h
    simp only [Prod.mk.injEq] at h
    obtain ⟨hc, hl⟩ := h
    rcases hlp : loop n m (d.length + 1)
      { input := t.rest, line_number := t.line, tags := [], seen_fatal_error := false,
        seen_root_tag := false, chars_buf := [], name := [],
        token_text := t.text, token_kind := t.kind } with ⟨c3, r3⟩
    rw [hlp] at hc hl
    simp only at hc hl
    subst hl
    have hinv : ¬ (([] : List Str).length = 0 ∧ false = true) := by simp
    have hf : t.kind ≠ .eof := by
      intro hke
      rw [loop_eof n m _ _ hke] at hlp
      simp only [Prod.mk.injEq, Res.ok.injEq] at hlp
      obtain ⟨_, rfl⟩ := hlp
      simp at g2
    have he : t.kind ≠ .error := by
      intro hke
      rw [loop_error_token n m d.length _ hke] at hlp
      simp only [Prod.mk.injEq, Res.ok.injEq] at hlp
      obtain ⟨_, rfl⟩ := hlp
      simp at g3
    have hch : t.kind = .chars → t.rest ≠ [] := by
      intro hkc hnil
      exact loop_chars_at_end n m _ _ hkc hnil hinv c3 stf hlp ⟨g1, g2, g3⟩
    have hws : (skipWs d 1).1 ≠ [] := by
      intro hnil
      rw [hnil] at ht
      simp only [get_next_token, Res.ok.injEq] at ht
      rw [← ht] at hf
      exact hf rfl
    rw [skipWs_ext x d 1 hws]
    simp only [get_next_token_ext x _ _ t ht he hf hch, Token.withSuffix]
    have hx := loop_ext n m x (d.length + 1) ((d ++ x).length + 1) _ c3 stf
      (by simp) hinv hlp g1 g2 g3
    simp only [withSuffix] at hx
    rw [hx, ← hc]
    rfl

/-- C23: when the token loop of `parse` on the input `d` is left because the
root element has been closed (empty tag stack, root seen, no fatal flag),
`parse` on `d` followed by any further characters `s` makes exactly the same
calls and ends in the same way as on `d` alone, whether or not callbacks
throw; no error handler receives `fatal_error`. -/
theorem trailing_content_is_ignored (throws : List Call → Call → Bool) (n m : Nat)
    (d s : List Char) (c : List Call) (stf : DState)
    (h : parseLoop n m d = (c, .ok stf)) (g1 : stf.tags.length = 0)
    (g2 : stf.seen_root_tag = true) (g3 : stf.seen_fatal_error = false) :
    parse throws n m (d ++ s) = parse throws n m d ∧
    ∀ i, (errCalls i (parse noThrow n m (d ++ s)).1).filter isFatalError = [] := by
  have hx := parseLoop_ext n m d s c stf h g1 g2 g3
  have htry : tryBlock n m (d ++ s) = tryBlock n m d := by
    unfold tryBlock
    rw [h, hx]
    rfl
  refine ⟨by unfold parse; rw [htry], ?_⟩
  intro i
  obtain ⟨bs, e, l⟩ := parseLoop_render n m (d ++ s)
  rw [parse_noThrow_calls]
  unfold tryBlock
  rw [hx] at e ⊢
  simp only at e ⊢
  subst e
  rw [afterLoop_render, errCalls_append, errCalls_render, errCalls_render]
  have hno : ¬ ((withSuffix stf s).tags.length ≠ 0 ∨
      (withSuffix stf s).seen_fatal_error = true) := by
    simp [withSuffix, g1, g3]
  rw [if_neg hno]
  have := filter_fatal_loopBlocks bs l
  split_ifs <;> simp [this]

theorem trailing_content_is_ignored_witness :
    parse noThrow 1 1 "<a>x</a></b> & <<".toList = parse noThrow 1 1 "<a>x</a>".toList ∧
    parse noThrow 1 1 "<a>x</a>".toList =
      ([Call.doc 0 .start_document, Call.doc 0 (.start_element 1 ['a'] []),
        Call.doc 0 (.characters ['x']), Call.doc 0 (.end_element 1 ['a']),
        Call.doc 0 .end_document], .returned) :=
  ⟨(trailing_content_is_ignored noThrow 1 1 "<a>x</a>".toList "</b> & <<".toList
      [Call.doc 0 .start_document, Call.doc 0 (.start_element 1 ['a'] []),
        Call.doc 0 (.characters ['x']), Call.doc 0 (.end_element 1 ['a'])]
      ⟨[], 1, [], false, true, [], ['a'], "</a>".toList, .element_end⟩
      (by decide!) rfl rfl rfl).1,
   by decide!⟩

/-! ## After the fatal flag -/

/-- A step of the token loop that sets the fatal flag makes no call and
reads nothing from the input. -/
theorem step_sets_fatal (n m : Nat) (st st1 : DState) (c1 : List Call)
    (hf : st.seen_fatal_error = false) (hs : step n m st = (c1, .ok st1))
    (h1 : st1.seen_fatal_error = true) :
    c1 = [] ∧ st1.input = st.input ∧ st1.line_number = st.line_number ∧
      st.token_kind ≠ .eof := by
  unfold step at hs
  cases hk : st.token_kind <;> simp only [hk] at hs
  · cases hp : parse_element st.token_text <;> simp only [hp] at hs
    · simp only [Prod.mk.injEq, Res.ok.injEq] at hs
      obtain ⟨rfl, rfl⟩ := hs
      rename_i r
      by_cases h0 : r.status = 0
      · simp [h0, hf] at h1
      · simp [h0]
    · simp at hs
    · simp at hs
  · cases hp : parse_element_end st.token_text <;> simp only [hp] at hs
    · rename_i r
      obtain ⟨status, name⟩ := r
      simp only at hs
      split_ifs at hs
      · cases ht : st.tags <;> simp only [ht] at hs
        · simp only [Prod.mk.injEq, Res.ok.injEq] at hs
          obtain ⟨rfl, rfl⟩ := hs
          simp
        · split_ifs at hs
          · simp only [Prod.mk.injEq, Res.ok.injEq] at hs
            obtain ⟨rfl, rfl⟩ := hs
            simp
          · simp only [Prod.mk.injEq, Res.ok.injEq] at hs
            obtain ⟨_, rfl⟩ := hs
            simp [hf] at h1
      · simp only [Prod.mk.injEq, Res.ok.injEq] at hs
        obtain ⟨rfl, rfl⟩ := hs
        simp
    · simp at hs
    · simp at hs
  · cases hp : parse_element st.token_text <;> simp only [hp] at hs
    · simp only [Prod.mk.injEq, Res.ok.injEq] at hs
      obtain ⟨rfl, rfl⟩ := hs
      rename_i r
      by_cases h0 : r.status = 0
      · simp [h0, hf] at h1
      · simp [h0]
    · simp at hs
    · simp at hs
  · cases hp : parse_pi st.token_text <;> simp only [hp] at hs
    · simp only [Prod.mk.injEq, Res.ok.injEq] at hs
      obtain ⟨_, rfl⟩ := hs
      simp [hf] at h1
    · simp at hs
    · simp at hs
  · split_ifs at hs <;>
    · simp only [Prod.mk.injEq, Res.ok.injEq] at hs
      obtain ⟨rfl, rfl⟩ := hs
      first | (simp [hf] at h1; done) | simp
  · split_ifs at hs <;>
    · simp only [Prod.mk.injEq, Res.ok.injEq] at hs
      obtain ⟨rfl, rfl⟩ := hs
      first | (simp [hf] at h1; done) | simp
  · simp only [Prod.mk.injEq, Res.ok.injEq] at hs
    obtain ⟨_, rfl⟩ := hs
    simp [hf] at h1
  · simp only [Prod.mk.injEq, Res.ok.injEq] at hs
    obtain ⟨rfl, rfl⟩ := hs
    simp
  · simp only [Prod.mk.injEq, Res.ok.injEq] at hs
    obtain ⟨_, rfl⟩ := hs
    simp [hf] at h1
  · simp only [Prod.mk.injEq, Res.ok.injEq] at hs
    obtain ⟨_, rfl⟩ := hs
    simp [hf] at h1

/-- A loop entered without the fatal flag and left with it was left right
after the step that set the flag. -/
theorem loop_fatal_exit (n m : Nat) (fuel : Nat) :
    ∀ (st : DState) (c : List Call) (stf : DState), st.seen_fatal_error = false →
      loop n m fuel st = (c, .ok stf) → stf.seen_fatal_error = true →
      ∃ stp, stp.seen_fatal_error = false ∧ step n m stp = ([], .ok stf) := by
  induction fuel with
  | zero =>
    intro st c stf hf h h1
    unfold loop at h
    by_cases hk : st.token_kind = .eof
    · rw [if_pos hk] at h
      simp only [Prod.mk.injEq, Res.ok.injEq] at h
      obtain ⟨_, rfl⟩ := h
      rw [hf] at h1
      exact absurd h1 (by decide)
    · rw [if_neg hk] at h
      simp at h
  | succ f ih =>
    intro st c stf hf h h1
    by_cases hk : st.token_kind = .eof
    · rw [loop_eof n m _ st hk] at h
      simp only [Prod.mk.injEq, Res.ok.injEq] at h
      obtain ⟨_, rfl⟩ := h
      rw [hf] at h1
      exact absurd h1 (by decide)
    obtain ⟨c1, st1, hs⟩ := loop_step_ok n m f st c stf h hk
    by_cases hfat : st1.seen_fatal_error = true
    · rw [loop_unfold_exit n m f st c1 st1 hk hs (Or.inl hfat)] at h
      simp only [Prod.mk.injEq, Res.ok.injEq] at h
      obtain ⟨_, rfl⟩ := h
      obtain ⟨rfl, _⟩ := step_sets_fatal n m st st1 c1 hf hs hfat
      exact ⟨st, hf, hs⟩
    by_cases hroot : st1.tags.length = 0 ∧ st1.seen_root_tag = true
    · rw [loop_unfold_exit n m f st c1 st1 hk hs (Or.inr hroot)] at h
      simp only [Prod.mk.injEq, Res.ok.injEq] at h
      obtain ⟨_, rfl⟩ := h
      exact absurd h1 hfat
    obtain ⟨c2, st2, hfe⟩ := fetch_ok n st1
    rw [loop_unfold_go n m f st c1 st1 hk hs hfat hroot c2 st2 hfe] at h
    rcases hl : loop n m f st2 with ⟨c3, r3⟩
    rw [hl] at h
    simp only [Prod.mk.injEq] at h
    obtain ⟨_, rfl⟩ := h
    obtain ⟨_, _, k3, _⟩ := fetch_keeps n st1 c2 st2 hfe
    exact ih st2 c3 stf (by rw [k3]; simpa using hfat) hl h1

/-- C32: a step of the token loop that sets the fatal flag makes no call and
fetches nothing (the input and the line counter are left as they are); the
loop is left at once, and the statements after the loop make only the
`fatal_error` calls and the `end_document` calls.  For a whole `parse`: when
the loop is left with the fatal flag set, it was left by such a step, and the
calls of `parse` are those of the loop followed by `fatal_error` on every
error handler and `end_document` on every document handler. -/
theorem fatal_flag_ends_dispatch (n m : Nat) :
    (∀ (st st1 : DState) (c1 : List Call), st.seen_fatal_error = false →
      step n m st = (c1, .ok st1) → st1.seen_fatal_error = true →
      c1 = [] ∧ st1.input = st.input ∧ st1.line_number = st.line_number ∧
      (∀ fuel, loop n m (fuel + 1) st = ([], .ok st1)) ∧
      afterLoop n m st1 = (forEach m fun i => [Call.err i (.fatal_error st1.line_number)]) ++
        (forEach n fun i => [Call.doc i .end_document])) ∧
    ∀ (input : List Char) (c : List Call) (stf : DState),
      parseLoop n m input = (c, .ok stf) → stf.seen_fatal_error = true →
      (∃ stp, stp.seen_fatal_error = false ∧ step n m stp = ([], .ok stf)) ∧
      parse noThrow n m input =
        (c ++ ((forEach m fun i => [Call.err i (.fatal_error stf.line_number)]) ++
          (forEach n fun i => [Call.doc i .end_document])), .returned) := by
  constructor
  · intro st st1 c1 hf hs h1
    obtain ⟨e1, e2, e3, hk⟩ := step_sets_fatal n m st st1 c1 hf hs h1
    refine ⟨e1, e2, e3, ?_, ?_⟩
    · intro fuel
      rw [loop_unfold_exit n m fuel st c1 st1 hk hs (Or.inl h1), e1]
    · unfold afterLoop
      rw [if_pos (Or.inr h1)]
  · intro input c stf h h1
    constructor
    · unfold parseLoop at h
      rcases hb : beforeLoop n input with ⟨c0, r0⟩
      rw [hb] at h
      cases r0 with
      | undefined => simp at h
      | nofuel => simp at h
      | ok st0 =>
        simp only [Prod.mk.injEq] at h
        rcases hl : loop n m (input.length + 1) st0 with ⟨c3, r3⟩
        rw [hl] at h
        simp only at h
        obtain ⟨_, rfl⟩ := h
        have hf0 : st0.seen_fatal_error = false := by
          unfold beforeLoop at hb
          simp only [Prod.mk.injEq] at hb
          obtain ⟨_, hb2⟩ := hb
          cases hg : get_next_token (skipWs input 1).1 (skipWs input 1).2 <;>
            simp only [hg] at hb2
          · simp only [Res.ok.injEq] at hb2
            rw [← hb2]
          · simp at hb2
          · simp at hb2
        exact loop_fatal_exit n m _ st0 c3 stf hf0 hl h1
    · have htry : tryBlock n m input =
          (c ++ ((forEach m fun i => [Call.err i (.fatal_error stf.line_number)]) ++
            (forEach n fun i => [Call.doc i .end_document])), .ok ()) := by
        unfold tryBlock
        rw [h]
        simp only [afterLoop]
        rw [if_pos (Or.inr h1)]
      simp only [parse, htry, deliver_noThrow, List.nil_append]

theorem fatal_flag_ends_dispatch_witness :
    parse noThrow 1 1 "<a>x</b><c/>y".toList =
      ([Call.doc 0 .start_document, Call.doc 0 (.start_element 1 ['a'] []),
        Call.doc 0 (.characters ['x']), Call.err 0 (.fatal_error 1),
        Call.doc 0 .end_document], .returned) ∧
    ∃ stp, stp.seen_fatal_error = false ∧
      step 1 1 stp = ([], .ok ⟨"<c/>y".toList, 1, [['a']], true, true, [], ['b'],
        "</b>".toList, .element_end⟩) :=
  ⟨by decide!,
   ((fatal_flag_ends_dispatch 1 1).2 "<a>x</b><c/>y".toList
      [Call.doc 0 .start_document, Call.doc 0 (.start_element 1 ['a'] []),
        Call.doc 0 (.characters ['x'])]
      ⟨"<c/>y".toList, 1, [['a']], true, true, [], ['b'], "</b>".toList, .element_end⟩
      (by decide!) rfl).1⟩

/-! ## The character buffer -/

theorem step_no_characters (n m : Nat) (st : DState) (i : Nat) (d : Str) :
    Call.doc i (.characters d) ∉ (step n m st).1 := by
  intro hmem
  unfold step at hmem
  cases hk : st.token_kind <;> simp only [hk] at hmem
  · cases hp : parse_element st.token_text <;> simp only [hp] at hmem
    · split_ifs at hmem
      all_goals first
        | (obtain ⟨j, _, hj⟩ := mem_forEach.1 hmem; simp at hj)
        | simp at hmem
    · simp at hmem
    · simp at hmem
  · cases hp : parse_element_end st.token_text <;> simp only [hp] at hmem
    · rename_i r
      obtain ⟨status, name⟩ := r
      simp only at hmem
      cases ht : st.tags <;> simp only [ht] at hmem
      all_goals split_ifs at hmem
      all_goals first
        | (obtain ⟨j, _, hj⟩ := mem_forEach.1 hmem; simp at hj)
        | simp at hmem
    · simp at hmem
    · simp at hmem
  · cases hp : parse_element st.token_text <;> simp only [hp] at hmem
    · split_ifs at hmem
      all_goals first
        | (obtain ⟨j, _, hj⟩ := mem_forEach.1 hmem; simp at hj)
        | simp at hmem
    · simp at hmem
    · simp at hmem
  · cases hp : parse_pi st.token_text <;> simp only [hp] at hmem
    · split_ifs at hmem
      all_goals
        obtain ⟨j, _, hj⟩ := mem_forEach.1 hmem
        simp at hj
    · simp at hmem
    · simp at hmem
  · split_ifs at hmem <;> simp at hmem
  · split_ifs at hmem <;> simp at hmem
  all_goals simp at hmem

theorem fetch_characters (n : Nat) (st : DState) (i : Nat) (d : Str)
    (hmem : Call.doc i (.characters d) ∈ (fetch n st).1) : d ≠ [] := by
  unfold fetch at hmem
  cases ht : get_next_token st.input st.line_number <;> simp only [ht] at hmem
  · split_ifs at hmem with h
    · obtain ⟨j, _, hj⟩ := mem_forEach.1 hmem
      simp only [List.mem_singleton, Call.doc.injEq, DocEvent.characters.injEq] at hj
      rw [hj.2]
      intro e
      exact h.2.2.2.2 (by rw [e]; rfl)
    · simp at hmem
  · simp at hmem
  · simp at hmem

theorem loop_characters (n m : Nat) (i : Nat) (d : Str) (fuel : Nat) :
    ∀ st, Call.doc i (.characters d) ∈ (loop n m fuel st).1 → d ≠ [] := by
  induction fuel with
  | zero =>
    intro st hmem
    unfold loop at hmem
    split_ifs at hmem <;> simp at hmem
  | succ f ih =>
    intro st hmem
    by_cases hk : st.token_kind = .eof
    · rw [loop_eof n m _ st hk] at hmem
      simp at hmem
    rcases hs : step n m st with ⟨c1, r1⟩
    have hc1 : Call.doc i (.characters d) ∉ c1 := by
      have := step_no_characters n m st i d
      rw [hs] at this
      exact this
    cases r1 with
    | undefined =>
      unfold loop at hmem
      rw [if_neg hk] at hmem
      simp only [hs] at hmem
      exact absurd hmem hc1
    | nofuel =>
      unfold loop at hmem
      rw [if_neg hk] at hmem
      simp only [hs] at hmem
      exact absurd hmem hc1
    | ok st1 =>
      by_cases hex : st1.seen_fatal_error = true ∨
          (st1.tags.length = 0 ∧ st1.seen_root_tag = true)
      · rw [loop_unfold_exit n m f st c1 st1 hk hs hex] at hmem
        exact absurd hmem hc1
      · obtain ⟨c2, st2, hfe⟩ := fetch_ok n st1
        rw [loop_unfold_go n m f st c1 st1 hk hs (fun h => hex (Or.inl h))
          (fun h => hex (Or.inr h)) c2 st2 hfe] at hmem
        simp only [List.mem_append] at hmem
        rcases hmem with (h | h) | h
        · exact absurd h hc1
        · have := fetch_characters n st1 i d
          rw [hfe] at this
          exact this h
        · exact ih st2 h

theorem tryBlock_characters (n m : Nat) (input : List Char) (i : Nat) (d : Str)
    (hmem : Call.doc i (.characters d) ∈ (tryBlock n m input).1) : d ≠ [] := by
  have hloop : ∀ (c : List Call) (r : Res DState), parseLoop n m input = (c, r) →
      Call.doc i (.characters d) ∈ c → d ≠ [] := by
    intro c r h hm
    unfold parseLoop at h
    rcases hb : beforeLoop n input with ⟨c0, r0⟩
    have hc0 : c0 = forEach n fun j => [Call.doc j .start_document] := by
      unfold beforeLoop at hb
      simp only [Prod.mk.injEq] at hb
      exact hb.1.symm
    have hno : Call.doc i (.characters d) ∉ c0 := by
      rw [hc0]
      intro hm2
      obtain ⟨j, _, hj⟩ := mem_forEach.1 hm2
      simp at hj
    rw [hb] at h
    cases r0 with
    | undefined =>
      simp only [Prod.mk.injEq] at h
      rw [← h.1] at hm
      exact absurd hm hno
    | nofuel =>
      simp only [Prod.mk.injEq] at h
      rw [← h.1] at hm
      exact absurd hm hno
    | ok st0 =>
      simp only [Prod.mk.injEq] at h
      rw [← h.1] at hm
      rcases List.mem_append.1 hm with h2 | h2
      · exact absurd h2 hno
      · exact loop_characters n m i d _ st0 h2
  unfold tryBlock at hmem
  rcases hp : parseLoop n m input with ⟨c, r⟩
  rw [hp] at hmem
  cases r with
  | undefined => exact hloop c _ hp hmem
  | nofuel => exact hloop c _ hp hmem
  | ok st =>
    simp only at hmem
    rcases List.mem_append.1 hmem with h2 | h2
    · exact hloop c _ hp h2
    · unfold afterLoop at h2
      rcases List.mem_append.1 h2 with h3 | h3
      · split_ifs at h3
        · obtain ⟨j, _, hj⟩ := mem_forEach.1 h3
          simp at hj
        · simp at h3
      · obtain ⟨j, _, hj⟩ := mem_forEach.1 h3
        simp at hj

theorem step_buf (n m : Nat) (st st1 : DState) (c1 : List Call)
    (hinv : st.chars_buf ≠ [] → st.tags ≠ [] ∧ isRunKind st.token_kind = true)
    (hs : step n m st = (c1, .ok st1)) : st1.chars_buf ≠ [] → st1.tags ≠ [] := by
  unfold step at hs
  cases hk : st.token_kind <;> simp only [hk] at hs
  · cases hp : parse_element st.token_text <;> simp only [hp] at hs
    · simp only [Prod.mk.injEq, Res.ok.injEq] at hs
      obtain ⟨_, rfl⟩ := hs
      intro hb
      have := (hinv hb).2
      rw [hk] at this
      exact absurd this (by decide)
    · simp at hs
    · simp at hs
  · cases hp : parse_element_end st.token_text <;> simp only [hp] at hs
    · rename_i r
      obtain ⟨status, name⟩ := r
      simp only at hs
      have hnil : st.chars_buf = [] := by
        by_contra hb
        have := (hinv hb).2
        rw [hk] at this
        exact absurd this (by decide)
      cases ht : st.tags <;> simp only [ht] at hs
      all_goals split_ifs at hs
      all_goals
        simp only [Prod.mk.injEq, Res.ok.injEq] at hs
        obtain ⟨_, rfl⟩ := hs
        intro hb
        exact absurd hnil hb
    · simp at hs
    · simp at hs
  · cases hp : parse_element st.token_text <;> simp only [hp] at hs
    · simp only [Prod.mk.injEq, Res.ok.injEq] at hs
      obtain ⟨_, rfl⟩ := hs
      intro hb
      have := (hinv hb).2
      rw [hk] at this
      exact absurd this (by decide)
    · simp at hs
    · simp at hs
  · cases hp : parse_pi st.token_text <;> simp only [hp] at hs
    · simp only [Prod.mk.injEq, Res.ok.injEq] at hs
      obtain ⟨_, rfl⟩ := hs
      intro hb
      exact (hinv hb).1
    · simp at hs
    · simp at hs
  · split_ifs at hs with h1 h2
    · simp only [Prod.mk.injEq, Res.ok.injEq] at hs
      obtain ⟨_, rfl⟩ := hs
      intro _ e
      simp only at e
      rw [e] at h1
      exact h1 rfl
    · simp only [Prod.mk.injEq, Res.ok.injEq] at hs
      obtain ⟨_, rfl⟩ := hs
      intro hb
      exact (hinv hb).1
    · simp only [Prod.mk.injEq, Res.ok.injEq] at hs
      obtain ⟨_, rfl⟩ := hs
      intro hb
      exact (hinv hb).1
  · split_ifs at hs with h1
    · simp only [Prod.mk.injEq, Res.ok.injEq] at hs
      obtain ⟨_, rfl⟩ := hs
      intro _ e
      simp only at e
      rw [e] at h1
      exact h1 rfl
    · simp only [Prod.mk.injEq, Res.ok.injEq] at hs
      obtain ⟨_, rfl⟩ := hs
      intro hb
      exact (hinv hb).1
  all_goals
    simp only [Prod.mk.injEq, Res.ok.injEq] at hs
    obtain ⟨_, rfl⟩ := hs
    intro hb
    exact (hinv hb).1

theorem fetch_buf (n : Nat) (st1 st2 : DState) (c2 : List Call)
    (hinv : st1.chars_buf ≠ [] → st1.tags ≠ [])
    (hfe : fetch n st1 = (c2, .ok st2)) :
    st2.chars_buf ≠ [] → st2.tags ≠ [] ∧ isRunKind st2.token_kind = true := by
  unfold fetch at hfe
  cases ht : get_next_token st1.input st1.line_number <;> simp only [ht] at hfe
  · rename_i t
    split_ifs at hfe with h
    · simp only [Prod.mk.injEq, Res.ok.injEq] at hfe
      obtain ⟨_, rfl⟩ := hfe
      intro hb
      exact absurd rfl hb
    · simp only [Prod.mk.injEq, Res.ok.injEq] at hfe
      obtain ⟨_, rfl⟩ := hfe
      intro hb
      refine ⟨hinv hb, ?_⟩
      simp only at hb ⊢
      have hlen : st1.chars_buf.length ≠ 0 := by
        intro e
        exact hb (List.length_eq_zero.1 e)
      simp only [not_and, not_not] at h
      unfold isRunKind
      by_cases k1 : t.kind = .chars
      · simp [k1]
      by_cases k2 : t.kind = .chars_cdata
      · simp [k2]
      by_cases k3 : t.kind = .dtd
      · simp [k3]
      by_cases k4 : t.kind = .comment
      · simp [k4]
      exact absurd (h k1 k2 k3 k4) hlen
  · simp at hfe
  · simp at hfe

theorem loop_buf (n m : Nat) (fuel : Nat) :
    ∀ (st : DState) (c : List Call) (stf : DState),
      (st.chars_buf ≠ [] → st.tags ≠ [] ∧ isRunKind st.token_kind = true) →
      loop n m fuel st = (c, .ok stf) → stf.chars_buf ≠ [] → stf.tags ≠ [] := by
  induction fuel with
  | zero =>
    intro st c stf hinv h
    unfold loop at h
    by_cases hk : st.token_kind = .eof
    · rw [if_pos hk] at h
      simp only [Prod.mk.injEq, Res.ok.injEq] at h
      obtain ⟨_, rfl⟩ := h
      exact fun hb => (hinv hb).1
    · rw [if_neg hk] at h
      simp at h
  | succ f ih =>
    intro st c stf hinv h
    by_cases hk : st.token_kind = .eof
    · rw [loop_eof n m _ st hk] at h
      simp only [Prod.mk.injEq, Res.ok.injEq] at h
      obtain ⟨_, rfl⟩ := h
      exact fun hb => (hinv hb).1
    obtain ⟨c1, st1, hs⟩ := loop_step_ok n m f st c stf h hk
    have h1 := step_buf n m st st1 c1 hinv hs
    by_cases hex : st1.seen_fatal_error = true ∨
        (st1.tags.length = 0 ∧ st1.seen_root_tag = true)
    · rw [loop_unfold_exit n m f st c1 st1 hk hs hex] at h
      simp only [Prod.mk.injEq, Res.ok.injEq] at h
      obtain ⟨_, rfl⟩ := h
      exact h1
    · obtain ⟨c2, st2, hfe⟩ := fetch_ok n st1
      rw [loop_unfold_go n m f st c1 st1 hk hs (fun h => hex (Or.inl h))
        (fun h => hex (Or.inr h)) c2 st2 hfe] at h
      rcases hl : loop n m f st2 with ⟨c3, r3⟩
      rw [hl] at h
      simp only [Prod.mk.injEq] at h
      obtain ⟨_, rfl⟩ := h
      exact ih st2 c3 stf (fetch_buf n st1 st2 c2 h1 hfe) hl

/-- C37: every `characters` call that `parse` makes carries a non-empty
string, whether or not callbacks throw.  The character buffer is non-empty
only while the tag stack is non-empty: this holds when the token loop is
left, and it is kept by each step of the loop and by each fetch of the next
token (where a non-empty buffer also means that the token fetched is one of
`chars`, `chars_cdata`, `dtd`, `comment`).  On `<a><![CDATA[]]></a>` no
`characters` call is made. -/
theorem characters_calls_are_non_empty (throws : List Call → Call → Bool) (n m : Nat)
    (input : List Char) :
    (∀ i d, Call.doc i (.characters d) ∈ (parse throws n m input).1 → d ≠ []) ∧
    (∀ c stf, parseLoop n m input = (c, .ok stf) → stf.chars_buf ≠ [] → stf.tags ≠ []) ∧
    (∀ (st st1 st2 : DState) (c1 c2 : List Call),
      (st.chars_buf ≠ [] → st.tags ≠ [] ∧ isRunKind st.token_kind = true) →
      step n m st = (c1, .ok st1) →
      (st1.chars_buf ≠ [] → st1.tags ≠ []) ∧
      (fetch n st1 = (c2, .ok st2) →
        st2.chars_buf ≠ [] → st2.tags ≠ [] ∧ isRunKind st2.token_kind = true)) ∧
    parse noThrow 1 1 "<a><![CDATA[]]></a>".toList =
      ([Call.doc 0 .start_document, Call.doc 0 (.start_element 1 ['a'] []),
        Call.doc 0 (.end_element 1 ['a']), Call.doc 0 .end_document], .returned) := by
  refine ⟨?_, ?_, ?_, by decide!⟩
  · intro i d hmem
    obtain ⟨pre1, pre2, e, hp1, hp2⟩ := parse_calls_prefix throws n m input
    rw [e] at hmem
    rcases List.mem_append.1 hmem with h | h
    · exact tryBlock_characters n m input i d (hp1.subset h)
    · obtain ⟨j, _, hj⟩ := mem_forEach.1 (hp2.subset h)
      simp at hj
  · intro c stf h
    unfold parseLoop at h
    rcases hb : beforeLoop n input with ⟨c0, r0⟩
    rw [hb] at h
    cases r0 with
    | undefined => simp at h
    | nofuel => simp at h
    | ok st0 =>
      simp only [Prod.mk.injEq] at h
      rcases hl : loop n m (input.length + 1) st0 with ⟨c3, r3⟩
      rw [hl] at h
      simp only at h
      obtain ⟨_, rfl⟩ := h
      have hb0 : st0.chars_buf = [] := by
        unfold beforeLoop at hb
        simp only [Prod.mk.injEq] at hb
        obtain ⟨_, hb2⟩ := hb
        cases hg : get_next_token (skipWs input 1).1 (skipWs input 1).2 <;>
          simp only [hg] at hb2
        · simp only [Res.ok.injEq] at hb2
          rw [← hb2]
        · simp at hb2
        · simp at hb2
      exact loop_buf n m _ st0 c3 stf (fun hb => absurd hb0 hb) hl
  · intro st st1 st2 c1 c2 hinv hs
    have h1 := step_buf n m st st1 c1 hinv hs
    exact ⟨h1, fun hfe => fetch_buf n st1 st2 c2 h1 hfe⟩

theorem characters_calls_are_non_empty_witness :
    Call.doc 0 (.characters ['x']) ∈ (parse noThrow 1 0 "<a>x</a>".toList).1 ∧
      ['x'] ≠ ([] : Str) :=
  ⟨by decide!,
   (characters_calls_are_non_empty noThrow 1 0 "<a>x</a>".toList).1 0 ['x'] (by decide!)⟩

/-! ## Whitespace after a processing instruction -/

theorem skipWs_eq (s : List Char) :
    ∀ line, skipWs s line = (s.dropWhile isWs, line + (s.takeWhile isWs).count LF) := by
  induction s with
  | nil => intro line; simp [skipWs]
  | cons c s ih =>
    intro line
    simp only [skipWs]
    by_cases hw : isWs c = true
    · simp only [hw, if_true, ih, List.dropWhile_cons, List.takeWhile_cons, Prod.mk.injEq,
        true_and]
      by_cases hl : c = LF
      · subst hl
        simp
        omega
      · have hl2 : ¬ (c == LF) = true := by simpa using hl
        simp [hl, List.count_cons, hl2]
    · simp [hw]

/-- C38: when the token loop handles a processing instruction token (on which
`parse_pi` returns), it consumes the maximal run of space, tab, CR and LF
characters that follows the token in the input and adds the number of
newlines in it to the line counter; the characters go neither into the
character buffer nor into a call, and the next token is read from what
follows them.  On `<a>x<?p?> y</a>` the calls are `characters` with `x`, the
processing instruction, and `characters` with `y`. -/
theorem pi_trailing_whitespace_is_skipped (n m : Nat) (st : DState) (r : PiResult)
    (hk : st.token_kind = .pi) (hp : parse_pi st.token_text = .ok r) :
    (∃ c1 st1, step n m st = (c1, .ok st1) ∧
      st1.input = st.input.dropWhile isWs ∧
      st1.line_number = st.line_number + (st.input.takeWhile isWs).count LF ∧
      st1.chars_buf = st.chars_buf ∧ st1.tags = st.tags ∧
      (∀ i d, Call.doc i (.characters d) ∉ c1) ∧
      ∀ c2 st2, fetch n st1 = (c2, .ok st2) →
        ∃ t, get_next_token (st.input.dropWhile isWs) st1.line_number = .ok t ∧
          st2.token_text = t.text ∧ st2.token_kind = t.kind) ∧
    parse noThrow 1 1 "<a>x<?p?> y</a>".toList =
      ([Call.doc 0 .start_document, Call.doc 0 (.start_element 1 ['a'] []),
        Call.doc 0 (.characters ['x']), Call.doc 0 (.processing_instruction 1 ['p'] []),
        Call.doc 0 (.characters ['y']), Call.doc 0 (.end_element 1 ['a']),
        Call.doc 0 .end_document], .returned) := by
  refine ⟨?_, by decide!⟩
  have hs : step n m st =
      (if r.status = 0 then
          forEach n fun i =>
            [Call.doc i (.processing_instruction st.line_number r.target r.data)]
        else forEach m fun i => [Call.err i (.error st.line_number)],
       .ok { st with input := (skipWs st.input st.line_number).1,
                     line_number := (skipWs st.input st.line_number).2 }) := by
    unfold step
    simp only [hk, hp]
  refine ⟨_, _, hs, by simp [skipWs_eq], by simp [skipWs_eq], rfl, rfl, ?_, ?_⟩
  · intro i d hmem
    have := step_no_characters n m st i d
    rw [hs] at this
    exact this hmem
  · intro c2 st2 hfe
    unfold fetch at hfe
    simp only [skipWs_eq] at hfe
    cases ht : get_next_token (st.input.dropWhile isWs)
        (st.line_number + (st.input.takeWhile isWs).count LF) <;> simp only [ht] at hfe
    · rename_i t
      refine ⟨t, by simp [skipWs_eq, ht], ?_⟩
      split_ifs at hfe <;>
      · simp only [Prod.mk.injEq, Res.ok.injEq] at hfe
        obtain ⟨_, rfl⟩ := hfe
        exact ⟨rfl, rfl⟩
    · simp at hfe
    · simp at hfe

theorem pi_trailing_whitespace_is_skipped_witness :
    ∃ c1 st1, step 1 1 ⟨" \n y</a>".toList, 1, [['a']], false, true, [], ['a'],
        "<?p?>".toList, .pi⟩ = (c1, .ok st1) ∧
      st1.input = " \n y</a>".toList.dropWhile isWs ∧
      st1.line_number = 1 + (" \n y</a>".toList.takeWhile isWs).count LF ∧
      st1.chars_buf = [] ∧ st1.tags = [['a']] ∧
      (∀ i d, Call.doc i (.characters d) ∉ c1) ∧
      ∀ c2 st2, fetch 1 st1 = (c2, .ok st2) →
        ∃ t, get_next_token (" \n y</a>".toList.dropWhile isWs) st1.line_number = .ok t ∧
          st2.token_text = t.text ∧ st2.token_kind = t.kind :=
  (pi_trailing_whitespace_is_skipped 1 1 ⟨" \n y</a>".toList, 1, [['a']], false, true, [],
    ['a'], "<?p?>".toList, .pi⟩ ⟨0, ['p'], []⟩ rfl (by decide)).1

/-! ## Nesting of `start_element` and `end_element` -/

theorem openAfter_append (a : List DocEvent) :
    ∀ (S : List Str) (b : List DocEvent),
      openAfter S (a ++ b) = (openAfter S a).bind fun S1 => openAfter S1 b := by
  induction a with
  | nil => intro S b; simp [openAfter]
  | cons e a ih =>
    intro S b
    cases e with
    | start_element l nm atts => simp only [List.cons_append, openAfter, List.append_eq, ih]
    | end_element l nm =>
      cases S with
      | nil => simp [openAfter]
      | cons top below =>
        simp only [List.cons_append, openAfter, List.append_eq]
        split_ifs
        · exact ih below b
        · rfl
    | start_document => simp only [List.cons_append, openAfter, List.append_eq, ih]
    | end_document => simp only [List.cons_append, openAfter, List.append_eq, ih]
    | characters d => simp only [List.cons_append, openAfter, List.append_eq, ih]
    | processing_instruction l t d => simp only [List.cons_append, openAfter, List.append_eq, ih]

theorem openAfter_of_prefix {S : List Str} {es p : List DocEvent} {S1 : List Str}
    (h : openAfter S es = some S1) (hp : p <+: es) : (openAfter S p).isSome = true := by
  obtain ⟨t, rfl⟩ := hp
  rw [openAfter_append] at h
  cases hq : openAfter S p with
  | none => rw [hq] at h; simp at h
  | some S2 => rfl

theorem openAfter_neutral (es : List DocEvent)
    (h : ∀ e ∈ es, (∀ l nm atts, e ≠ .start_element l nm atts) ∧ ∀ l nm, e ≠ .end_element l nm) :
    ∀ S, openAfter S es = some S := by
  induction es with
  | nil => intro S; rfl
  | cons e es ih =>
    intro S
    have he := h e (List.mem_cons_self e es)
    have ih2 := ih (fun x hx => h x (List.mem_cons_of_mem e hx)) S
    cases e with
    | start_element l nm atts => exact absurd rfl (he.1 l nm atts)
    | end_element l nm => exact absurd rfl (he.2 l nm)
    | start_document => simpa [openAfter] using ih2
    | end_document => simpa [openAfter] using ih2
    | characters d => simpa [openAfter] using ih2
    | processing_instruction l t d => simpa [openAfter] using ih2

theorem docCalls_forEach_one (i n : Nat) (hi : i < n) (es : List DocEvent) :
    docCalls i (forEach n fun j => es.map (Call.doc j)) = es := by
  rw [docCalls_forEach_doc i n (fun _ => es), if_pos hi]

theorem docCalls_forEach_errs (i m : Nat) (es : List ErrEvent) :
    docCalls i (forEach m fun j => es.map (Call.err j)) = [] :=
  docCalls_forEach_err i m (fun _ => es)

/-- One step of the token loop keeps the calls nested: from a state without
the fatal flag, the calls of the step can be replayed on the tag stack, and
they lead to the tag stack after the step unless the step sets the fatal
flag. -/
theorem step_open (n m i : Nat) (hi : i < n) (st : DState) (c1 : List Call) (r : Res DState)
    (hs : step n m st = (c1, r)) :
    ∃ S1, openAfter st.tags (docCalls i c1) = some S1 ∧
      ∀ st1, r = .ok st1 → st1.seen_fatal_error = false → S1 = st1.tags := by
  have hnil : ∀ (r0 : Res DState), (∀ st1, r0 = .ok st1 → st1.seen_fatal_error = false →
      st.tags = st1.tags) → ([] : List Call) = c1 → r0 = r →
      ∃ S1, openAfter st.tags (docCalls i c1) = some S1 ∧
        ∀ st1, r = .ok st1 → st1.seen_fatal_error = false → S1 = st1.tags := by
    intro r0 h e1 e2
    subst e1 e2
    exact ⟨st.tags, rfl, h⟩
  unfold step at hs
  cases hk : st.token_kind <;> simp only [hk] at hs
  · cases hp : parse_element st.token_text <;> simp only [hp] at hs
    · rename_i r0
      simp only [Prod.mk.injEq] at hs
      obtain ⟨rfl, rfl⟩ := hs
      by_cases h0 : r0.status = 0
      · simp only [h0, if_true, if_false]
        have := docCalls_forEach_one i n hi [DocEvent.start_element st.line_number r0.name r0.atts]
        simp only [List.map_cons, List.map_nil] at this
        refine ⟨r0.name :: st.tags, ?_, ?_⟩
        · simp [this, openAfter]
        · intro st1 e _
          simp only [Res.ok.injEq] at e
          rw [← e]
      · simp only [h0, if_false]
        refine ⟨st.tags, rfl, ?_⟩
        intro st1 e hf
        simp only [Res.ok.injEq] at e
        subst e
        simp [h0] at hf
    · simp only [Prod.mk.injEq] at hs
      exact hnil _ (by intro st1 e; simp at e) hs.1 hs.2
    · simp only [Prod.mk.injEq] at hs
      exact hnil _ (by intro st1 e; simp at e) hs.1 hs.2
  · cases hp : parse_element_end st.token_text <;> simp only [hp] at hs
    · rename_i r0
      obtain ⟨status, name⟩ := r0
      simp only at hs
      by_cases h0 : status = 0
      · simp only [h0, if_true] at hs
        cases ht : st.tags with
        | nil =>
          simp only [ht, Prod.mk.injEq] at hs
          obtain ⟨rfl, rfl⟩ := hs
          refine ⟨[], rfl, ?_⟩
          intro st1 e hf
          simp only [Res.ok.injEq] at e
          subst e
          simp at hf
        | cons top below =>
          simp only [ht] at hs
          by_cases hne : name ≠ top
          · rw [if_pos hne] at hs
            simp only [Prod.mk.injEq] at hs
            obtain ⟨rfl, rfl⟩ := hs
            refine ⟨top :: below, rfl, ?_⟩
            intro st1 e hf
            simp only [Res.ok.injEq] at e
            subst e
            simp at hf
          · rw [if_neg hne] at hs
            simp only [Prod.mk.injEq] at hs
            obtain ⟨rfl, rfl⟩ := hs
            have hnt : name = top := not_not.1 hne
            have := docCalls_forEach_one i n hi [DocEvent.end_element st.line_number name]
            simp only [List.map_cons, List.map_nil] at this
            refine ⟨below, ?_, ?_⟩
            · rw [this]
              simp [openAfter, hnt]
            · intro st1 e _
              simp only [Res.ok.injEq] at e
              rw [← e]
      · simp only [h0, if_false, Prod.mk.injEq] at hs
        obtain ⟨rfl, rfl⟩ := hs
        refine ⟨st.tags, rfl, ?_⟩
        intro st1 e hf
        simp only [Res.ok.injEq] at e
        subst e
        simp [h0] at hf
    · simp only [Prod.mk.injEq] at hs
      exact hnil _ (by intro st1 e; simp at e) hs.1 hs.2
    · simp only [Prod.mk.injEq] at hs
      exact hnil _ (by intro st1 e; simp at e) hs.1 hs.2
  · cases hp : parse_element st.token_text <;> simp only [hp] at hs
    · rename_i r0
      simp only [Prod.mk.injEq] at hs
      obtain ⟨rfl, rfl⟩ := hs
      by_cases h0 : r0.status = 0
      · simp only [h0, if_true, if_false]
        have := docCalls_forEach_one i n hi [DocEvent.start_element st.line_number r0.name r0.atts,
          DocEvent.end_element st.line_number r0.name]
        simp only [List.map_cons, List.map_nil] at this
        refine ⟨st.tags, ?_, ?_⟩
        · simp [this, openAfter]
        · intro st1 e _
          simp only [Res.ok.injEq] at e
          rw [← e]
          simp
      · simp only [h0, if_false]
        refine ⟨st.tags, rfl, ?_⟩
        intro st1 e hf
        simp only [Res.ok.injEq] at e
        subst e
        simp [h0] at hf
    · simp only [Prod.mk.injEq] at hs
      exact hnil _ (by intro st1 e; simp at e) hs.1 hs.2
    · simp only [Prod.mk.injEq] at hs
      exact hnil _ (by intro st1 e; simp at e) hs.1 hs.2
  · cases hp : parse_pi st.token_text <;> simp only [hp] at hs
    · rename_i r0
      simp only [Prod.mk.injEq] at hs
      obtain ⟨rfl, rfl⟩ := hs
      refine ⟨st.tags, ?_, ?_⟩
      · by_cases h0 : r0.status = 0
        · simp only [h0, if_true]
          have := docCalls_forEach_one i n hi
            [DocEvent.processing_instruction st.line_number r0.target r0.data]
          simp only [List.map_cons, List.map_nil] at this
          simp [this, openAfter]
        · simp only [h0, if_false]
          have := docCalls_forEach_errs i m [ErrEvent.error st.line_number]
          simp only [List.map_cons, List.map_nil] at this
          simp [this, openAfter]
      · intro st1 e _
        simp only [Res.ok.injEq] at e
        rw [← e]
    · simp only [Prod.mk.injEq] at hs
      exact hnil _ (by intro st1 e; simp at e) hs.1 hs.2
    · simp only [Prod.mk.injEq] at hs
      exact hnil _ (by intro st1 e; simp at e) hs.1 hs.2
  · split_ifs at hs <;>
    · simp only [Prod.mk.injEq] at hs
      exact hnil _ (by intro st1 e _; simp only [Res.ok.injEq] at e; rw [← e]) hs.1 hs.2
  · split_ifs at hs <;>
    · simp only [Prod.mk.injEq] at hs
      exact hnil _ (by intro st1 e _; simp only [Res.ok.injEq] at e; rw [← e]) hs.1 hs.2
  all_goals
    simp only [Prod.mk.injEq] at hs
    exact hnil _ (by intro st1 e _; simp only [Res.ok.injEq] at e; rw [← e]) hs.1 hs.2

theorem fetch_open (n i : Nat) (st : DState) (S : List Str) :
    openAfter S (docCalls i (fetch n st).1) = some S := by
  apply openAfter_neutral
  intro e he
  unfold fetch at he
  cases ht : get_next_token st.input st.line_number <;> simp only [ht] at he
  · split_ifs at he
    · have hd : docCalls i (forEach n fun j => [Call.doc j (.characters st.chars_buf)]) =
          if i < n then [DocEvent.characters st.chars_buf] else [] :=
        docCalls_forEach_doc i n (fun _ => [DocEvent.characters st.chars_buf])
      simp only at he
      rw [hd] at he
      split_ifs at he
      · simp only [List.mem_singleton] at he
        subst he
        exact ⟨(by intro l nm atts hh; cases hh), (by intro l nm hh; cases hh)⟩
      · simp at he
    · simp [docCalls] at he
  · simp [docCalls] at he
  · simp [docCalls] at he

/-- The calls of the token loop are nested: from a state without the fatal
flag they can be replayed on the tag stack, and when the loop is left without
the fatal flag they lead to the tag stack at that point. -/
theorem loop_open (n m i : Nat) (hi : i < n) (fuel : Nat) :
    ∀ st : DState, st.seen_fatal_error = false →
      ∃ S1, openAfter st.tags (docCalls i (loop n m fuel st).1) = some S1 ∧
        ∀ stf, (loop n m fuel st).2 = .ok stf → stf.seen_fatal_error = false →
          S1 = stf.tags := by
  induction fuel with
  | zero =>
    intro st _
    unfold loop
    split_ifs
    · exact ⟨st.tags, rfl, by intro stf e _; simp only [Res.ok.injEq] at e; rw [← e]⟩
    · exact ⟨st.tags, rfl, by intro stf e; simp at e⟩
  | succ f ih =>
    intro st hf
    by_cases hk : st.token_kind = .eof
    · rw [loop_eof n m _ st hk]
      exact ⟨st.tags, rfl, by intro stf e _; simp only [Res.ok.injEq] at e; rw [← e]⟩
    rcases hs : step n m st with ⟨c1, r1⟩
    obtain ⟨S1, o1, o2⟩ := step_open n m i hi st c1 r1 hs
    cases r1 with
    | undefined =>
      have : loop n m (f + 1) st = (c1, .undefined) := by
        unfold loop
        rw [if_neg hk]
        simp only [hs]
      rw [this]
      exact ⟨S1, o1, by intro stf e; simp at e⟩
    | nofuel =>
      have : loop n m (f + 1) st = (c1, .nofuel) := by
        unfold loop
        rw [if_neg hk]
        simp only [hs]
      rw [this]
      exact ⟨S1, o1, by intro stf e; simp at e⟩
    | ok st1 =>
      by_cases hex : st1.seen_fatal_error = true ∨
          (st1.tags.length = 0 ∧ st1.seen_root_tag = true)
      · rw [loop_unfold_exit n m f st c1 st1 hk hs hex]
        refine ⟨S1, o1, ?_⟩
        intro stf e hff
        simp only [Res.ok.injEq] at e
        subst e
        exact o2 _ rfl hff
      · obtain ⟨c2, st2, hfe⟩ := fetch_ok n st1
        have hf1 : st1.seen_fatal_error = false := by
          cases hb : st1.seen_fatal_error with
          | false => rfl
          | true => exact absurd (Or.inl hb) hex
        rw [loop_unfold_go n m f st c1 st1 hk hs (fun h => hex (Or.inl h))
          (fun h => hex (Or.inr h)) c2 st2 hfe]
        obtain ⟨k1, _, k3, _⟩ := fetch_keeps n st1 c2 st2 hfe
        obtain ⟨S2, p1, p2⟩ := ih st2 (by rw [k3]; exact hf1)
        refine ⟨S2, ?_, p2⟩
        have hfo := fetch_open n i st1 S1
        rw [hfe] at hfo
        simp only at hfo
        rw [docCalls_append, docCalls_append, openAfter_append, openAfter_append, o1]
        simp only [Option.bind_eq_bind, Option.some_bind, hfo]
        rw [o2 st1 rfl hf1, ← k1]
        exact p1

theorem tryBlock_open (n m i : Nat) (hi : i < n) (input : List Char) :
    ∃ S1, openAfter [] (docCalls i (tryBlock n m input).1) = some S1 ∧
      ∀ c stf, parseLoop n m input = (c, .ok stf) →
        (stf.seen_fatal_error = false →
          openAfter [] (docCalls i c) = some stf.tags ∧ S1 = stf.tags) := by
  have hstart : docCalls i (forEach n fun j => [Call.doc j .start_document]) =
      [.start_document] := docCalls_forEach_one i n hi [DocEvent.start_document]
  have hend : ∀ S st, openAfter S (docCalls i (afterLoop n m st)) = some S := by
    intro S st
    apply openAfter_neutral
    intro e he
    rw [afterLoop_render, docCalls_render, if_pos hi] at he
    simp only [List.flatMap_cons, List.flatMap_nil, List.nil_append, List.append_nil,
      List.mem_singleton] at he
    subst he
    exact ⟨(by intro l nm atts hh; cases hh), (by intro l nm hh; cases hh)⟩
  unfold tryBlock parseLoop
  rcases hb : beforeLoop n input with ⟨c0, r0⟩
  have hc0 : c0 = forEach n fun j => [Call.doc j .start_document] := by
    unfold beforeLoop at hb
    simp only [Prod.mk.injEq] at hb
    exact hb.1.symm
  subst hc0
  cases r0 with
  | undefined =>
    simp only
    exact ⟨[], (by rw [hstart]; rfl), (by intro c stf e; simp at e)⟩
  | nofuel =>
    simp only
    exact ⟨[], (by rw [hstart]; rfl), (by intro c stf e; simp at e)⟩
  | ok st0 =>
    have h0 : st0.seen_fatal_error = false ∧ st0.tags = [] := by
      unfold beforeLoop at hb
      simp only [Prod.mk.injEq] at hb
      obtain ⟨_, hb2⟩ := hb
      cases hg : get_next_token (skipWs input 1).1 (skipWs input 1).2 <;>
        simp only [hg] at hb2
      · simp only [Res.ok.injEq] at hb2
        rw [← hb2]
        exact ⟨rfl, rfl⟩
      · simp at hb2
      · simp at hb2
    obtain ⟨S1, o1, o2⟩ := loop_open n m i hi (input.length + 1) st0 h0.1
    rw [h0.2] at o1
    simp only
    rcases hl : loop n m (input.length + 1) st0 with ⟨c3, r3⟩
    rw [hl] at o1 o2
    simp only at o1 o2
    have hpre : openAfter [] (docCalls i
        ((forEach n fun j => [Call.doc j .start_document]) ++ c3)) = some S1 := by
      rw [docCalls_append, hstart]
      simpa [openAfter] using o1
    cases r3 with
    | undefined => exact ⟨S1, hpre, by intro c stf e; simp at e⟩
    | nofuel => exact ⟨S1, hpre, by intro c stf e; simp at e⟩
    | ok stf =>
      simp only
      refine ⟨S1, ?_, ?_⟩
      · rw [docCalls_append, openAfter_append, hpre]
        simp only [Option.bind_eq_bind, Option.some_bind]
        exact hend S1 stf
      · intro c stf2 e hff
        simp only [Prod.mk.injEq, Res.ok.injEq] at e
        obtain ⟨rfl, rfl⟩ := e
        have := o2 stf rfl hff
        subst this
        exact ⟨hpre, rfl⟩

/-- C31: for every input and every document handler, the `start_element` and
`end_element` calls received up to any point of `parse` are properly nested
(every beginning of the handler's calls can be replayed on an empty stack: each
`end_element` carries the name of the most recent `start_element` not yet
ended), whether or not callbacks throw.  When the token loop is left without
the fatal flag, the names opened and not yet ended are exactly the tag stack,
and every step of the loop that does not set the flag keeps this.  If `parse`
returns and an error handler has received no `fatal_error`, every
`start_element` has been matched by an `end_element`; so it is whenever the
token loop is left with an empty tag stack and without the fatal flag, which
is when `parse` calls no `fatal_error`. -/
theorem element_calls_are_nested (throws : List Call → Call → Bool) (n m : Nat)
    (input : List Char) (i : Nat) (hi : i < n) :
    (∀ p, p <+: docCalls i (parse throws n m input).1 → (openAfter [] p).isSome = true) ∧
    (∀ c stf, parseLoop n m input = (c, .ok stf) → stf.seen_fatal_error = false →
      openAfter [] (docCalls i c) = some stf.tags) ∧
    (∀ (st st1 : DState) (c1 : List Call), step n m st = (c1, .ok st1) →
      st1.seen_fatal_error = false → openAfter st.tags (docCalls i c1) = some st1.tags) ∧
    (∀ j, j < m → (parse noThrow n m input).2 = .returned →
      (∀ l, ErrEvent.fatal_error l ∉ errCalls j (parse noThrow n m input).1) →
      openAfter [] (docCalls i (parse noThrow n m input).1) = some []) ∧
    (∀ c stf, parseLoop n m input = (c, .ok stf) → stf.tags = [] →
      stf.seen_fatal_error = false →
      openAfter [] (docCalls i (parse noThrow n m input).1) = some []) := by
  obtain ⟨S1, o1, o2⟩ := tryBlock_open n m i hi input
  refine ⟨?_, ?_, ?_, ?_, ?_⟩
  · intro p hp
    obtain ⟨pre1, pre2, e, hp1, hp2⟩ := parse_calls_prefix throws n m input
    rw [e, docCalls_append] at hp
    have hD : docCalls i pre1 <+: docCalls i (tryBlock n m input).1 :=
      List.IsPrefix.filterMap _ hp1
    have hs1 := openAfter_of_prefix o1 hD
    obtain ⟨S2, hS2⟩ := Option.isSome_iff_exists.1 hs1
    have hE : openAfter S2 (docCalls i pre2) = some S2 := by
      apply openAfter_neutral
      intro ev hev
      have hsub : docCalls i pre2 <+: docCalls i (forEach n fun k => [Call.doc k .end_document]) :=
        List.IsPrefix.filterMap _ hp2
      have hmem := hsub.subset hev
      have hd : docCalls i (forEach n fun k => [Call.doc k .end_document]) =
          [DocEvent.end_document] := docCalls_forEach_one i n hi [DocEvent.end_document]
      rw [hd] at hmem
      simp only [List.mem_singleton] at hmem
      subst hmem
      exact ⟨(by intro l nm atts hh; cases hh), (by intro l nm hh; cases hh)⟩
    have hall : openAfter [] (docCalls i pre1 ++ docCalls i pre2) = some S2 := by
      rw [openAfter_append, hS2]
      simpa using hE
    exact openAfter_of_prefix hall hp
  · intro c stf h hf
    exact (o2 c stf h hf).1
  · intro st st1 c1 hs hf
    obtain ⟨S, q1, q2⟩ := step_open n m i hi st c1 _ hs
    rw [q1, q2 st1 rfl hf]
  · intro j hj hret hno
    rw [parse_noThrow_calls] at hno ⊢
    rw [parse_noThrow_ending] at hret
    rcases hp : parseLoop n m input with ⟨c, r⟩
    rw [hp] at hret
    cases r with
    | undefined => simp at hret
    | nofuel => simp at hret
    | ok stf =>
      have htry : (tryBlock n m input).1 = c ++ afterLoop n m stf := by
        unfold tryBlock
        rw [hp]
      rw [htry] at hno
      have hcond : ¬ (stf.tags.length ≠ 0 ∨ stf.seen_fatal_error = true) := by
        intro hc
        apply hno stf.line_number
        rw [errCalls_append, afterLoop_render, errCalls_render, if_pos hj, if_pos hc]
        simp
      simp only [not_or, not_not] at hcond
      have hf : stf.seen_fatal_error = false := by
        cases hb : stf.seen_fatal_error with
        | false => rfl
        | true => exact absurd hb hcond.2
      have := (o2 c stf hp hf).2
      rw [o1, this, List.length_eq_zero.1 hcond.1]
  · intro c stf hp ht hf
    rw [parse_noThrow_calls, o1, (o2 c stf hp hf).2, ht]

theorem element_calls_are_nested_witness :
    docCalls 0 (parse noThrow 1 1 "<a><b/><c>x</c></a>".toList).1 =
      [.start_document, .start_element 1 ['a'] [], .start_element 1 ['b'] [],
        .end_element 1 ['b'], .start_element 1 ['c'] [], .characters ['x'],
        .end_element 1 ['c'], .end_element 1 ['a'], .end_document] ∧
    openAfter [] (docCalls 0 (parse noThrow 1 1 "<a><b/><c>x</c></a>".toList).1) = some [] :=
  ⟨by decide!,
   (element_calls_are_nested noThrow 1 1 "<a><b/><c>x</c></a>".toList 0 (by decide)).2.2.2.1 0
      (by decide) (by decide!)
      (by
        intro l
        have h : errCalls 0 (parse noThrow 1 1 "<a><b/><c>x</c></a>".toList).1 = [] := by decide!
        rw [h]
        simp)⟩

/-! ## Reads of the structural parsers stay inside the token -/

theorem parse_element_eq_cells (token : Str) :
    parse_element token = parse_element_cells (token.length + 1) (token ++ [NUL]) := rfl

theorem parse_pi_eq_cells (token : Str) : parse_pi token = parse_pi_cells (token ++ [NUL]) := rfl

/-- A string followed by a character `y0` that ends a scanning loop splits
into the run the loop reads and the rest, which begins with the character the
loop stops at. -/
theorem split_run (p : Char → Bool) (y0 : Char) (hy0 : p y0 = false) :
    ∀ L : Str, ∃ r pre2 y rest, L = r ++ pre2 ∧ y :: rest = pre2 ++ [y0] ∧
      (∀ c ∈ r, p c = true) ∧ p y = false := by
  intro L
  induction L with
  | nil => exact ⟨[], [], y0, [], rfl, rfl, by simp, hy0⟩
  | cons x L ih =>
    by_cases hx : p x = true
    · obtain ⟨r, pre2, y, rest, e1, e2, e3, e4⟩ := ih
      refine ⟨x :: r, pre2, y, rest, by rw [e1]; rfl, e2, ?_, e4⟩
      intro c hc
      rcases List.mem_cons.1 hc with rfl | hc
      · exact hx
      · exact e3 c hc
    · exact ⟨[], x :: L, x, L ++ [y0], rfl, rfl, by simp, by simpa using hx⟩

/-- A scanning loop that stops at `y0`, run on cells of which `pre ++ [y0]` is
a beginning, returns without reading beyond `y0`, whatever cells follow. -/
theorem scanWhile_to (p : Char → Bool) (y0 : Char) (hp : p y0 = false) (pre : Str) (ch : Char)
    (cur : List Char) (acc : Str) (h : ch :: cur = pre ++ [y0]) :
    ∃ r pre2 y rest, pre = r ++ pre2 ∧ y :: rest = pre2 ++ [y0] ∧ (∀ c ∈ r, p c = true) ∧
      p y = false ∧ ∀ Z, scanWhile p (cur ++ Z) ch acc = .ok (y, rest ++ Z, acc ++ r) := by
  obtain ⟨r, pre2, y, rest, e1, e2, e3, e4⟩ := split_run p y0 hp pre
  refine ⟨r, pre2, y, rest, e1, e2, e3, e4, fun Z => ?_⟩
  apply scanWhile_list p y (rest ++ Z) e4 r ch (cur ++ Z) acc e3
  have e : ch :: (cur ++ Z) = (ch :: cur) ++ Z := rfl
  have e5 : r ++ y :: (rest ++ Z) = r ++ ((y :: rest) ++ Z) := rfl
  rw [e, h, e1, e5, e2]
  simp

theorem tail_to {y y0 : Char} {rest : List Char} {pre : Str} (h : y :: rest = pre ++ [y0])
    (hy : y ≠ y0) : ∃ pre1 c cur1, pre = y :: pre1 ∧ rest = c :: cur1 ∧ c :: cur1 = pre1 ++ [y0] := by
  cases pre with
  | nil =>
    simp only [List.nil_append, List.cons.injEq] at h
    exact absurd h.1 hy
  | cons a pre1 =>
    simp only [List.cons_append, List.cons.injEq] at h
    obtain ⟨rfl, rfl⟩ := h
    cases pre1 with
    | nil => exact ⟨[], y0, [], rfl, rfl, rfl⟩
    | cons b pre2 => exact ⟨b :: pre2, b, pre2 ++ [y0], rfl, rfl, rfl⟩

/-- The attribute loop of `parse_element` on cells that end with `>`: either
it returns without reading beyond that `>`, whatever cells follow, or what
precedes the `>` ends with `=` and whitespace, the loop takes the `>` as the
delimiter of a value and reads the one cell after it, and then returns `-1`. -/
theorem attLoop_cells (fuel : Nat) :
    ∀ (cur : List Char) (ch : Char) (atts : List (Str × Str)) (pre : Str),
      ch :: cur = pre ++ ['>'] → pre.length < fuel →
      (∃ r, ∀ Z, attLoop fuel (cur ++ Z) ch atts = .ok r) ∨
      ((∃ p w, pre = p ++ '=' :: w ∧ allWs w) ∧ attLoop fuel cur ch atts = .undefined ∧
        ∃ a, ∀ z Z, attLoop fuel (cur ++ z :: Z) ch atts = .ok (-1, a)) := by
  induction fuel with
  | zero => intro cur ch atts pre _ h; simp at h
  | succ fuel ih =>
    intro cur ch atts pre hcur hlen
    by_cases h0 : ch = '>' ∨ ch = '/'
    · refine Or.inl ⟨(0, atts), fun Z => ?_⟩
      unfold attLoop
      rw [if_pos h0]
    obtain ⟨r1, pre1, ch1, cur1, e1, c1, _, _, s1⟩ :=
      scanWhile_to isAttNameChar '>' (by decide) pre ch cur [] hcur
    simp only [List.nil_append] at s1
    by_cases h1 : r1.length = 0
    · refine Or.inl ⟨(-1, atts), fun Z => ?_⟩
      unfold attLoop
      rw [if_neg h0]
      simp only [s1 Z, Res.bind, h1, if_true]
    by_cases h2 : ch1 = '>'
    · refine Or.inl ⟨(-1, atts), fun Z => ?_⟩
      unfold attLoop
      rw [if_neg h0]
      simp only [s1 Z, Res.bind, h1, if_false, h2, if_true]
    obtain ⟨r2, pre2, ch2, cur2, e2, c2, _, _, s2⟩ :=
      scanWhile_to isWs '>' (by decide) pre1 ch1 cur1 [] c1
    simp only [List.nil_append] at s2
    by_cases h3 : ch2 ≠ '='
    · refine Or.inl ⟨(-1, atts), fun Z => ?_⟩
      unfold attLoop
      rw [if_neg h0]
      simp only [s1 Z, Res.bind, h1, if_false, h2, s2 Z]
      rw [if_pos h3]
    have h3e : ch2 = '=' := not_not.1 h3
    obtain ⟨pre3, ch3, cur3, e3, g3, c3⟩ := tail_to c2 (by rw [h3e]; decide)
    subst g3
    obtain ⟨r4, pre4, dl, cur4, e4, c4, w4, _, s4⟩ :=
      scanWhile_to isWs '>' (by decide) pre3 ch3 cur3 [] c3
    simp only [List.nil_append] at s4
    have hstep : ∀ Z, attLoop (fuel + 1) (cur ++ Z) ch atts =
        (next (cur4 ++ Z)).bind fun (ch5, cur5) =>
          if dl ≠ APOS ∧ dl ≠ QUOT then .ok (-1, atts) else
          (scanWhile (fun c => c != dl && c != '>') cur5 ch5 []).bind
            fun (ch6, cur6, attribute_value) =>
          if ch6 = '>' then .ok (-1, atts) else
          (next cur6).bind fun (ch7, cur7) =>
          if ch7 ≠ '>' ∧ ch7 ≠ ' ' ∧ ch7 ≠ '/' ∧ ch7 ≠ TAB ∧ ch7 ≠ LF ∧ ch7 ≠ CR then
            .ok (-1, atts)
          else
          (scanWhile isWs cur7 ch7 []).bind fun (ch8, cur8, _) =>
          if is_in_domain atts r1 then .ok (-1, atts)
          else attLoop fuel cur8 ch8 (atts ++ [(r1, attribute_value)]) := by
      intro Z
      conv_lhs => unfold attLoop
      rw [if_neg h0]
      simp only [s1 Z, Res.bind, h1, if_false, h2, s2 Z]
      rw [if_neg h3]
      simp only [List.cons_append, next, s4 Z]
    cases cur4 with
    | nil =>
      have hp4 : pre4 = [] ∧ dl = '>' := by
        cases pre4 with
        | nil => simpa using c4
        | cons a t =>
          have := congrArg List.length c4
          simp at this
      refine Or.inr ⟨⟨r1 ++ r2, r4, ?_, w4⟩, ?_, atts, fun z Z => ?_⟩
      · rw [e1, e2, e3, e4, hp4.1, h3e]
        simp
      · have := hstep []
        simp only [List.append_nil] at this
        rw [this]
        rfl
      · rw [hstep (z :: Z)]
        simp only [List.nil_append, next, Res.bind, hp4.2]
        rw [if_pos (by decide)]
    | cons c5 cur5 =>
      have hstep5 : ∀ Z, attLoop (fuel + 1) (cur ++ Z) ch atts =
          if dl ≠ APOS ∧ dl ≠ QUOT then .ok (-1, atts) else
          (scanWhile (fun c => c != dl && c != '>') (cur5 ++ Z) c5 []).bind
            fun (ch6, cur6, attribute_value) =>
          if ch6 = '>' then .ok (-1, atts) else
          (next cur6).bind fun (ch7, cur7) =>
          if ch7 ≠ '>' ∧ ch7 ≠ ' ' ∧ ch7 ≠ '/' ∧ ch7 ≠ TAB ∧ ch7 ≠ LF ∧ ch7 ≠ CR then
            .ok (-1, atts)
          else
          (scanWhile isWs cur7 ch7 []).bind fun (ch8, cur8, _) =>
          if is_in_domain atts r1 then .ok (-1, atts)
          else attLoop fuel cur8 ch8 (atts ++ [(r1, attribute_value)]) := by
        intro Z
        rw [hstep Z]
        rfl
      by_cases h5 : dl ≠ APOS ∧ dl ≠ QUOT
      · refine Or.inl ⟨(-1, atts), fun Z => ?_⟩
        rw [hstep5 Z, if_pos h5]
      have hdl : dl ≠ '>' := by
        intro e
        apply h5
        rw [e]
        decide
      obtain ⟨pre5, c5a, cur5a, e5, g5, c5e⟩ := tail_to c4 hdl
      simp only [List.cons.injEq] at g5
      obtain ⟨rfl, rfl⟩ := g5
      obtain ⟨r6, pre6, ch6, cur6, e6, c6, _, _, s6⟩ :=
        scanWhile_to (fun c => c != dl && c != '>') '>' (by simp) pre5 c5 cur5 [] c5e
      simp only [List.nil_append] at s6
      by_cases h6 : ch6 = '>'
      · refine Or.inl ⟨(-1, atts), fun Z => ?_⟩
        rw [hstep5 Z, if_neg h5]
        simp only [s6 Z, Res.bind, h6, if_true]
      obtain ⟨pre7, ch7, cur7, e7, g7, c7⟩ := tail_to c6 h6
      subst g7
      by_cases h7 : ch7 ≠ '>' ∧ ch7 ≠ ' ' ∧ ch7 ≠ '/' ∧ ch7 ≠ TAB ∧ ch7 ≠ LF ∧ ch7 ≠ CR
      · refine Or.inl ⟨(-1, atts), fun Z => ?_⟩
        rw [hstep5 Z, if_neg h5]
        simp only [s6 Z, Res.bind, h6, if_false, List.cons_append, next]
        rw [if_pos h7]
      obtain ⟨r8, pre8, ch8, cur8, e8, c8, _, _, s8⟩ :=
        scanWhile_to isWs '>' (by decide) pre7 ch7 cur7 [] c7
      simp only [List.nil_append] at s8
      have hstep8 : ∀ Z, attLoop (fuel + 1) (cur ++ Z) ch atts =
          if is_in_domain atts r1 then .ok (-1, atts)
          else attLoop fuel (cur8 ++ Z) ch8 (atts ++ [(r1, r6)]) := by
        intro Z
        rw [hstep5 Z, if_neg h5]
        simp only [s6 Z, Res.bind, h6, if_false, List.cons_append, next]
        rw [if_neg h7]
        simp only [s8 Z]
      by_cases h8 : is_in_domain atts r1 = true
      · refine Or.inl ⟨(-1, atts), fun Z => ?_⟩
        rw [hstep8 Z, if_pos h8]
      have hl : pre8.length < fuel := by
        have : pre.length = r1.length + (r2.length + (1 + (r4.length + (1 + (r6.length +
            (1 + (r8.length + pre8.length))))))) := by
          rw [e1, e2, e3, e4, e5, e6, e7, e8]
          simp only [List.length_append, List.length_cons]
          omega
        omega
      have hpre : pre = (r1 ++ r2 ++ ch2 :: r4 ++ dl :: r6 ++ ch6 :: r8) ++ pre8 := by
        rw [e1, e2, e3, e4, e5, e6, e7, e8]
        simp
      rcases ih cur8 ch8 (atts ++ [(r1, r6)]) pre8 c8 hl with
        ⟨r, hr⟩ | ⟨⟨p, w, hpw, hw⟩, hu, a, ha⟩
      · refine Or.inl ⟨r, fun Z => ?_⟩
        rw [hstep8 Z, if_neg h8]
        exact hr Z
      · refine Or.inr ⟨⟨(r1 ++ r2 ++ ch2 :: r4 ++ dl :: r6 ++ ch6 :: r8) ++ p, w, ?_, hw⟩, ?_,
          a, fun z Z => ?_⟩
        · rw [hpre, hpw]
          simp
        · have := hstep8 []
          simp only [List.append_nil] at this
          rw [this, if_neg h8]
          exact hu
        · rw [hstep8 (z :: Z), if_neg h8]
          exact ha z Z

/-- Shape of the tokens that `get_next_token` classifies as `element_start` or
`empty_element`. -/
theorem start_token_shape (s : List Char) (line : Nat) (t : Token)
    (h : get_next_token s line = .ok t)
    (hk : t.kind = .element_start ∨ t.kind = .empty_element) :
    ∃ c2 body, t.text = '<' :: c2 :: body ++ ['>'] ∧ cleanBody body ∧
      c2 ≠ '!' ∧ c2 ≠ '?' ∧ c2 ≠ '/' := by
  rcases get_next_token_cases s line with ⟨_, e⟩ | ⟨_, e⟩ | ⟨s2, _, e⟩ | ⟨s2, _, e⟩ |
    ⟨s2, _, e⟩ | ⟨c2, s2, _, n1, n2, n3, e⟩ | ⟨c1, s1, _, _, e⟩
  · rw [e] at h
    simp only [Res.ok.injEq] at h
    subst h
    simp at hk
  · rw [e] at h
    simp only [Res.ok.injEq] at h
    subst h
    simp at hk
  · rw [e] at h
    simp only [Res.ok.injEq] at h
    subst h
    rcases bangBranch_kind s2 line with k | k | k | k <;> rw [k] at hk <;> simp at hk
  · rw [e] at h
    simp only [Res.ok.injEq] at h
    subst h
    rcases piLoop_kind s2 ['<', '?'] line with k | k <;> rw [k] at hk <;> simp at hk
  · rw [e] at h
    simp only [Res.ok.injEq] at h
    subst h
    rcases endLoop_kind s2 ['<', '/'] line with k | k <;> rw [k] at hk <;> simp at hk
  · rw [e] at h
    simp only [Res.ok.injEq] at h
    subst h
    obtain ⟨body, e1, e2⟩ := startLoop_start s2 _ _ _ hk
    exact ⟨c2, body, by simpa using e1, e2, n1, n2, n3⟩
  · rw [e] at h
    rcases charsBranch_kind c1 s1 line t h with k | k <;> rw [k] at hk <;> simp at hk

/-- Function `parse_element` on a token `<`, one character, a body and `>`:
either it returns without reading beyond the `>`, or the token ends with `=`,
whitespace and `>`, the one cell after the token is read, and `-1` is
returned. -/
theorem parse_element_cells_shape (c2 : Char) (body : Str) (fuel : Nat)
    (hf : body.length + 1 < fuel) :
    (∃ r, ∀ Z, parse_element_cells fuel ('<' :: c2 :: body ++ ['>'] ++ Z) = .ok r) ∨
    ((∃ p w, c2 :: body = p ++ '=' :: w ∧ allWs w) ∧
      parse_element_cells fuel ('<' :: c2 :: body ++ ['>']) = .undefined ∧
      ∃ nm a, ∀ z Z,
        parse_element_cells fuel ('<' :: c2 :: body ++ ['>'] ++ z :: Z) = .ok ⟨-1, nm, a⟩) := by
  have hc : ∀ Z, '<' :: c2 :: body ++ ['>'] ++ Z = '<' :: c2 :: ((body ++ ['>']) ++ Z) := by
    intro Z
    simp
  by_cases h0 : c2 = '>'
  · refine Or.inl ⟨⟨-1, [], []⟩, fun Z => ?_⟩
    rw [hc Z]
    simp only [parse_element_cells, h0, if_true]
  obtain ⟨r1, pre1, ch1, cur1, e1, c1, _, _, s1⟩ :=
    scanWhile_to isNameChar '>' (by decide) (c2 :: body) c2 (body ++ ['>']) [] rfl
  simp only [List.nil_append] at s1
  obtain ⟨r2, pre2, ch2, cur2, e2, c2e, _, _, s2⟩ :=
    scanWhile_to isWs '>' (by decide) pre1 ch1 cur1 [] c1
  simp only [List.nil_append] at s2
  have hstep : ∀ Z, parse_element_cells fuel ('<' :: c2 :: body ++ ['>'] ++ Z) =
      (attLoop fuel (cur2 ++ Z) ch2 []).bind fun (status, atts) =>
        if status ≠ 0 then .ok ⟨-1, r1, atts⟩
        else if r1.length = 0 then .ok ⟨-1, r1, atts⟩
        else .ok ⟨0, r1, atts⟩ := by
    intro Z
    rw [hc Z]
    simp only [parse_element_cells, h0, if_false, s1 Z, Res.bind, s2 Z]
  have hl : pre2.length < fuel := by
    have : (c2 :: body).length = r1.length + (r2.length + pre2.length) := by
      rw [e1, e2]
      simp
    simp only [List.length_cons] at this
    omega
  have hpre : c2 :: body = (r1 ++ r2) ++ pre2 := by
    rw [e1, e2]
    simp
  rcases attLoop_cells fuel cur2 ch2 [] pre2 c2e hl with
    ⟨⟨status, atts⟩, hr⟩ | ⟨⟨p, w, hpw, hw⟩, hu, a, ha⟩
  · refine Or.inl ⟨if status ≠ 0 then ⟨-1, r1, atts⟩
      else if r1.length = 0 then ⟨-1, r1, atts⟩ else ⟨0, r1, atts⟩, fun Z => ?_⟩
    rw [hstep Z, hr Z]
    simp only [Res.bind]
    split_ifs <;> rfl
  · refine Or.inr ⟨⟨(r1 ++ r2) ++ p, w, ?_, hw⟩, ?_, r1, a, fun z Z => ?_⟩
    · rw [hpre, hpw]
      simp
    · have := hstep []
      simp only [List.append_nil] at this
      rw [this, hu]
      rfl
    · rw [hstep (z :: Z), ha z Z]
      rfl

/-- On a token that `get_next_token` classifies as `element_start` or
`empty_element`, `parse_element` returns the result of the run on the cells of
the token alone, unless that run reads the cell after the closing `>`. -/
theorem parse_element_on_token (s : List Char) (line : Nat) (t : Token)
    (ht : get_next_token s line = .ok t)
    (hk : t.kind = .element_start ∨ t.kind = .empty_element) :
    (∃ r, parse_element_cells (t.text.length + 1) t.text = .ok r ∧
        parse_element t.text = .ok r) ∨
      (parse_element_cells (t.text.length + 1) t.text = .undefined ∧
        (∃ p w, t.text = p ++ '=' :: w ++ ['>'] ∧ allWs w) ∧
        ∃ nm atts, parse_element t.text = .ok ⟨-1, nm, atts⟩) := by
  obtain ⟨c2, body, e, _, _, _, _⟩ := start_token_shape s line t ht hk
  have hf : body.length + 1 < t.text.length + 1 := by
    rw [e]
    simp
  rw [parse_element_eq_cells]
  rcases parse_element_cells_shape c2 body (t.text.length + 1) hf with
    ⟨r, hr⟩ | ⟨⟨p, w, hpw, hw⟩, hu, nm, a, ha⟩
  · refine Or.inl ⟨r, ?_, ?_⟩
    · have := hr []
      rw [List.append_nil, ← e] at this
      exact this
    · have := hr [NUL]
      rw [← e] at this
      exact this
  · refine Or.inr ⟨?_, ⟨'<' :: p, w, ?_, hw⟩, nm, a, ?_⟩
    · rw [← e] at hu
      exact hu
    · rw [e]
      have : '<' :: c2 :: body ++ ['>'] = '<' :: ((c2 :: body) ++ ['>']) := rfl
      rw [this, hpw]
      simp
    · have := ha NUL []
      rw [← e] at this
      exact this

theorem parse_element_defined (s : List Char) (line : Nat) (t : Token)
    (ht : get_next_token s line = .ok t)
    (hk : t.kind = .element_start ∨ t.kind = .empty_element) :
    ∃ r, parse_element t.text = .ok r := by
  rcases parse_element_on_token s line t ht hk with ⟨r, _, hr⟩ | ⟨_, _, nm, a, hr⟩
  · exact ⟨r, hr⟩
  · exact ⟨_, hr⟩

/-- C36: for every token that `get_next_token` classifies as `element_start`
or `empty_element`, `parse_element` returns: it does not loop and it reads
the token text only at indices up to the token's length.  Moreover, either no
index equal to the length is read (run on the cells of the token alone, with
none at index `size()`, it returns the same result), or the token ends with
`=`, whitespace and `>`, the closing `>` has been taken as the delimiter of a
value, and `parse_element` returns `-1`.  The token `<a b=>` is one where the
cell at index `size()` is read. -/
theorem parse_element_reads_within_token (s : List Char) (line : Nat) (t : Token)
    (ht : get_next_token s line = .ok t)
    (hk : t.kind = .element_start ∨ t.kind = .empty_element) :
    (∃ r, parse_element t.text = .ok r) ∧
    ((∃ r, parse_element_cells (t.text.length + 1) t.text = .ok r ∧
        parse_element t.text = .ok r) ∨
      (parse_element_cells (t.text.length + 1) t.text = .undefined ∧
        (∃ p w, t.text = p ++ '=' :: w ++ ['>'] ∧ allWs w) ∧
        ∃ nm atts, parse_element t.text = .ok ⟨-1, nm, atts⟩)) ∧
    parse_element "<a b=>".toList = .ok ⟨-1, ['a'], []⟩ ∧
    parse_element_cells 7 "<a b=>".toList = .undefined :=
  ⟨parse_element_defined s line t ht hk, parse_element_on_token s line t ht hk,
    by decide, by decide⟩

theorem parse_element_reads_within_token_witness :
    (∃ r, parse_element "<a b='1' c=>".toList = .ok r) ∧
    ((∃ r, parse_element_cells ("<a b='1' c=>".toList.length + 1) "<a b='1' c=>".toList =
          .ok r ∧ parse_element "<a b='1' c=>".toList = .ok r) ∨
      (parse_element_cells ("<a b='1' c=>".toList.length + 1) "<a b='1' c=>".toList =
          .undefined ∧
        (∃ p w, "<a b='1' c=>".toList = p ++ '=' :: w ++ ['>'] ∧ allWs w) ∧
        ∃ nm atts, parse_element "<a b='1' c=>".toList = .ok ⟨-1, nm, atts⟩)) ∧
    parse_element "<a b=>".toList = .ok ⟨-1, ['a'], []⟩ ∧
    parse_element_cells 7 "<a b=>".toList = .undefined :=
  parse_element_reads_within_token "<a b='1' c=>x".toList 1
    ⟨"<a b='1' c=>".toList, .element_start, 1, ['x']⟩ (by decide) (by decide)

/-- Shape of the tokens that `get_next_token` classifies as `pi`. -/
theorem pi_token_shape (s : List Char) (line : Nat) (t : Token)
    (h : get_next_token s line = .ok t) (hk : t.kind = .pi) :
    t.text = ['<', '?', '>'] ∨
      ∃ body, t.text = '<' :: '?' :: body ++ ['?', '>'] ∧ cleanBody body := by
  rcases get_next_token_cases s line with ⟨_, e⟩ | ⟨_, e⟩ | ⟨s2, _, e⟩ | ⟨s2, _, e⟩ |
    ⟨s2, _, e⟩ | ⟨c2, s2, _, n1, n2, n3, e⟩ | ⟨c1, s1, _, _, e⟩
  · rw [e] at h
    simp only [Res.ok.injEq] at h
    subst h
    simp at hk
  · rw [e] at h
    simp only [Res.ok.injEq] at h
    subst h
    simp at hk
  · rw [e] at h
    simp only [Res.ok.injEq] at h
    subst h
    rcases bangBranch_kind s2 line with k | k | k | k <;> rw [k] at hk <;> simp at hk
  · rw [e] at h
    simp only [Res.ok.injEq] at h
    subst h
    obtain ⟨body, e1, e2, e3⟩ := piLoop_pi s2 _ _ hk
    rcases List.eq_nil_or_concat body with rfl | ⟨b, x, rfl⟩
    · left
      simpa using e1
    · right
      rw [List.concat_eq_append] at e1 e2 e3
      have hx : x = '?' := by
        have := e3 (by simp)
        rw [← List.append_assoc, getD_before_last] at this
        exact this
      subst hx
      refine ⟨b, by simpa using e1, ?_⟩
      intro c hc
      exact e2 c (List.mem_append_left _ hc)
  · rw [e] at h
    simp only [Res.ok.injEq] at h
    subst h
    rcases endLoop_kind s2 ['<', '/'] line with k | k <;> rw [k] at hk <;> simp at hk
  · rw [e] at h
    simp only [Res.ok.injEq] at h
    subst h
    rcases startLoop_kind s2 NUL ['<', c2] line with k | k | k <;> rw [k] at hk <;>
      simp at hk
  · rw [e] at h
    rcases charsBranch_kind c1 s1 line t h with k | k <;> rw [k] at hk <;> simp at hk

/-- Function `parse_pi` on cells that begin with `<?`, a body and `?`: it
returns without reading beyond that `?`, whatever cells follow. -/
theorem parse_pi_cells_shape (b : Str) :
    ∃ r, ∀ Z, parse_pi_cells ('<' :: '?' :: b ++ '?' :: Z) = .ok r := by
  obtain ⟨ch, cur0, h0⟩ : ∃ ch cur0, ch :: cur0 = b ++ ['?'] := by
    cases b with
    | nil => exact ⟨_, _, rfl⟩
    | cons x xs => exact ⟨_, _, rfl⟩
  have hc : ∀ Z, '<' :: '?' :: b ++ '?' :: Z = '<' :: '?' :: ch :: (cur0 ++ Z) := by
    intro Z
    have : b ++ '?' :: Z = (b ++ ['?']) ++ Z := by simp
    have e : '<' :: '?' :: b ++ '?' :: Z = '<' :: '?' :: (b ++ '?' :: Z) := rfl
    rw [e, this, ← h0]
    rfl
  obtain ⟨r1, pre1, ch1, cur1, e1, c1, _, _, s1⟩ :=
    scanWhile_to (fun ch => ch != ' ' && ch != '?' && ch != TAB && ch != LF && ch != CR) '?'
      (by decide) b ch cur0 [] h0
  simp only [List.nil_append] at s1
  by_cases h1 : r1.length = 0
  · refine ⟨⟨-1, r1, []⟩, fun Z => ?_⟩
    rw [hc Z]
    simp only [parse_pi_cells, s1 Z, Res.bind, h1, if_true]
  by_cases h2 : ch1 ≠ '?'
  · obtain ⟨pre2, c, cur2, e2, g2, c2⟩ := tail_to c1 h2
    subst g2
    obtain ⟨r3, pre3, ch3, cur3, e3, c3, _, _, s3⟩ :=
      scanWhile_to (fun ch => ch != '?') '?' (by decide) pre2 c cur2 [] c2
    simp only [List.nil_append] at s3
    refine ⟨⟨0, r1, r3⟩, fun Z => ?_⟩
    rw [hc Z]
    simp only [parse_pi_cells, s1 Z, Res.bind, h1, if_false]
    rw [if_pos h2]
    simp only [List.cons_append, next, s3 Z]
  · have h2e : ch1 = '?' := not_not.1 h2
    refine ⟨⟨0, r1, []⟩, fun Z => ?_⟩
    rw [hc Z]
    simp only [parse_pi_cells, s1 Z, Res.bind, h1, if_false]
    rw [if_neg h2]
    simp only [scanWhile_stop (fun ch => ch != '?') (cur1 ++ Z) ch1 [] (by rw [h2e]; decide)]

/-- C35: `get_next_token` classifies `<?>` as `pi`, and on this token `parse_pi`
reads `token[3]` and `token[4]`, at and beyond the token's length of 3.  For
every other token of kind `pi`, which is `<?`, a body and `?>`, `parse_pi`
returns and reads no cell beyond the `?` before the closing `>`: the result
does not depend on the cells that follow this `?`, so it is the same on the
cells of the token alone. -/
theorem parse_pi_reads_beyond_bare_token :
    get_next_token "<?>".toList 1 = .ok ⟨"<?>".toList, .pi, 1, []⟩ ∧
    parse_pi "<?>".toList = .undefined ∧
    parse_pi_cells ("<?>".toList ++ [NUL, '?']) = .ok ⟨0, ['>', NUL], []⟩ ∧
    ∀ (s : List Char) (line : Nat) (t : Token), get_next_token s line = .ok t →
      t.kind = .pi → t.text ≠ ['<', '?', '>'] →
      ∃ b r, t.text = '<' :: '?' :: b ++ ['?', '>'] ∧
        (∀ Z, parse_pi_cells ('<' :: '?' :: b ++ '?' :: Z) = .ok r) ∧
        parse_pi_cells t.text = .ok r ∧ parse_pi t.text = .ok r := by
  refine ⟨by decide, by decide, by decide, ?_⟩
  intro s line t h hk hne
  rcases pi_token_shape s line t h hk with e | ⟨b, e, _⟩
  · exact absurd e hne
  · obtain ⟨r, hr⟩ := parse_pi_cells_shape b
    refine ⟨b, r, e, hr, ?_, ?_⟩
    · rw [e]
      exact hr ['>']
    · rw [parse_pi_eq_cells, e]
      have := hr ['>', NUL]
      simpa using this

theorem parse_pi_reads_beyond_bare_token_witness :
    ∃ b r, "<?xml version='1.0'?>".toList = '<' :: '?' :: b ++ ['?', '>'] ∧
      (∀ Z, parse_pi_cells ('<' :: '?' :: b ++ '?' :: Z) = .ok r) ∧
      parse_pi_cells "<?xml version='1.0'?>".toList = .ok r ∧
      parse_pi "<?xml version='1.0'?>".toList = .ok r :=
  parse_pi_reads_beyond_bare_token.2.2.2 "<?xml version='1.0'?>x".toList 1
    ⟨"<?xml version='1.0'?>".toList, .pi, 1, ['x']⟩ (by decide) (by decide) (by decide)

/-! ## What the tokenizer leaves unread is an end of what it was given -/

theorem get_suffix (s : List Char) : (get s).2 <:+ s := by
  cases s with
  | nil => exact List.suffix_refl _
  | cons c s => exact List.suffix_cons c s

theorem change_entity_suffix (s : List Char) : (change_entity s).2 <:+ s := by
  unfold change_entity
  have l1 := get_suffix s
  rcases h1 : get s with ⟨b1, s1⟩
  have l2 := get_suffix s1
  rcases h2 : get s1 with ⟨b2, s2⟩
  have l3 := get_suffix s2
  rcases h3 : get s2 with ⟨b3, s3⟩
  have l4 := get_suffix s3
  rcases h4 : get s3 with ⟨b4, s4⟩
  have l5 := get_suffix s4
  rcases h5 : get s4 with ⟨b5, s5⟩
  simp only [h1, h2, h3, h4, h5] at l1 l2 l3 l4 l5 ⊢
  split_ifs <;> simp only <;>
    first
    | exact l1
    | exact l2.trans l1
    | exact l3.trans (l2.trans l1)
    | exact l4.trans (l3.trans (l2.trans l1))
    | exact l5.trans (l4.trans (l3.trans (l2.trans l1)))

theorem cdataLoop_suffix (s : List Char) :
    ∀ b text line, (cdataLoop s b text line).rest <:+ s := by
  induction s with
  | nil => intro b text line; simp [cdataLoop]
  | cons c s ih =>
    intro b text line
    simp only [cdataLoop]
    split_ifs <;> first | exact (ih _ _ _).trans (List.suffix_cons _ _) | exact List.suffix_cons _ _

theorem commentLoop_suffix (s : List Char) :
    ∀ h text line, (commentLoop s h text line).rest <:+ s := by
  induction s with
  | nil => intro h text line; simp [commentLoop]
  | cons c s ih =>
    intro h text line
    simp only [commentLoop]
    split_ifs <;> first | exact (ih _ _ _).trans (List.suffix_cons _ _) | exact List.suffix_cons _ _

theorem dtdLoop_suffix (s : List Char) :
    ∀ d text line, (dtdLoop s d text line).rest <:+ s := by
  induction s with
  | nil => intro d text line; simp [dtdLoop]
  | cons c s ih =>
    intro d text line
    simp only [dtdLoop]
    split_ifs <;> first | exact (ih _ _ _).trans (List.suffix_cons _ _) | exact List.suffix_cons _ _

theorem piLoop_suffix (s : List Char) :
    ∀ text line, (piLoop s text line).rest <:+ s := by
  induction s with
  | nil => intro text line; simp [piLoop]
  | cons c s ih =>
    intro text line
    simp only [piLoop]
    split_ifs <;> first | exact (ih _ _).trans (List.suffix_cons _ _) | exact List.suffix_cons _ _

theorem endLoop_suffix (s : List Char) :
    ∀ text line, (endLoop s text line).rest <:+ s := by
  induction s with
  | nil => intro text line; simp [endLoop]
  | cons c s ih =>
    intro text line
    simp only [endLoop]
    split_ifs <;> first | exact (ih _ _).trans (List.suffix_cons _ _) | exact List.suffix_cons _ _

theorem startLoop_suffix (s : List Char) :
    ∀ last text line, (startLoop s last text line).rest <:+ s := by
  induction s with
  | nil => intro last text line; simp [startLoop]
  | cons c s ih =>
    intro last text line
    simp only [startLoop]
    split_ifs <;> first | exact (ih _ _ _).trans (List.suffix_cons _ _) | exact List.suffix_cons _ _

theorem charsLoop_suffix (fuel : Nat) :
    ∀ s text line t, charsLoop fuel s text line = .ok t → t.rest <:+ s := by
  induction fuel with
  | zero =>
    intro s text line t h
    cases s with
    | nil =>
      simp only [charsLoop, Res.ok.injEq] at h
      subst h
      exact List.suffix_refl _
    | cons c s => simp [charsLoop] at h
  | succ fuel ih =>
    intro s text line t h
    cases s with
    | nil =>
      simp only [charsLoop, Res.ok.injEq] at h
      subst h
      exact List.suffix_refl _
    | cons c s =>
      simp only [charsLoop] at h
      by_cases h1 : c = '<'
      · rw [if_pos h1] at h
        simp only [Res.ok.injEq] at h
        subst h
        exact List.suffix_refl _
      rw [if_neg h1] at h
      by_cases h2 : c = '&'
      · rw [if_pos h2] at h
        have hl := change_entity_suffix s
        rcases hce : change_entity s with ⟨o, s1⟩
        rw [hce] at hl h
        simp only at hl
        cases o with
        | none =>
          simp only [Res.ok.injEq] at h
          subst h
          exact hl.trans (List.suffix_cons _ _)
        | some t0 => exact (ih _ _ _ _ h).trans (hl.trans (List.suffix_cons _ _))
      · rw [if_neg h2] at h
        exact (ih _ _ _ _ h).trans (List.suffix_cons _ _)

theorem bangBranch_suffix (s : List Char) (line : Nat) : (bangBranch s line).rest <:+ s := by
  unfold bangBranch
  split_ifs with h1 h2
  · have l0 := get_suffix s
    rcases g0 : get s with ⟨c0, s0⟩
    have l1 := get_suffix s0
    rcases g1 : get s0 with ⟨c1, s1⟩
    have l2 := get_suffix s1
    rcases g2 : get s1 with ⟨c2, s2⟩
    have l3 := get_suffix s2
    rcases g3 : get s2 with ⟨c3, s3⟩
    have l4 := get_suffix s3
    rcases g4 : get s3 with ⟨c4, s4⟩
    have l5 := get_suffix s4
    rcases g5 : get s4 with ⟨c5, s5⟩
    have l6 := get_suffix s5
    rcases g6 : get s5 with ⟨c6, s6⟩
    simp only [g0, g1, g2, g3, g4, g5, g6] at l0 l1 l2 l3 l4 l5 l6 ⊢
    have l : s6 <:+ s := l6.trans (l5.trans (l4.trans (l3.trans (l2.trans (l1.trans l0)))))
    split_ifs
    · exact l
    · exact (cdataLoop_suffix s6 0 [] line).trans l
  · have l0 := get_suffix s
    rcases g0 : get s with ⟨c0, s0⟩
    have l1 := get_suffix s0
    rcases g1 : get s0 with ⟨c1, s1⟩
    simp only [g0, g1] at l0 l1 ⊢
    split_ifs
    · exact l1.trans l0
    · exact (commentLoop_suffix s1 0 ['<', '!', '-', '-'] line).trans (l1.trans l0)
  · exact dtdLoop_suffix s 1 _ line

theorem get_next_token_suffix (s : List Char) (line : Nat) (t : Token)
    (h : get_next_token s line = .ok t) : t.rest <:+ s := by
  rcases get_next_token_cases s line with ⟨_, e⟩ | ⟨_, e⟩ | ⟨s2, hs, e⟩ | ⟨s2, hs, e⟩ |
    ⟨s2, hs, e⟩ | ⟨c2, s2, hs, _, _, _, e⟩ | ⟨c1, s1, hs, _, e⟩
  · rw [e] at h
    simp only [Res.ok.injEq] at h
    subst h
    exact List.nil_suffix
  · rw [e] at h
    simp only [Res.ok.injEq] at h
    subst h
    exact List.nil_suffix
  · rw [e] at h
    simp only [Res.ok.injEq] at h
    subst h hs
    exact (bangBranch_suffix s2 line).trans
      ((List.suffix_cons _ _).trans (List.suffix_cons _ _))
  · rw [e] at h
    simp only [Res.ok.injEq] at h
    subst h hs
    exact (piLoop_suffix s2 _ line).trans ((List.suffix_cons _ _).trans (List.suffix_cons _ _))
  · rw [e] at h
    simp only [Res.ok.injEq] at h
    subst h hs
    exact (endLoop_suffix s2 _ line).trans ((List.suffix_cons _ _).trans (List.suffix_cons _ _))
  · rw [e] at h
    simp only [Res.ok.injEq] at h
    subst h hs
    exact (startLoop_suffix s2 _ _ line).trans
      ((List.suffix_cons _ _).trans (List.suffix_cons _ _))
  · rw [e] at h
    subst hs
    split_ifs at h
    · exact (charsLoop_suffix _ _ _ _ _ h).trans (List.suffix_cons _ _)
    · have hl := change_entity_suffix s1
      rcases hce : change_entity s1 with ⟨o, s2⟩
      rw [hce] at hl h
      simp only at hl
      cases o with
      | none =>
        simp only [Res.ok.injEq] at h
        subst h
        exact hl.trans (List.suffix_cons _ _)
      | some t0 => exact (charsLoop_suffix _ _ _ _ _ h).trans (hl.trans (List.suffix_cons _ _))
    · exact (charsLoop_suffix _ _ _ _ _ h).trans (List.suffix_cons _ _)

theorem skipWs_suffix (s : List Char) : ∀ line, (skipWs s line).1 <:+ s := by
  induction s with
  | nil => intro line; simp [skipWs]
  | cons c s ih =>
    intro line
    simp only [skipWs]
    split_ifs <;> first | exact (ih _).trans (List.suffix_cons _ _) | exact List.suffix_refl _

/-! ## When a step of the token loop is undefined -/

/-- A token of kind `pi` with the text `<?>` was read from a stream that begins
with `<?>`. -/
theorem piLoop_bare (s : List Char) (text : Str) (line : Nat)
    (hk : (piLoop s text line).kind = .pi)
    (ht : (piLoop s text line).text = text ++ ['>']) : ∃ rest, s = '>' :: rest := by
  cases s with
  | nil => simp [piLoop] at hk
  | cons c s =>
    by_cases h3 : c = '>'
    · exact ⟨s, by rw [h3]⟩
    exfalso
    simp only [piLoop] at hk ht
    by_cases h1 : c = LF
    · rw [if_pos h1] at hk ht
      obtain ⟨body, e, _, _⟩ := piLoop_pi s _ _ hk
      rw [e] at ht
      have := congrArg List.length ht
      simp at this
    rw [if_neg h1] at hk ht
    by_cases h2 : c = '<'
    · rw [if_pos h2] at hk
      simp at hk
    rw [if_neg h2, if_neg h3] at hk ht
    obtain ⟨body, e, _, _⟩ := piLoop_pi s _ _ hk
    rw [e] at ht
    have := congrArg List.length ht
    simp at this

theorem bare_pi_source (s : List Char) (line : Nat) (t : Token)
    (h : get_next_token s line = .ok t) (hk : t.kind = .pi) (ht : t.text = ['<', '?', '>']) :
    ∃ rest, s = '<' :: '?' :: '>' :: rest := by
  rcases get_next_token_cases s line with ⟨_, e⟩ | ⟨_, e⟩ | ⟨s2, _, e⟩ | ⟨s2, hs, e⟩ |
    ⟨s2, _, e⟩ | ⟨c2, s2, _, n1, n2, n3, e⟩ | ⟨c1, s1, _, _, e⟩
  · rw [e] at h
    simp only [Res.ok.injEq] at h
    subst h
    simp at hk
  · rw [e] at h
    simp only [Res.ok.injEq] at h
    subst h
    simp at hk
  · rw [e] at h
    simp only [Res.ok.injEq] at h
    subst h
    rcases bangBranch_kind s2 line with k | k | k | k <;> rw [k] at hk <;> simp at hk
  · rw [e] at h
    simp only [Res.ok.injEq] at h
    subst h
    obtain ⟨rest, hr⟩ := piLoop_bare s2 ['<', '?'] line hk (by simpa using ht)
    exact ⟨rest, by rw [hs, hr]⟩
  · rw [e] at h
    simp only [Res.ok.injEq] at h
    subst h
    rcases endLoop_kind s2 ['<', '/'] line with k | k <;> rw [k] at hk <;> simp at hk
  · rw [e] at h
    simp only [Res.ok.injEq] at h
    subst h
    rcases startLoop_kind s2 NUL ['<', c2] line with k | k | k <;> rw [k] at hk <;>
      simp at hk
  · rw [e] at h
    rcases charsBranch_kind c1 s1 line t h with k | k <;> rw [k] at hk <;> simp at hk

/-- A token of kind `element_end` is not empty. -/
theorem end_token_not_empty (s : List Char) (line : Nat) (t : Token)
    (h : get_next_token s line = .ok t) (hk : t.kind = .element_end) : t.text.length ≠ 0 := by
  rcases get_next_token_cases s line with ⟨_, e⟩ | ⟨_, e⟩ | ⟨s2, _, e⟩ | ⟨s2, hs, e⟩ |
    ⟨s2, _, e⟩ | ⟨c2, s2, _, n1, n2, n3, e⟩ | ⟨c1, s1, _, _, e⟩
  · rw [e] at h
    simp only [Res.ok.injEq] at h
    subst h
    simp at hk
  · rw [e] at h
    simp only [Res.ok.injEq] at h
    subst h
    simp at hk
  · rw [e] at h
    simp only [Res.ok.injEq] at h
    subst h
    rcases bangBranch_kind s2 line with k | k | k | k <;> rw [k] at hk <;> simp at hk
  · rw [e] at h
    simp only [Res.ok.injEq] at h
    subst h
    rcases piLoop_kind s2 ['<', '?'] line with k | k <;> rw [k] at hk <;> simp at hk
  · rw [e] at h
    simp only [Res.ok.injEq] at h
    subst h
    obtain ⟨body, e1, _⟩ := endLoop_end s2 _ _ hk
    rw [e1]
    simp
  · rw [e] at h
    simp only [Res.ok.injEq] at h
    subst h
    rcases startLoop_kind s2 NUL ['<', c2] line with k | k | k <;> rw [k] at hk <;>
      simp at hk
  · rw [e] at h
    rcases charsBranch_kind c1 s1 line t h with k | k <;> rw [k] at hk <;> simp at hk

/-- A step of the token loop on a token that `get_next_token` returned is
undefined only if the token is `<?>` of kind `pi`. -/
theorem step_undefined (n m : Nat) (st : DState) (s : List Char) (line : Nat) (t : Token)
    (h : get_next_token s line = .ok t) (h1 : st.token_text = t.text)
    (h2 : st.token_kind = t.kind) (c1 : List Call) (hu : step n m st = (c1, .undefined)) :
    t.kind = .pi ∧ t.text = ['<', '?', '>'] := by
  unfold step at hu
  split at hu
  · rename_i hk
    obtain ⟨r, hr⟩ := parse_element_defined s line t h (Or.inr (by rw [← h2, hk]))
    rw [h1, hr] at hu
    simp at hu
  · rename_i hk
    obtain ⟨r, hr⟩ := parse_element_defined s line t h (Or.inl (by rw [← h2, hk]))
    rw [h1, hr] at hu
    simp at hu
  · rename_i hk
    have hne := end_token_not_empty s line t h (by rw [← h2, hk])
    obtain ⟨⟨status, name⟩, hr⟩ : ∃ r, parse_element_end t.text = .ok r := by
      unfold parse_element_end
      rw [if_neg hne]
      simp only
      split_ifs
      · exact ⟨_, rfl⟩
      · exact ⟨_, rfl⟩
    rw [h1, hr] at hu
    simp only at hu
    split_ifs at hu
    · split at hu
      · simp at hu
      · split_ifs at hu <;> simp at hu
    · simp at hu
  · rename_i hk
    have hpi : t.kind = .pi := by rw [← h2, hk]
    refine ⟨hpi, ?_⟩
    by_contra hne
    rcases pi_token_shape s line t h hpi with e | ⟨b, e, _⟩
    · exact hne e
    · obtain ⟨r, hr⟩ := parse_pi_cells_shape b
      have : parse_pi t.text = .ok r := by
        rw [parse_pi_eq_cells, e]
        simpa using hr ['>', NUL]
      rw [h1, this] at hu
      simp at hu
  · split_ifs at hu <;> simp at hu
  · split_ifs at hu <;> simp at hu
  · simp at hu
  · simp at hu
  · simp at hu
  · simp at hu

/-- A step of the token loop keeps the token and leaves an end of the stream
unread. -/
theorem step_keeps_token (n m : Nat) (st st1 : DState) (c1 : List Call)
    (hs : step n m st = (c1, .ok st1)) :
    st1.token_text = st.token_text ∧ st1.token_kind = st.token_kind ∧
      st1.input <:+ st.input := by
  unfold step at hs
  split at hs
  · split at hs
    · simp at hs
    · simp at hs
    · simp only [Prod.mk.injEq, Res.ok.injEq] at hs
      obtain ⟨_, rfl⟩ := hs
      exact ⟨rfl, rfl, List.suffix_refl _⟩
  · split at hs
    · simp at hs
    · simp at hs
    · simp only [Prod.mk.injEq, Res.ok.injEq] at hs
      obtain ⟨_, rfl⟩ := hs
      exact ⟨rfl, rfl, List.suffix_refl _⟩
  · split at hs
    · simp at hs
    · simp at hs
    · split_ifs at hs
      · split at hs
        · simp only [Prod.mk.injEq, Res.ok.injEq] at hs
          obtain ⟨_, rfl⟩ := hs
          exact ⟨rfl, rfl, List.suffix_refl _⟩
        · split_ifs at hs <;>
          · simp only [Prod.mk.injEq, Res.ok.injEq] at hs
            obtain ⟨_, rfl⟩ := hs
            exact ⟨rfl, rfl, List.suffix_refl _⟩
      · simp only [Prod.mk.injEq, Res.ok.injEq] at hs
        obtain ⟨_, rfl⟩ := hs
        exact ⟨rfl, rfl, List.suffix_refl _⟩
  · split at hs
    · simp at hs
    · simp at hs
    · simp only [Prod.mk.injEq, Res.ok.injEq] at hs
      obtain ⟨_, rfl⟩ := hs
      exact ⟨rfl, rfl, skipWs_suffix _ _⟩
  all_goals
    first
    | (split_ifs at hs <;>
        (simp only [Prod.mk.injEq, Res.ok.injEq] at hs
         obtain ⟨_, rfl⟩ := hs
         exact ⟨rfl, rfl, List.suffix_refl _⟩))
    | (simp only [Prod.mk.injEq, Res.ok.injEq] at hs
       obtain ⟨_, rfl⟩ := hs
       exact ⟨rfl, rfl, List.suffix_refl _⟩)

theorem fetch_token (n : Nat) (st st2 : DState) (c2 : List Call)
    (hf : fetch n st = (c2, .ok st2)) :
    ∃ t, get_next_token st.input st.line_number = .ok t ∧ st2.token_text = t.text ∧
      st2.token_kind = t.kind ∧ st2.input = t.rest := by
  obtain ⟨t, e, _⟩ := get_next_token_ok st.input st.line_number
  refine ⟨t, e, ?_⟩
  unfold fetch at hf
  rw [e] at hf
  simp only at hf
  split_ifs at hf <;>
  · simp only [Prod.mk.injEq, Res.ok.injEq] at hf
    obtain ⟨_, rfl⟩ := hf
    exact ⟨rfl, rfl, rfl⟩

/-- The token loop, started on a token read from an end of `input`, is
undefined only if `input` contains `<?>`. -/
theorem loop_undefined (n m : Nat) (input : List Char) (fuel : Nat) :
    ∀ (st : DState) (s : List Char) (line : Nat) (t : Token),
      get_next_token s line = .ok t → st.token_text = t.text → st.token_kind = t.kind →
      s <:+ input → st.input <:+ input →
      (loop n m fuel st).2 = .undefined →
      ∃ pre post, input = pre ++ '<' :: '?' :: '>' :: post := by
  induction fuel with
  | zero =>
    intro st s line t _ _ _ _ _ hu
    unfold loop at hu
    split_ifs at hu
  | succ fuel ih =>
    intro st s line t h h1 h2 hs hi hu
    by_cases hk : st.token_kind = .eof
    · rw [loop_eof n m _ st hk] at hu
      simp at hu
    rcases hst : step n m st with ⟨c1, r⟩
    cases r with
    | undefined =>
      obtain ⟨k, e⟩ := step_undefined n m st s line t h h1 h2 c1 hst
      obtain ⟨rest, hr⟩ := bare_pi_source s line t h k e
      obtain ⟨pre, hpre⟩ := hs
      exact ⟨pre, rest, by rw [← hpre, hr]⟩
    | nofuel =>
      have := (step_spec n m st).1
      rw [hst] at this
      exact absurd rfl this
    | ok st1 =>
      obtain ⟨_, _, k3⟩ := step_keeps_token n m st st1 c1 hst
      by_cases hexit : st1.seen_fatal_error = true ∨
          (st1.tags.length = 0 ∧ st1.seen_root_tag = true)
      · rw [loop_unfold_exit n m fuel st c1 st1 hk hst hexit] at hu
        simp at hu
      · simp only [not_or] at hexit
        obtain ⟨c2, st2, hfe⟩ := fetch_ok n st1
        rw [loop_unfold_go n m fuel st c1 st1 hk hst hexit.1 hexit.2 c2 st2 hfe] at hu
        obtain ⟨t2, g1, g2, g3, g4⟩ := fetch_token n st1 st2 c2 hfe
        have hs1 : st1.input <:+ input := k3.trans hi
        refine ih st2 st1.input st1.line_number t2 g1 g2 g3 hs1 ?_ hu
        rw [g4]
        exact (get_next_token_suffix _ _ _ g1).trans hs1

theorem parseLoop_undefined (n m : Nat) (input : List Char)
    (hu : (parseLoop n m input).2 = .undefined) :
    ∃ pre post, input = pre ++ '<' :: '?' :: '>' :: post := by
  unfold parseLoop beforeLoop at hu
  obtain ⟨t, e, _⟩ := get_next_token_ok (skipWs input 1).1 (skipWs input 1).2
  simp only [e] at hu
  have hs := skipWs_suffix input 1
  exact loop_undefined n m input _ _ _ _ t e rfl rfl hs
    ((get_next_token_suffix _ _ _ e).trans hs) hu

/-- C34: on the input `<?>` the call of `parse` does not return normally: the
token `<?>` is classified `pi` and `parse_pi` reads beyond it.  What holds:
every call of `get_next_token` returns, and when the kind is not `eof` it has
consumed at least one character; for handlers that do not throw, `parse`
never loops, and it returns normally on every input that does not contain
`<?>`. -/
theorem parse_returns_unless_bare_pi :
    parse noThrow 1 0 "<?>".toList = ([Call.doc 0 .start_document], .undefined) ∧
    (∀ (s : List Char) (line : Nat), ∃ t, get_next_token s line = .ok t ∧
      (t.kind ≠ .eof → t.rest.length < s.length)) ∧
    (∀ (n m : Nat) (input : List Char),
      (parse noThrow n m input).2 = .returned ∨
      ((parse noThrow n m input).2 = .undefined ∧
        ∃ pre post, input = pre ++ '<' :: '?' :: '>' :: post)) := by
  refine ⟨by decide, ?_, ?_⟩
  · intro s line
    obtain ⟨t, e, _, l⟩ := get_next_token_ok s line
    exact ⟨t, e, l⟩
  · intro n m input
    rw [parse_noThrow_ending]
    have hfuel := parseLoop_ne_nofuel n m input
    have hund := parseLoop_undefined n m input
    rcases h : parseLoop n m input with ⟨c, r⟩
    rw [h] at hfuel hund
    cases r with
    | ok st => exact Or.inl rfl
    | undefined => exact Or.inr ⟨rfl, hund rfl⟩
    | nofuel => exact absurd rfl hfuel

theorem parse_returns_unless_bare_pi_witness :
    (parse noThrow 1 1 "<a><?p?></a>".toList).2 = .returned ∨
      ((parse noThrow 1 1 "<a><?p?></a>".toList).2 = .undefined ∧
        ∃ pre post, "<a><?p?></a>".toList = pre ++ '<' :: '?' :: '>' :: post) :=
  parse_returns_unless_bare_pi.2.2 1 1 "<a><?p?></a>".toList

/-! ## Attribute values are delivered as written -/

/-- The start tag loop on a body without `<` and `>` that is followed by `>`:
the token text grows by the body and the `>`, verbatim. -/
theorem startLoop_clean (body : Str) (rest : List Char) :
    ∀ (last : Char) (text : Str) (line : Nat), cleanBody body →
      ∃ k, startLoop (body ++ '>' :: rest) last text line =
          ⟨text ++ body ++ ['>'], k, line + body.count LF, rest⟩ ∧
        (k = .element_start ∨ k = .empty_element) := by
  induction body with
  | nil =>
    intro last text line _
    have e : startLoop ([] ++ '>' :: rest) last text line =
        ⟨text ++ [] ++ ['>'], if last = '/' then .empty_element else .element_start,
          line + List.count LF [], rest⟩ := by
      have h1 : ¬ ('>' : Char) = LF := by decide
      simp [startLoop, h1]
    rw [e]
    by_cases hl : last = '/'
    · exact ⟨_, rfl, Or.inr (by rw [if_pos hl])⟩
    · exact ⟨_, rfl, Or.inl (by rw [if_neg hl])⟩
  | cons c body ih =>
    intro last text line hb
    have hc := hb c (List.mem_cons_self _ _)
    have hb1 : cleanBody body := fun x hx => hb x (List.mem_cons_of_mem _ hx)
    simp only [List.cons_append, startLoop, List.append_eq]
    by_cases h1 : c = LF
    · rw [if_pos h1]
      obtain ⟨k, e, hk⟩ := ih c (text ++ [c]) (line + 1) hb1
      refine ⟨k, ?_, hk⟩
      rw [e, count_LF_cons, if_pos h1]
      simp only [List.append_assoc, List.singleton_append, Token.mk.injEq, true_and, and_true]
      omega
    · rw [if_neg h1, if_neg hc.1, if_neg hc.2]
      obtain ⟨k, e, hk⟩ := ih c (text ++ [c]) line hb1
      refine ⟨k, ?_, hk⟩
      rw [e, count_LF_cons, if_neg h1]
      simp

/-- C33: a start or empty tag made of `<`, a name, well-formed attributes with
pairwise distinct names, optional whitespace and `>` or `/>`, whose characters
before the closing hold no `<` and no `>`, is returned by `get_next_token` as
a token whose text is the tag as written, and the `switch` of the token loop
then calls `start_element` with, for each attribute, the characters that stand
between the quotes in the tag, unchanged: no entity reference is translated.
In the document `<a b='&lt;'>&lt;</a>` the attribute value is delivered as
`&lt;` and the character data as `<`. -/
theorem attribute_values_delivered_raw (n m : Nat) (n0 : Char) (ns : Str) (atts : List Att)
    (wsEnd closer rest : Str) (line : Nat)
    (hn0 : isNameChar n0 = true) (hb1 : n0 ≠ '!') (hb2 : n0 ≠ '?')
    (hnc : ∀ c ∈ ns, isNameChar c = true)
    (hatts : ∀ a ∈ atts, a.wellFormed) (hnodup : (atts.map Att.k).Nodup)
    (hws : allWs wsEnd) (hcl : closer = ['>'] ∨ closer = ['/', '>'])
    (hclean : cleanBody (ns ++ atts.flatMap Att.source ++ wsEnd)) :
    ∃ k l1,
      get_next_token ('<' :: n0 :: ns ++ atts.flatMap Att.source ++ wsEnd ++ closer ++ rest)
          line =
        .ok ⟨'<' :: n0 :: ns ++ atts.flatMap Att.source ++ wsEnd ++ closer, k, l1, rest⟩ ∧
      (∀ st : DState,
        st.token_text = '<' :: n0 :: ns ++ atts.flatMap Att.source ++ wsEnd ++ closer →
        st.token_kind = k →
        (step n m st).1 = forEach n fun i =>
          Call.doc i (.start_element st.line_number (n0 :: ns) (atts.map Att.pair)) ::
            (if k = .empty_element then [Call.doc i (.end_element st.line_number (n0 :: ns))]
              else [])) ∧
      parse noThrow 1 0 "<a b='&lt;'>&lt;</a>".toList =
        ([Call.doc 0 .start_document,
          Call.doc 0 (.start_element 1 ['a'] [(['b'], "&lt;".toList)]),
          Call.doc 0 (.characters ['<']), Call.doc 0 (.end_element 1 ['a']),
          Call.doc 0 .end_document], .returned) := by
  obtain ⟨c0, rest0, hc, hc0, hsl⟩ : ∃ c0 rest0, closer = c0 :: rest0 ∧ (c0 = '>' ∨ c0 = '/') ∧
      ∃ sl, closer = sl ++ ['>'] ∧ cleanBody sl := by
    rcases hcl with rfl | rfl
    · exact ⟨'>', [], rfl, Or.inl rfl, [], rfl, by intro x hx; simp at hx⟩
    · refine ⟨'/', ['>'], rfl, Or.inr rfl, ['/'], rfl, ?_⟩
      intro x hx
      simp only [List.mem_singleton] at hx
      rw [hx]
      decide
  obtain ⟨sl, hsl, hslc⟩ := hsl
  have hn0s : n0 ≠ '/' := by
    intro e
    rw [e] at hn0
    exact absurd hn0 (by decide)
  have hbody : cleanBody (ns ++ atts.flatMap Att.source ++ wsEnd ++ sl) := by
    intro x hx
    rcases List.mem_append.1 hx with h | h
    · exact hclean x h
    · exact hslc x h
  obtain ⟨k, ek, hk⟩ := startLoop_clean (ns ++ atts.flatMap Att.source ++ wsEnd ++ sl) rest
    NUL ['<', n0] line hbody
  have hstream : '<' :: n0 :: ns ++ atts.flatMap Att.source ++ wsEnd ++ closer ++ rest =
      '<' :: n0 :: ((ns ++ atts.flatMap Att.source ++ wsEnd ++ sl) ++ '>' :: rest) := by
    rw [hsl]
    simp
  have htext : '<' :: n0 :: ns ++ atts.flatMap Att.source ++ wsEnd ++ closer =
      ['<', n0] ++ (ns ++ atts.flatMap Att.source ++ wsEnd ++ sl) ++ ['>'] := by
    rw [hsl]
    simp
  obtain ⟨r, e, h1, _, h3, h4⟩ := parse_element_tag (n0 :: ns) atts wsEnd c0 rest0 (by simp)
    (by
      intro c hx
      rcases List.mem_cons.1 hx with rfl | hx
      · exact hn0
      · exact hnc c hx) hatts hws hc0
  have hs : r.status = 0 := h3.2 hnodup
  have ha := h4 hs
  have hp : parse_element ('<' :: n0 :: ns ++ atts.flatMap Att.source ++ wsEnd ++ closer) =
      .ok ⟨0, n0 :: ns, atts.map Att.pair⟩ := by
    rw [hc]
    have : '<' :: n0 :: ns ++ atts.flatMap Att.source ++ wsEnd ++ c0 :: rest0 =
        '<' :: (n0 :: ns) ++ atts.flatMap Att.source ++ wsEnd ++ c0 :: rest0 := rfl
    rw [this, e]
    cases r
    simp only at h1 hs ha
    subst h1 hs ha
    rfl
  refine ⟨k, line + (ns ++ atts.flatMap Att.source ++ wsEnd ++ sl).count LF, ?_, ?_,
    by decide!⟩
  · rw [hstream, get_next_token_start n0 _ line hb1 hb2 hn0s, ek, htext]
  · intro st ht hkind
    rw [← ht] at hp
    unfold step
    rcases hk with hk | hk
    · rw [hk] at hkind
      simp [hkind, hp, hk]
    · rw [hk] at hkind
      simp [hkind, hp, hk]

theorem attribute_values_delivered_raw_witness :
    ∃ k l1,
      get_next_token ('<' :: 'a' :: [] ++
          [(⟨[' '], ['b'], [], [], APOS, "x&amp;y".toList⟩ : Att)].flatMap Att.source ++ [] ++
          ['/', '>'] ++ ['z']) 1 =
        .ok ⟨'<' :: 'a' :: [] ++
          [(⟨[' '], ['b'], [], [], APOS, "x&amp;y".toList⟩ : Att)].flatMap Att.source ++ [] ++
          ['/', '>'], k, l1, ['z']⟩ ∧
      (∀ st : DState,
        st.token_text = '<' :: 'a' :: [] ++
          [(⟨[' '], ['b'], [], [], APOS, "x&amp;y".toList⟩ : Att)].flatMap Att.source ++ [] ++
          ['/', '>'] →
        st.token_kind = k →
        (step 1 0 st).1 = forEach 1 fun i =>
          Call.doc i (.start_element st.line_number ('a' :: [])
              ([(⟨[' '], ['b'], [], [], APOS, "x&amp;y".toList⟩ : Att)].map Att.pair)) ::
            (if k = .empty_element then [Call.doc i (.end_element st.line_number ('a' :: []))]
              else [])) ∧
      parse noThrow 1 0 "<a b='&lt;'>&lt;</a>".toList =
        ([Call.doc 0 .start_document,
          Call.doc 0 (.start_element 1 ['a'] [(['b'], "&lt;".toList)]),
          Call.doc 0 (.characters ['<']), Call.doc 0 (.end_element 1 ['a']),
          Call.doc 0 .end_document], .returned) :=
  attribute_values_delivered_raw 1 0 'a' [] [⟨[' '], ['b'], [], [], APOS, "x&amp;y".toList⟩]
    [] ['/', '>'] ['z'] 1 (by decide) (by decide) (by decide) (by simp)
    (by
      intro a ha
      simp only [List.mem_singleton] at ha
      subst ha
      refine ⟨by simp, ?_, by simp, ?_, by simp, ?_, ?_, Or.inl rfl, ?_⟩
      · intro c hc
        simp only [List.mem_singleton] at hc
        subst hc
        decide
      · intro c hc
        simp only [List.mem_singleton] at hc
        subst hc
        decide
      · intro c hc
        simp at hc
      · intro c hc
        simp at hc
      · decide)
    (by simp) (by intro c hc; simp at hc) (Or.inr rfl)
    (by
      simp only [cleanBody]
      decide)

/-! ## Tokens of a document without a root element -/

/-- The character data loop on a run of whitespace that ends at `<` or at the
end of the stream. -/
theorem charsLoop_ws (rest : List Char) (hrest : rest = [] ∨ rest.head? = some '<') (w : Str) :
    ∀ (fuel : Nat) (text : Str) (line : Nat), allWs w → (w ++ rest).length ≤ fuel →
      charsLoop fuel (w ++ rest) text line = .ok ⟨text ++ w, .chars, line + w.count LF, rest⟩ := by
  induction w with
  | nil =>
    intro fuel text line _ hf
    simp only [List.nil_append, List.append_nil, List.count_nil, Nat.add_zero] at hf ⊢
    cases rest with
    | nil => simp [charsLoop]
    | cons c r =>
      have hc : c = '<' := by
        rcases hrest with h | h
        · simp at h
        · simpa using h
      cases fuel with
      | zero => simp at hf
      | succ f => simp [charsLoop, hc]
  | cons c w ih =>
    intro fuel text line hw hf
    have hc : isWs c = true := hw c (List.mem_cons_self _ _)
    have hw1 : allWs w := fun x hx => hw x (List.mem_cons_of_mem _ hx)
    have h1 : c ≠ '<' := by
      intro e
      rw [e] at hc
      exact absurd hc (by decide)
    have h2 : c ≠ '&' := by
      intro e
      rw [e] at hc
      exact absurd hc (by decide)
    cases fuel with
    | zero => simp at hf
    | succ f =>
      simp only [List.cons_append, List.length_cons, Nat.add_le_add_iff_right] at hf
      simp only [List.cons_append, charsLoop, List.append_eq]
      rw [if_neg h1, if_neg h2, ih f _ _ hw1 hf, count_LF_cons]
      by_cases h3 : c = LF
      · simp only [if_pos h3, List.append_assoc, List.singleton_append, Res.ok.injEq,
          Token.mk.injEq, true_and, and_true]
        omega
      · simp [if_neg h3]

/-- A maximal run of whitespace is returned as one token of kind `chars`. -/
theorem get_next_token_ws (w : Str) (rest : List Char) (line : Nat) (hne : w ≠ [])
    (hw : allWs w) (hrest : rest = [] ∨ rest.head? = some '<') :
    get_next_token (w ++ rest) line = .ok ⟨w, .chars, line + w.count LF, rest⟩ := by
  obtain ⟨c, w1, rfl⟩ : ∃ c w1, w = c :: w1 := by
    cases w with
    | nil => exact absurd rfl hne
    | cons c w1 => exact ⟨c, w1, rfl⟩
  have hc : isWs c = true := hw c (List.mem_cons_self _ _)
  have hw1 : allWs w1 := fun x hx => hw x (List.mem_cons_of_mem _ hx)
  have h1 : c ≠ '<' := by
    intro e
    rw [e] at hc
    exact absurd hc (by decide)
  have h2 : c ≠ '&' := by
    intro e
    rw [e] at hc
    exact absurd hc (by decide)
  rw [List.cons_append, get_next_token_chars c _ line h1, count_LF_cons]
  by_cases h3 : c = LF
  · rw [if_pos h3, if_pos h3, charsLoop_ws rest hrest w1 _ _ _ hw1 (Nat.le_refl _)]
    simp only [List.singleton_append, Res.ok.injEq, Token.mk.injEq, true_and, and_true]
    omega
  · rw [if_neg h3, if_neg h2, if_neg h3, charsLoop_ws rest hrest w1 _ _ _ hw1 (Nat.le_refl _)]
    simp

/-- The DTD loop at depth `d` on a body that keeps the depth positive and is
followed by the `>` that brings it to zero. -/
theorem dtdLoop_body (rest : List Char) (body : Str) :
    ∀ (d : Nat) (text : Str) (line : Nat), 1 ≤ d →
      (∀ p, p <+: body → p.count '>' < p.count '<' + d) →
      body.count '>' + 1 = body.count '<' + d →
      dtdLoop (body ++ '>' :: rest) d text line =
        ⟨text ++ body ++ ['>'], .dtd, line + body.count LF, rest⟩ := by
  induction body with
  | nil =>
    intro d text line hd _ hc
    have : d = 1 := by simpa using hc.symm
    subst this
    simp [dtdLoop]
  | cons c body ih =>
    intro d text line hd hp hc
    have hpre : ∀ p, p <+: body → (c :: p).count '>' < (c :: p).count '<' + d := by
      intro p h
      exact hp (c :: p) (by simpa using h)
    simp only [List.cons_append, dtdLoop, List.append_eq]
    by_cases h1 : c = '>'
    · subst h1
      have h0 := hp ['>'] (by simp)
      have e1 : List.count '>' ['>'] = 1 := by decide
      have e2 : List.count '<' ['>'] = 0 := by decide
      rw [e1, e2] at h0
      rw [if_pos rfl, if_pos (by omega)]
      have e3 : ('>' : Char) ≠ LF := by decide
      rw [ih (d - 1) _ _ (by omega) ?_ ?_, count_LF_cons, if_neg e3]
      · simp
      · intro p h
        have := hpre p h
        simp only [List.count_cons_self] at this
        have e4 : List.count '<' ('>' :: p) = List.count '<' p := by
          rw [List.count_cons_of_ne (by decide)]
        rw [e4] at this
        omega
      · simp only [List.count_cons_self] at hc
        have e4 : List.count '<' ('>' :: body) = List.count '<' body := by
          rw [List.count_cons_of_ne (by decide)]
        rw [e4] at hc
        omega
    · rw [if_neg h1]
      have e5 : ∀ l : List Char, List.count '>' (c :: l) = List.count '>' l := by
        intro l
        rw [List.count_cons_of_ne (fun e => h1 e.symm)]
      by_cases h2 : c = '<'
      · subst h2
        have e3 : ('<' : Char) ≠ LF := by decide
        rw [if_pos rfl, ih (d + 1) _ _ (by omega) ?_ ?_, count_LF_cons, if_neg e3]
        · simp
        · intro p h
          have := hpre p h
          rw [e5] at this
          simp only [List.count_cons_self] at this
          omega
        · rw [e5] at hc
          simp only [List.count_cons_self] at hc
          omega
      · rw [if_neg h2]
        have e6 : ∀ l : List Char, List.count '<' (c :: l) = List.count '<' l := by
          intro l
          rw [List.count_cons_of_ne (fun e => h2 e.symm)]
        have hp1 : ∀ p, p <+: body → p.count '>' < p.count '<' + d := by
          intro p h
          have := hpre p h
          rw [e5, e6] at this
          exact this
        have hc1 : body.count '>' + 1 = body.count '<' + d := by
          rw [e5, e6] at hc
          exact hc
        by_cases h3 : c = LF
        · rw [if_pos h3, ih d _ _ hd hp1 hc1, count_LF_cons, if_pos h3]
          simp only [List.append_assoc, List.singleton_append, Token.mk.injEq, true_and,
            and_true]
          omega
        · rw [if_neg h3, ih d _ _ hd hp1 hc1, count_LF_cons, if_neg h3]
          simp

/-- A DTD block is returned as one token of kind `dtd`. -/
theorem get_next_token_dtdBody (body : Str) (rest : List Char) (line : Nat)
    (h : dtdBody body) :
    get_next_token ('<' :: '!' :: body ++ '>' :: rest) line =
      .ok ⟨'<' :: '!' :: body ++ ['>'], .dtd, line + body.count LF, rest⟩ := by
  obtain ⟨h1, h2, h3, h4⟩ := h
  have hl := dtdLoop_body rest body 1 ['<', '!'] line (Nat.le_refl _)
    (by
      intro p hp
      have := h4 p ((List.mem_inits _ _).2 hp)
      omega)
    (by omega)
  have hpk1 : peek (body ++ '>' :: rest) ≠ some '[' := by
    cases body with
    | nil => simp [peek]
    | cons c b => simpa [peek] using h1
  have hpk2 : peek (body ++ '>' :: rest) ≠ some '-' := by
    cases body with
    | nil => simp [peek]
    | cons c b => simpa [peek] using h2
  have e : '<' :: '!' :: body ++ '>' :: rest = '<' :: '!' :: (body ++ '>' :: rest) := rfl
  rw [e]
  simp only [get_next_token, bangBranch]
  rw [if_neg hpk1, if_neg hpk2, hl]
  rfl

/-- The processing instruction loop on a body without `<` and `>` that is
followed by `?>`. -/
theorem piLoop_body (rest : List Char) (body : Str) :
    ∀ (text : Str) (line : Nat), cleanBody body →
      piLoop (body ++ '?' :: '>' :: rest) text line =
        ⟨text ++ body ++ ['?', '>'], .pi, line + body.count LF, rest⟩ := by
  induction body with
  | nil =>
    intro text line _
    have e1 : ('?' : Char) ≠ LF := by decide
    have e2 : ('>' : Char) ≠ LF := by decide
    have hg : ¬ ((text ++ ['?'] ++ ['>']).length > 3 ∧
        (text ++ ['?'] ++ ['>']).getD ((text ++ ['?'] ++ ['>']).length - 2) NUL ≠ '?') := by
      rintro ⟨_, h⟩
      exact h (getD_before_last text '?' '>')
    simp only [List.nil_append, piLoop, if_neg e1, if_neg e2]
    rw [if_pos trivial, if_neg hg]
    simp
  | cons c body ih =>
    intro text line hb
    have hc := hb c (List.mem_cons_self _ _)
    have hb1 : cleanBody body := fun x hx => hb x (List.mem_cons_of_mem _ hx)
    simp only [List.cons_append, piLoop, List.append_eq]
    by_cases h1 : c = LF
    · rw [if_pos h1, ih _ _ hb1, count_LF_cons, if_pos h1]
      simp only [List.append_assoc, List.singleton_append, Token.mk.injEq, true_and, and_true]
      omega
    · rw [if_neg h1, if_neg hc.1, if_neg hc.2, ih _ _ hb1, count_LF_cons, if_neg h1]
      simp

/-- A processing instruction is returned as one token of kind `pi`. -/
theorem get_next_token_piBody (body : Str) (rest : List Char) (line : Nat)
    (h : cleanBody body) :
    get_next_token ('<' :: '?' :: body ++ '?' :: '>' :: rest) line =
      .ok ⟨'<' :: '?' :: body ++ ['?', '>'], .pi, line + body.count LF, rest⟩ := by
  have e : '<' :: '?' :: body ++ '?' :: '>' :: rest =
      '<' :: '?' :: (body ++ '?' :: '>' :: rest) := rfl
  rw [e]
  simp only [get_next_token]
  rw [piLoop_body rest body _ _ h]
  rfl

/-! ## The token loop on a document without a root element -/

theorem fetch_token_no_buf (n : Nat) (st : DState) (t : Token)
    (ht : get_next_token st.input st.line_number = .ok t) (hb : st.chars_buf = []) :
    fetch n st = ([], .ok { st with
      input := t.rest, line_number := t.line, token_text := t.text, token_kind := t.kind }) := by
  unfold fetch
  rw [ht]
  simp [hb]

theorem skipWs_ws (w : Str) (rest : List Char) (hrest : rest = [] ∨ rest.head? = some '<') :
    ∀ line, allWs w → (skipWs (w ++ rest) line).1 = rest := by
  induction w with
  | nil =>
    intro line _
    cases rest with
    | nil => rfl
    | cons c r =>
      have hc : c = '<' := by
        rcases hrest with h | h
        · simp at h
        · simpa using h
      subst hc
      rw [List.nil_append, skipWs_of_not_ws '<' r line (by decide)]
  | cons c w ih =>
    intro line hw
    have hc : isWs c = true := hw c (List.mem_cons_self _ _)
    have hw1 : allWs w := fun x hx => hw x (List.mem_cons_of_mem _ hx)
    simp only [List.cons_append, skipWs, hc, if_true]
    exact ih _ hw1

theorem step_quiet (n m : Nat) (st : DState)
    (hk : st.token_kind = .comment ∨ st.token_kind = .dtd) : step n m st = ([], .ok st) := by
  unfold step
  rcases hk with hk | hk <;> rw [hk]

theorem step_ws (n m : Nat) (st : DState) (hk : st.token_kind = .chars) (ht : st.tags = [])
    (hw : allWs st.token_text) : step n m st = ([], .ok st) := by
  have hany : st.token_text.any (fun c => !isWs c) = false := by
    rw [List.any_eq_false]
    intro c hc
    simp [hw c hc]
  unfold step
  rw [hk]
  simp [ht, hany]

theorem step_pi_ok (n m : Nat) (st : DState) (tg dt : Str) (hk : st.token_kind = .pi)
    (hp : parse_pi st.token_text = .ok ⟨0, tg, dt⟩) :
    step n m st =
      (forEach n fun i => [Call.doc i (.processing_instruction st.line_number tg dt)],
       .ok { st with
          input := (skipWs st.input st.line_number).1
          line_number := (skipWs st.input st.line_number).2 }) := by
  unfold step
  rw [hk]
  simp [hp]

theorem loop_after_step (n m f : Nat) (st2 st3 st4 stf : DState) (c1 c3 : List Call)
    (hk : st2.token_kind ≠ .eof) (hs : step n m st2 = (c1, .ok st3))
    (hf : st3.seen_fatal_error = false) (hr : st3.seen_root_tag = false)
    (hfe : fetch n st3 = ([], .ok st4)) (hl : loop n m f st4 = (c3, .ok stf)) :
    loop n m (f + 1) st2 = (c1 ++ c3, .ok stf) := by
  rw [loop_unfold_go n m f st2 c1 st3 hk hs (by simp [hf]) (by simp [hr]) [] st4 hfe, hl]
  simp

/-- The token loop on a document without a root element: from a state at the
head of such a document, the next token is fetched without a call, and the
loop runs to the end with one `processing_instruction` call per processing
instruction, leaving the tag stack empty and the fatal flag unset. -/
theorem prolog_run (n m : Nat) (s : List Char) (pis : List (Str × Str)) (h : Prolog s pis) :
    ∀ (fuel : Nat) (st1 : DState), (st1.input = s ∨ ∃ l, st1.input = (skipWs s l).1) →
      s.length < fuel → st1.tags = [] → st1.seen_fatal_error = false →
      st1.seen_root_tag = false → st1.chars_buf = [] →
      ∃ (st2 : DState) (c3 : List Call) (stf : DState) (ls : List Nat),
        fetch n st1 = ([], .ok st2) ∧ loop n m fuel st2 = (c3, .ok stf) ∧
        ls.length = pis.length ∧
        c3 = (ls.zip pis).flatMap (fun x => forEach n fun i =>
          [Call.doc i (.processing_instruction x.1 x.2.1 x.2.2)]) ∧
        stf.tags = [] ∧ stf.seen_fatal_error = false := by
  induction h with
  | done =>
    intro fuel st1 hin _ ht hf _ hb
    have hi : st1.input = [] := by
      rcases hin with h | ⟨l, h⟩
      · exact h
      · exact h
    have htok : get_next_token st1.input st1.line_number =
        .ok ⟨[], .eof, st1.line_number, []⟩ := by
      rw [hi]
      rfl
    refine ⟨_, [], _, [], fetch_token_no_buf n st1 _ htok hb, loop_eof n m fuel _ rfl, rfl,
      rfl, ht, hf⟩
  | ws w rest pis hne hw hrest _ ih =>
    intro fuel st1 hin hfuel ht hf hr hb
    rcases hin with hin | ⟨l, hin⟩
    · have htok : get_next_token st1.input st1.line_number =
          .ok ⟨w, .chars, st1.line_number + w.count LF, rest⟩ := by
        rw [hin]
        exact get_next_token_ws w rest _ hne hw hrest
      have hwl : 0 < w.length := List.length_pos.2 hne
      simp only [List.length_append] at hfuel
      obtain ⟨f, rfl⟩ : ∃ f, fuel = f + 1 := ⟨fuel - 1, by omega⟩
      obtain ⟨st4, c3, stf, ls, e1, e2, e3, e4, e5, e6⟩ := ih f
        { st1 with
          input := rest
          line_number := st1.line_number + w.count LF
          token_text := w
          token_kind := .chars }
        (Or.inl rfl) (by omega) ht hf hr hb
      refine ⟨_, c3, stf, ls, fetch_token_no_buf n st1 _ htok hb, ?_, e3, e4, e5, e6⟩
      have := loop_after_step n m f _ _ st4 stf [] c3 (by simp)
        (step_ws n m { st1 with
          input := rest
          line_number := st1.line_number + w.count LF
          token_text := w
          token_kind := .chars } rfl ht hw) hf hr e1 e2
      simpa using this
    · rw [skipWs_ws w rest hrest l hw] at hin
      simp only [List.length_append] at hfuel
      exact ih fuel st1 (Or.inl hin) (by omega) ht hf hr hb
  | comment b rest pis h1 h2 _ ih =>
    intro fuel st1 hin hfuel ht hf hr hb
    have hin1 : st1.input = '<' :: '!' :: '-' :: '-' :: b ++ '-' :: '-' :: '>' :: rest := by
      rcases hin with h | ⟨l, h⟩
      · exact h
      · rw [h]
        exact congrArg Prod.fst (skipWs_of_not_ws '<' _ l (by decide))
    have htok : get_next_token st1.input st1.line_number =
        .ok ⟨'<' :: '!' :: '-' :: '-' :: b ++ ['-', '-', '>'], .comment,
          st1.line_number + (b ++ ['>']).count LF, rest⟩ := by
      rw [hin1, get_next_token_comment b '>' rest _ h1 h2]
      simp
    simp only [List.length_append, List.length_cons] at hfuel
    obtain ⟨f, rfl⟩ : ∃ f, fuel = f + 1 := ⟨fuel - 1, by omega⟩
    obtain ⟨st4, c3, stf, ls, e1, e2, e3, e4, e5, e6⟩ := ih f
      { st1 with
          input := rest
          line_number := st1.line_number + (b ++ ['>']).count LF
          token_text := '<' :: '!' :: '-' :: '-' :: b ++ ['-', '-', '>']
          token_kind := .comment }
      (Or.inl rfl) (by omega) ht hf hr hb
    refine ⟨_, c3, stf, ls, fetch_token_no_buf n st1 _ htok hb, ?_, e3, e4, e5, e6⟩
    have := loop_after_step n m f _ _ st4 stf [] c3 (by simp)
      (step_quiet n m { st1 with
          input := rest
          line_number := st1.line_number + (b ++ ['>']).count LF
          token_text := '<' :: '!' :: '-' :: '-' :: b ++ ['-', '-', '>']
          token_kind := .comment } (Or.inl rfl)) hf hr e1 e2
    simpa using this
  | dtd body rest pis hbody _ ih =>
    intro fuel st1 hin hfuel ht hf hr hb
    have hin1 : st1.input = '<' :: '!' :: body ++ '>' :: rest := by
      rcases hin with h | ⟨l, h⟩
      · exact h
      · rw [h]
        exact congrArg Prod.fst (skipWs_of_not_ws '<' _ l (by decide))
    have htok : get_next_token st1.input st1.line_number =
        .ok ⟨'<' :: '!' :: body ++ ['>'], .dtd, st1.line_number + body.count LF, rest⟩ := by
      rw [hin1, get_next_token_dtdBody body rest _ hbody]
    simp only [List.length_append, List.length_cons] at hfuel
    obtain ⟨f, rfl⟩ : ∃ f, fuel = f + 1 := ⟨fuel - 1, by omega⟩
    obtain ⟨st4, c3, stf, ls, e1, e2, e3, e4, e5, e6⟩ := ih f
      { st1 with
          input := rest
          line_number := st1.line_number + body.count LF
          token_text := '<' :: '!' :: body ++ ['>']
          token_kind := .dtd }
      (Or.inl rfl) (by omega) ht hf hr hb
    refine ⟨_, c3, stf, ls, fetch_token_no_buf n st1 _ htok hb, ?_, e3, e4, e5, e6⟩
    have := loop_after_step n m f _ _ st4 stf [] c3 (by simp)
      (step_quiet n m { st1 with
          input := rest
          line_number := st1.line_number + body.count LF
          token_text := '<' :: '!' :: body ++ ['>']
          token_kind := .dtd } (Or.inr rfl))
      hf hr e1 e2
    simpa using this
  | pi body tg dt rest pis hbody hpi _ ih =>
    intro fuel st1 hin hfuel ht hf hr hb
    have hin1 : st1.input = '<' :: '?' :: body ++ '?' :: '>' :: rest := by
      rcases hin with h | ⟨l, h⟩
      · exact h
      · rw [h]
        exact congrArg Prod.fst (skipWs_of_not_ws '<' _ l (by decide))
    have htok : get_next_token st1.input st1.line_number =
        .ok ⟨'<' :: '?' :: body ++ ['?', '>'], .pi, st1.line_number + body.count LF, rest⟩ := by
      rw [hin1, get_next_token_piBody body rest _ hbody]
    simp only [List.length_append, List.length_cons] at hfuel
    obtain ⟨f, rfl⟩ : ∃ f, fuel = f + 1 := ⟨fuel - 1, by omega⟩
    obtain ⟨st4, c3, stf, ls, e1, e2, e3, e4, e5, e6⟩ := ih f
      { st1 with
          input := (skipWs rest (st1.line_number + body.count LF)).1
          line_number := (skipWs rest (st1.line_number + body.count LF)).2
          token_text := '<' :: '?' :: body ++ ['?', '>']
          token_kind := .pi }
      (Or.inr ⟨_, rfl⟩) (by omega) ht hf hr hb
    refine ⟨_, (forEach n fun i =>
        [Call.doc i (.processing_instruction (st1.line_number + body.count LF) tg dt)]) ++ c3,
      stf, (st1.line_number + body.count LF) :: ls,
      fetch_token_no_buf n st1 _ htok hb, ?_, by simp [e3], ?_, e5, e6⟩
    · exact loop_after_step n m f _ _ st4 stf _ c3 (by simp)
        (step_pi_ok n m { st1 with
          input := rest
          line_number := st1.line_number + body.count LF
          token_text := '<' :: '?' :: body ++ ['?', '>']
          token_kind := .pi }
          tg dt rfl hpi) hf hr e1 e2
    · rw [e4]
      rfl

theorem errCalls_pi_calls (n j : Nat) (xs : List (Nat × Str × Str)) :
    errCalls j (xs.flatMap (fun x => forEach n fun i =>
      [Call.doc i (.processing_instruction x.1 x.2.1 x.2.2)])) = [] := by
  induction xs with
  | nil => rfl
  | cons x xs ih =>
    rw [List.flatMap_cons, errCalls_append, ih]
    have := errCalls_forEach_doc j n (fun _ => [DocEvent.processing_instruction x.1 x.2.1 x.2.2])
    simp only [List.map_cons, List.map_nil] at this
    rw [this]
    rfl

/-- C39: on an input made only of whitespace, comments, DTD blocks and
processing instructions that `parse_pi` accepts (the empty input included),
`parse` with handlers that do not throw returns after calling, on the document
handlers, `start_document`, one `processing_instruction` for each processing
instruction in order, with its target and data, and `end_document`; no error
handler is called, so there is neither an `error` nor a `fatal_error`. -/
theorem document_without_root_is_accepted (n m : Nat) (input : List Char)
    (pis : List (Str × Str)) (h : Prolog input pis) :
    ∃ ls : List Nat, ls.length = pis.length ∧
      parse noThrow n m input =
        ((forEach n fun i => [Call.doc i .start_document]) ++
          (ls.zip pis).flatMap (fun x => forEach n fun i =>
            [Call.doc i (.processing_instruction x.1 x.2.1 x.2.2)]) ++
          (forEach n fun i => [Call.doc i .end_document]), .returned) ∧
      ∀ j, errCalls j (parse noThrow n m input).1 = [] := by
  obtain ⟨t, ht, _⟩ := get_next_token_ok (skipWs input 1).1 (skipWs input 1).2
  obtain ⟨st2, c3, stf, ls, e1, e2, e3, e4, e5, e6⟩ := prolog_run n m input pis h
    (input.length + 1)
    { input := (skipWs input 1).1, line_number := (skipWs input 1).2, tags := [],
      seen_fatal_error := false, seen_root_tag := false, chars_buf := [], name := [],
      token_text := [], token_kind := .eof }
    (Or.inr ⟨1, rfl⟩) (Nat.lt_succ_self _) rfl rfl rfl rfl
  rw [fetch_token_no_buf n _ t ht rfl] at e1
  simp only [Prod.mk.injEq, Res.ok.injEq, true_and] at e1
  subst e1
  have hpl : parseLoop n m input =
      ((forEach n fun i => [Call.doc i .start_document]) ++ c3, .ok stf) := by
    unfold parseLoop beforeLoop
    simp only [ht]
    rw [e2]
  have htry : tryBlock n m input =
      ((forEach n fun i => [Call.doc i .start_document]) ++ c3 ++
        (forEach n fun i => [Call.doc i .end_document]), .ok ()) := by
    unfold tryBlock
    rw [hpl]
    simp [afterLoop, e5, e6]
  have hparse : parse noThrow n m input =
      ((forEach n fun i => [Call.doc i .start_document]) ++ c3 ++
        (forEach n fun i => [Call.doc i .end_document]), .returned) := by
    simp only [parse, htry, deliver_noThrow, List.nil_append]
  refine ⟨ls, e3, ?_, ?_⟩
  · rw [hparse, e4]
  · intro j
    rw [hparse, e4, errCalls_append, errCalls_append, errCalls_pi_calls]
    have h1 := errCalls_forEach_doc j n (fun _ => [DocEvent.start_document])
    have h2 := errCalls_forEach_doc j n (fun _ => [DocEvent.end_document])
    simp only [List.map_cons, List.map_nil] at h1 h2
    rw [h1, h2]
    rfl

theorem document_without_root_is_accepted_witness :
    ∃ ls : List Nat, ls.length = [("xml".toList, "version='1.0'".toList)].length ∧
      parse noThrow 1 1 " <?xml version='1.0'?> <!DOCTYPE a [<!ELEMENT a (b)>]><!-- c --> ".toList =
        ((forEach 1 fun i => [Call.doc i .start_document]) ++
          (ls.zip [("xml".toList, "version='1.0'".toList)]).flatMap (fun x => forEach 1 fun i =>
            [Call.doc i (.processing_instruction x.1 x.2.1 x.2.2)]) ++
          (forEach 1 fun i => [Call.doc i .end_document]), .returned) ∧
      ∀ j, errCalls j (parse noThrow 1 1
        " <?xml version='1.0'?> <!DOCTYPE a [<!ELEMENT a (b)>]><!-- c --> ".toList).1 = [] :=
  document_without_root_is_accepted 1 1
    " <?xml version='1.0'?> <!DOCTYPE a [<!ELEMENT a (b)>]><!-- c --> ".toList
    [("xml".toList, "version='1.0'".toList)]
    (Prolog.ws [' '] _ _ (by simp) (by unfold allWs; decide) (Or.inr rfl)
      (Prolog.pi "xml version='1.0'".toList "xml".toList "version='1.0'".toList _ _
        (by unfold cleanBody; decide) (by decide)
        (Prolog.ws [' '] _ _ (by simp) (by unfold allWs; decide) (Or.inr rfl)
          (Prolog.dtd "DOCTYPE a [<!ELEMENT a (b)>]".toList _ _
            (by unfold dtdBody; decide)
            (Prolog.comment " c ".toList _ _ (by decide) (by decide)
              (Prolog.ws [' '] _ _ (by simp) (by unfold allWs; decide) (Or.inl rfl)
                Prolog.done))))))

end XmlParser
